import Mathlib

/-!
# RegEx: Thompson construction, subset construction and simulation

A shallow embedding of the regex engine of `Redchards/RegEx`:

* `Common.hxx` / `Common.cxx`: the dense transition store `MatrixLayout`, the sparse store
  `MapLayout` with its own `makeTransition`, and the generic `Layout::makeTransition`;
* `NFA.hxx`: the NFA builder (`concatenate`, `unify`, `plus`, `star`), `computeEpsilonClosure`
  and `simulate`, over the dense store; the constructor, `star` and `computeEpsilonClosure`
  also over the sparse store (`MapNFA`);
* `DFA.hxx`: `buildFrom` (also with its local table `mappedDfaStates` at the return, and also
  from an automaton over the sparse store), `makeTransition` and `simulate`;
* `Parser.hxx`: `parse`, `parseImpl` and `makeCharRange`.

Conventions of the embedding.

* `Input` is the C++ `char` (signed, 8 bit), embedded in `Int`; a C++ string is a `List Int`.
* `StateId` is `size_t`, embedded in `Nat`; the only subtraction that can wrap (`count - 1` at
  `count = 0`) is `sizePred`.
* The signatures below spell `StateId` as `Nat` and `Input` as `Int`, so that linear
  arithmetic applies to them directly.
* Code that can abort returns `Except Error`: a failed GSL `Ensures` is `contractViolation`, an
  access outside a `std::vector` (a read or a write past its end, or `back()`/`pop_back()` on
  an empty one) is `undefinedBehaviour`, the two parser exceptions have their own constructors.
* Loops without a bound (`computeEpsilonClosure`, `DFA::buildFrom`) take a fuel argument and
  return `outOfFuel` when it is used up.
-/

namespace RegEx

/-- State identifier, `using StateId = size_t`; written `Nat` in the signatures below. -/
abbrev StateId := Nat

/-- Input symbol, `using Input = char`; written `Int` in the signatures below. -/
abbrev Input := Int

/-- Sentinel `constexpr char epsilon = -1`. -/
abbrev Input.epsilon : Int := -1

/-- Sentinel `constexpr char any = -2`. -/
abbrev Input.any : Int := -2

/-- Sentinel `constexpr char none = 0`. -/
abbrev Input.none : Int := 0

/-- Ways in which a call can fail to return a value. -/
inductive Error where
  /-- A GSL `Ensures` check failed. -/
  | contractViolation
  /-- An access outside the bounds of a `std::vector`. -/
  | undefinedBehaviour
  /-- The fuel of an unbounded loop ran out. -/
  | outOfFuel
  /-- The exception `ExtraneousParenthesisException`. -/
  | extraneousParenthesis
  /-- The exception `BadRangeException` with the message "Ill-formed range expression". -/
  | badRangeIllFormed (text : List Int)
  /-- The exception `BadRangeException` with the message "Invalid range". -/
  | badRangeInverted (first last : Int)
  deriving DecidableEq, Repr

/-- Largest value of `size_t` (64 bit). -/
def sizeMax : Nat := 2 ^ 64 - 1

/-- The `size_t` expression `n - 1`: it wraps to `sizeMax` at `n = 0`. -/
def sizePred (n : Nat) : Nat := if n = 0 then sizeMax else n - 1

/-! ## `MatrixLayout` (Common.hxx, Common.cxx) -/

/-- Dense store `MatrixLayout`: `container_` is a vector of rows, one per state. -/
structure MatrixLayout where
  /-- The rows `container_`. -/
  container : List (List Int)
  deriving DecidableEq, Repr

/-- Method `MatrixLayout::getStateCount`: the number of rows. -/
def MatrixLayout.getStateCount (m : MatrixLayout) : Nat := m.container.length

/-- Method `MatrixLayout::addState`: every row gets one more (zero) entry, and a zero row of
length `stateCount + 1` is appended. -/
def MatrixLayout.addState (m : MatrixLayout) : MatrixLayout :=
  let stateCount := m.getStateCount
  ⟨m.container.map (fun row => row ++ [0]) ++ [List.replicate (stateCount + 1) 0]⟩

/-- Method `MatrixLayout::removeLastState`: `container_.pop_back()`; the other rows keep their
length. -/
def MatrixLayout.removeLastState (m : MatrixLayout) : Except Error MatrixLayout :=
  if m.container.isEmpty then .error .undefinedBehaviour else .ok ⟨m.container.dropLast⟩

/-- Method `MatrixLayout::addTransition`: `container_[from][to] = input` after the three
`Ensures` checks. -/
def MatrixLayout.addTransition (m : MatrixLayout) (frm dst : Nat) (input : Int) :
    Except Error MatrixLayout :=
  if frm < m.getStateCount ∧ dst < m.getStateCount ∧
      (0 ≤ input ∨ input = Input.epsilon ∨ input = Input.any) then
    if dst < (m.container.getD frm []).length then
      .ok ⟨m.container.set frm ((m.container.getD frm []).set dst input)⟩
    else .error .undefinedBehaviour
  else .error .contractViolation

/-- Method `MatrixLayout::getTransition`: `container_[from][to]` after the two `Ensures`
checks. -/
def MatrixLayout.getTransition (m : MatrixLayout) (frm dst : Nat) : Except Error Int :=
  if frm < m.getStateCount ∧ dst < m.getStateCount then
    if dst < (m.container.getD frm []).length then
      .ok ((m.container.getD frm []).getD dst 0)
    else .error .undefinedBehaviour
  else .error .contractViolation

/-- Call `row.resize(n)` on a row: it is cut, or filled up with zero entries. -/
def resizeRow (n : Nat) (row : List Int) : List Int :=
  row.take n ++ List.replicate (n - row.length) 0

/-- Method `MatrixLayout::addStatesOf` (called with an lvalue, as `NFA` does): the rows of the
receiver are resized to the new state count; for every row of `other` a zero row
`State(newStateCount)` is appended and the whole row of `other` is copied into it from column
`oldStateCount` on. The copy has no bound check: a row of `other` with more entries than
`other.getStateCount()` is written past the end of the new row. -/
def MatrixLayout.addStatesOf (m other : MatrixLayout) : Except Error MatrixLayout :=
  let oldStateCount := m.getStateCount
  let newStateCount := oldStateCount + other.getStateCount
  if other.container.all (fun row => decide (oldStateCount + row.length ≤ newStateCount)) then
    .ok ⟨m.container.map (resizeRow newStateCount) ++
      other.container.map
        (fun row => List.replicate oldStateCount 0 ++ row ++
          List.replicate (newStateCount - (oldStateCount + row.length)) 0)⟩
  else .error .undefinedBehaviour

/-- The call `A.addStatesOf(B)` on two dense stores, `B` an lvalue: the receiver and the
argument after the call. With an lvalue argument `RowRefType` is `const State&` and every row
of `B` is copied (`auto newRow = std::forward<RowRefType>(row)`), so that the argument is not
written to. -/
def MatrixLayout.addStatesOfCall (a b : MatrixLayout) :
    Except Error (MatrixLayout × MatrixLayout) := do
  let a1 ← a.addStatesOf b
  pure (a1, b)

/-- Body of the inner loop of the generic `Layout::makeTransition` for one destination `s`
(with `ANY_CHARACTER_SUPPORT` defined). -/
def makeTransitionStep (m : MatrixLayout) (input : Int) (state : Nat)
    (reachableStateSet : List Nat) (s : Nat) : Except Error (List Nat) := do
  let t ← m.getTransition state s
  let r1 := if t = input ∧ s ∉ reachableStateSet then reachableStateSet ++ [s]
    else reachableStateSet
  let t2 ← m.getTransition state s
  let r2 := if t2 = Input.any ∧ s ∉ r1 then r1 ++ [s] else r1
  pure r2

/-- Generic `Layout<TLayout>::makeTransition` (used for `MatrixLayout`, which has no
`makeTransition` of its own): for every origin state, scan every destination. -/
def MatrixLayout.makeTransition (m : MatrixLayout) (origin : List Nat) (input : Int) :
    Except Error (List Nat) :=
  origin.foldlM
    (fun acc state => (List.range m.getStateCount).foldlM (makeTransitionStep m input state) acc)
    []

/-! ## `NFA` (NFA.hxx) -/

/-- Class `NFA<MatrixLayout>`: the inherited layout, `entryState_` and `possibleInputs_`
(a `std::set<char>`, kept as a strictly ascending list). -/
structure NFA where
  /-- The inherited `Layout<MatrixLayout>`. -/
  layout : MatrixLayout
  /-- Field `entryState_`. -/
  entryState : Nat
  /-- Field `possibleInputs_`, in iteration order. -/
  possibleInputs : List Int
  deriving DecidableEq, Repr

/-- Call `std::set<char>::insert` on the ascending list of the elements. -/
def setInsert (x : Int) : List Int → List Int
  | [] => [x]
  | y :: ys => if x < y then x :: y :: ys else if x = y then y :: ys else y :: setInsert x ys

/-- Default constructor `NFA()`: no state, entry state `0`, no input. -/
def NFA.empty : NFA := ⟨⟨[]⟩, 0, []⟩

/-- Converting constructor `NFA(Input input)`. -/
def NFA.ofInput (input : Int) : Except Error NFA := do
  let l0 := (MatrixLayout.mk []).addState.addState
  let l1 ← l0.addTransition 0 (sizePred l0.getStateCount) input
  pure ⟨l1, 0, if input ≠ Input.epsilon then setInsert input [] else []⟩

/-- Method `NFA::insertNewInputs`. -/
def NFA.insertNewInputs (self other : NFA) : NFA :=
  { self with
    possibleInputs :=
      other.possibleInputs.foldl
        (fun acc input => if input ≠ Input.epsilon then setInsert input acc else acc)
        self.possibleInputs }

/-- Body of the final loop of `NFA::concatenate` for one state `s`. -/
def concatRedirect (otherEntryState oldSize oldLastState : Nat) (l : MatrixLayout)
    (s : Nat) : Except Error MatrixLayout := do
  let oldTransition ← l.getTransition s oldLastState
  if oldTransition ≠ Input.none then
    let l1 ← l.addTransition s oldLastState Input.none
    l1.addTransition s (otherEntryState + oldSize - 1) oldTransition
  else pure l

/-- Method `NFA::concatenate`. The second and third conditions of the source read the same
cell `getTransition(oldLastState, oldLastState)`; it is read once here. -/
def NFA.concatenate (self other : NFA) : Except Error NFA := do
  let self := self.insertNewInputs other
  let oldSize := self.layout.getStateCount
  let oldLastState := if oldSize > 0 then oldSize - 1 else 0
  let otherEntryState := other.entryState
  if oldSize = 1 then
    let l0 ← self.layout.addStatesOf other.layout
    let l ← l0.addTransition self.entryState (otherEntryState + oldSize) Input.epsilon
    pure { self with layout := l }
  else if oldSize > 1 then
    let t ← self.layout.getTransition oldLastState oldLastState
    if t ≠ Input.none then
      let l0 ← self.layout.addStatesOf other.layout
      let l ← l0.addTransition oldLastState (otherEntryState + oldSize) Input.epsilon
      pure { self with layout := l }
    else
      let l0 ← self.layout.removeLastState
      let l1 ← l0.addStatesOf other.layout
      let l ← (List.range (oldSize - 1)).foldlM
        (concatRedirect otherEntryState oldSize oldLastState) l1
      pure { self with layout := l }
  else
    -- `oldSize == 0`: `entryState_ = other.getEntryState(); oldSize = 1;`
    let l1 ← self.layout.addStatesOf other.layout
    let l ← (List.range (1 - 1)).foldlM (concatRedirect otherEntryState 1 oldLastState) l1
    pure { self with layout := l, entryState := other.entryState }

/-- Loop of `NFA::isUnified` over the states still to visit, with the running
`entryStateEpsilonCount`. -/
def isUnifiedLoop (l : MatrixLayout) (entry : Nat) :
    List Nat → Nat → Except Error Bool
  | [], _ => .ok false
  | s :: rest, entryStateEpsilonCount =>
    if s ≠ entry then do
      let t ← l.getTransition entry s
      if t = Input.epsilon then
        if entryStateEpsilonCount + 1 = 2 then pure true
        else isUnifiedLoop l entry rest (entryStateEpsilonCount + 1)
      else isUnifiedLoop l entry rest entryStateEpsilonCount
    else isUnifiedLoop l entry rest entryStateEpsilonCount

/-- Method `NFA::isUnified`. -/
def NFA.isUnified (self : NFA) : Except Error Bool :=
  isUnifiedLoop self.layout self.entryState (List.range self.layout.getStateCount) 0

/-- Method `NFA::unify`. -/
def NFA.unify (self other : NFA) : Except Error NFA := do
  let self := self.insertNewInputs other
  if other.layout.getStateCount = 0 then pure self
  else if self.layout.getStateCount = 0 then self.concatenate other
  else
    let oldLastState := sizePred self.layout.getStateCount
    let oldEntryState := self.entryState
    let firstOtherState := other.entryState
    let oldSize := self.layout.getStateCount
    let l0 ← self.layout.addStatesOf other.layout
    let lastOtherState := sizePred other.layout.getStateCount
    if (← other.isUnified) then
      let entry := other.entryState + oldSize
      let l1 ← l0.addTransition oldLastState lastOtherState Input.epsilon
      let l2 ← l1.addTransition entry oldEntryState Input.epsilon
      pure { self with layout := l2, entryState := entry }
    else if (← NFA.isUnified { self with layout := l0 }) then
      let l1 ← l0.addTransition oldLastState (lastOtherState + oldSize) Input.epsilon
      let l2 ← l1.addTransition self.entryState (other.entryState + oldSize) Input.epsilon
      pure { self with layout := l2 }
    else
      let l1 := l0.addState
      let entry := sizePred l1.getStateCount
      let l2 ← l1.addTransition entry oldEntryState Input.epsilon
      let l3 := l2.addState
      let newLastState := sizePred l3.getStateCount
      let l4 ← l3.addTransition (lastOtherState + oldSize) newLastState Input.epsilon
      let l5 ← l4.addTransition oldLastState newLastState Input.epsilon
      let l6 ← l5.addTransition entry (firstOtherState + oldLastState + 1) Input.epsilon
      pure { self with layout := l6, entryState := entry }

/-- Method `NFA::plus`. -/
def NFA.plus (self : NFA) : Except Error NFA := do
  let oldLastState := sizePred self.layout.getStateCount
  let oldEntryState := self.entryState
  let l1 := self.layout.addState
  let newLastState := sizePred l1.getStateCount
  let l2 ← l1.addTransition oldLastState newLastState Input.epsilon
  let l3 ← l2.addTransition oldLastState oldEntryState Input.epsilon
  pure { self with layout := l3 }

/-- Method `NFA::isSimpleCharacter`. -/
def NFA.isSimpleCharacter (self : NFA) : Except Error Bool :=
  if self.layout.getStateCount = 2 then do
    let t ← self.layout.getTransition self.entryState self.entryState
    pure (decide (t = Input.none))
  else pure false

/-- Method `NFA::star`. -/
def NFA.star (self : NFA) : Except Error NFA := do
  let oldLastState := sizePred self.layout.getStateCount
  let oldEntryState := self.entryState
  if (← self.isSimpleCharacter) then
    let oldTransition ← self.layout.getTransition oldEntryState oldLastState
    let l1 ← self.layout.addTransition oldEntryState oldLastState Input.none
    let l2 ← l1.removeLastState
    let l3 ← l2.addTransition oldEntryState oldEntryState oldTransition
    pure { self with layout := l3 }
  else
    let l1 ← self.layout.addTransition oldLastState oldEntryState Input.epsilon
    let l2 := l1.addState
    let newLastState := sizePred l2.getStateCount
    let l3 ← l2.addTransition oldLastState newLastState Input.epsilon
    let l4 ← l3.addTransition oldEntryState newLastState Input.epsilon
    pure { self with layout := l4 }

/-- Body of the `for` loop of `NFA::computeEpsilonClosure` for one destination `s`; the pair
is (`epsilonClosure`, `reachableStates`), the latter with its back at the head of the list. -/
def closureScan (l : MatrixLayout) (state : Nat) (acc : List Nat × List Nat)
    (s : Nat) : Except Error (List Nat × List Nat) := do
  let t ← l.getTransition state s
  if t = Input.epsilon then pure (acc.1 ++ [s], s :: acc.2) else pure acc

/-- The `while` loop of `NFA::computeEpsilonClosure`: `stack` is the work list
`reachableStates` with its back at the head, `closure` is `epsilonClosure`. -/
def closureLoop (nfa : NFA) : Nat → List Nat → List Nat → Except Error (List Nat)
  | _, [], closure => .ok closure
  | 0, _ :: _, _ => .error .outOfFuel
  | fuel + 1, state :: rest, closure => do
    let r ← (List.range nfa.layout.getStateCount).foldlM (closureScan nfa.layout state)
      (closure, rest)
    closureLoop nfa fuel r.2 r.1

/-- Method `NFA::computeEpsilonClosure`; `fuel` bounds the number of states popped. -/
def NFA.computeEpsilonClosure (nfa : NFA) (fuel : Nat) (reachableStates : List Nat) :
    Except Error (List Nat) :=
  if nfa.possibleInputs.length = 0 then .ok []
  else closureLoop nfa fuel reachableStates.reverse reachableStates

/-- The `for` loop of `NFA::simulate` and the final test. -/
def simulateLoop (nfa : NFA) (fuel : Nat) : List Int → List Nat → Except Error Bool
  | [], currentState => .ok (decide (sizePred nfa.layout.getStateCount ∈ currentState))
  | c :: cs, currentState => do
    let next ← nfa.layout.makeTransition currentState c
    let currentState1 ← nfa.computeEpsilonClosure fuel next
    if currentState1.isEmpty then pure false else simulateLoop nfa fuel cs currentState1

/-- Method `NFA::simulate`; `fuel` is the fuel of every `computeEpsilonClosure` call. -/
def NFA.simulate (nfa : NFA) (fuel : Nat) (str : List Int) : Except Error Bool := do
  let currentState ← nfa.computeEpsilonClosure fuel [nfa.entryState]
  simulateLoop nfa fuel str currentState

/-! ## `DFA` (DFA.hxx) -/

/-- Class `DFA<MatrixLayout>`: the inherited layout, `entryState_` and `finalStates_`. -/
structure DFA where
  /-- The inherited `Layout<MatrixLayout>`. -/
  layout : MatrixLayout
  /-- Field `entryState_`. -/
  entryState : Nat
  /-- Field `finalStates_`. -/
  finalStates : List Nat
  deriving DecidableEq, Repr

/-- Default constructor `DFA()`: no state, no final state (`entryState_` is assigned by
`buildFrom` before it is read). -/
def DFA.empty : DFA := ⟨⟨[]⟩, 0, []⟩

/-- Local variables of the `while` loop of `DFA::buildFrom`, together with `*this`. -/
structure BuildState where
  /-- The DFA under construction, `*this`. -/
  dfa : DFA
  /-- Table `mappedDfaStates`. -/
  mappedDfaStates : List (List Nat)
  /-- Stack `dfaStates`, its top at the head of the list. -/
  dfaStates : List Nat
  deriving DecidableEq, Repr

/-- Body of the loop over `nfa.getPossibleInputs()` in `DFA::buildFrom` for one `input`. -/
def buildStep (nfa : NFA) (fuel : Nat) (currentState : Nat) (st : BuildState)
    (input : Int) : Except Error BuildState := do
  let origin ← match st.mappedDfaStates.get? currentState with
    | some o => pure o
    | Option.none => throw Error.undefinedBehaviour
  let newState ← nfa.computeEpsilonClosure fuel (← nfa.layout.makeTransition origin input)
  if !newState.isEmpty then
    let newStateIdIterator := st.mappedDfaStates.indexOf newState
    if newStateIdIterator = st.mappedDfaStates.length then
      let l1 := st.dfa.layout.addState
      let newStateId := sizePred l1.getStateCount
      let l2 ← l1.addTransition currentState newStateId input
      pure { dfa := { st.dfa with layout := l2 },
             mappedDfaStates := st.mappedDfaStates ++ [newState],
             dfaStates := newStateId :: st.dfaStates }
    else
      let newStateId := newStateIdIterator
      let l2 ← st.dfa.layout.addTransition currentState newStateId input
      pure { st with dfa := { st.dfa with layout := l2 } }
  else pure st

/-- The `while (!dfaStates.empty())` loop of `DFA::buildFrom`; the fuel bounds the number of
DFA states explored and is also the fuel of every `computeEpsilonClosure` call. -/
def buildLoop (nfa : NFA) (closureFuel : Nat) : Nat → BuildState → Except Error DFA
  | fuel, st =>
    match st.dfaStates with
    | [] => .ok st.dfa
    | currentState :: rest =>
      match fuel with
      | 0 => .error .outOfFuel
      | fuel + 1 => do
        let mapped ← match st.mappedDfaStates.get? currentState with
          | some o => pure o
          | Option.none => throw Error.undefinedBehaviour
        let finalStates :=
          if sizePred nfa.layout.getStateCount ∈ mapped then
            st.dfa.finalStates ++ [currentState]
          else st.dfa.finalStates
        let st1 : BuildState :=
          { st with dfa := { st.dfa with finalStates := finalStates }, dfaStates := rest }
        let st2 ← nfa.possibleInputs.foldlM (buildStep nfa closureFuel currentState) st1
        buildLoop nfa closureFuel fuel st2

/-- Method `DFA::buildFrom`. -/
def DFA.buildFrom (self : DFA) (nfa : NFA) (fuel : Nat) : Except Error DFA := do
  let currentClosure ← nfa.computeEpsilonClosure fuel [nfa.entryState]
  let self1 : DFA := { self with entryState := 0, layout := self.layout.addState }
  buildLoop nfa fuel fuel ⟨self1, [currentClosure], [0]⟩

/-- Constructor `DFA(const NFA&)`: `buildFrom` on a default-constructed DFA. -/
def DFA.ofNFA (nfa : NFA) (fuel : Nat) : Except Error DFA := DFA.empty.buildFrom nfa fuel

/-- The `for` loop of `DFA::makeTransition` over the states still to visit. -/
def dfaSearch (l : MatrixLayout) (frm : Nat) (input : Int) :
    List Nat → Except Error (Option Nat)
  | [] => .ok Option.none
  | s :: rest => do
    let t ← l.getTransition frm s
    if t = input then pure (some s) else dfaSearch l frm input rest

/-- Method `DFA::makeTransition`. -/
def DFA.makeTransition (dfa : DFA) (frm : Nat) (input : Int) :
    Except Error (Option Nat) :=
  dfaSearch dfa.layout frm input (List.range dfa.layout.getStateCount)

/-- The `for` loop of `DFA::simulate` and the final test. -/
def DFA.simulateLoop (dfa : DFA) : List Int → Nat → Except Error Bool
  | [], currentState => .ok (decide (currentState ∈ dfa.finalStates))
  | c :: cs, currentState => do
    match ← dfa.makeTransition currentState c with
    | Option.none => pure false
    | some s => DFA.simulateLoop dfa cs s

/-- Method `DFA::simulate`. -/
def DFA.simulate (dfa : DFA) (str : List Int) : Except Error Bool :=
  dfa.simulateLoop str dfa.entryState

/-! ## `Parser` (Parser.hxx) -/

/-- Character `'.'`. -/
abbrev chDot : Int := 46
/-- Character `'*'`. -/
abbrev chStar : Int := 42
/-- Character `'+'`. -/
abbrev chPlus : Int := 43
/-- Character `'('`. -/
abbrev chLParen : Int := 40
/-- Character `')'`. -/
abbrev chRParen : Int := 41
/-- Character `'|'`. -/
abbrev chBar : Int := 124
/-- Character `'\\'`. -/
abbrev chBackslash : Int := 92
/-- Character `'['`. -/
abbrev chLBracket : Int := 91
/-- Character `']'`. -/
abbrev chRBracket : Int := 93
/-- Character `'-'` (the parser never tests for it). -/
abbrev chHyphen : Int := 45

/-- Conversion of an `int` to `char` (two's complement, 8 bit). -/
def wrapChar (x : Int) : Int := (x + 128) % 256 - 128

/-- The `for (auto current = *first; current != *last + 1; ++current)` loop of
`Parser::makeCharRange`. The loop ends within 257 steps: `current` reaches `*last + 1`, or it
wraps to `-128`, for which the constructor `NFA(Input)` aborts. -/
def charRangeLoop : Nat → Int → Int → NFA → Except Error NFA
  | 0, _, _, _ => .error .outOfFuel
  | fuel + 1, current, last, resultNFA =>
    if current = last + 1 then .ok resultNFA
    else do
      let r ← resultNFA.unify (← NFA.ofInput current)
      charRangeLoop fuel (wrapChar (current + 1)) last r

/-- Method `Parser::makeCharRange`; `strSpan` starts at the `'['`. -/
def makeCharRange (strSpan : List Int) : Except Error NFA :=
  if strSpan.length < 2 then .error .undefinedBehaviour
  else
    -- `it`: the first `']'` at or after position 2, or the end of the span
    let it := 2 + ((strSpan.drop 2).takeWhile (fun c => decide (c ≠ chRBracket))).length
    let last := it - 1
    if last - 1 ≠ 2 then
      .error (.badRangeIllFormed
        ([chLBracket] ++ (strSpan.drop 1).take (last + 1 - 1) ++ [chRBracket]))
    else if strSpan.getD 1 0 > strSpan.getD last 0 then
      .error (.badRangeInverted (strSpan.getD 1 0) (strSpan.getD last 0))
    else charRangeLoop 257 (strSpan.getD 1 0) (strSpan.getD last 0) NFA.empty

/-- Local variables `resultNFA`, `partialResultVector` and `needEscaping` of
`Parser::parseImpl`. -/
structure ParseState where
  /-- Variable `resultNFA`. -/
  resultNFA : NFA
  /-- Variable `partialResultVector`. -/
  partialResultVector : List NFA
  /-- Variable `needEscaping`. -/
  needEscaping : Bool
  deriving DecidableEq, Repr

/-- Statement `for(const auto& part : partialResultVector){ resultNFA.concatenate(part); }`. -/
def concatParts (resultNFA : NFA) (parts : List NFA) : Except Error NFA :=
  parts.foldlM NFA.concatenate resultNFA

/-- Apply a postfix operator to `partialResultVector.back()`. -/
def onBack (op : NFA → Except Error NFA) (parts : List NFA) : Except Error (List NFA) :=
  match parts.getLast? with
  | Option.none => .error .undefinedBehaviour
  | some b => do
    let b1 ← op b
    pure (parts.dropLast ++ [b1])

/-- Method `Parser::parseImpl`: the iteration of the `for` loop at position `it` of `strSpan`,
with the local variables in `st`. A recursive call starts at position `0` of the rest of the
span with fresh local variables. Every iteration and every call uses one unit of fuel;
`strSpan.length - it + 1` units are enough. -/
def parseImpl : Nat → List Int → Bool → Nat → Nat → ParseState → Except Error (NFA × Nat)
  | 0, _, _, _, _, _ => .error .outOfFuel
  | fuel + 1, strSpan, inParenthesis, recCount, it, st =>
    if it < strSpan.length then
      let c := strSpan.getD it 0
      if st.needEscaping then do
        let r ← st.resultNFA.concatenate (← NFA.ofInput c)
        parseImpl fuel strSpan inParenthesis recCount (it + 1)
          { st with needEscaping := false, resultNFA := r }
      else if c = chDot then do
        let a ← NFA.ofInput Input.any
        parseImpl fuel strSpan inParenthesis recCount (it + 1)
          { st with partialResultVector := st.partialResultVector ++ [a] }
      else if c = chStar then do
        let parts ← onBack NFA.star st.partialResultVector
        parseImpl fuel strSpan inParenthesis recCount (it + 1)
          { st with partialResultVector := parts }
      else if c = chPlus then do
        let parts ← onBack NFA.plus st.partialResultVector
        parseImpl fuel strSpan inParenthesis recCount (it + 1)
          { st with partialResultVector := parts }
      else if c = chLParen then do
        let intermediateResult ←
          parseImpl fuel (strSpan.drop (it + 1)) true recCount 0 ⟨NFA.empty, [], false⟩
        parseImpl fuel strSpan inParenthesis recCount (it + (intermediateResult.2 + 1) + 1)
          { st with partialResultVector := st.partialResultVector ++ [intermediateResult.1] }
      else if c = chRParen then
        if inParenthesis then do
          let r ← concatParts st.resultNFA st.partialResultVector
          pure (r, it)
        else .error .extraneousParenthesis
      else if c = chBar then do
        let intermediateResult ←
          parseImpl fuel (strSpan.drop (it + 1)) inParenthesis (recCount + 1) 0
            ⟨NFA.empty, [], false⟩
        let r ← st.resultNFA.unify intermediateResult.1
        let it1 := it + (intermediateResult.2 + 1)
        if recCount ≠ 0 then pure (r, it1)
        else parseImpl fuel strSpan inParenthesis recCount (it1 + 1) { st with resultNFA := r }
      else if c = chBackslash then
        parseImpl fuel strSpan inParenthesis recCount (it + 1) { st with needEscaping := true }
      else if c = chLBracket then do
        let a ← makeCharRange (strSpan.drop it)
        parseImpl fuel strSpan inParenthesis recCount (it + 4 + 1)
          { st with partialResultVector := st.partialResultVector ++ [a] }
      else do
        let a ← NFA.ofInput c
        parseImpl fuel strSpan inParenthesis recCount (it + 1)
          { st with partialResultVector := st.partialResultVector ++ [a] }
    else do
      let r ← concatParts st.resultNFA st.partialResultVector
      pure (r, strSpan.length)

/-- Method `Parser::parse`. -/
def parse (str : List Int) : Except Error NFA := do
  let r ← parseImpl (str.length + 1) str false 0 0 ⟨NFA.empty, [], false⟩
  pure r.1

/-! ## Semantic view of a layout and of an NFA -/

/-- The entry `container_[i][j]` of a layout, read as `0` outside the stored rows. -/
def cell (m : MatrixLayout) (i j : Nat) : Int := (m.container.getD i []).getD j 0

/-- Well-formed layout: every row has at least as many entries as there are states. All the
methods of `MatrixLayout` preserve this, and under it no access is out of bounds. -/
def MatrixLayout.WF (m : MatrixLayout) : Prop :=
  ∀ row ∈ m.container, m.getStateCount ≤ row.length

/-- The layout after a successful `addTransition(i, j, x)`. -/
def setCell (m : MatrixLayout) (i j : Nat) (x : Int) : MatrixLayout :=
  ⟨m.container.set i ((m.container.getD i []).set j x)⟩

/-- The layout after a successful `removeLastState()`. -/
def popState (m : MatrixLayout) : MatrixLayout := ⟨m.container.dropLast⟩

/-- No row of the layout has more entries than there are states: the condition on `other`
under which `addStatesOf(other)` stays within the rows it appends. -/
def MatrixLayout.Fits (m : MatrixLayout) : Prop :=
  ∀ row ∈ m.container, row.length ≤ m.getStateCount

/-- The layout after a successful `addStatesOf(o)`: the rows of the receiver resized to the
new state count, then the rows of `o` behind `oldStateCount` zero entries, filled up to the new
state count. -/
def MatrixLayout.appendStates (m o : MatrixLayout) : MatrixLayout :=
  ⟨m.container.map (resizeRow (m.getStateCount + o.getStateCount)) ++
    o.container.map
      (fun row => resizeRow (m.getStateCount + o.getStateCount)
        (List.replicate m.getStateCount 0 ++ row))⟩

/-- An epsilon edge between two states of the automaton. -/
def EpsStep (nfa : NFA) (p q : Nat) : Prop :=
  p < nfa.layout.getStateCount ∧ q < nfa.layout.getStateCount ∧
    cell nfa.layout p q = Input.epsilon

/-- An edge that `makeTransition` follows on the character `c`: its label is `c` or `any`. -/
def SymStep (nfa : NFA) (c : Int) (p q : Nat) : Prop :=
  p < nfa.layout.getStateCount ∧ q < nfa.layout.getStateCount ∧
    (cell nfa.layout p q = c ∨ cell nfa.layout p q = Input.any)

/-- A path from `p` to `r` that reads the string `s`. -/
inductive Path (nfa : NFA) : Nat → List Int → Nat → Prop
  | nil (p : Nat) : Path nfa p [] p
  | eps {p q r : Nat} {s : List Int} : EpsStep nfa p q → Path nfa q s r → Path nfa p s r
  | sym {p q r : Nat} {c : Int} {s : List Int} :
      SymStep nfa c p q → Path nfa q s r → Path nfa p (c :: s) r

/-- The automaton has a path from its entry state to its last state that reads `s`. -/
def NFA.HasRun (nfa : NFA) (s : List Int) : Prop :=
  Path nfa nfa.entryState s (sizePred nfa.layout.getStateCount)

/-- With enough fuel `NFA::simulate` returns `b` on `s`. -/
def NFA.Decides (nfa : NFA) (s : List Int) (b : Bool) : Prop :=
  ∃ fuel, ∀ f, fuel ≤ f → nfa.simulate f s = .ok b

/-- The automaton accepts `s`: `NFA::simulate` returns `true`. -/
def NFA.Accepts (nfa : NFA) (s : List Int) : Prop := ∃ fuel, nfa.simulate fuel s = .ok true

/-- The call `NFA::simulate(s)` returns. -/
def NFA.Terminates (nfa : NFA) (s : List Int) : Prop := ∃ fuel b, nfa.simulate fuel s = .ok b

/-- The epsilon successors of a state, in ascending order. -/
def epsSuccs (nfa : NFA) (state : Nat) : List Nat :=
  (List.range nfa.layout.getStateCount).filter
    (fun s => decide (cell nfa.layout state s = Input.epsilon))

/-- The epsilon edges admit a rank that decreases along every edge (no epsilon cycle). -/
def EpsAcyclic (nfa : NFA) : Prop :=
  ∃ rank : Nat → Nat, ∀ p q, EpsStep nfa p q → rank q < rank p

/-- The alphabet of the automaton holds a symbol other than `epsilon`. -/
def NFA.HasInput (nfa : NFA) : Prop := ∃ x ∈ nfa.possibleInputs, x ≠ Input.epsilon

/-- The automaton built by the constructor `NFA(Input)` for a non-negative character. -/
def symNFA (c : Int) : NFA := ⟨⟨[[0, c], [0, 0]]⟩, 0, [c]⟩

/-- A literal character of a pattern: a character code in `1..127` that is none of
`. * + ( ) | \ [`. -/
def IsLiteral (c : Int) : Prop :=
  1 ≤ c ∧ c ≤ 127 ∧ c ≠ chDot ∧ c ≠ chStar ∧ c ≠ chPlus ∧ c ≠ chLParen ∧ c ≠ chRParen ∧
    c ≠ chBar ∧ c ≠ chBackslash ∧ c ≠ chLBracket

/-- A concrete character of a candidate string: a character code in `1..127`. -/
def IsConcrete (c : Int) : Prop := 1 ≤ c ∧ c ≤ 127

/-- The automaton is the chain `0 -w[0]-> 1 -w[1]-> ... -> |w|`. -/
structure IsChain (w : List Int) (nfa : NFA) : Prop where
  wf : nfa.layout.WF
  fits : nfa.layout.Fits
  count : nfa.layout.getStateCount = w.length + 1
  entry : nfa.entryState = 0
  inputs : nfa.HasInput
  cells : ∀ i j, cell nfa.layout i j = if j = i + 1 ∧ i < w.length then w.getD i 0 else 0

instance (c : Int) : Decidable (IsLiteral c) := by unfold IsLiteral; infer_instance

instance (c : Int) : Decidable (IsConcrete c) := by unfold IsConcrete; infer_instance

/-- The automaton built by `NFA(c)` followed by `plus()`. -/
def plusNFA (c : Int) : NFA := ⟨⟨[[0, c, 0], [-1, 0, -1], [0, 0, 0]]⟩, 0, [c]⟩

/-- The concatenation of `n` copies of `u`. -/
def rep (n : Nat) (u : List Int) : List Int := (List.replicate n u).flatten

/-- The automaton of `"(u)*"` for a string `u` of at least two literal characters: the chain
of `u` with the epsilon edges `|u| -> 0`, `|u| -> |u| + 1` and `0 -> |u| + 1`. -/
structure IsStarChain (u : List Int) (nfa : NFA) : Prop where
  wf : nfa.layout.WF
  count : nfa.layout.getStateCount = u.length + 2
  entry : nfa.entryState = 0
  inputs : nfa.HasInput
  cells : ∀ i j, cell nfa.layout i j =
    if i = 0 ∧ j = u.length + 1 then -1
    else if i = u.length ∧ j = u.length + 1 then -1
    else if i = u.length ∧ j = 0 then -1
    else if j = i + 1 ∧ i < u.length then u.getD i 0
    else 0

/-- The entries of the automaton that `makeCharRange` builds for the `k` characters
`x, x + 1, ..., x + k - 1` (`k ≥ 2`): letter edges `0 -> 1`, `2 -> 3` and `2m + 2 -> 2m + 3`,
epsilon edges from the entry state `4` to every even state, and epsilon edges
`1 -> 5`, `3 -> 5`, `5 -> 7`, `7 -> 9`, ... to the last state `2k + 1`. -/
def rangeCell (x : Int) (k : Nat) (i j : Nat) : Int :=
  if i = 0 ∧ j = 1 then x
  else if i = 2 ∧ j = 3 then x + 1
  else if i % 2 = 0 ∧ 6 ≤ i ∧ i < 2 * k + 2 ∧ j = i + 1 then x + ((i / 2 - 1 : Nat) : Int)
  else if i = 4 ∧ j % 2 = 0 ∧ j ≠ 4 ∧ j < 2 * k + 2 then -1
  else if (i = 1 ∨ i = 3) ∧ j = 5 then -1
  else if i % 2 = 1 ∧ 5 ≤ i ∧ j = i + 2 ∧ j < 2 * k + 2 then -1
  else 0

/-- The automaton that `makeCharRange` has built after `k ≥ 2` characters from `x` on. -/
structure IsRange (x : Int) (k : Nat) (nfa : NFA) : Prop where
  wf : nfa.layout.WF
  fits : nfa.layout.Fits
  count : nfa.layout.getStateCount = 2 * k + 2
  entry : nfa.entryState = 4
  inputs : nfa.HasInput
  cells : ∀ i j, cell nfa.layout i j = rangeCell x k i j

/-! ## `MapLayout` (Common.hxx, Common.cxx) -/

/-- Sparse store `MapLayout` (Common.hxx, Common.cxx): `internalMap_` is a vector with one
`std::multimap<Input, StateId>` per state. A multimap is kept as the list of its entries
`(input, destination)` in iteration order: ascending keys, equal keys in insertion order. -/
structure MapLayout where
  /-- The vector `internalMap_`. -/
  internalMap : List (List (Int × Nat))
  deriving DecidableEq, Repr

/-- Method `MapLayout::getStateCount`. -/
def MapLayout.getStateCount (m : MapLayout) : Nat := m.internalMap.length

/-- Method `MapLayout::addState`: `internalMap_.push_back({})`. -/
def MapLayout.addState (m : MapLayout) : MapLayout := ⟨m.internalMap ++ [[]]⟩

/-- Method `MapLayout::removeLastState`: `internalMap_.pop_back()`; the entries of the other
states are not touched. -/
def MapLayout.removeLastState (m : MapLayout) : Except Error MapLayout :=
  if m.internalMap.isEmpty then .error .undefinedBehaviour else .ok ⟨m.internalMap.dropLast⟩

/-- Call `std::multimap::insert`: the new entry goes behind the entries whose key is not
greater than its key. -/
def multimapInsert (e : Int × Nat) : List (Int × Nat) → List (Int × Nat)
  | [] => [e]
  | x :: xs => if e.1 < x.1 then e :: x :: xs else x :: multimapInsert e xs

/-- Method `MapLayout::addTransition`: `internalMap_[from].insert({ input, to })` after the
three `Ensures` checks. -/
def MapLayout.addTransition (m : MapLayout) (frm dst : Nat) (input : Int) :
    Except Error MapLayout :=
  if frm < m.getStateCount ∧ dst < m.getStateCount ∧
      (0 ≤ input ∨ input = Input.epsilon ∨ input = Input.any) then
    .ok ⟨m.internalMap.set frm (multimapInsert (input, dst) (m.internalMap.getD frm []))⟩
  else .error .contractViolation

/-- Method `MapLayout::getTransition`: the key of the first entry of `internalMap_[from]`
whose destination is `to`, or `none`. The method has no `Ensures` check; `internalMap_[from]`
is out of bounds for `from ≥ getStateCount()`. -/
def MapLayout.getTransition (m : MapLayout) (frm dst : Nat) : Except Error Int :=
  if frm < m.getStateCount then
    match (m.internalMap.getD frm []).find? (fun val => decide (val.2 = dst)) with
    | some elem => .ok elem.1
    | Option.none => .ok Input.none
  else .error .undefinedBehaviour

/-- Method `MapLayout::addStatesOf`: every multimap of `other` is copied, the destinations of
the copy are raised by `oldSize`, and the copy is appended. -/
def MapLayout.addStatesOf (m other : MapLayout) : MapLayout :=
  let oldSize := m.getStateCount
  ⟨m.internalMap ++
    other.internalMap.map (fun map => map.map (fun elem => (elem.1, elem.2 + oldSize)))⟩

/-- The call `A.addStatesOf(B)` on two sparse stores: the receiver and the argument after the
call. The loop `for (auto map : other.internalMap_)` works on a copy of every multimap, so that
the argument is not written to. -/
def MapLayout.addStatesOfCall (a b : MapLayout) : MapLayout × MapLayout :=
  (a.addStatesOf b, b)

/-- One of the two inner loops of `MapLayout::makeTransition`: the destinations of the entries
of `range` (an `equal_range` of the multimap) are appended to `result` unless already there. -/
def pushRange (result : List Nat) (range : List (Int × Nat)) : List Nat :=
  range.foldl (fun r destination => if destination.2 ∈ r then r else r ++ [destination.2])
    result

/-- Call `equal_range(input)` on a multimap: its entries with the key `input`, which are
adjacent in the sorted multimap. -/
def equalRange (map : List (Int × Nat)) (input : Int) : List (Int × Nat) :=
  map.filter (fun val => decide (val.1 = input))

/-- Method `MapLayout::makeTransition` (with `ANY_CHARACTER_SUPPORT` defined). -/
def MapLayout.makeTransition (m : MapLayout) (origin : List Nat) (input : Int) :
    Except Error (List Nat) :=
  origin.foldlM
    (fun result state =>
      if state < m.getStateCount then
        let map := m.internalMap.getD state []
        .ok (pushRange (pushRange result (equalRange map input)) (equalRange map Input.any))
      else .error .undefinedBehaviour)
    []

/-- Body of the inner loop of the generic `Layout::makeTransition` for one destination `s`,
read over a sparse store. -/
def genericStep (m : MapLayout) (input : Int) (state : Nat)
    (reachableStateSet : List Nat) (s : Nat) : Except Error (List Nat) := do
  let t ← m.getTransition state s
  let r1 := if t = input ∧ s ∉ reachableStateSet then reachableStateSet ++ [s]
    else reachableStateSet
  let t2 ← m.getTransition state s
  let r2 := if t2 = Input.any ∧ s ∉ r1 then r1 ++ [s] else r1
  pure r2

/-- The generic `Layout<TLayout>::makeTransition` run over a sparse store (the library selects
the native method for `MapLayout`; this is the scan the native method is compared with). -/
def MapLayout.genericMakeTransition (m : MapLayout) (origin : List Nat) (input : Int) :
    Except Error (List Nat) :=
  origin.foldlM
    (fun acc state => (List.range m.getStateCount).foldlM (genericStep m input state) acc)
    []

/-! ## Sequences of calls on a store, and invariants of the stores -/

/-- A call of one of the three mutating methods of a store. -/
inductive LayoutOp where
  /-- Call `addState()`. -/
  | addState
  /-- Call `addTransition(from, to, input)`. -/
  | addTransition (frm dst : Nat) (input : Int)
  /-- Call `removeLastState()`. -/
  | removeLastState
  deriving DecidableEq, Repr

/-- One call on a dense store. -/
def MatrixLayout.step (m : MatrixLayout) : LayoutOp → Except Error MatrixLayout
  | .addState => .ok m.addState
  | .addTransition frm dst input => m.addTransition frm dst input
  | .removeLastState => m.removeLastState

/-- A sequence of calls on a dense store, from left to right. -/
def MatrixLayout.run (ops : List LayoutOp) (m : MatrixLayout) : Except Error MatrixLayout :=
  ops.foldlM MatrixLayout.step m

/-- One call on a sparse store. -/
def MapLayout.step (m : MapLayout) : LayoutOp → Except Error MapLayout
  | .addState => .ok m.addState
  | .addTransition frm dst input => m.addTransition frm dst input
  | .removeLastState => m.removeLastState

/-- A sequence of calls on a sparse store, from left to right. -/
def MapLayout.run (ops : List LayoutOp) (m : MapLayout) : Except Error MapLayout :=
  ops.foldlM MapLayout.step m

/-- The label that `MapLayout::getTransition` reports for a pair of states. -/
def mapCell (m : MapLayout) (i j : Nat) : Int :=
  match (m.internalMap.getD i []).find? (fun val => decide (val.2 = j)) with
  | some elem => elem.1
  | Option.none => Input.none

/-- No ordered pair of states carries two entries of the sparse store. -/
def MapLayout.SingleLabel (m : MapLayout) : Prop :=
  ∀ map ∈ m.internalMap, (map.map Prod.snd).Nodup

/-- Every row of the dense store has exactly one entry per state. -/
def MatrixLayout.Tight (m : MatrixLayout) : Prop :=
  ∀ row ∈ m.container, row.length = m.getStateCount

/-- Every entry of the sparse store leads to a state of the store. -/
def MapLayout.Closed (m : MapLayout) : Prop :=
  ∀ map ∈ m.internalMap, ∀ e ∈ map, e.2 < m.getStateCount

/-! ## Automata made by the builder and by the parser -/

/-- The automata obtained from the single-symbol automata `NFA(c)` by `concatenate`, `unify`,
`star` and `plus`, every argument obtained the same way. -/
inductive Built : NFA → Prop
  | ofInput {c : Int} {a : NFA} : NFA.ofInput c = .ok a → Built a
  | concatenate {a b r : NFA} : Built a → Built b → a.concatenate b = .ok r → Built r
  | unify {a b r : NFA} : Built a → Built b → a.unify b = .ok r → Built r
  | star {a r : NFA} : Built a → a.star = .ok r → Built r
  | plus {a r : NFA} : Built a → a.plus = .ok r → Built r

/-- The invariant of the builder: the layout is well formed, there is a state, the entry
state is a state, and the last state has no transition to another state. -/
structure LastInv (nfa : NFA) : Prop where
  wf : nfa.layout.WF
  pos : 0 < nfa.layout.getStateCount
  entry : nfa.entryState < nfa.layout.getStateCount
  last : ∀ t, t < nfa.layout.getStateCount → t ≠ nfa.layout.getStateCount - 1 →
    cell nfa.layout (nfa.layout.getStateCount - 1) t = 0

/-- The automata produced by the single-symbol constructor, by `parse`, and from such
automata by `concatenate`, `unify`, `star` and `plus`. -/
inductive Produced : NFA → Prop
  | ofInput {c : Int} {a : NFA} : NFA.ofInput c = .ok a → Produced a
  | parse {p : List Int} {a : NFA} : parse p = .ok a → Produced a
  | concatenate {a b r : NFA} : Produced a → Produced b → a.concatenate b = .ok r → Produced r
  | unify {a b r : NFA} : Produced a → Produced b → a.unify b = .ok r → Produced r
  | star {a r : NFA} : Produced a → a.star = .ok r → Produced r
  | plus {a r : NFA} : Produced a → a.plus = .ok r → Produced r

/-- Every element of the alphabet is a character code `≥ 0` or the wildcard `any`. -/
def NFA.AlphabetValid (nfa : NFA) : Prop :=
  ∀ x ∈ nfa.possibleInputs, 0 ≤ x ∨ x = Input.any

/-! ## The loop of `DFA::buildFrom` with its table, and its invariants -/

/-- The body of the `while` loop of `DFA::buildFrom` for the popped state `currentState`;
`rest` is the stack after the pop. -/
def buildBody (nfa : NFA) (closureFuel : Nat) (currentState : Nat) (rest : List Nat)
    (st : BuildState) : Except Error BuildState := do
  let mapped ← match st.mappedDfaStates.get? currentState with
    | some o => pure o
    | Option.none => throw Error.undefinedBehaviour
  let finalStates :=
    if sizePred nfa.layout.getStateCount ∈ mapped then
      st.dfa.finalStates ++ [currentState]
    else st.dfa.finalStates
  let st1 : BuildState :=
    { st with dfa := { st.dfa with finalStates := finalStates }, dfaStates := rest }
  nfa.possibleInputs.foldlM (buildStep nfa closureFuel currentState) st1

/-- The `while` loop of `DFA::buildFrom` as in `buildLoop`, returning all the variables of the
loop at its exit and not only the DFA. -/
def buildLoopState (nfa : NFA) (closureFuel : Nat) : Nat → BuildState → Except Error BuildState
  | fuel, st =>
    match st.dfaStates with
    | [] => .ok st
    | currentState :: rest =>
      match fuel with
      | 0 => .error .outOfFuel
      | fuel + 1 => do
        let st2 ← buildBody nfa closureFuel currentState rest st
        buildLoopState nfa closureFuel fuel st2

/-- The variables of `DFA::buildFrom`, called on a default-constructed DFA, at its return:
the DFA together with the table `mappedDfaStates`. -/
def buildTable (nfa : NFA) (fuel : Nat) : Except Error BuildState := do
  let currentClosure ← nfa.computeEpsilonClosure fuel [nfa.entryState]
  let self1 : DFA := { DFA.empty with entryState := 0, layout := DFA.empty.layout.addState }
  buildLoopState nfa fuel fuel ⟨self1, [currentClosure], [0]⟩

/-- Row `d` of the layout holds every label other than `none` at most once. -/
def RowDet (l : MatrixLayout) (d : Nat) : Prop :=
  ∀ t1 t2, cell l d t1 ≠ 0 → cell l d t1 = cell l d t2 → t1 = t2

/-- Invariant of the `while` loop of `DFA::buildFrom`: the layout is well formed, every row is
deterministic, and the states still on the stack are distinct states without transitions. -/
structure LoopInv (st : BuildState) : Prop where
  wf : st.dfa.layout.WF
  det : ∀ r, RowDet st.dfa.layout r
  stackLt : ∀ s ∈ st.dfaStates, s < st.dfa.layout.getStateCount
  stackNodup : st.dfaStates.Nodup
  stackZero : ∀ s ∈ st.dfaStates, ∀ t, cell st.dfa.layout s t = 0

/-- Invariant of the loop over the alphabet in `DFA::buildFrom` for the DFA state `d`, after
the inputs `pre`: the loop invariant, `d` is a state that is not on the stack, and the labels
of row `d` are among `pre`. -/
structure StepInv (d : Nat) (pre : List Int) (st : BuildState) : Prop where
  loop : LoopInv st
  cur : d < st.dfa.layout.getStateCount
  curNot : d ∉ st.dfaStates
  labels : ∀ t, cell st.dfa.layout d t ≠ 0 → cell st.dfa.layout d t ∈ pre

/-- Invariant of the loop of `DFA::buildFrom` used for its termination: the DFA has one state
per list of the table, the stack holds DFA states, and the lists of the table are pairwise
different lists of NFA states, each the epsilon closure of a duplicate-free list of NFA
states. -/
structure TermInv (nfa : NFA) (st : BuildState) : Prop where
  wf : st.dfa.layout.WF
  count : st.dfa.layout.getStateCount = st.mappedDfaStates.length
  stackLt : ∀ s ∈ st.dfaStates, s < st.dfa.layout.getStateCount
  valid : ∀ R ∈ st.mappedDfaStates, ∀ p ∈ R, p < nfa.layout.getStateCount
  nodup : st.mappedDfaStates.Nodup
  seeds : ∀ R ∈ st.mappedDfaStates, ∃ s : List Nat, s.Nodup ∧
    (∀ p ∈ s, p < nfa.layout.getStateCount) ∧ ∃ f, nfa.computeEpsilonClosure f s = .ok R

/-- The number of duplicate-free sequences over `n` states. -/
def dupFreeCount (n : Nat) : Nat := Fintype.card { l : List (Fin n) // l.Nodup }

/-! ## The iterations of `parseImpl` that a call of `parse` goes through -/

/-- A call of `Parser::parseImpl` at one iteration of its loop: the arguments of the call, the
position `it` in the span, and the local variables. -/
structure ParseCall where
  /-- The fuel of the model. -/
  fuel : Nat
  /-- Argument `strSpan`. -/
  strSpan : List Int
  /-- Argument `inParenthesis`. -/
  inParenthesis : Bool
  /-- Argument `recCount`. -/
  recCount : Nat
  /-- The loop variable `it`, as an offset in `strSpan`. -/
  it : Nat
  /-- The local variables. -/
  st : ParseState

/-- What `parseImpl` returns from this iteration on. -/
def ParseCall.result (c : ParseCall) : Except Error (NFA × Nat) :=
  parseImpl c.fuel c.strSpan c.inParenthesis c.recCount c.it c.st

/-- The call that `Parser::parse` makes on the pattern `p`. -/
def ParseCall.start (p : List Int) : ParseCall :=
  ⟨p.length + 1, p, false, 0, 0, ⟨NFA.empty, [], false⟩⟩

/-- The relation `Next c c1`: the iteration `c` of `parseImpl` is followed by the iteration
`c1` of the same call, or it makes the recursive call that starts with `c1`. There is one
constructor for every branch of the loop body that goes on; the branches for `'('` and `'|'`
have one for the recursive call and one for the iteration after its return. -/
inductive ParseCall.Next : ParseCall → ParseCall → Prop
  /-- An escaped character is concatenated to `resultNFA`. -/
  | escaped {fuel : Nat} {span : List Int} {inP : Bool} {rc it : Nat} {st : ParseState}
      {a r : NFA} : it < span.length → st.needEscaping = true →
      NFA.ofInput (span.getD it 0) = .ok a → st.resultNFA.concatenate a = .ok r →
      ParseCall.Next ⟨fuel + 1, span, inP, rc, it, st⟩
        ⟨fuel, span, inP, rc, it + 1, { st with needEscaping := false, resultNFA := r }⟩
  /-- Case `'.'`. -/
  | dot {fuel : Nat} {span : List Int} {inP : Bool} {rc it : Nat} {st : ParseState} {a : NFA} :
      it < span.length → st.needEscaping = false → span.getD it 0 = chDot →
      NFA.ofInput Input.any = .ok a →
      ParseCall.Next ⟨fuel + 1, span, inP, rc, it, st⟩
        ⟨fuel, span, inP, rc, it + 1,
          { st with partialResultVector := st.partialResultVector ++ [a] }⟩
  /-- Case `'*'`. -/
  | star {fuel : Nat} {span : List Int} {inP : Bool} {rc it : Nat} {st : ParseState}
      {parts : List NFA} :
      it < span.length → st.needEscaping = false → span.getD it 0 = chStar →
      onBack NFA.star st.partialResultVector = .ok parts →
      ParseCall.Next ⟨fuel + 1, span, inP, rc, it, st⟩
        ⟨fuel, span, inP, rc, it + 1, { st with partialResultVector := parts }⟩
  /-- Case `'+'`. -/
  | plus {fuel : Nat} {span : List Int} {inP : Bool} {rc it : Nat} {st : ParseState}
      {parts : List NFA} :
      it < span.length → st.needEscaping = false → span.getD it 0 = chPlus →
      onBack NFA.plus st.partialResultVector = .ok parts →
      ParseCall.Next ⟨fuel + 1, span, inP, rc, it, st⟩
        ⟨fuel, span, inP, rc, it + 1, { st with partialResultVector := parts }⟩
  /-- Case `'('`: the recursive call on the rest of the span. -/
  | groupCall {fuel : Nat} {span : List Int} {inP : Bool} {rc it : Nat} {st : ParseState} :
      it < span.length → st.needEscaping = false → span.getD it 0 = chLParen →
      ParseCall.Next ⟨fuel + 1, span, inP, rc, it, st⟩
        ⟨fuel, span.drop (it + 1), true, rc, 0, ⟨NFA.empty, [], false⟩⟩
  /-- Case `'('`: the iteration after the return of the recursive call. -/
  | groupResume {fuel : Nat} {span : List Int} {inP : Bool} {rc it : Nat} {st : ParseState}
      {ir : NFA × Nat} :
      it < span.length → st.needEscaping = false → span.getD it 0 = chLParen →
      parseImpl fuel (span.drop (it + 1)) true rc 0 ⟨NFA.empty, [], false⟩ = .ok ir →
      ParseCall.Next ⟨fuel + 1, span, inP, rc, it, st⟩
        ⟨fuel, span, inP, rc, it + (ir.2 + 1) + 1,
          { st with partialResultVector := st.partialResultVector ++ [ir.1] }⟩
  /-- Case `'|'`: the recursive call on the rest of the span. -/
  | barCall {fuel : Nat} {span : List Int} {inP : Bool} {rc it : Nat} {st : ParseState} :
      it < span.length → st.needEscaping = false → span.getD it 0 = chBar →
      ParseCall.Next ⟨fuel + 1, span, inP, rc, it, st⟩
        ⟨fuel, span.drop (it + 1), inP, rc + 1, 0, ⟨NFA.empty, [], false⟩⟩
  /-- Case `'|'`: the iteration after the return of the recursive call (`recCount == 0`). -/
  | barResume {fuel : Nat} {span : List Int} {inP : Bool} {rc it : Nat} {st : ParseState}
      {ir : NFA × Nat} {r : NFA} :
      it < span.length → st.needEscaping = false → span.getD it 0 = chBar →
      parseImpl fuel (span.drop (it + 1)) inP (rc + 1) 0 ⟨NFA.empty, [], false⟩ = .ok ir →
      st.resultNFA.unify ir.1 = .ok r → rc = 0 →
      ParseCall.Next ⟨fuel + 1, span, inP, rc, it, st⟩
        ⟨fuel, span, inP, rc, it + (ir.2 + 1) + 1, { st with resultNFA := r }⟩
  /-- Case `'\\'`. -/
  | backslash {fuel : Nat} {span : List Int} {inP : Bool} {rc it : Nat} {st : ParseState} :
      it < span.length → st.needEscaping = false → span.getD it 0 = chBackslash →
      ParseCall.Next ⟨fuel + 1, span, inP, rc, it, st⟩
        ⟨fuel, span, inP, rc, it + 1, { st with needEscaping := true }⟩
  /-- Case `'['` with a range that `makeCharRange` accepts. -/
  | bracket {fuel : Nat} {span : List Int} {inP : Bool} {rc it : Nat} {st : ParseState}
      {a : NFA} :
      it < span.length → st.needEscaping = false → span.getD it 0 = chLBracket →
      makeCharRange (span.drop it) = .ok a →
      ParseCall.Next ⟨fuel + 1, span, inP, rc, it, st⟩
        ⟨fuel, span, inP, rc, it + 4 + 1,
          { st with partialResultVector := st.partialResultVector ++ [a] }⟩
  /-- The default case: any other character. -/
  | literal {fuel : Nat} {span : List Int} {inP : Bool} {rc it : Nat} {st : ParseState}
      {a : NFA} :
      it < span.length → st.needEscaping = false → span.getD it 0 ≠ chDot →
      span.getD it 0 ≠ chStar → span.getD it 0 ≠ chPlus → span.getD it 0 ≠ chLParen →
      span.getD it 0 ≠ chRParen → span.getD it 0 ≠ chBar → span.getD it 0 ≠ chBackslash →
      span.getD it 0 ≠ chLBracket → NFA.ofInput (span.getD it 0) = .ok a →
      ParseCall.Next ⟨fuel + 1, span, inP, rc, it, st⟩
        ⟨fuel, span, inP, rc, it + 1,
          { st with partialResultVector := st.partialResultVector ++ [a] }⟩

/-- The iterations of `parseImpl`, in the first call and in the recursive calls, that
`parse p` goes through. -/
def Reaches (p : List Int) (c : ParseCall) : Prop :=
  Relation.ReflTransGen ParseCall.Next (ParseCall.start p) c

/-- The first iteration of the recursive call that `parseImpl` makes at the `'|'` of the
pattern `"a*(b).|[xy"`: it stands at the `'['`. -/
def bracketCall : ParseCall :=
  ⟨6, [chLBracket, 120, 121], false, 1, 0, ⟨NFA.empty, [], false⟩⟩

/-! ## `NFA` over the sparse store (NFA.hxx and DFA.hxx at `MapLayout`) -/

/-- Class `NFA<MapLayout>`: the class template `NFA` over the sparse store. -/
structure MapNFA where
  /-- The inherited `Layout<MapLayout>`. -/
  layout : MapLayout
  /-- Field `entryState_`. -/
  entryState : Nat
  /-- Field `possibleInputs_`, in iteration order. -/
  possibleInputs : List Int
  deriving DecidableEq, Repr

/-- Converting constructor `NFA(Input input)` of `NFA<MapLayout>`. -/
def MapNFA.ofInput (input : Int) : Except Error MapNFA := do
  let l0 := (MapLayout.mk []).addState.addState
  let l1 ← l0.addTransition 0 (sizePred l0.getStateCount) input
  pure ⟨l1, 0, if input ≠ Input.epsilon then setInsert input [] else []⟩

/-- Method `NFA::isSimpleCharacter` of `NFA<MapLayout>`. -/
def MapNFA.isSimpleCharacter (self : MapNFA) : Except Error Bool :=
  if self.layout.getStateCount = 2 then do
    let t ← self.layout.getTransition self.entryState self.entryState
    pure (decide (t = Input.none))
  else pure false

/-- Method `NFA::star` of `NFA<MapLayout>`. -/
def MapNFA.star (self : MapNFA) : Except Error MapNFA := do
  let oldLastState := sizePred self.layout.getStateCount
  let oldEntryState := self.entryState
  if (← self.isSimpleCharacter) then
    let oldTransition ← self.layout.getTransition oldEntryState oldLastState
    let l1 ← self.layout.addTransition oldEntryState oldLastState Input.none
    let l2 ← l1.removeLastState
    let l3 ← l2.addTransition oldEntryState oldEntryState oldTransition
    pure { self with layout := l3 }
  else
    let l1 ← self.layout.addTransition oldLastState oldEntryState Input.epsilon
    let l2 := l1.addState
    let newLastState := sizePred l2.getStateCount
    let l3 ← l2.addTransition oldLastState newLastState Input.epsilon
    let l4 ← l3.addTransition oldEntryState newLastState Input.epsilon
    pure { self with layout := l4 }

/-- Body of the `for` loop of `NFA::computeEpsilonClosure` for one destination `s`, over the
sparse store; the pair is (`epsilonClosure`, `reachableStates`), the latter with its back at
the head of the list. -/
def mapClosureScan (l : MapLayout) (state : Nat) (acc : List Nat × List Nat)
    (s : Nat) : Except Error (List Nat × List Nat) := do
  let t ← l.getTransition state s
  if t = Input.epsilon then pure (acc.1 ++ [s], s :: acc.2) else pure acc

/-- The `while` loop of `NFA::computeEpsilonClosure` over the sparse store. -/
def mapClosureLoop (nfa : MapNFA) : Nat → List Nat → List Nat → Except Error (List Nat)
  | _, [], closure => .ok closure
  | 0, _ :: _, _ => .error .outOfFuel
  | fuel + 1, state :: rest, closure => do
    let r ← (List.range nfa.layout.getStateCount).foldlM (mapClosureScan nfa.layout state)
      (closure, rest)
    mapClosureLoop nfa fuel r.2 r.1

/-- Method `NFA::computeEpsilonClosure` of `NFA<MapLayout>`; `fuel` bounds the number of
states popped. -/
def MapNFA.computeEpsilonClosure (nfa : MapNFA) (fuel : Nat) (reachableStates : List Nat) :
    Except Error (List Nat) :=
  if nfa.possibleInputs.length = 0 then .ok []
  else mapClosureLoop nfa fuel reachableStates.reverse reachableStates

/-- Body of the loop over `nfa.getPossibleInputs()` in `DFA::buildFrom` for one `input`, for an
automaton over the sparse store (`NFALayout = MapLayout`): `nfa.makeTransition` is the native
`MapLayout::makeTransition`. -/
def mapBuildStep (nfa : MapNFA) (fuel : Nat) (currentState : Nat) (st : BuildState)
    (input : Int) : Except Error BuildState := do
  let origin ← match st.mappedDfaStates.get? currentState with
    | some o => pure o
    | Option.none => throw Error.undefinedBehaviour
  let newState ← nfa.computeEpsilonClosure fuel (← nfa.layout.makeTransition origin input)
  if !newState.isEmpty then
    let newStateIdIterator := st.mappedDfaStates.indexOf newState
    if newStateIdIterator = st.mappedDfaStates.length then
      let l1 := st.dfa.layout.addState
      let newStateId := sizePred l1.getStateCount
      let l2 ← l1.addTransition currentState newStateId input
      pure { dfa := { st.dfa with layout := l2 },
             mappedDfaStates := st.mappedDfaStates ++ [newState],
             dfaStates := newStateId :: st.dfaStates }
    else
      let newStateId := newStateIdIterator
      let l2 ← st.dfa.layout.addTransition currentState newStateId input
      pure { st with dfa := { st.dfa with layout := l2 } }
  else pure st

/-- The `while (!dfaStates.empty())` loop of `DFA::buildFrom` for an automaton over the sparse
store. -/
def mapBuildLoop (nfa : MapNFA) (closureFuel : Nat) : Nat → BuildState → Except Error DFA
  | fuel, st =>
    match st.dfaStates with
    | [] => .ok st.dfa
    | currentState :: rest =>
      match fuel with
      | 0 => .error .outOfFuel
      | fuel + 1 => do
        let mapped ← match st.mappedDfaStates.get? currentState with
          | some o => pure o
          | Option.none => throw Error.undefinedBehaviour
        let finalStates :=
          if sizePred nfa.layout.getStateCount ∈ mapped then
            st.dfa.finalStates ++ [currentState]
          else st.dfa.finalStates
        let st1 : BuildState :=
          { st with dfa := { st.dfa with finalStates := finalStates }, dfaStates := rest }
        let st2 ← nfa.possibleInputs.foldlM (mapBuildStep nfa closureFuel currentState) st1
        mapBuildLoop nfa closureFuel fuel st2

/-- Method `DFA::buildFrom` of `DFA<MatrixLayout>` for an automaton over the sparse store. -/
def DFA.buildFromMap (self : DFA) (nfa : MapNFA) (fuel : Nat) : Except Error DFA := do
  let currentClosure ← nfa.computeEpsilonClosure fuel [nfa.entryState]
  let self1 : DFA := { self with entryState := 0, layout := self.layout.addState }
  mapBuildLoop nfa fuel fuel ⟨self1, [currentClosure], [0]⟩

/-- Constructor `DFA(const NFA<MapLayout>&)`: `buildFrom` on a default-constructed DFA. -/
def DFA.ofMapNFA (nfa : MapNFA) (fuel : Nat) : Except Error DFA := DFA.empty.buildFromMap nfa fuel

/-! ## Semantic view of an NFA over the sparse store -/

/-- The dense store that holds, for every pair of states, the label that
`MapLayout::getTransition` reports. -/
def MapLayout.toMatrix (m : MapLayout) : MatrixLayout :=
  ⟨(List.range m.getStateCount).map fun i =>
    (List.range m.getStateCount).map fun j => mapCell m i j⟩

/-- The automaton over the dense store with the labels that `getTransition` reports. -/
def MapNFA.toDense (nfa : MapNFA) : NFA :=
  ⟨nfa.layout.toMatrix, nfa.entryState, nfa.possibleInputs⟩

/-- An epsilon entry of the sparse store between two states of the automaton. -/
def MapEpsStep (nfa : MapNFA) (p q : Nat) : Prop :=
  p < nfa.layout.getStateCount ∧ q < nfa.layout.getStateCount ∧
    (Input.epsilon, q) ∈ nfa.layout.internalMap.getD p []

/-- Every multimap of the store lists its entries by ascending key (the order of iteration of
a `std::multimap`). -/
def MapLayout.Sorted (m : MapLayout) : Prop :=
  ∀ map ∈ m.internalMap, map.Pairwise (fun a b => a.1 ≤ b.1)

/-- No ordered pair of states that carries an `epsilon` entry carries an entry with a smaller
key as well; among the labels that `addTransition` accepts the only smaller key is `any`. -/
def MapLayout.EpsFirst (m : MapLayout) : Prop :=
  ∀ map ∈ m.internalMap, ∀ e ∈ map, ∀ e1 ∈ map,
    e.1 = Input.epsilon → e1.2 = e.2 → Input.epsilon ≤ e1.1

/-! ## Basic facts about `Except` and the layout methods -/

@[simp] theorem bind_ok {α β : Type} (a : α) (f : α → Except Error β) :
    (Except.ok a >>= f) = f a := rfl
@[simp] theorem bind_error {α β : Type} (e : Error) (f : α → Except Error β) :
    ((Except.error e : Except Error α) >>= f) = Except.error e := rfl
@[simp] theorem pure_eq_ok {α : Type} (a : α) : (pure a : Except Error α) = Except.ok a := rfl

theorem WF.row_length {m : MatrixLayout} (h : m.WF) {i : Nat} (hi : i < m.getStateCount) :
    m.getStateCount ≤ (m.container.getD i []).length := by
  apply h
  unfold MatrixLayout.getStateCount at hi
  rw [List.getD_eq_getElem _ _ hi]
  exact List.getElem_mem _

theorem getTransition_eq {m : MatrixLayout} (h : m.WF) {i j : Nat} (hi : i < m.getStateCount)
    (hj : j < m.getStateCount) : m.getTransition i j = .ok (cell m i j) := by
  have := WF.row_length h hi
  unfold MatrixLayout.getTransition
  have h2 : j < (m.container.getD i []).length := by omega
  rw [if_pos ⟨hi, hj⟩, if_pos h2]
  rfl

theorem addTransition_eq {m : MatrixLayout} (h : m.WF) {i j : Nat} {x : Int}
    (hi : i < m.getStateCount) (hj : j < m.getStateCount)
    (hx : 0 ≤ x ∨ x = Input.epsilon ∨ x = Input.any) :
    m.addTransition i j x = .ok (setCell m i j x) := by
  have := WF.row_length h hi
  unfold MatrixLayout.addTransition
  have h2 : j < (m.container.getD i []).length := by omega
  rw [if_pos ⟨hi, hj, hx⟩, if_pos h2]
  rfl

@[simp] theorem setCell_count (m : MatrixLayout) (i j : Nat) (x : Int) :
    (setCell m i j x).getStateCount = m.getStateCount := by
  simp [setCell, MatrixLayout.getStateCount]

theorem setCell_WF {m : MatrixLayout} (h : m.WF) (i j : Nat) (x : Int) :
    (setCell m i j x).WF := by
  by_cases hi : i < m.getStateCount
  · intro row hrow
    rw [setCell_count]
    simp only [setCell] at hrow
    rcases List.mem_or_eq_of_mem_set hrow with h1 | h1
    · exact h row h1
    · subst h1
      rw [List.length_set]
      exact WF.row_length h hi
  · have : setCell m i j x = m := by
      unfold MatrixLayout.getStateCount at hi
      simp only [setCell]
      rw [List.set_eq_of_length_le (by omega)]
    rw [this]
    exact h

theorem setCell_cell (m : MatrixLayout) {i j : Nat} (x : Int)
    (hi : i < m.getStateCount) (hj : j < (m.container.getD i []).length) (a b : Nat) :
    cell (setCell m i j x) a b = if a = i ∧ b = j then x else cell m a b := by
  unfold MatrixLayout.getStateCount at hi
  simp only [cell, setCell]
  by_cases ha : a = i
  · subst ha
    simp [List.getD_eq_getElem?_getD, List.getElem?_set, hi]
    by_cases hb : b = j
    · subst hb
      simp [hi] at hj
      simp [hj]
    · simp [hb, Ne.symm hb]
  · simp [List.getD_eq_getElem?_getD, List.getElem?_set, ha, Ne.symm ha]

@[simp] theorem addState_count (m : MatrixLayout) :
    m.addState.getStateCount = m.getStateCount + 1 := by
  simp [MatrixLayout.addState, MatrixLayout.getStateCount]

theorem addState_WF {m : MatrixLayout} (h : m.WF) : m.addState.WF := by
  intro row hrow
  rw [addState_count]
  simp only [MatrixLayout.addState, List.mem_append, List.mem_map, List.mem_singleton] at hrow
  rcases hrow with ⟨r, hr, rfl⟩ | rfl
  · have := h r hr
    simp
    omega
  · simp

theorem getD_append_zero (row : List Int) (j : Nat) :
    (row ++ [0]).getD j 0 = row.getD j 0 := by
  rcases Nat.lt_or_ge j row.length with h | h
  · rw [List.getD_append _ _ _ _ h]
  · rw [List.getD_append_right _ _ _ _ h, List.getD_eq_default _ _ h]
    cases j - row.length <;> rfl

theorem getD_replicate_zero (n j : Nat) : (List.replicate n (0 : Int)).getD j 0 = 0 := by
  rcases Nat.lt_or_ge j n with h | h
  · rw [List.getD_eq_getElem _ _ (by simpa using h)]; simp
  · rw [List.getD_eq_default _ _ (by simpa using h)]

theorem getD_map_append_lt {α : Type} (l : List α) (f : α → α) (e : List α) (d : α) {i : Nat}
    (hi : i < l.length) : (l.map f ++ e).getD i d = f (l.getD i d) := by
  rw [List.getD_append _ _ _ _ (by simpa using hi)]
  rw [List.getD_eq_getElem _ _ (by simpa using hi), List.getD_eq_getElem _ _ hi]
  simp

theorem getD_map_append_ge {α : Type} (l : List α) (f : α → α) (e : List α) (d : α) {i : Nat}
    (hi : l.length ≤ i) : (l.map f ++ e).getD i d = e.getD (i - l.length) d := by
  rw [List.getD_append_right _ _ _ _ (by simpa using hi)]
  simp

theorem getD_map_lt {α : Type} (l : List α) (f : α → α) (d : α) {i : Nat}
    (hi : i < l.length) : (l.map f).getD i d = f (l.getD i d) := by
  rw [List.getD_eq_getElem _ _ (by simpa using hi), List.getD_eq_getElem _ _ hi]
  simp

theorem getD_map_ge {α : Type} (l : List α) (f : α → α) (d : α) {i : Nat}
    (hi : l.length ≤ i) : (l.map f).getD i d = d := by
  rw [List.getD_eq_default _ _ (by simpa using hi)]

theorem getD_take {α : Type} (l : List α) (d : α) (k i : Nat) :
    (l.take k).getD i d = if i < k then l.getD i d else d := by
  simp only [List.getD_eq_getElem?_getD, List.getElem?_take]
  split <;> rfl

@[simp] theorem addState_cell (m : MatrixLayout) (i j : Nat) :
    cell m.addState i j = cell m i j := by
  simp only [cell, MatrixLayout.addState, MatrixLayout.getStateCount]
  rcases Nat.lt_or_ge i m.container.length with hi | hi
  · rw [getD_map_append_lt _ _ _ _ hi]
    exact getD_append_zero _ _
  · rw [getD_map_append_ge _ _ _ _ hi, List.getD_eq_default m.container _ hi]
    cases i - m.container.length with
    | zero => simp [getD_replicate_zero]
    | succ k => simp

theorem removeLastState_eq {m : MatrixLayout} (h : 0 < m.getStateCount) :
    m.removeLastState = .ok (popState m) := by
  unfold MatrixLayout.removeLastState
  have : m.container.isEmpty = false := by
    unfold MatrixLayout.getStateCount at h
    cases hc : m.container with
    | nil => rw [hc] at h; simp at h
    | cons a l => rfl
  simp [this, popState]

@[simp] theorem popState_count (m : MatrixLayout) :
    (popState m).getStateCount = m.getStateCount - 1 := by
  simp [popState, MatrixLayout.getStateCount]

theorem popState_WF {m : MatrixLayout} (h : m.WF) : (popState m).WF := by
  intro row hrow
  rw [popState_count]
  have := h row (List.mem_of_mem_dropLast hrow)
  omega

theorem popState_cell (m : MatrixLayout) (i j : Nat) :
    cell (popState m) i j = if i < m.getStateCount - 1 then cell m i j else 0 := by
  simp only [cell, popState, MatrixLayout.getStateCount]
  rw [List.dropLast_eq_take, getD_take]
  split <;> rfl

@[simp] theorem resizeRow_length (n : Nat) (row : List Int) : (resizeRow n row).length = n := by
  simp only [resizeRow, List.length_append, List.length_take, List.length_replicate]
  omega

theorem resizeRow_getD (n : Nat) (row : List Int) (j : Nat) :
    (resizeRow n row).getD j 0 = if j < n then row.getD j 0 else 0 := by
  unfold resizeRow
  rcases Nat.lt_or_ge j (row.take n).length with h | h
  · rw [List.getD_append _ _ _ _ h, getD_take]
  · rw [List.getD_append_right _ _ _ _ h, getD_replicate_zero]
    simp at h
    split
    · rename_i h1
      rw [List.getD_eq_default _ _ (by omega)]
    · rfl

@[simp] theorem appendStates_count (m o : MatrixLayout) :
    (m.appendStates o).getStateCount = m.getStateCount + o.getStateCount := by
  simp [MatrixLayout.appendStates, MatrixLayout.getStateCount]

theorem appendStates_WF (m o : MatrixLayout) : (m.appendStates o).WF := by
  intro row hrow
  rw [appendStates_count]
  simp only [MatrixLayout.appendStates, List.mem_append, List.mem_map] at hrow
  rcases hrow with ⟨r, _, rfl⟩ | ⟨r, _, rfl⟩ <;> simp

theorem appendStates_cell (m o : MatrixLayout) (i j : Nat) :
    cell (m.appendStates o) i j =
      if i < m.getStateCount then
        (if j < m.getStateCount + o.getStateCount then cell m i j else 0)
      else if m.getStateCount ≤ j ∧ j < m.getStateCount + o.getStateCount then
        cell o (i - m.getStateCount) (j - m.getStateCount)
      else 0 := by
  simp only [cell, MatrixLayout.appendStates, MatrixLayout.getStateCount]
  rcases Nat.lt_or_ge i m.container.length with hi | hi
  · rw [getD_map_append_lt _ _ _ _ hi, resizeRow_getD, if_pos hi]
  · rw [getD_map_append_ge _ _ _ _ hi, if_neg (by omega)]
    rcases Nat.lt_or_ge (i - m.container.length) o.container.length with h2 | h2
    · rw [getD_map_lt _ _ _ h2, resizeRow_getD]
      by_cases hj : j < m.container.length + o.container.length
      · rw [if_pos hj]
        rcases Nat.lt_or_ge j m.container.length with h3 | h3
        · rw [List.getD_append _ _ _ _ (by simpa using h3), getD_replicate_zero,
            if_neg (by omega)]
        · rw [List.getD_append_right _ _ _ _ (by simpa using h3), if_pos ⟨h3, hj⟩]
          simp
      · rw [if_neg hj, if_neg (by omega)]
    · rw [getD_map_ge _ _ _ h2, List.getD_eq_default o.container _ h2]
      simp

theorem appendStates_tight (m o : MatrixLayout) : (m.appendStates o).Tight := by
  intro row hrow
  rw [appendStates_count]
  simp only [MatrixLayout.appendStates, List.mem_append, List.mem_map] at hrow
  rcases hrow with ⟨r, _, rfl⟩ | ⟨r, _, rfl⟩ <;> simp

theorem fits_iff_all (m o : MatrixLayout) :
    o.container.all
        (fun row => decide (m.getStateCount + row.length ≤ m.getStateCount + o.getStateCount)) =
      true ↔ o.Fits := by
  simp only [List.all_eq_true, decide_eq_true_eq, MatrixLayout.Fits]
  constructor
  · intro h row hrow
    have := h row hrow
    omega
  · intro h row hrow
    have := h row hrow
    omega

theorem resizeRow_fit (n k : Nat) (row : List Int) (h : n + row.length ≤ k) :
    resizeRow k (List.replicate n 0 ++ row) =
      List.replicate n 0 ++ row ++ List.replicate (k - (n + row.length)) 0 := by
  unfold resizeRow
  rw [List.take_of_length_le (by simp; omega)]
  simp

/-- A call `addStatesOf(o)` with an argument that fits returns the appended layout. -/
theorem addStatesOf_eq (m : MatrixLayout) {o : MatrixLayout} (h : o.Fits) :
    m.addStatesOf o = .ok (m.appendStates o) := by
  unfold MatrixLayout.addStatesOf
  simp only []
  rw [if_pos ((fits_iff_all m o).mpr h)]
  unfold MatrixLayout.appendStates
  congr 3
  apply List.map_congr_left
  intro row hrow
  exact (resizeRow_fit _ _ _ (by have := h row hrow; omega)).symm

/-- A call `addStatesOf(o)` with a row of `o` longer than the state count of `o` writes past
the end of a row. -/
theorem addStatesOf_overflow (m : MatrixLayout) {o : MatrixLayout} (h : ¬ o.Fits) :
    m.addStatesOf o = .error .undefinedBehaviour := by
  unfold MatrixLayout.addStatesOf
  simp only []
  rw [if_neg (fun hc => h ((fits_iff_all m o).mp hc))]

theorem addStatesOf_ok {m o r : MatrixLayout} (h : m.addStatesOf o = .ok r) :
    o.Fits ∧ r = m.appendStates o := by
  by_cases hf : o.Fits
  · rw [addStatesOf_eq m hf] at h
    exact ⟨hf, (Except.ok.inj h).symm⟩
  · rw [addStatesOf_overflow m hf] at h
    cases h

theorem fits_of_tight {m : MatrixLayout} (h : m.Tight) : m.Fits :=
  fun row hrow => Nat.le_of_eq (h row hrow)

theorem wf_of_tight {m : MatrixLayout} (h : m.Tight) : m.WF :=
  fun row hrow => Nat.le_of_eq (h row hrow).symm

theorem appendStates_fits (m o : MatrixLayout) : (m.appendStates o).Fits :=
  fits_of_tight (appendStates_tight m o)

theorem addState_fits {m : MatrixLayout} (h : m.Fits) : m.addState.Fits := by
  intro row hrow
  simp only [MatrixLayout.addState, List.mem_append, List.mem_map, List.mem_singleton] at hrow
  have hc : m.addState.getStateCount = m.getStateCount + 1 := by
    simp [MatrixLayout.addState, MatrixLayout.getStateCount]
  rw [hc]
  rcases hrow with ⟨r, hr, rfl⟩ | rfl
  · have := h r hr
    simp
    omega
  · simp [MatrixLayout.getStateCount]

theorem setCell_fits {m : MatrixLayout} (h : m.Fits) (i j : Nat) (x : Int) :
    (setCell m i j x).Fits := by
  intro row hrow
  have hc : (setCell m i j x).getStateCount = m.getStateCount := by
    simp [setCell, MatrixLayout.getStateCount]
  rw [hc]
  simp only [setCell] at hrow
  rcases List.mem_or_eq_of_mem_set hrow with h1 | h1
  · exact h row h1
  · rw [h1, List.length_set]
    by_cases hi : i < m.container.length
    · rw [List.getD_eq_getElem _ _ hi]
      exact h _ (List.getElem_mem _)
    · rw [List.getD_eq_default _ _ (by omega)]
      simp

theorem bind_eq_ok {α β : Type} {x : Except Error α} {f : α → Except Error β} {r : β}
    (h : (x >>= f) = .ok r) : ∃ a, x = .ok a ∧ f a = .ok r := by
  cases x with
  | error e => cases h
  | ok a => exact ⟨a, rfl, h⟩

theorem addTransition_ok {m r : MatrixLayout} {i j : Nat} {x : Int}
    (h : m.addTransition i j x = .ok r) :
    r = setCell m i j x ∧ i < m.getStateCount ∧ j < m.getStateCount := by
  unfold MatrixLayout.addTransition at h
  split_ifs at h with h1 h2
  cases h
  exact ⟨rfl, h1.1, h1.2.1⟩

theorem removeLastState_ok {m r : MatrixLayout} (h : m.removeLastState = .ok r) :
    r = popState m := by
  unfold MatrixLayout.removeLastState at h
  split_ifs at h
  cases h
  rfl

/-! ## The epsilon closure -/

theorem closureScan_fold {l : MatrixLayout} (hwf : l.WF) {state : Nat}
    (hs : state < l.getStateCount) :
    ∀ (L : List Nat), (∀ s ∈ L, s < l.getStateCount) → ∀ (cl st : List Nat),
      L.foldlM (closureScan l state) (cl, st) =
        .ok (cl ++ L.filter (fun s => decide (cell l state s = Input.epsilon)),
          (L.filter (fun s => decide (cell l state s = Input.epsilon))).reverse ++ st) := by
  intro L
  induction L with
  | nil => intro _ cl st; simp
  | cons a L ih =>
    intro hL cl st
    have ha : a < l.getStateCount := hL a (List.mem_cons_self _ _)
    have hL1 : ∀ s ∈ L, s < l.getStateCount := fun s h => hL s (List.mem_cons_of_mem _ h)
    rw [List.foldlM_cons]
    by_cases hc : cell l state a = Input.epsilon
    · simp only [closureScan, getTransition_eq hwf hs ha, bind_ok, hc, if_true, pure_eq_ok]
      rw [ih hL1]
      simp [List.filter_cons, hc]
    · simp only [closureScan, getTransition_eq hwf hs ha, bind_ok, hc, if_false, pure_eq_ok]
      rw [ih hL1]
      simp [List.filter_cons, hc]

theorem mem_epsSuccs {nfa : NFA} {p q : Nat} (hp : p < nfa.layout.getStateCount) :
    q ∈ epsSuccs nfa p ↔ EpsStep nfa p q := by
  simp [epsSuccs, EpsStep, hp]

theorem closureLoop_succ {nfa : NFA} (hwf : nfa.layout.WF) {state : Nat}
    (hs : state < nfa.layout.getStateCount) (fuel : Nat) (rest cl : List Nat) :
    closureLoop nfa (fuel + 1) (state :: rest) cl =
      closureLoop nfa fuel ((epsSuccs nfa state).reverse ++ rest) (cl ++ epsSuccs nfa state) := by
  rw [closureLoop, closureScan_fold hwf hs _ (fun s h => List.mem_range.mp h)]
  rfl

theorem closureLoop_nil (nfa : NFA) (fuel : Nat) (cl : List Nat) :
    closureLoop nfa fuel [] cl = .ok cl := by
  cases fuel <;> rfl

theorem closureLoop_mono_succ {nfa : NFA} (hwf : nfa.layout.WF) :
    ∀ (fuel : Nat) (stack cl R : List Nat), (∀ p ∈ stack, p < nfa.layout.getStateCount) →
      closureLoop nfa fuel stack cl = .ok R → closureLoop nfa (fuel + 1) stack cl = .ok R := by
  intro fuel
  induction fuel with
  | zero =>
    intro stack cl R _ h
    cases stack with
    | nil => rw [closureLoop_nil] at h ⊢; exact h
    | cons a t => simp [closureLoop] at h
  | succ f ih =>
    intro stack cl R hv h
    cases stack with
    | nil => rw [closureLoop_nil] at h ⊢; exact h
    | cons a t =>
      have ha := hv a (List.mem_cons_self _ _)
      rw [closureLoop_succ hwf ha] at h ⊢
      apply ih _ _ _ _ h
      intro p hp
      rcases List.mem_append.mp hp with h1 | h1
      · exact ((mem_epsSuccs ha).mp (List.mem_reverse.mp h1)).2.1
      · exact hv p (List.mem_cons_of_mem _ h1)

theorem closureLoop_mono {nfa : NFA} (hwf : nfa.layout.WF) {fuel fuel1 : Nat}
    {stack cl R : List Nat} (hv : ∀ p ∈ stack, p < nfa.layout.getStateCount)
    (h : closureLoop nfa fuel stack cl = .ok R) (hle : fuel ≤ fuel1) :
    closureLoop nfa fuel1 stack cl = .ok R := by
  induction hle with
  | refl => exact h
  | step _ ih => exact closureLoop_mono_succ hwf _ _ _ _ hv ih

theorem closureLoop_mem {nfa : NFA} (hwf : nfa.layout.WF) :
    ∀ (fuel : Nat) (stack cl R : List Nat), (∀ p ∈ stack, p < nfa.layout.getStateCount) →
      closureLoop nfa fuel stack cl = .ok R →
      ∀ q, q ∈ R ↔ q ∈ cl ∨ ∃ p ∈ stack, Relation.TransGen (EpsStep nfa) p q := by
  intro fuel
  induction fuel with
  | zero =>
    intro stack cl R _ h q
    cases stack with
    | nil => rw [closureLoop_nil] at h; cases h; simp
    | cons a t => simp [closureLoop] at h
  | succ f ih =>
    intro stack cl R hv h q
    cases stack with
    | nil => rw [closureLoop_nil] at h; cases h; simp
    | cons a t =>
      have ha := hv a (List.mem_cons_self _ _)
      rw [closureLoop_succ hwf ha] at h
      have hv1 : ∀ p ∈ (epsSuccs nfa a).reverse ++ t, p < nfa.layout.getStateCount := by
        intro p hp
        rcases List.mem_append.mp hp with h1 | h1
        · exact ((mem_epsSuccs ha).mp (List.mem_reverse.mp h1)).2.1
        · exact hv p (List.mem_cons_of_mem _ h1)
      rw [ih _ _ _ hv1 h q]
      constructor
      · rintro (h1 | ⟨p, hp, hpq⟩)
        · rcases List.mem_append.mp h1 with h2 | h2
          · exact Or.inl h2
          · exact Or.inr ⟨a, List.mem_cons_self _ _,
              Relation.TransGen.single ((mem_epsSuccs ha).mp h2)⟩
        · rcases List.mem_append.mp hp with h2 | h2
          · exact Or.inr ⟨a, List.mem_cons_self _ _,
              Relation.TransGen.head ((mem_epsSuccs ha).mp (List.mem_reverse.mp h2)) hpq⟩
          · exact Or.inr ⟨p, List.mem_cons_of_mem _ h2, hpq⟩
      · rintro (h1 | ⟨p, hp, hpq⟩)
        · exact Or.inl (List.mem_append_left _ h1)
        · rcases List.mem_cons.mp hp with rfl | h2
          · rcases Relation.TransGen.head'_iff.mp hpq with ⟨b, hpb, hbq⟩
            rcases Relation.reflTransGen_iff_eq_or_transGen.mp hbq with rfl | h3
            · exact Or.inl (List.mem_append_right _ ((mem_epsSuccs ha).mpr hpb))
            · exact Or.inr ⟨b, List.mem_append_left _
                (List.mem_reverse.mpr ((mem_epsSuccs ha).mpr hpb)), h3⟩
          · exact Or.inr ⟨p, List.mem_append_right _ h2, hpq⟩

theorem closureLoop_append {nfa : NFA} (hwf : nfa.layout.WF) :
    ∀ (f1 f2 : Nat) (A B cl R1 R2 : List Nat),
      (∀ p ∈ A, p < nfa.layout.getStateCount) → (∀ p ∈ B, p < nfa.layout.getStateCount) →
      closureLoop nfa f1 A cl = .ok R1 → closureLoop nfa f2 B R1 = .ok R2 →
      closureLoop nfa (f1 + f2) (A ++ B) cl = .ok R2 := by
  intro f1
  induction f1 with
  | zero =>
    intro f2 A B cl R1 R2 _ hB h1 h2
    cases A with
    | nil =>
      rw [closureLoop_nil] at h1; cases h1
      simpa using h2
    | cons a t => simp [closureLoop] at h1
  | succ f ih =>
    intro f2 A B cl R1 R2 hA hB h1 h2
    cases A with
    | nil =>
      rw [closureLoop_nil] at h1; cases h1
      exact closureLoop_mono hwf hB h2 (by omega)
    | cons a t =>
      have ha := hA a (List.mem_cons_self _ _)
      rw [closureLoop_succ hwf ha] at h1
      have : f + 1 + f2 = (f + f2) + 1 := by omega
      rw [this, List.cons_append, closureLoop_succ hwf ha, ← List.append_assoc]
      apply ih f2 _ B _ R1 R2 _ hB h1 h2
      intro p hp
      rcases List.mem_append.mp hp with h3 | h3
      · exact ((mem_epsSuccs ha).mp (List.mem_reverse.mp h3)).2.1
      · exact hA p (List.mem_cons_of_mem _ h3)

theorem closureLoop_terminates_list {nfa : NFA} (hwf : nfa.layout.WF)
    (P : Nat → Prop)
    (h1 : ∀ p, P p → ∀ cl, ∃ f R, closureLoop nfa f [p] cl = .ok R)
    (hP : ∀ p, P p → p < nfa.layout.getStateCount) :
    ∀ (L : List Nat), (∀ p ∈ L, P p) → ∀ cl, ∃ f R, closureLoop nfa f L cl = .ok R := by
  intro L
  induction L with
  | nil => intro _ cl; exact ⟨0, cl, closureLoop_nil _ _ _⟩
  | cons a t ih =>
    intro hL cl
    obtain ⟨f1, R1, hR1⟩ := h1 a (hL a (List.mem_cons_self _ _)) cl
    obtain ⟨f2, R2, hR2⟩ := ih (fun p hp => hL p (List.mem_cons_of_mem _ hp)) R1
    refine ⟨f1 + f2, R2, ?_⟩
    have := closureLoop_append hwf f1 f2 [a] t cl R1 R2
      (fun p hp => by
        rw [List.mem_singleton] at hp; subst hp
        exact hP _ (hL _ (List.mem_cons_self _ _)))
      (fun p hp => hP p (hL p (List.mem_cons_of_mem _ hp))) hR1 hR2
    simpa using this

theorem closureLoop_terminates {nfa : NFA} (hwf : nfa.layout.WF) (hac : EpsAcyclic nfa) :
    ∀ (L : List Nat), (∀ p ∈ L, p < nfa.layout.getStateCount) →
      ∀ cl, ∃ f R, closureLoop nfa f L cl = .ok R := by
  obtain ⟨rank, hrank⟩ := hac
  have key : ∀ r p, rank p = r → p < nfa.layout.getStateCount →
      ∀ cl, ∃ f R, closureLoop nfa f [p] cl = .ok R := by
    intro r
    induction r using Nat.strong_induction_on with
    | _ r ih =>
      intro p hp hv cl
      have hsucc := closureLoop_terminates_list hwf
        (fun q => q < nfa.layout.getStateCount ∧ rank q < r)
        (fun q hq cl => ih (rank q) hq.2 q rfl hq.1 cl) (fun q hq => hq.1)
        (epsSuccs nfa p).reverse
        (fun q hq => by
          have := (mem_epsSuccs hv).mp (List.mem_reverse.mp hq)
          exact ⟨this.2.1, hp ▸ hrank _ _ this⟩)
        (cl ++ epsSuccs nfa p)
      obtain ⟨f, R, hR⟩ := hsucc
      refine ⟨f + 1, R, ?_⟩
      rw [closureLoop_succ hwf hv]
      simpa using hR
  exact closureLoop_terminates_list hwf (fun p => p < nfa.layout.getStateCount)
    (fun p hp cl => key (rank p) p rfl hp cl) (fun _ hp => hp)

/-! ## `makeTransition` -/

theorem makeTransitionStep_eq {l : MatrixLayout} (hwf : l.WF) {state s : Nat}
    (hs : state < l.getStateCount) (hs1 : s < l.getStateCount) (c : Int)
    (acc : List Nat) :
    makeTransitionStep l c state acc s =
      .ok (if (cell l state s = c ∨ cell l state s = Input.any) ∧ s ∉ acc then acc ++ [s]
        else acc) := by
  simp only [makeTransitionStep, getTransition_eq hwf hs hs1, bind_ok, pure_eq_ok]
  congr 1
  by_cases h3 : s ∈ acc
  · simp [h3]
  · by_cases h1 : cell l state s = c
    · simp [h1, h3]
    · have e1 : (if cell l state s = c ∧ s ∉ acc then acc ++ [s] else acc) = acc :=
        if_neg (fun h => h1 h.1)
      rw [e1]
      by_cases h2 : cell l state s = Input.any
      · rw [if_pos ⟨h2, h3⟩, if_pos ⟨Or.inr h2, h3⟩]
      · rw [if_neg (fun h => h2 h.1), if_neg]
        rintro ⟨h4 | h4, _⟩
        · exact h1 h4
        · exact h2 h4

theorem makeTransitionStep_fold {l : MatrixLayout} (hwf : l.WF) {state : Nat}
    (hs : state < l.getStateCount) (c : Int) :
    ∀ (L : List Nat), (∀ s ∈ L, s < l.getStateCount) → ∀ (acc : List Nat),
      ∃ R, L.foldlM (makeTransitionStep l c state) acc = .ok R ∧
        ∀ q, q ∈ R ↔ q ∈ acc ∨
          (q ∈ L ∧ (cell l state q = c ∨ cell l state q = Input.any)) := by
  intro L
  induction L with
  | nil => intro _ acc; exact ⟨acc, rfl, by simp⟩
  | cons a L ih =>
    intro hL acc
    have ha : a < l.getStateCount := hL a (List.mem_cons_self _ _)
    have hL1 : ∀ s ∈ L, s < l.getStateCount := fun s h => hL s (List.mem_cons_of_mem _ h)
    rw [List.foldlM_cons, makeTransitionStep_eq hwf hs ha, bind_ok]
    obtain ⟨R, hR, hmem⟩ := ih hL1
      (if (cell l state a = c ∨ cell l state a = Input.any) ∧ a ∉ acc then acc ++ [a] else acc)
    refine ⟨R, hR, fun q => ?_⟩
    rw [hmem q]
    by_cases h1 : (cell l state a = c ∨ cell l state a = Input.any) ∧ a ∉ acc
    · rw [if_pos h1]
      simp only [List.mem_append, List.mem_cons, List.not_mem_nil, or_false]
      constructor
      · rintro ((h | rfl) | ⟨h, h2⟩)
        · exact Or.inl h
        · exact Or.inr ⟨Or.inl rfl, h1.1⟩
        · exact Or.inr ⟨Or.inr h, h2⟩
      · rintro (h | ⟨rfl | h, h2⟩)
        · exact Or.inl (Or.inl h)
        · exact Or.inl (Or.inr rfl)
        · exact Or.inr ⟨h, h2⟩
    · rw [if_neg h1]
      simp only [List.mem_cons]
      constructor
      · rintro (h | ⟨h, h2⟩)
        · exact Or.inl h
        · exact Or.inr ⟨Or.inr h, h2⟩
      · rintro (h | ⟨rfl | h, h2⟩)
        · exact Or.inl h
        · left
          by_contra hq
          exact h1 ⟨h2, hq⟩
        · exact Or.inr ⟨h, h2⟩

theorem makeTransition_fold {l : MatrixLayout} (hwf : l.WF) (c : Int) :
    ∀ (origin : List Nat), (∀ p ∈ origin, p < l.getStateCount) → ∀ (acc : List Nat),
      ∃ R, origin.foldlM (fun acc state =>
          (List.range l.getStateCount).foldlM (makeTransitionStep l c state) acc) acc = .ok R ∧
        ∀ q, q ∈ R ↔ q ∈ acc ∨ ∃ p ∈ origin, q < l.getStateCount ∧
          (cell l p q = c ∨ cell l p q = Input.any) := by
  intro origin
  induction origin with
  | nil => intro _ acc; exact ⟨acc, rfl, by simp⟩
  | cons a t ih =>
    intro hv acc
    have ha := hv a (List.mem_cons_self _ _)
    obtain ⟨R1, hR1, hm1⟩ := makeTransitionStep_fold hwf ha c (List.range l.getStateCount)
      (fun s h => List.mem_range.mp h) acc
    obtain ⟨R, hR, hm⟩ := ih (fun p hp => hv p (List.mem_cons_of_mem _ hp)) R1
    refine ⟨R, ?_, fun q => ?_⟩
    · rw [List.foldlM_cons, hR1, bind_ok, hR]
    · rw [hm q, hm1 q]
      simp only [List.mem_range, List.mem_cons, exists_eq_or_imp]
      constructor
      · rintro ((h | h) | h)
        · exact Or.inl h
        · exact Or.inr (Or.inl h)
        · exact Or.inr (Or.inr h)
      · rintro (h | h | h)
        · exact Or.inl (Or.inl h)
        · exact Or.inl (Or.inr h)
        · exact Or.inr h

theorem makeTransition_spec {l : MatrixLayout} (hwf : l.WF) (c : Int)
    {origin : List Nat} (hv : ∀ p ∈ origin, p < l.getStateCount) :
    ∃ R, l.makeTransition origin c = .ok R ∧
      ∀ q, q ∈ R ↔ ∃ p ∈ origin, q < l.getStateCount ∧
        (cell l p q = c ∨ cell l p q = Input.any) := by
  obtain ⟨R, hR, hm⟩ := makeTransition_fold hwf c origin hv []
  exact ⟨R, hR, fun q => by simpa using hm q⟩

/-! ## `computeEpsilonClosure` and `simulate` -/

theorem computeEpsilonClosure_mem {nfa : NFA} (hwf : nfa.layout.WF)
    (hin : nfa.possibleInputs ≠ []) {fuel : Nat} {S R : List Nat}
    (hv : ∀ p ∈ S, p < nfa.layout.getStateCount)
    (h : nfa.computeEpsilonClosure fuel S = .ok R) (q : Nat) :
    q ∈ R ↔ ∃ p ∈ S, Relation.ReflTransGen (EpsStep nfa) p q := by
  unfold NFA.computeEpsilonClosure at h
  rw [if_neg (by simpa using hin)] at h
  rw [closureLoop_mem hwf _ _ _ _ (fun p hp => hv p (List.mem_reverse.mp hp)) h q]
  constructor
  · rintro (h1 | ⟨p, hp, hpq⟩)
    · exact ⟨q, h1, Relation.ReflTransGen.refl⟩
    · exact ⟨p, List.mem_reverse.mp hp, hpq.to_reflTransGen⟩
  · rintro ⟨p, hp, hpq⟩
    rcases Relation.reflTransGen_iff_eq_or_transGen.mp hpq with rfl | h3
    · exact Or.inl hp
    · exact Or.inr ⟨p, List.mem_reverse.mpr hp, h3⟩

theorem computeEpsilonClosure_mono {nfa : NFA} (hwf : nfa.layout.WF) {fuel fuel1 : Nat}
    {S R : List Nat} (hv : ∀ p ∈ S, p < nfa.layout.getStateCount)
    (h : nfa.computeEpsilonClosure fuel S = .ok R) (hle : fuel ≤ fuel1) :
    nfa.computeEpsilonClosure fuel1 S = .ok R := by
  unfold NFA.computeEpsilonClosure at h ⊢
  split
  · rename_i h1; rw [if_pos h1] at h; exact h
  · rename_i h1; rw [if_neg h1] at h
    exact closureLoop_mono hwf (fun p hp => hv p (List.mem_reverse.mp hp)) h hle

theorem computeEpsilonClosure_terminates {nfa : NFA} (hwf : nfa.layout.WF)
    (hac : EpsAcyclic nfa) {S : List Nat} (hv : ∀ p ∈ S, p < nfa.layout.getStateCount) :
    ∃ f R, nfa.computeEpsilonClosure f S = .ok R := by
  unfold NFA.computeEpsilonClosure
  split
  · exact ⟨0, [], rfl⟩
  · exact closureLoop_terminates hwf hac _ (fun p hp => hv p (List.mem_reverse.mp hp)) _

theorem epsStep_lt_right {nfa : NFA} {p q : Nat} (h : EpsStep nfa p q) :
    q < nfa.layout.getStateCount := h.2.1

theorem reflTransGen_lt {nfa : NFA} {p q : Nat}
    (h : Relation.ReflTransGen (EpsStep nfa) p q) (hp : p < nfa.layout.getStateCount) :
    q < nfa.layout.getStateCount := by
  induction h with
  | refl => exact hp
  | tail _ hbc _ => exact hbc.2.1

theorem path_of_reflTransGen {nfa : NFA} {p q r : Nat} {s : List Int}
    (h : Relation.ReflTransGen (EpsStep nfa) p q) (hq : Path nfa q s r) : Path nfa p s r := by
  induction h using Relation.ReflTransGen.head_induction_on with
  | refl => exact hq
  | head hab _ ih => exact Path.eps hab ih

theorem path_nil_closed {nfa : NFA} {cur : List Nat}
    (hcl : ∀ p ∈ cur, ∀ q, EpsStep nfa p q → q ∈ cur) {p r : Nat} {s : List Int}
    (h : Path nfa p s r) (hs : s = []) (hp : p ∈ cur) : r ∈ cur := by
  induction h with
  | nil => exact hp
  | eps hst _ ih => exact ih hs (hcl _ hp _ hst)
  | sym _ _ _ => cases hs

theorem path_cons_split {nfa : NFA} {cur : List Nat}
    (hcl : ∀ p ∈ cur, ∀ q, EpsStep nfa p q → q ∈ cur) {p r : Nat} {s : List Int}
    (h : Path nfa p s r) {c : Int} {cs : List Int} (hs : s = c :: cs) (hp : p ∈ cur) :
    ∃ p1 ∈ cur, ∃ q, SymStep nfa c p1 q ∧ Path nfa q cs r := by
  induction h with
  | nil => cases hs
  | eps hst _ ih => exact ih hs (hcl _ hp _ hst)
  | sym hst hq _ =>
    cases hs
    exact ⟨_, hp, _, hst, hq⟩

theorem simulateLoop_sound {nfa : NFA} (hwf : nfa.layout.WF) (hin : nfa.possibleInputs ≠ [])
    (fuel : Nat) :
    ∀ (s : List Int) (cur : List Nat), (∀ p ∈ cur, p < nfa.layout.getStateCount) →
      (∀ p ∈ cur, ∀ q, EpsStep nfa p q → q ∈ cur) → ∀ b, simulateLoop nfa fuel s cur = .ok b →
      (b = true ↔ ∃ p ∈ cur, Path nfa p s (sizePred nfa.layout.getStateCount)) := by
  intro s
  induction s with
  | nil =>
    intro cur _ hcl b h
    simp only [simulateLoop] at h
    cases h
    simp only [decide_eq_true_eq]
    constructor
    · intro h1; exact ⟨_, h1, Path.nil _⟩
    · rintro ⟨p, hp, hpath⟩; exact path_nil_closed hcl hpath rfl hp
  | cons c cs ih =>
    intro cur hv hcl b h
    obtain ⟨next, hnext, hmem⟩ := makeTransition_spec hwf c hv
    have hvn : ∀ p ∈ next, p < nfa.layout.getStateCount := by
      intro p hp
      obtain ⟨_, _, h1, _⟩ := (hmem p).mp hp
      exact h1
    simp only [simulateLoop, hnext, bind_ok] at h
    cases hc : nfa.computeEpsilonClosure fuel next with
    | error e => rw [hc] at h; cases h
    | ok cur1 =>
      rw [hc, bind_ok] at h
      have hm1 := computeEpsilonClosure_mem hwf hin hvn hc
      have hv1 : ∀ p ∈ cur1, p < nfa.layout.getStateCount := by
        intro p hp
        obtain ⟨p0, hp0, hr⟩ := (hm1 p).mp hp
        exact reflTransGen_lt hr (hvn _ hp0)
      have hcl1 : ∀ p ∈ cur1, ∀ q, EpsStep nfa p q → q ∈ cur1 := by
        intro p hp q hpq
        obtain ⟨p0, hp0, hr⟩ := (hm1 p).mp hp
        exact (hm1 q).mpr ⟨p0, hp0, hr.tail hpq⟩
      have hfwd : ∀ q ∈ cur1, ∀ r, Path nfa q cs r → ∃ p ∈ cur, Path nfa p (c :: cs) r := by
        intro q hq r hpath
        obtain ⟨p0, hp0, hr⟩ := (hm1 q).mp hq
        obtain ⟨p, hp, h1, h2⟩ := (hmem p0).mp hp0
        exact ⟨p, hp, Path.sym ⟨hv p hp, h1, h2⟩ (path_of_reflTransGen hr hpath)⟩
      have hbwd : ∀ p ∈ cur, ∀ r, Path nfa p (c :: cs) r → ∃ q ∈ cur1, Path nfa q cs r := by
        intro p hp r hpath
        obtain ⟨p1, hp1, q, hst, hq⟩ := path_cons_split hcl hpath rfl hp
        exact ⟨q, (hm1 q).mpr ⟨q, (hmem q).mpr ⟨p1, hp1, hst.2.1, hst.2.2⟩,
          Relation.ReflTransGen.refl⟩, hq⟩
      by_cases he : cur1.isEmpty = true
      · rw [if_pos he] at h
        cases h
        simp only [Bool.false_eq_true, false_iff]
        rintro ⟨p, hp, hpath⟩
        obtain ⟨q, hq, _⟩ := hbwd p hp _ hpath
        rw [List.isEmpty_iff] at he
        rw [he] at hq
        cases hq
      · rw [if_neg he] at h
        rw [ih cur1 hv1 hcl1 b h]
        constructor
        · rintro ⟨q, hq, hpath⟩; exact hfwd q hq _ hpath
        · rintro ⟨p, hp, hpath⟩; exact hbwd p hp _ hpath

theorem computeEpsilonClosure_lt {nfa : NFA} (hwf : nfa.layout.WF) {fuel : Nat}
    {S R : List Nat} (hv : ∀ p ∈ S, p < nfa.layout.getStateCount)
    (h : nfa.computeEpsilonClosure fuel S = .ok R) : ∀ p ∈ R, p < nfa.layout.getStateCount := by
  intro p hp
  unfold NFA.computeEpsilonClosure at h
  split at h
  · cases h; cases hp
  · rcases (closureLoop_mem hwf _ _ _ _ (fun p hp => hv p (List.mem_reverse.mp hp)) h
      p).mp hp with h1 | ⟨p0, _, h1⟩
    · exact hv p h1
    · rcases Relation.TransGen.tail'_iff.mp h1 with ⟨_, _, h2⟩
      exact h2.2.1

theorem simulateLoop_mono {nfa : NFA} (hwf : nfa.layout.WF) {fuel fuel1 : Nat}
    (hle : fuel ≤ fuel1) :
    ∀ (s : List Int) (cur : List Nat), (∀ p ∈ cur, p < nfa.layout.getStateCount) →
      ∀ b, simulateLoop nfa fuel s cur = .ok b → simulateLoop nfa fuel1 s cur = .ok b := by
  intro s
  induction s with
  | nil => intro cur _ b h; simpa [simulateLoop] using h
  | cons c cs ih =>
    intro cur hv b h
    obtain ⟨next, hnext, hmem⟩ := makeTransition_spec hwf c hv
    have hvn : ∀ p ∈ next, p < nfa.layout.getStateCount := by
      intro p hp
      obtain ⟨_, _, h1, _⟩ := (hmem p).mp hp
      exact h1
    simp only [simulateLoop, hnext, bind_ok] at h ⊢
    cases hc : nfa.computeEpsilonClosure fuel next with
    | error e => rw [hc] at h; cases h
    | ok cur1 =>
      rw [hc, bind_ok] at h
      rw [computeEpsilonClosure_mono hwf hvn hc hle, bind_ok]
      by_cases he : cur1.isEmpty = true
      · rw [if_pos he] at h ⊢; exact h
      · rw [if_neg he] at h ⊢
        apply ih cur1 _ b h
        exact computeEpsilonClosure_lt hwf hvn hc

theorem simulateLoop_terminates {nfa : NFA} (hwf : nfa.layout.WF) (hac : EpsAcyclic nfa) :
    ∀ (s : List Int) (cur : List Nat), (∀ p ∈ cur, p < nfa.layout.getStateCount) →
      ∃ fuel b, simulateLoop nfa fuel s cur = .ok b := by
  intro s
  induction s with
  | nil => intro cur _; exact ⟨0, _, rfl⟩
  | cons c cs ih =>
    intro cur hv
    obtain ⟨next, hnext, hmem⟩ := makeTransition_spec hwf c hv
    have hvn : ∀ p ∈ next, p < nfa.layout.getStateCount := by
      intro p hp
      obtain ⟨_, _, h1, _⟩ := (hmem p).mp hp
      exact h1
    obtain ⟨f1, cur1, hc⟩ := computeEpsilonClosure_terminates hwf hac hvn
    by_cases he : cur1.isEmpty = true
    · refine ⟨f1, false, ?_⟩
      simp only [simulateLoop, hnext, bind_ok, hc, if_pos he, pure_eq_ok]
    · have hv1 : ∀ p ∈ cur1, p < nfa.layout.getStateCount := by
        exact computeEpsilonClosure_lt hwf hvn hc
      obtain ⟨f2, b, hb⟩ := ih cur1 hv1
      refine ⟨max f1 f2, b, ?_⟩
      simp only [simulateLoop, hnext, bind_ok,
        computeEpsilonClosure_mono hwf hvn hc (le_max_left f1 f2), if_neg he]
      exact simulateLoop_mono hwf (le_max_right f1 f2) _ _ hv1 _ hb

theorem simulate_sound {nfa : NFA} (hwf : nfa.layout.WF) (hin : nfa.possibleInputs ≠ [])
    (hentry : nfa.entryState < nfa.layout.getStateCount) {fuel : Nat} {s : List Int}
    {b : Bool} (h : nfa.simulate fuel s = .ok b) : b = true ↔ nfa.HasRun s := by
  unfold NFA.simulate at h
  have hv0 : ∀ p ∈ [nfa.entryState], p < nfa.layout.getStateCount := by
    intro p hp; rw [List.mem_singleton] at hp; rw [hp]; exact hentry
  cases hc : nfa.computeEpsilonClosure fuel [nfa.entryState] with
  | error e => rw [hc] at h; cases h
  | ok cur =>
    rw [hc, bind_ok] at h
    have hm := computeEpsilonClosure_mem hwf hin hv0 hc
    have hv : ∀ p ∈ cur, p < nfa.layout.getStateCount := by
      intro p hp
      obtain ⟨p0, hp0, hr⟩ := (hm p).mp hp
      exact reflTransGen_lt hr (hv0 _ hp0)
    have hcl : ∀ p ∈ cur, ∀ q, EpsStep nfa p q → q ∈ cur := by
      intro p hp q hpq
      obtain ⟨p0, hp0, hr⟩ := (hm p).mp hp
      exact (hm q).mpr ⟨p0, hp0, hr.tail hpq⟩
    rw [simulateLoop_sound hwf hin fuel s cur hv hcl b h]
    constructor
    · rintro ⟨p, hp, hpath⟩
      obtain ⟨p0, hp0, hr⟩ := (hm p).mp hp
      rw [List.mem_singleton] at hp0
      subst hp0
      exact path_of_reflTransGen hr hpath
    · intro hpath
      exact ⟨_, (hm _).mpr ⟨_, List.mem_singleton.mpr rfl, Relation.ReflTransGen.refl⟩, hpath⟩

theorem simulate_mono {nfa : NFA} (hwf : nfa.layout.WF)
    (hentry : nfa.entryState < nfa.layout.getStateCount) {fuel fuel1 : Nat} {s : List Int}
    {b : Bool} (h : nfa.simulate fuel s = .ok b) (hle : fuel ≤ fuel1) :
    nfa.simulate fuel1 s = .ok b := by
  unfold NFA.simulate at h ⊢
  have hv0 : ∀ p ∈ [nfa.entryState], p < nfa.layout.getStateCount := by
    intro p hp; rw [List.mem_singleton] at hp; rw [hp]; exact hentry
  cases hc : nfa.computeEpsilonClosure fuel [nfa.entryState] with
  | error e => rw [hc] at h; cases h
  | ok cur =>
    rw [hc, bind_ok] at h
    rw [computeEpsilonClosure_mono hwf hv0 hc hle, bind_ok]
    apply simulateLoop_mono hwf hle _ _ _ _ h
    exact computeEpsilonClosure_lt hwf hv0 hc

theorem simulate_terminates {nfa : NFA} (hwf : nfa.layout.WF)
    (hentry : nfa.entryState < nfa.layout.getStateCount) (hac : EpsAcyclic nfa)
    (s : List Int) : ∃ fuel b, nfa.simulate fuel s = .ok b := by
  have hv0 : ∀ p ∈ [nfa.entryState], p < nfa.layout.getStateCount := by
    intro p hp; rw [List.mem_singleton] at hp; rw [hp]; exact hentry
  obtain ⟨f1, cur, hc⟩ := computeEpsilonClosure_terminates hwf hac hv0
  have hv : ∀ p ∈ cur, p < nfa.layout.getStateCount := by
    exact computeEpsilonClosure_lt hwf hv0 hc
  obtain ⟨f2, b, hb⟩ := simulateLoop_terminates hwf hac s cur hv
  refine ⟨max f1 f2, b, ?_⟩
  unfold NFA.simulate
  rw [computeEpsilonClosure_mono hwf hv0 hc (le_max_left f1 f2), bind_ok]
  exact simulateLoop_mono hwf (le_max_right f1 f2) _ _ hv _ hb

/-- Correctness of `NFA::simulate` on an automaton without epsilon cycle: with enough fuel it
returns whether the automaton has a run on `s`. -/
theorem simulate_decides {nfa : NFA} (hwf : nfa.layout.WF) (hin : nfa.possibleInputs ≠ [])
    (hentry : nfa.entryState < nfa.layout.getStateCount) (hac : EpsAcyclic nfa)
    (s : List Int) (b : Bool) (hb : b = true ↔ nfa.HasRun s) : nfa.Decides s b := by
  obtain ⟨f, b1, h1⟩ := simulate_terminates hwf hentry hac s
  have h2 := simulate_sound hwf hin hentry h1
  have : b1 = b := by
    cases b <;> cases b1 <;> simp_all
  subst this
  exact ⟨f, fun f1 hf => simulate_mono hwf hentry h1 hf⟩

/-! ## The builder methods -/

theorem ofInput_eq {c : Int} (hc : 0 ≤ c) : NFA.ofInput c = .ok (symNFA c) := by
  have h1 : c ≠ Input.epsilon := by
    intro h; rw [h] at hc; exact absurd hc (by decide)
  simp [NFA.ofInput, MatrixLayout.addState, MatrixLayout.addTransition,
    MatrixLayout.getStateCount, sizePred, hc, h1, setInsert, symNFA]

theorem symNFA_WF (c : Int) : (symNFA c).layout.WF := by
  intro row hrow
  simp [symNFA] at hrow
  rcases hrow with rfl | rfl <;> simp [symNFA, MatrixLayout.getStateCount]

@[simp] theorem symNFA_count (c : Int) : (symNFA c).layout.getStateCount = 2 := rfl

@[simp] theorem symNFA_entry (c : Int) : (symNFA c).entryState = 0 := rfl

theorem symNFA_cell (c : Int) (i j : Nat) :
    cell (symNFA c).layout i j = if i = 0 ∧ j = 1 then c else 0 := by
  match i, j with
  | 0, 0 => rfl
  | 0, 1 => rfl
  | 0, j + 2 => simp [cell, symNFA]
  | 1, 0 => rfl
  | 1, 1 => rfl
  | 1, j + 2 => simp [cell, symNFA]
  | i + 2, j => simp [cell, symNFA]

theorem mem_setInsert (x y : Int) (l : List Int) : y ∈ setInsert x l ↔ y = x ∨ y ∈ l := by
  induction l with
  | nil => simp [setInsert]
  | cons a t ih =>
    simp only [setInsert]
    split
    · simp
    · split
      · rename_i h1 h2
        subst h2
        simp
      · simp only [List.mem_cons, ih]
        constructor
        · rintro (h | h | h)
          · exact Or.inr (Or.inl h)
          · exact Or.inl h
          · exact Or.inr (Or.inr h)
        · rintro (h | h | h)
          · exact Or.inr (Or.inl h)
          · exact Or.inl h
          · exact Or.inr (Or.inr h)

theorem mem_foldl_insert (l : List Int) :
    ∀ (acc : List Int) (y : Int),
      y ∈ l.foldl (fun acc input => if input ≠ Input.epsilon then setInsert input acc else acc)
        acc ↔ y ∈ acc ∨ (y ∈ l ∧ y ≠ Input.epsilon) := by
  induction l with
  | nil => intro acc y; simp
  | cons a t ih =>
    intro acc y
    rw [List.foldl_cons, ih]
    by_cases ha : a ≠ Input.epsilon
    · rw [if_pos ha, mem_setInsert]
      constructor
      · rintro ((h | h) | h)
        · exact Or.inr ⟨by rw [h]; exact List.mem_cons_self _ _, by rw [h]; exact ha⟩
        · exact Or.inl h
        · exact Or.inr ⟨List.mem_cons_of_mem _ h.1, h.2⟩
      · rintro (h | ⟨h1, h2⟩)
        · exact Or.inl (Or.inr h)
        · rcases List.mem_cons.mp h1 with h3 | h3
          · exact Or.inl (Or.inl h3)
          · exact Or.inr ⟨h3, h2⟩
    · rw [if_neg ha]
      constructor
      · rintro (h | h)
        · exact Or.inl h
        · exact Or.inr ⟨List.mem_cons_of_mem _ h.1, h.2⟩
      · rintro (h | ⟨h1, h2⟩)
        · exact Or.inl h
        · rcases List.mem_cons.mp h1 with h3 | h3
          · rw [h3] at h2; exact absurd h2 ha
          · exact Or.inr ⟨h3, h2⟩

theorem mem_insertNewInputs (a b : NFA) (y : Int) :
    y ∈ (a.insertNewInputs b).possibleInputs ↔
      y ∈ a.possibleInputs ∨ (y ∈ b.possibleInputs ∧ y ≠ Input.epsilon) :=
  mem_foldl_insert _ _ _

theorem hasInput_ne_nil {nfa : NFA} (h : nfa.HasInput) : nfa.possibleInputs ≠ [] := by
  obtain ⟨x, hx, _⟩ := h
  intro h0
  rw [h0] at hx
  cases hx

theorem insertNewInputs_hasInput {a b : NFA} (h : a.HasInput ∨ b.HasInput) :
    (a.insertNewInputs b).HasInput := by
  rcases h with ⟨x, hx, hne⟩ | ⟨x, hx, hne⟩
  · exact ⟨x, (mem_insertNewInputs a b x).mpr (Or.inl hx), hne⟩
  · exact ⟨x, (mem_insertNewInputs a b x).mpr (Or.inr ⟨hx, hne⟩), hne⟩

theorem symNFA_hasInput {c : Int} (hc : 0 ≤ c) : (symNFA c).HasInput := by
  refine ⟨c, by simp [symNFA], ?_⟩
  intro h; rw [h] at hc; exact absurd hc (by decide)

@[simp] theorem insertNewInputs_layout (a b : NFA) : (a.insertNewInputs b).layout = a.layout := rfl

@[simp] theorem insertNewInputs_entry (a b : NFA) :
    (a.insertNewInputs b).entryState = a.entryState := rfl

theorem concatRedirect_zero {l : MatrixLayout} (hwf : l.WF) {s k : Nat}
    (hs : s < l.getStateCount) (hk : k < l.getStateCount) (hval : -2 ≤ cell l s k) :
    ∃ l1, concatRedirect 0 (k + 1) k l s = .ok l1 ∧ l1.WF ∧
      l1.getStateCount = l.getStateCount ∧ ∀ a b, cell l1 a b = cell l a b := by
  unfold concatRedirect
  rw [getTransition_eq hwf hs hk, bind_ok]
  by_cases h0 : cell l s k = Input.none
  · rw [if_neg (by simpa using h0)]
    exact ⟨l, rfl, hwf, rfl, fun _ _ => rfl⟩
  · rw [if_pos h0, addTransition_eq hwf hs hk (Or.inl (le_refl _)), bind_ok]
    have hwf1 := setCell_WF hwf s k Input.none
    have hv : 0 ≤ cell l s k ∨ cell l s k = Input.epsilon ∨ cell l s k = Input.any := by
      have h0a : cell l s k ≠ 0 := h0
      show 0 ≤ cell l s k ∨ cell l s k = -1 ∨ cell l s k = -2
      omega
    have e : 0 + (k + 1) - 1 = k := by omega
    rw [e, addTransition_eq hwf1 (by simpa using hs) (by simpa using hk) hv]
    have hrow := WF.row_length hwf hs
    have hrow1 := WF.row_length hwf1 (i := s) (by simpa using hs)
    refine ⟨_, rfl, setCell_WF hwf1 _ _ _, by simp, fun a b => ?_⟩
    rw [setCell_cell _ _ (by simpa using hs) (by simp at hrow1 ⊢; omega),
      setCell_cell _ _ hs (by omega)]
    by_cases hab : a = s ∧ b = k
    · rw [if_pos hab, hab.1, hab.2]
    · rw [if_neg hab, if_neg hab]

theorem concatRedirect_zero_fold {k : Nat} :
    ∀ (L : List Nat) (l : MatrixLayout), l.WF → k < l.getStateCount →
      (∀ s ∈ L, s < l.getStateCount) → (∀ s ∈ L, -2 ≤ cell l s k) →
      ∃ l1, L.foldlM (concatRedirect 0 (k + 1) k) l = .ok l1 ∧ l1.WF ∧
        l1.getStateCount = l.getStateCount ∧ ∀ a b, cell l1 a b = cell l a b := by
  intro L
  induction L with
  | nil => intro l hwf _ _ _; exact ⟨l, rfl, hwf, rfl, fun _ _ => rfl⟩
  | cons s t ih =>
    intro l hwf hk hL hval
    obtain ⟨l1, h1, hwf1, hc1, hcell1⟩ := concatRedirect_zero hwf
      (hL s (List.mem_cons_self _ _)) hk (hval s (List.mem_cons_self _ _))
    obtain ⟨l2, h2, hwf2, hc2, hcell2⟩ := ih l1 hwf1 (by omega)
      (fun x hx => by rw [hc1]; exact hL x (List.mem_cons_of_mem _ hx))
      (fun x hx => by rw [hcell1]; exact hval x (List.mem_cons_of_mem _ hx))
    refine ⟨l2, ?_, hwf2, by omega, fun a b => by rw [hcell2, hcell1]⟩
    rw [List.foldlM_cons, h1, bind_ok, h2]

theorem concatRedirect_fits {oe os ol s : Nat} {l l1 : MatrixLayout}
    (h : concatRedirect oe os ol l s = .ok l1) (hf : l.Fits) : l1.Fits := by
  unfold concatRedirect at h
  obtain ⟨t0, -, h⟩ := bind_eq_ok h
  split_ifs at h with h0
  · obtain ⟨l2, h2, h⟩ := bind_eq_ok h
    obtain ⟨rfl, -, -⟩ := addTransition_ok h2
    obtain ⟨rfl, -, -⟩ := addTransition_ok h
    exact setCell_fits (setCell_fits hf _ _ _) _ _ _
  · cases h
    exact hf

theorem concatRedirect_fold_fits {oe os ol : Nat} :
    ∀ (L : List Nat) (l l1 : MatrixLayout), L.foldlM (concatRedirect oe os ol) l = .ok l1 →
      l.Fits → l1.Fits := by
  intro L
  induction L with
  | nil =>
    intro l l1 h hf
    cases h
    exact hf
  | cons s L ih =>
    intro l l1 h hf
    rw [List.foldlM_cons] at h
    obtain ⟨l2, h2, h⟩ := bind_eq_ok h
    exact ih l2 l1 h (concatRedirect_fits h2 hf)

/-- Every row of the layout that `concatenate` returns has no more entries than there are
states. -/
theorem concatenate_fits {a b r : NFA} (h : a.concatenate b = .ok r) : r.layout.Fits := by
  have e : (if a.layout.getStateCount > 0 then a.layout.getStateCount - 1 else 0) =
      a.layout.getStateCount - 1 := by split_ifs <;> omega
  unfold NFA.concatenate at h
  simp only [insertNewInputs_layout, insertNewInputs_entry, pure_eq_ok] at h
  rw [e] at h
  split_ifs at h with h1 h2
  · obtain ⟨l0, hl0, h⟩ := bind_eq_ok h
    obtain ⟨-, rfl⟩ := addStatesOf_ok hl0
    obtain ⟨l, hl, h⟩ := bind_eq_ok h
    cases h
    obtain ⟨rfl, -, -⟩ := addTransition_ok hl
    exact setCell_fits (appendStates_fits _ _) _ _ _
  · obtain ⟨t0, -, h⟩ := bind_eq_ok h
    split_ifs at h with h3
    · obtain ⟨l0, hl0, h⟩ := bind_eq_ok h
      obtain ⟨-, rfl⟩ := addStatesOf_ok hl0
      obtain ⟨l, hl, h⟩ := bind_eq_ok h
      cases h
      obtain ⟨rfl, -, -⟩ := addTransition_ok hl
      exact setCell_fits (appendStates_fits _ _) _ _ _
    · obtain ⟨l0, -, h⟩ := bind_eq_ok h
      obtain ⟨l1, hl1, h⟩ := bind_eq_ok h
      obtain ⟨-, rfl⟩ := addStatesOf_ok hl1
      obtain ⟨l, hl, h⟩ := bind_eq_ok h
      cases h
      exact concatRedirect_fold_fits _ _ _ hl (appendStates_fits _ _)
  · obtain ⟨l1, hl1, h⟩ := bind_eq_ok h
    obtain ⟨-, rfl⟩ := addStatesOf_ok hl1
    obtain ⟨l, hl, h⟩ := bind_eq_ok h
    cases h
    exact concatRedirect_fold_fits _ _ _ hl (appendStates_fits _ _)

/-- A call `concatenate(other)` returns only if no row of `other` has more entries than
`other` has states. -/
theorem concatenate_ok_fits {a b r : NFA} (h : a.concatenate b = .ok r) : b.layout.Fits := by
  have e : (if a.layout.getStateCount > 0 then a.layout.getStateCount - 1 else 0) =
      a.layout.getStateCount - 1 := by split_ifs <;> omega
  unfold NFA.concatenate at h
  simp only [insertNewInputs_layout, insertNewInputs_entry, pure_eq_ok] at h
  rw [e] at h
  split_ifs at h with h1 h2
  · obtain ⟨l0, hl0, h⟩ := bind_eq_ok h
    exact (addStatesOf_ok hl0).1
  · obtain ⟨t0, -, h⟩ := bind_eq_ok h
    split_ifs at h with h3
    · obtain ⟨l0, hl0, h⟩ := bind_eq_ok h
      exact (addStatesOf_ok hl0).1
    · obtain ⟨l0, -, h⟩ := bind_eq_ok h
      obtain ⟨l1, hl1, h⟩ := bind_eq_ok h
      exact (addStatesOf_ok hl1).1
  · obtain ⟨l1, hl1, h⟩ := bind_eq_ok h
    exact (addStatesOf_ok hl1).1

/-- The layout that `unify` returns fits if the layout of the receiver does. -/
theorem unify_fits {a b r : NFA} (ha : a.layout.Fits) (h : a.unify b = .ok r) :
    r.layout.Fits := by
  unfold NFA.unify at h
  simp only [insertNewInputs_layout, insertNewInputs_entry, pure_eq_ok] at h
  split_ifs at h with h1 h2
  · cases h
    exact ha
  · exact concatenate_fits h
  · obtain ⟨l0, hl0, h⟩ := bind_eq_ok h
    obtain ⟨-, rfl⟩ := addStatesOf_ok hl0
    obtain ⟨u1, hu1, h⟩ := bind_eq_ok h
    cases u1 with
    | true =>
      simp only [if_true] at h
      obtain ⟨l1, h1, h⟩ := bind_eq_ok h
      obtain ⟨l2, h2, h⟩ := bind_eq_ok h
      cases h
      obtain ⟨rfl, -, -⟩ := addTransition_ok h1
      obtain ⟨rfl, -, -⟩ := addTransition_ok h2
      exact setCell_fits (setCell_fits (appendStates_fits _ _) _ _ _) _ _ _
    | false =>
      simp only [Bool.false_eq_true, if_false] at h
      obtain ⟨u2, -, h⟩ := bind_eq_ok h
      cases u2 with
      | true =>
        simp only [if_true] at h
        obtain ⟨l1, h1, h⟩ := bind_eq_ok h
        obtain ⟨l2, h2, h⟩ := bind_eq_ok h
        cases h
        obtain ⟨rfl, -, -⟩ := addTransition_ok h1
        obtain ⟨rfl, -, -⟩ := addTransition_ok h2
        exact setCell_fits (setCell_fits (appendStates_fits _ _) _ _ _) _ _ _
      | false =>
        simp only [Bool.false_eq_true, if_false] at h
        obtain ⟨l2, h2, h⟩ := bind_eq_ok h
        obtain ⟨l4, h4, h⟩ := bind_eq_ok h
        obtain ⟨l5, h5, h⟩ := bind_eq_ok h
        obtain ⟨l6, h6, h⟩ := bind_eq_ok h
        cases h
        obtain ⟨rfl, -, -⟩ := addTransition_ok h2
        obtain ⟨rfl, -, -⟩ := addTransition_ok h4
        obtain ⟨rfl, -, -⟩ := addTransition_ok h5
        obtain ⟨rfl, -, -⟩ := addTransition_ok h6
        exact setCell_fits (setCell_fits (setCell_fits (addState_fits (setCell_fits
          (addState_fits (appendStates_fits _ _)) _ _ _)) _ _ _) _ _ _) _ _ _

theorem symNFA_fits (c : Int) : (symNFA c).layout.Fits := by
  intro row hrow
  simp only [symNFA, List.mem_cons, List.mem_singleton, List.not_mem_nil, or_false] at hrow
  rcases hrow with rfl | rfl <;> simp [MatrixLayout.getStateCount, symNFA]

/-- Concatenation of a single-symbol automaton onto an automaton with at least two states
whose last state has no self-loop: the last state is dropped and replaced by the entry of the
single-symbol automaton. -/
theorem concatenate_sym {self : NFA} (hwf : self.layout.WF) {c : Int} (hc : 0 ≤ c)
    (hn : 2 ≤ self.layout.getStateCount)
    (hlast : cell self.layout (self.layout.getStateCount - 1)
      (self.layout.getStateCount - 1) = 0)
    (hval : ∀ i, -2 ≤ cell self.layout i (self.layout.getStateCount - 1)) :
    ∃ r, self.concatenate (symNFA c) = .ok r ∧ r.layout.WF ∧
      r.layout.getStateCount = self.layout.getStateCount + 1 ∧
      r.entryState = self.entryState ∧ r.HasInput ∧
      ∀ i j, cell r.layout i j =
        if i < self.layout.getStateCount - 1 then
          (if j < self.layout.getStateCount + 1 then cell self.layout i j else 0)
        else if i = self.layout.getStateCount - 1 ∧ j = self.layout.getStateCount then c
        else 0 := by
  have hne : c ≠ Input.epsilon := by
    intro h; rw [h] at hc; exact absurd hc (by decide)
  set n := self.layout.getStateCount with hn_def
  have hcount : (self.insertNewInputs (symNFA c)).layout.getStateCount = n := rfl
  have hl0 : ((popState self.layout).appendStates (symNFA c).layout).getStateCount = n + 1 := by
    simp; omega
  have hcell0 : ∀ i j, cell ((popState self.layout).appendStates (symNFA c).layout) i j =
      if i < n - 1 then (if j < n + 1 then cell self.layout i j else 0)
      else if i = n - 1 ∧ j = n then c else 0 := by
    intro i j
    rw [appendStates_cell, popState_cell, symNFA_cell]
    simp only [popState_count, symNFA_count]
    by_cases h1 : i < n - 1
    · simp only [h1, if_true]
      have : n - 1 + 2 = n + 1 := by omega
      rw [this]
    · simp only [h1, if_false]
      by_cases h2 : i = n - 1 ∧ j = n
      · rw [if_pos h2, if_pos (by omega), if_pos (by omega)]
      · rw [if_neg h2]
        split
        · rw [if_neg (by omega)]
        · rfl
  obtain ⟨l1, h1, hwf1, hc1, hcell1⟩ := concatRedirect_zero_fold (k := n - 1)
    (List.range (n - 1)) _ (appendStates_WF (popState self.layout) (symNFA c).layout)
    (by rw [hl0]; omega)
    (fun s hs => by
      have := List.mem_range.mp hs
      rw [hl0]; omega)
    (fun s hs => by
      have := List.mem_range.mp hs
      rw [hcell0, if_pos this, if_pos (by omega)]
      exact hval s)
  have e1 : n - 1 + 1 = n := by omega
  rw [e1] at h1
  refine ⟨{ self.insertNewInputs (symNFA c) with layout := l1 }, ?_, hwf1, by rw [hc1, hl0],
    rfl, insertNewInputs_hasInput (Or.inr (symNFA_hasInput hc)),
    fun i j => by rw [hcell1, hcell0]⟩
  unfold NFA.concatenate
  simp only [hcount, insertNewInputs_layout, symNFA_entry]
  rw [if_neg (by omega), if_pos (by omega), if_pos (by omega),
    getTransition_eq hwf (by omega) (by omega), bind_ok, hlast]
  simp only [ne_eq, not_true_eq_false, if_false]
  rw [removeLastState_eq (by omega), bind_ok, addStatesOf_eq _ (symNFA_fits c), bind_ok, h1,
    bind_ok]
  rfl

theorem concatenate_empty_sym {c : Int} (hc : 0 ≤ c) :
    NFA.empty.concatenate (symNFA c) = .ok (symNFA c) := by
  have h1 : c ≠ Input.epsilon := by
    intro h; rw [h] at hc; exact absurd hc (by decide)
  simp [NFA.concatenate, NFA.empty, NFA.insertNewInputs, symNFA, MatrixLayout.getStateCount,
    MatrixLayout.addStatesOf, resizeRow, h1, setInsert]

theorem getD_nonneg {w : List Int} (hw : ∀ x ∈ w, 0 ≤ x) (i : Nat) : 0 ≤ w.getD i 0 := by
  rcases Nat.lt_or_ge i w.length with h | h
  · rw [List.getD_eq_getElem _ _ h]; exact hw _ (List.getElem_mem _)
  · rw [List.getD_eq_default _ _ h]

theorem isChain_single {c : Int} (hc : c ≠ Input.epsilon) : IsChain [c] (symNFA c) where
  wf := symNFA_WF c
  fits := symNFA_fits c
  count := rfl
  entry := rfl
  inputs := ⟨c, by simp [symNFA], hc⟩
  cells := by
    intro i j
    rw [symNFA_cell]
    by_cases h : i = 0 ∧ j = 1
    · rw [if_pos h, if_pos (by simp; omega), h.1]; rfl
    · rw [if_neg h, if_neg (by simp; omega)]

theorem isChain_snoc {w : List Int} {nfa : NFA} (h : IsChain w nfa) (hne : w ≠ [])
    (hw : ∀ x ∈ w, 0 ≤ x) {c : Int} (hc : 0 ≤ c) :
    ∃ r, nfa.concatenate (symNFA c) = .ok r ∧ IsChain (w ++ [c]) r := by
  have hlen : 0 < w.length := List.length_pos.mpr hne
  obtain ⟨r, hr, hwf, hcount, hentry, hin, hcells⟩ := concatenate_sym h.wf hc
    (by rw [h.count]; omega)
    (by rw [h.cells, if_neg (by omega)])
    (fun i => by
      rw [h.cells]
      split
      · have := getD_nonneg hw i; omega
      · omega)
  refine ⟨r, hr, hwf, concatenate_fits hr, by rw [hcount, h.count]; simp,
    by rw [hentry, h.entry], hin, ?_⟩
  intro i j
  rw [hcells i j, h.count, h.cells]
  simp only [List.length_append, List.length_singleton, Nat.add_sub_cancel]
  rcases Nat.lt_trichotomy i w.length with h1 | h1 | h1
  · rw [if_pos h1, List.getD_append _ _ _ _ h1]
    by_cases h2 : j = i + 1
    · rw [if_pos (by omega), if_pos ⟨h2, h1⟩, if_pos ⟨h2, by omega⟩]
    · simp [h2]
  · rw [if_neg (by omega)]
    by_cases h2 : j = i + 1
    · rw [if_pos ⟨h1, by omega⟩, if_pos ⟨h2, by omega⟩, h1,
        List.getD_append_right _ _ _ _ (le_refl _)]
      simp
    · rw [if_neg (by omega), if_neg (fun h => h2 h.1)]
  · rw [if_neg (by omega), if_neg (by omega), if_neg (by omega)]

theorem concatParts_chain (w : List Int) (hne : w ≠ []) (hw : ∀ x ∈ w, 0 ≤ x) :
    ∃ r, concatParts NFA.empty (w.map symNFA) = .ok r ∧ IsChain w r := by
  induction w using List.reverseRecOn with
  | nil => exact absurd rfl hne
  | append_singleton w c ih =>
    have hc : 0 ≤ c := hw c (by simp)
    by_cases hw0 : w = []
    · subst hw0
      refine ⟨symNFA c, ?_, isChain_single (by
        intro h; rw [h] at hc; exact absurd hc (by decide))⟩
      simp [concatParts, concatenate_empty_sym hc]
    · obtain ⟨r0, hr0, hchain0⟩ := ih hw0 (fun x hx => hw x (by simp [hx]))
      obtain ⟨r, hr, hchain⟩ := isChain_snoc hchain0 hw0 (fun x hx => hw x (by simp [hx])) hc
      refine ⟨r, ?_, hchain⟩
      unfold concatParts at hr0 ⊢
      rw [List.map_append, List.foldlM_append, hr0, bind_ok]
      simp [hr]


/-! ## The parser on literal characters -/

theorem parseImpl_literal_step {fuel : Nat} {span : List Int} {inP : Bool} {rc it : Nat}
    {st : ParseState} {c : Int} (hit : it < span.length) (hc : span.getD it 0 = c)
    (hlit : IsLiteral c) (hesc : st.needEscaping = false) :
    parseImpl (fuel + 1) span inP rc it st =
      parseImpl fuel span inP rc (it + 1)
        { st with partialResultVector := st.partialResultVector ++ [symNFA c] } := by
  obtain ⟨h1, _, h3, h4, h5, h6, h7, h8, h9, h10⟩ := hlit
  rw [parseImpl]
  simp only [hit, if_true, hc, hesc, Bool.false_eq_true, if_false, h3, h4, h5, h6, h7, h8, h9,
    h10, ofInput_eq (show (0 : Int) ≤ c by omega), bind_ok]

theorem getD_append_cons (pre : List Int) (c : Int) (rest : List Int) :
    (pre ++ c :: rest).getD pre.length 0 = c := by
  rw [List.getD_append_right _ _ _ _ (le_refl _)]
  simp

theorem parseImpl_literals (lits : List Int) (hlits : ∀ c ∈ lits, IsLiteral c) :
    ∀ (pre post : List Int) (fuel : Nat) (inP : Bool) (rc : Nat) (st : ParseState),
      st.needEscaping = false →
      parseImpl (fuel + lits.length) (pre ++ lits ++ post) inP rc pre.length st =
        parseImpl fuel (pre ++ lits ++ post) inP rc (pre.length + lits.length)
          { st with partialResultVector := st.partialResultVector ++ lits.map symNFA } := by
  induction lits with
  | nil => intro pre post fuel inP rc st _; simp
  | cons c t ih =>
    intro pre post fuel inP rc st hesc
    have e1 : fuel + (c :: t).length = (fuel + t.length) + 1 := by simp; omega
    rw [e1, parseImpl_literal_step (c := c) (by simp)
      (by rw [List.append_assoc]; exact getD_append_cons _ _ _)
      (hlits c (List.mem_cons_self _ _)) hesc]
    have e2 : pre ++ c :: t ++ post = (pre ++ [c]) ++ t ++ post := by simp
    have e3 : pre.length + 1 = (pre ++ [c]).length := by simp
    rw [e2, e3, ih (fun x hx => hlits x (List.mem_cons_of_mem _ hx)) (pre ++ [c]) post fuel inP
      rc { st with partialResultVector := st.partialResultVector ++ [symNFA c] } hesc]
    simp [Nat.add_assoc, Nat.add_comm 1]

theorem parse_literals (w : List Int) (hw : ∀ c ∈ w, IsLiteral c) :
    parse w = concatParts NFA.empty (w.map symNFA) := by
  unfold parse
  have h := parseImpl_literals w hw [] [] 1 false 0 ⟨NFA.empty, [], false⟩ rfl
  simp only [List.nil_append, List.append_nil, List.length_nil, Nat.zero_add] at h
  rw [Nat.add_comm, h, parseImpl]
  simp only [lt_self_iff_false, if_false]
  cases concatParts NFA.empty (w.map symNFA) <;> rfl


/-! ## Acceptance -/

theorem accepts_iff_hasRun {nfa : NFA} (hwf : nfa.layout.WF) (hin : nfa.possibleInputs ≠ [])
    (hentry : nfa.entryState < nfa.layout.getStateCount) (hac : EpsAcyclic nfa)
    (s : List Int) : nfa.Accepts s ↔ nfa.HasRun s := by
  constructor
  · rintro ⟨f, hf⟩
    exact (simulate_sound hwf hin hentry hf).mp rfl
  · intro h
    obtain ⟨f, hf⟩ := simulate_decides hwf hin hentry hac s true (by simp [h])
    exact ⟨f, hf f (le_refl _)⟩

/-! ## Chains: the automaton of a string of literal characters -/

theorem chain_no_eps {w : List Int} {nfa : NFA} (h : IsChain w nfa) (hw : ∀ x ∈ w, 0 ≤ x)
    (p q : Nat) : ¬ EpsStep nfa p q := by
  rintro ⟨_, _, h3⟩
  rw [h.cells] at h3
  have := getD_nonneg hw p
  simp only [Input.epsilon] at h3
  split at h3 <;> omega

theorem chain_acyclic {w : List Int} {nfa : NFA} (h : IsChain w nfa) (hw : ∀ x ∈ w, 0 ≤ x) :
    EpsAcyclic nfa :=
  ⟨fun _ => 0, fun p q hpq => absurd hpq (chain_no_eps h hw p q)⟩

theorem chain_path_forward {w : List Int} {nfa : NFA} (h : IsChain w nfa)
    (hw : ∀ x ∈ w, 0 ≤ x) {p r : Nat} {s : List Int} (hpath : Path nfa p s r) :
    r = w.length → p ≤ w.length → (∀ c ∈ s, 1 ≤ c) → s = w.drop p := by
  induction hpath with
  | nil p =>
    intro hr _ _
    rw [hr, List.drop_length]
  | eps hst _ _ => exact absurd hst (chain_no_eps h hw _ _)
  | @sym p q r c s hst _ ih =>
    intro hr hp hs
    obtain ⟨_, _, h3⟩ := hst
    rw [h.cells] at h3
    have hc : 1 ≤ c := hs c (List.mem_cons_self _ _)
    have hnn := getD_nonneg hw p
    simp only [Input.any] at h3
    by_cases hq : q = p + 1 ∧ p < w.length
    · rw [if_pos hq] at h3
      have hcw : w.getD p 0 = c := by omega
      rw [ih hr (by omega) (fun x hx => hs x (List.mem_cons_of_mem _ hx)), hq.1,
        List.drop_eq_getElem_cons hq.2, ← hcw, List.getD_eq_getElem _ _ hq.2]
    · rw [if_neg hq] at h3
      omega

theorem chain_path_backward {w : List Int} {nfa : NFA} (h : IsChain w nfa) :
    ∀ (k p : Nat), p + k = w.length → Path nfa p (w.drop p) w.length := by
  intro k
  induction k with
  | zero =>
    intro p hp
    have : p = w.length := by omega
    rw [this, List.drop_length]
    exact Path.nil _
  | succ k ih =>
    intro p hp
    have hlt : p < w.length := by omega
    rw [List.drop_eq_getElem_cons hlt]
    refine Path.sym ⟨by rw [h.count]; omega, by rw [h.count]; omega, Or.inl ?_⟩
      (ih (p + 1) (by omega))
    rw [h.cells, if_pos ⟨rfl, hlt⟩, List.getD_eq_getElem _ _ hlt]

theorem chain_hasRun {w : List Int} {nfa : NFA} (h : IsChain w nfa) (hw : ∀ x ∈ w, 0 ≤ x)
    {s : List Int} (hs : ∀ c ∈ s, 1 ≤ c) : nfa.HasRun s ↔ s = w := by
  unfold NFA.HasRun
  have hlast : sizePred nfa.layout.getStateCount = w.length := by
    rw [h.count]; simp [sizePred]
  rw [hlast, h.entry]
  constructor
  · intro hp
    simpa using chain_path_forward h hw hp rfl (Nat.zero_le _) hs
  · intro hsw
    have := chain_path_backward h w.length 0 (by omega)
    simpa [hsw] using this

/-- C2: for every non-empty string `w` of literal characters, `parse w` returns an automaton
that accepts a string `s` of concrete characters if and only if `s = w`, and `simulate`
returns on every such `s`. -/
theorem C2_literal_string_recognised (w : List Int) (hne : w ≠ [])
    (hw : ∀ c ∈ w, IsLiteral c) :
    ∃ nfa, parse w = .ok nfa ∧
      ∀ s : List Int, (∀ c ∈ s, IsConcrete c) →
        (nfa.Accepts s ↔ s = w) ∧ nfa.Terminates s := by
  have hw0 : ∀ x ∈ w, (0 : Int) ≤ x := fun x hx => by have := (hw x hx).1; omega
  obtain ⟨nfa, hparse, hchain⟩ := concatParts_chain w hne hw0
  refine ⟨nfa, by rw [parse_literals w hw, hparse], fun s hs => ?_⟩
  have hentry : nfa.entryState < nfa.layout.getStateCount := by
    rw [hchain.entry, hchain.count]; omega
  have hac := chain_acyclic hchain hw0
  exact ⟨(accepts_iff_hasRun hchain.wf (hasInput_ne_nil hchain.inputs) hentry hac s).trans
      (chain_hasRun hchain hw0 (fun c hc => (hs c hc).1)),
    simulate_terminates hchain.wf hentry hac s⟩

/-- Witness for C2 at the pattern `"ab"`. -/
theorem C2_literal_string_recognised_witness :
    (([97, 98] : List Int) ≠ [] ∧ ∀ c ∈ ([97, 98] : List Int), IsLiteral c) ∧
      ∃ nfa, parse [97, 98] = .ok nfa ∧
        ∀ s : List Int, (∀ c ∈ s, IsConcrete c) →
          (nfa.Accepts s ↔ s = [97, 98]) ∧ nfa.Terminates s :=
  ⟨⟨by decide, by decide⟩, C2_literal_string_recognised [97, 98] (by decide) (by decide)⟩


theorem not_accepts_of_rejects {nfa : NFA} (hwf : nfa.layout.WF)
    (hentry : nfa.entryState < nfa.layout.getStateCount) (fuel : Nat) {s : List Int}
    (h : nfa.simulate fuel s = .ok false) : ¬ nfa.Accepts s := by
  rintro ⟨f1, h1⟩
  have h2 := simulate_mono hwf hentry h (le_max_left fuel f1)
  have h3 := simulate_mono hwf hentry h1 (le_max_right fuel f1)
  rw [h2] at h3
  cases h3

/-! ## The claims -/

/-- C1 (fails on the code): the pattern `"."` parses to an automaton with one `any` edge;
`NFA::simulate` accepts `"a"`, but the DFA built from it by `DFA::buildFrom` rejects `"a"`,
because `DFA::makeTransition` compares the stored label `any` with the character itself. Fuel
`2` lets every loop run to its end. -/
theorem C1_dfa_rejects_string_accepted_by_nfa :
    ∃ nfa dfa, parse [chDot] = .ok nfa ∧ DFA.ofNFA nfa 2 = .ok dfa ∧
      nfa.simulate 2 [97] = .ok true ∧ dfa.simulate [97] = .ok false :=
  ⟨_, _, rfl, rfl, rfl, rfl⟩

/-- C3 (fails on the code): the pattern `"a|b"` parses to the automaton of the string `"ba"`:
it accepts a string of concrete characters if and only if the string is `"ba"`; in particular
it accepts neither `"a"` nor `"b"`. -/
theorem C3_alternation_parsed_as_swapped_concatenation :
    ∃ nfa, parse [97, chBar, 98] = .ok nfa ∧
      (∀ s : List Int, (∀ c ∈ s, IsConcrete c) → (nfa.Accepts s ↔ s = [98, 97])) ∧
      ¬ nfa.Accepts [97] ∧ ¬ nfa.Accepts [98] := by
  obtain ⟨nfa, hnfa, hchain⟩ := concatParts_chain [98, 97] (by decide) (by decide)
  have hw0 : ∀ x ∈ ([98, 97] : List Int), (0 : Int) ≤ x := by decide
  have hentry : nfa.entryState < nfa.layout.getStateCount := by
    rw [hchain.entry, hchain.count]; decide
  have hacc : ∀ s : List Int, (∀ c ∈ s, IsConcrete c) → (nfa.Accepts s ↔ s = [98, 97]) :=
    fun s hs => (accepts_iff_hasRun hchain.wf (hasInput_ne_nil hchain.inputs) hentry
      (chain_acyclic hchain hw0) s).trans (chain_hasRun hchain hw0 (fun c hc => (hs c hc).1))
  refine ⟨nfa, hnfa, hacc, ?_, ?_⟩
  · rw [hacc [97] (by decide)]; decide
  · rw [hacc [98] (by decide)]; decide

/-- C10 (fails on the code): the pattern `"a\\b"` parses to the automaton of the string
`"ba"`, not of `"ab"`: the escaped character is concatenated to `resultNFA` at once, the
characters before it only at the end. -/
theorem C10_escaped_character_is_moved_to_the_front :
    ∃ nfa, parse [97, chBackslash, 98] = .ok nfa ∧
      (∀ s : List Int, (∀ c ∈ s, IsConcrete c) → (nfa.Accepts s ↔ s = [98, 97])) ∧
      ¬ nfa.Accepts [97, 98] := by
  obtain ⟨nfa, hnfa, hchain⟩ := concatParts_chain [98, 97] (by decide) (by decide)
  have hw0 : ∀ x ∈ ([98, 97] : List Int), (0 : Int) ≤ x := by decide
  have hentry : nfa.entryState < nfa.layout.getStateCount := by
    rw [hchain.entry, hchain.count]; decide
  have hacc : ∀ s : List Int, (∀ c ∈ s, IsConcrete c) → (nfa.Accepts s ↔ s = [98, 97]) :=
    fun s hs => (accepts_iff_hasRun hchain.wf (hasInput_ne_nil hchain.inputs) hentry
      (chain_acyclic hchain hw0) s).trans (chain_hasRun hchain hw0 (fun c hc => (hs c hc).1))
  refine ⟨nfa, hnfa, hacc, ?_⟩
  rw [hacc [97, 98] (by decide)]; decide

/-- C6 (fails on the code): the DFA built from `parse(".")` rejects every string of concrete
characters, so it accepts no one-character string. -/
theorem C6_dfa_of_dot_rejects_every_string :
    ∃ nfa dfa, parse [chDot] = .ok nfa ∧ DFA.ofNFA nfa 2 = .ok dfa ∧
      ∀ s : List Int, (∀ c ∈ s, IsConcrete c) → dfa.simulate s = .ok false := by
  refine ⟨⟨⟨[[0, -2], [0, 0]]⟩, 0, [-2]⟩, ⟨⟨[[0, -2], [0, 0]]⟩, 0, [1]⟩, rfl, rfl,
    fun s hs => ?_⟩
  cases s with
  | nil => rfl
  | cons c t =>
    have hc := hs c (List.mem_cons_self _ _)
    have h0 : (0 : Int) ≠ c := by have := hc.1; omega
    have h2 : (-2 : Int) ≠ c := by have := hc.1; omega
    simp [DFA.simulate, DFA.simulateLoop, DFA.makeTransition, dfaSearch,
      MatrixLayout.getStateCount, MatrixLayout.getTransition, List.range_succ, h0, h2]

/-- C7 (fails on the code): with `A` the automaton of `"ab"` and `B = NFA('a')` unified with
`NFA('b')`, the call `A.unify(B)` takes the branch for a unified `other` and returns an
automaton that no longer accepts `"ab"`, which `A` accepted. -/
theorem C7_unify_with_unified_other_loses_left_language :
    ∃ a b r, (symNFA 97).concatenate (symNFA 98) = .ok a ∧
      (symNFA 97).unify (symNFA 98) = .ok b ∧ b.isUnified = .ok true ∧
      a.unify b = .ok r ∧ a.Accepts [97, 98] ∧ ¬ r.Accepts [97, 98] := by
  refine ⟨⟨⟨[[0, 97, 0], [0, 0, 98], [0, 0, 0]]⟩, 0, [97, 98]⟩,
    ⟨⟨[[0, 97, 0, 0, 0, 0], [0, 0, 0, 0, 0, -1], [0, 0, 0, 98, 0, 0], [0, 0, 0, 0, 0, -1],
      [-1, 0, -1, 0, 0, 0], [0, 0, 0, 0, 0, 0]]⟩, 4, [97, 98]⟩,
    ⟨⟨[[0, 97, 0, 0, 0, 0, 0, 0, 0], [0, 0, 98, 0, 0, 0, 0, 0, 0],
      [0, 0, 0, 0, 0, -1, 0, 0, 0], [0, 0, 0, 0, 97, 0, 0, 0, 0],
      [0, 0, 0, 0, 0, 0, 0, 0, -1], [0, 0, 0, 0, 0, 0, 98, 0, 0],
      [0, 0, 0, 0, 0, 0, 0, 0, -1], [-1, 0, 0, -1, 0, -1, 0, 0, 0],
      [0, 0, 0, 0, 0, 0, 0, 0, 0]]⟩, 7, [97, 98]⟩,
    rfl, rfl, rfl, rfl, ⟨1, rfl⟩, ?_⟩
  refine not_accepts_of_rejects ?_ (by decide) 10 rfl
  unfold MatrixLayout.WF
  decide

/-! ## C9: one character followed by `+` -/

theorem parse_plus {c : Int} (hc : IsLiteral c) : parse [c, chPlus] = .ok (plusNFA c) := by
  have h0 : (0 : Int) ≤ c := by have := hc.1; omega
  have hne : c ≠ Input.epsilon := by
    intro h; rw [h] at h0; exact absurd h0 (by decide)
  unfold parse
  have e : ([c, chPlus] : List Int).length + 1 = 2 + 1 := rfl
  rw [e, @parseImpl_literal_step _ [c, chPlus] _ _ 0 _ c (by simp) rfl hc rfl]
  rw [parseImpl]
  simp [onBack, NFA.plus, symNFA, MatrixLayout.addState, MatrixLayout.addTransition,
    MatrixLayout.getStateCount, sizePred, parseImpl, concatParts, NFA.concatenate, NFA.empty,
    NFA.insertNewInputs, MatrixLayout.addStatesOf, MatrixLayout.appendStates, resizeRow, hne, setInsert, plusNFA]

theorem plusNFA_WF (c : Int) : (plusNFA c).layout.WF := by
  intro row hrow
  simp [plusNFA] at hrow
  rcases hrow with rfl | rfl | rfl <;> simp [plusNFA, MatrixLayout.getStateCount]

@[simp] theorem plusNFA_count (c : Int) : (plusNFA c).layout.getStateCount = 3 := rfl

theorem plusNFA_cell (c : Int) (i j : Nat) :
    cell (plusNFA c).layout i j =
      if i = 0 ∧ j = 1 then c else if i = 1 ∧ (j = 0 ∨ j = 2) then -1 else 0 := by
  match i, j with
  | 0, 0 => rfl
  | 0, 1 => rfl
  | 0, 2 => rfl
  | 0, j + 3 => simp [cell, plusNFA]
  | 1, 0 => rfl
  | 1, 1 => rfl
  | 1, 2 => rfl
  | 1, j + 3 => simp [cell, plusNFA]
  | 2, 0 => rfl
  | 2, 1 => rfl
  | 2, 2 => rfl
  | 2, j + 3 => simp [cell, plusNFA]
  | i + 3, j => simp [cell, plusNFA]

theorem plusNFA_acyclic (c : Int) (hc : 1 ≤ c) : EpsAcyclic (plusNFA c) := by
  refine ⟨fun p => if p = 1 then 1 else 0, ?_⟩
  rintro p q ⟨_, _, h⟩
  rw [plusNFA_cell] at h
  simp only [Input.epsilon] at h
  by_cases h1 : p = 0 ∧ q = 1
  · rw [if_pos h1] at h; omega
  · rw [if_neg h1] at h
    by_cases h2 : p = 1 ∧ (q = 0 ∨ q = 2)
    · simp only [h2.1, if_true]
      rw [if_neg (by omega)]
      omega
    · rw [if_neg h2] at h; omega

theorem plusNFA_path_forward {c : Int} (hc : 1 ≤ c) {p r : Nat} {s : List Int}
    (hpath : Path (plusNFA c) p s r) :
    r = 2 → (∀ x ∈ s, 1 ≤ x) →
      (p = 0 → s ≠ [] ∧ ∀ x ∈ s, x = c) ∧ (p = 1 → ∀ x ∈ s, x = c) ∧ (p = 2 → s = []) := by
  induction hpath with
  | nil p => intro hr _; subst hr; simp
  | @eps p q r s hst _ ih =>
    intro hr hs
    obtain ⟨_, _, h⟩ := hst
    have ih1 := ih hr hs
    rw [plusNFA_cell] at h
    simp only [Input.epsilon] at h
    by_cases h1 : p = 0 ∧ q = 1
    · rw [if_pos h1] at h; omega
    · rw [if_neg h1] at h
      by_cases h2 : p = 1 ∧ (q = 0 ∨ q = 2)
      · refine ⟨fun h3 => by omega, fun _ => ?_, fun h3 => by omega⟩
        rcases h2.2 with h4 | h4
        · exact (ih1.1 h4).2
        · rw [ih1.2.2 h4]; simp
      · rw [if_neg h2] at h; omega
  | @sym p q r x s hst _ ih =>
    intro hr hs
    obtain ⟨_, _, h⟩ := hst
    have hx : 1 ≤ x := hs x (List.mem_cons_self _ _)
    have ih1 := ih hr (fun y hy => hs y (List.mem_cons_of_mem _ hy))
    rw [plusNFA_cell] at h
    simp only [Input.any] at h
    by_cases h1 : p = 0 ∧ q = 1
    · rw [if_pos h1] at h
      have hxc : x = c := by omega
      refine ⟨fun _ => ⟨by simp, ?_⟩, fun h3 => by omega, fun h3 => by omega⟩
      intro y hy
      rcases List.mem_cons.mp hy with rfl | hy1
      · exact hxc
      · exact ih1.2.1 h1.2 y hy1
    · rw [if_neg h1] at h
      by_cases h2 : p = 1 ∧ (q = 0 ∨ q = 2)
      · rw [if_pos h2] at h; omega
      · rw [if_neg h2] at h; omega

theorem plusNFA_path_backward (c : Int) :
    ∀ (s : List Int), (∀ x ∈ s, x = c) → Path (plusNFA c) 1 s 2 := by
  intro s
  induction s with
  | nil =>
    intro _
    exact Path.eps ⟨by simp, by simp, by rw [plusNFA_cell]; rfl⟩ (Path.nil _)
  | cons x t ih =>
    intro hs
    have hx : x = c := hs x (List.mem_cons_self _ _)
    subst hx
    exact Path.eps (q := 0) ⟨by simp, by simp, by rw [plusNFA_cell]; rfl⟩
      (Path.sym (q := 1) ⟨by simp, by simp, Or.inl (by rw [plusNFA_cell]; rfl)⟩
        (ih (fun y hy => hs y (List.mem_cons_of_mem _ hy))))

/-- C9: for every literal character `c`, `parse (c ++ "+")` returns an automaton that accepts
a string `s` of concrete characters if and only if `s` is non-empty and all its characters are
`c`, and `simulate` returns on every such `s`. -/
theorem C9_plus_on_one_character (c : Int) (hc : IsLiteral c) :
    ∃ nfa, parse [c, chPlus] = .ok nfa ∧
      ∀ s : List Int, (∀ x ∈ s, IsConcrete x) →
        (nfa.Accepts s ↔ s ≠ [] ∧ ∀ x ∈ s, x = c) ∧ nfa.Terminates s := by
  have h1 : 1 ≤ c := hc.1
  refine ⟨plusNFA c, parse_plus hc, fun s hs => ?_⟩
  have hentry : (plusNFA c).entryState < (plusNFA c).layout.getStateCount := by
    show 0 < 3
    omega
  have hin : (plusNFA c).possibleInputs ≠ [] := by simp [plusNFA]
  refine ⟨(accepts_iff_hasRun (plusNFA_WF c) hin hentry (plusNFA_acyclic c h1) s).trans ?_,
    simulate_terminates (plusNFA_WF c) hentry (plusNFA_acyclic c h1) s⟩
  constructor
  · intro hrun
    exact (plusNFA_path_forward h1 hrun rfl (fun x hx => (hs x hx).1)).1 rfl
  · rintro ⟨hne, hall⟩
    cases s with
    | nil => exact absurd rfl hne
    | cons x t =>
      have hx : x = c := hall x (List.mem_cons_self _ _)
      subst hx
      show Path (plusNFA x) 0 (x :: t) 2
      exact Path.sym (q := 1) ⟨by simp, by simp, Or.inl (by rw [plusNFA_cell]; rfl)⟩
        (plusNFA_path_backward x t (fun y hy => hall y (List.mem_cons_of_mem _ hy)))

/-- Witness for C9 at the pattern `"a+"`. -/
theorem C9_plus_on_one_character_witness :
    IsLiteral 97 ∧ ∃ nfa, parse [97, chPlus] = .ok nfa ∧
      ∀ s : List Int, (∀ x ∈ s, IsConcrete x) →
        (nfa.Accepts s ↔ s ≠ [] ∧ ∀ x ∈ s, x = 97) ∧ nfa.Terminates s :=
  ⟨by decide, C9_plus_on_one_character 97 (by decide)⟩


/-! ## Single steps of the parser -/

theorem parseImpl_lparen {fuel : Nat} {span : List Int} {inP : Bool} {rc it : Nat}
    {st : ParseState} (hit : it < span.length) (hc : span.getD it 0 = chLParen)
    (hesc : st.needEscaping = false) :
    parseImpl (fuel + 1) span inP rc it st =
      (parseImpl fuel (span.drop (it + 1)) true rc 0 ⟨NFA.empty, [], false⟩ >>= fun ir =>
        parseImpl fuel span inP rc (it + (ir.2 + 1) + 1)
          { st with partialResultVector := st.partialResultVector ++ [ir.1] }) := by
  rw [parseImpl]
  simp only [hit, if_true, hc, hesc, Bool.false_eq_true, if_false]
  rfl

theorem parseImpl_rparen {fuel : Nat} {span : List Int} {rc it : Nat}
    {st : ParseState} (hit : it < span.length) (hc : span.getD it 0 = chRParen)
    (hesc : st.needEscaping = false) :
    parseImpl (fuel + 1) span true rc it st =
      (concatParts st.resultNFA st.partialResultVector >>= fun r => pure (r, it)) := by
  rw [parseImpl]
  simp only [hit, if_true, hc, hesc, Bool.false_eq_true, if_false]
  rfl

theorem parseImpl_star {fuel : Nat} {span : List Int} {inP : Bool} {rc it : Nat}
    {st : ParseState} (hit : it < span.length) (hc : span.getD it 0 = chStar)
    (hesc : st.needEscaping = false) :
    parseImpl (fuel + 1) span inP rc it st =
      (onBack NFA.star st.partialResultVector >>= fun parts =>
        parseImpl fuel span inP rc (it + 1) { st with partialResultVector := parts }) := by
  rw [parseImpl]
  simp only [hit, if_true, hc, hesc, Bool.false_eq_true, if_false]
  rfl

theorem parseImpl_end {fuel : Nat} {span : List Int} {inP : Bool} {rc it : Nat}
    {st : ParseState} (hit : ¬ it < span.length) :
    parseImpl (fuel + 1) span inP rc it st =
      (concatParts st.resultNFA st.partialResultVector >>= fun r => pure (r, span.length)) := by
  rw [parseImpl]
  simp only [hit, if_false]

theorem parse_group_star (u : List Int) (hu : ∀ c ∈ u, IsLiteral c) {ch st : NFA}
    (hch : concatParts NFA.empty (u.map symNFA) = .ok ch) (hst : ch.star = .ok st) :
    parse ([chLParen] ++ u ++ [chRParen, chStar]) = NFA.empty.concatenate st := by
  unfold parse
  have elen : ([chLParen] ++ u ++ [chRParen, chStar]).length + 1 = (u.length + 3) + 1 := by
    simp
  rw [elen, parseImpl_lparen (by simp) (by simp) rfl]
  have edrop : ([chLParen] ++ u ++ [chRParen, chStar]).drop (0 + 1) =
      [] ++ u ++ [chRParen, chStar] := by simp
  have hlits := parseImpl_literals u hu [] [chRParen, chStar] 3 true 0 ⟨NFA.empty, [], false⟩ rfl
  simp only [List.length_nil, Nat.zero_add] at hlits
  rw [edrop, Nat.add_comm u.length 3, hlits]
  simp only [List.nil_append]
  rw [parseImpl_rparen (by simp) (by
    rw [List.getD_append_right _ _ _ _ (le_refl _)]; simp) rfl]
  simp only [hch, bind_ok, pure_eq_ok]
  have e2 : 3 + u.length = (u.length + 2) + 1 := by omega
  rw [e2, parseImpl_star (by simp) (by
    have : ([chLParen] ++ u ++ [chRParen, chStar]) = ([chLParen] ++ u ++ [chRParen]) ++ [chStar] := by
      simp
    rw [this, List.getD_append_right _ _ _ _ (by simp)]
    simp) rfl]
  simp only [onBack, List.getLast?_singleton, hst, bind_ok, pure_eq_ok, List.dropLast_single,
    List.nil_append]
  rw [parseImpl_end (by simp)]
  simp only [concatParts, List.foldlM_cons, List.foldlM_nil]
  cases NFA.empty.concatenate st <;> rfl

/-! ## More builder methods -/

theorem setCell_cell_of_WF {m : MatrixLayout} (hwf : m.WF) {i j : Nat} (x : Int)
    (hi : i < m.getStateCount) (hj : j < m.getStateCount) (a b : Nat) :
    cell (setCell m i j x) a b = if a = i ∧ b = j then x else cell m a b := by
  have := WF.row_length hwf hi
  exact setCell_cell m x hi (by omega) a b

theorem sizePred_pos {n : Nat} (h : 0 < n) : sizePred n = n - 1 := by
  unfold sizePred
  rw [if_neg (by omega)]

/-- Concatenation onto the empty automaton copies the other automaton. -/
theorem concatenate_empty (o : NFA) (ho : o.HasInput) (hf : o.layout.Fits) :
    ∃ r, NFA.empty.concatenate o = .ok r ∧ r.layout.WF ∧
      r.layout.getStateCount = o.layout.getStateCount ∧ r.entryState = o.entryState ∧
      r.HasInput ∧
      ∀ i j, cell r.layout i j = if j < o.layout.getStateCount then cell o.layout i j else 0 := by
  refine ⟨{ NFA.empty.insertNewInputs o with
      layout := (MatrixLayout.mk []).appendStates o.layout, entryState := o.entryState },
    ?_, appendStates_WF _ _, by rw [appendStates_count]; simp [MatrixLayout.getStateCount], rfl,
    insertNewInputs_hasInput (Or.inr ho), fun i j => ?_⟩
  · unfold NFA.concatenate
    simp only [insertNewInputs_layout]
    rw [show NFA.empty.layout = MatrixLayout.mk [] from rfl, addStatesOf_eq _ hf]
    simp [NFA.empty, MatrixLayout.getStateCount]
  · rw [appendStates_cell]
    simp [MatrixLayout.getStateCount]

/-- The general branch of `star`: three epsilon edges and one new state. -/
theorem star_general {self : NFA} (hwf : self.layout.WF)
    (hn : self.layout.getStateCount ≠ 2) (hn0 : 0 < self.layout.getStateCount)
    (hentry : self.entryState < self.layout.getStateCount) :
    ∃ r, self.star = .ok r ∧ r.layout.WF ∧
      r.layout.getStateCount = self.layout.getStateCount + 1 ∧
      r.entryState = self.entryState ∧ r.possibleInputs = self.possibleInputs ∧
      ∀ a b, cell r.layout a b =
        if a = self.entryState ∧ b = self.layout.getStateCount then -1
        else if a = self.layout.getStateCount - 1 ∧ b = self.layout.getStateCount then -1
        else if a = self.layout.getStateCount - 1 ∧ b = self.entryState then -1
        else cell self.layout a b := by
  set n := self.layout.getStateCount with hn_def
  have heps : (0 : Int) ≤ Input.epsilon ∨ Input.epsilon = Input.epsilon ∨
      Input.epsilon = Input.any := Or.inr (Or.inl rfl)
  have hwf1 := setCell_WF hwf (n - 1) self.entryState Input.epsilon
  have hwf2 := addState_WF hwf1
  have hc2 : (setCell self.layout (n - 1) self.entryState Input.epsilon).addState.getStateCount
      = n + 1 := by simp
  have hwf3 := setCell_WF hwf2 (n - 1) n Input.epsilon
  have hwf4 := setCell_WF hwf3 self.entryState n Input.epsilon
  refine ⟨{ self with layout := setCell (setCell
      (setCell self.layout (n - 1) self.entryState Input.epsilon).addState (n - 1) n
        Input.epsilon) self.entryState n Input.epsilon }, ?_, hwf4, by simp, rfl, rfl,
    fun a b => ?_⟩
  · unfold NFA.star NFA.isSimpleCharacter
    rw [if_neg hn]
    simp only [pure_eq_ok, bind_ok, Bool.false_eq_true, if_false]
    rw [← hn_def, sizePred_pos hn0, addTransition_eq hwf (by omega) hentry heps, bind_ok,
      hc2, sizePred_pos (by omega), Nat.add_sub_cancel,
      addTransition_eq hwf2 (by rw [hc2]; omega) (by rw [hc2]; omega) heps, bind_ok,
      addTransition_eq hwf3 (by simp; omega) (by simp) heps, bind_ok]
  · simp only []
    rw [setCell_cell_of_WF hwf3 _ (by simp; omega) (by simp),
      setCell_cell_of_WF hwf2 _ (by rw [hc2]; omega) (by rw [hc2]; omega), addState_cell,
      setCell_cell_of_WF hwf _ (by omega) hentry]

theorem star_general_fits {a r : NFA} (hn : a.layout.getStateCount ≠ 2) (hf : a.layout.Fits)
    (h : a.star = .ok r) : r.layout.Fits := by
  unfold NFA.star NFA.isSimpleCharacter at h
  rw [if_neg hn] at h
  simp only [pure_eq_ok, bind_ok, Bool.false_eq_true, if_false] at h
  obtain ⟨l1, h1, h⟩ := bind_eq_ok h
  obtain ⟨l3, h3, h⟩ := bind_eq_ok h
  obtain ⟨l4, h4, h⟩ := bind_eq_ok h
  cases h
  obtain ⟨rfl, -, -⟩ := addTransition_ok h1
  obtain ⟨rfl, -, -⟩ := addTransition_ok h3
  obtain ⟨rfl, -, -⟩ := addTransition_ok h4
  exact setCell_fits (setCell_fits (addState_fits (setCell_fits hf _ _ _)) _ _ _) _ _ _

theorem star_sym {c : Int} (hc : 0 ≤ c) : (symNFA c).star = .ok ⟨⟨[[c, 0]]⟩, 0, [c]⟩ := by
  simp [NFA.star, NFA.isSimpleCharacter, MatrixLayout.addState, MatrixLayout.addTransition,
    MatrixLayout.getTransition, MatrixLayout.removeLastState, MatrixLayout.getStateCount,
    sizePred, hc, symNFA]

/-- The one-state automaton that the collapsing branch of `star` leaves has a row of two
entries; the concatenation of the parts of a pattern copies this row past the end of the new
row. -/
theorem concatenate_empty_star_sym (c : Int) (inputs : List Int) :
    NFA.empty.concatenate ⟨⟨[[c, 0]]⟩, 0, inputs⟩ = .error .undefinedBehaviour := by
  have hnf : ¬ (MatrixLayout.mk [[c, 0]]).Fits := by
    intro h
    have := h [c, 0] (List.mem_singleton.mpr rfl)
    simp [MatrixLayout.getStateCount] at this
  unfold NFA.concatenate
  simp only [insertNewInputs_layout, insertNewInputs_entry, pure_eq_ok]
  rw [show NFA.empty.layout = MatrixLayout.mk [] from rfl]
  rw [if_neg (by decide), if_neg (by decide), addStatesOf_overflow _ hnf]
  rfl

/-! ## C4: a parenthesised literal string followed by `*` -/

theorem rep_zero (u : List Int) : rep 0 u = [] := rfl

theorem rep_succ (n : Nat) (u : List Int) : rep (n + 1) u = u ++ rep n u := by
  simp [rep, List.replicate_succ]

theorem isStarChain_of_chain {u : List Int} {ch : NFA} (h : IsChain u ch)
    (hlen : 2 ≤ u.length) :
    ∃ st r, ch.star = .ok st ∧ NFA.empty.concatenate st = .ok r ∧ IsStarChain u r := by
  obtain ⟨st, hst, hwf, hcount, hentry, hin, hcells⟩ := star_general h.wf
    (by rw [h.count]; omega) (by rw [h.count]; omega) (by rw [h.entry, h.count]; omega)
  have hinput : st.HasInput := by
    obtain ⟨x, hx, hne⟩ := h.inputs
    exact ⟨x, by rw [hin]; exact hx, hne⟩
  obtain ⟨r, hr, hwfr, hcr, her, hinr, hcellr⟩ := concatenate_empty st hinput
    (star_general_fits (by rw [h.count]; omega) h.fits hst)
  refine ⟨st, r, hst, hr, hwfr, by rw [hcr, hcount, h.count], by rw [her, hentry, h.entry],
    hinr, fun i j => ?_⟩
  rw [hcellr, hcount, hcells, h.count, h.entry, h.cells]
  simp only [Nat.add_sub_cancel]
  by_cases hj : j < u.length + 1 + 1
  · rw [if_pos hj]
  · rw [if_neg hj, if_neg (by omega), if_neg (by omega), if_neg (by omega), if_neg (by omega)]

theorem starChain_acyclic {u : List Int} {nfa : NFA} (h : IsStarChain u nfa)
    (hu : ∀ x ∈ u, 1 ≤ x) (hlen : 2 ≤ u.length) : EpsAcyclic nfa := by
  refine ⟨fun p => if p = u.length then 2 else if p = 0 then 1 else 0, ?_⟩
  rintro p q ⟨_, hq, hc⟩
  rw [h.cells] at hc
  rw [h.count] at hq
  simp only [Input.epsilon] at hc
  have hnn := getD_nonneg (fun x hx => by have := hu x hx; omega) p
  by_cases h1 : p = 0 ∧ q = u.length + 1
  · obtain ⟨hp0, hq0⟩ := h1
    subst hp0 hq0
    show (if u.length + 1 = u.length then 2 else if u.length + 1 = 0 then 1 else 0) <
      (if 0 = u.length then 2 else if 0 = 0 then 1 else 0)
    rw [if_neg (by omega), if_neg (by omega), if_neg (by omega), if_pos rfl]
    omega
  · rw [if_neg h1] at hc
    by_cases h2 : p = u.length ∧ q = u.length + 1
    · obtain ⟨hp0, hq0⟩ := h2
      subst hp0 hq0
      show (if u.length + 1 = u.length then 2 else if u.length + 1 = 0 then 1 else 0) <
        (if u.length = u.length then 2 else if u.length = 0 then 1 else 0)
      rw [if_neg (by omega), if_neg (by omega), if_pos rfl]
      omega
    · rw [if_neg h2] at hc
      by_cases h3 : p = u.length ∧ q = 0
      · obtain ⟨hp0, hq0⟩ := h3
        subst hp0 hq0
        show (if 0 = u.length then 2 else if 0 = 0 then 1 else 0) <
          (if u.length = u.length then 2 else if u.length = 0 then 1 else 0)
        rw [if_neg (by omega), if_pos rfl, if_pos rfl]
        omega
      · rw [if_neg h3] at hc
        split at hc <;> omega

theorem starChain_path_forward {u : List Int} {nfa : NFA} (h : IsStarChain u nfa)
    (hu : ∀ x ∈ u, 1 ≤ x) (hlen : 2 ≤ u.length) {p r : Nat} {s : List Int}
    (hpath : Path nfa p s r) :
    r = u.length + 1 → (∀ x ∈ s, 1 ≤ x) →
      (p = u.length + 1 → s = []) ∧ (p = 0 → ∃ n, s = rep n u) ∧
        (0 < p → p ≤ u.length → ∃ n, s = u.drop p ++ rep n u) := by
  induction hpath with
  | nil p =>
    intro hr _
    subst hr
    exact ⟨fun _ => rfl, fun h0 => by omega, fun _ h2 => by omega⟩
  | @eps p q r s hst _ ih =>
    intro hr hs
    obtain ⟨_, hq, hc⟩ := hst
    have ih1 := ih hr hs
    rw [h.cells] at hc
    rw [h.count] at hq
    simp only [Input.epsilon] at hc
    have hnn := getD_nonneg (fun x hx => by have := hu x hx; omega) p
    by_cases h1 : p = 0 ∧ q = u.length + 1
    · refine ⟨fun h0 => by omega, fun _ => ⟨0, ?_⟩, fun h0 => by omega⟩
      rw [ih1.1 h1.2, rep_zero]
    · rw [if_neg h1] at hc
      by_cases h2 : p = u.length ∧ q = u.length + 1
      · refine ⟨fun h0 => by omega, fun h0 => by omega, fun _ _ => ⟨0, ?_⟩⟩
        rw [ih1.1 h2.2, rep_zero, h2.1, List.drop_length]
        rfl
      · rw [if_neg h2] at hc
        by_cases h3 : p = u.length ∧ q = 0
        · refine ⟨fun h0 => by omega, fun h0 => by omega, fun _ _ => ?_⟩
          obtain ⟨n, hn⟩ := ih1.2.1 h3.2
          exact ⟨n, by rw [hn, h3.1, List.drop_length, List.nil_append]⟩
        · rw [if_neg h3] at hc
          split at hc <;> omega
  | @sym p q r x s hst _ ih =>
    intro hr hs
    obtain ⟨_, hq, hc⟩ := hst
    have hx : 1 ≤ x := hs x (List.mem_cons_self _ _)
    have ih1 := ih hr (fun y hy => hs y (List.mem_cons_of_mem _ hy))
    rw [h.cells] at hc
    rw [h.count] at hq
    simp only [Input.any] at hc
    have hnn := getD_nonneg (fun x hx => by have := hu x hx; omega) p
    by_cases h1 : p = 0 ∧ q = u.length + 1
    · rw [if_pos h1] at hc; omega
    · rw [if_neg h1] at hc
      by_cases h2 : p = u.length ∧ q = u.length + 1
      · rw [if_pos h2] at hc; omega
      · rw [if_neg h2] at hc
        by_cases h3 : p = u.length ∧ q = 0
        · rw [if_pos h3] at hc; omega
        · rw [if_neg h3] at hc
          by_cases h4 : q = p + 1 ∧ p < u.length
          · rw [if_pos h4] at hc
            have hxc : u.getD p 0 = x := by omega
            obtain ⟨n, hn⟩ := ih1.2.2 (by omega) (by omega)
            have hcons : x :: s = u.drop p ++ rep n u := by
              rw [List.drop_eq_getElem_cons h4.2, ← List.getD_eq_getElem _ 0 h4.2, hxc, hn,
                h4.1]
              rfl
            refine ⟨fun h0 => by omega, fun h0 => ⟨n + 1, ?_⟩, fun _ _ => ⟨n, hcons⟩⟩
            rw [hcons, h0, List.drop_zero, rep_succ]
          · rw [if_neg h4] at hc; omega

theorem starChain_path_chain {u : List Int} {nfa : NFA} (h : IsStarChain u nfa)
    (hlen : 2 ≤ u.length) {rest : List Int} {r : Nat}
    (hrest : Path nfa u.length rest r) :
    ∀ (k p : Nat), p + k = u.length → Path nfa p (u.drop p ++ rest) r := by
  intro k
  induction k with
  | zero =>
    intro p hp
    have : p = u.length := by omega
    rw [this, List.drop_length]
    exact hrest
  | succ k ih =>
    intro p hp
    have hlt : p < u.length := by omega
    rw [List.drop_eq_getElem_cons hlt, List.cons_append]
    refine Path.sym ⟨by rw [h.count]; omega, by rw [h.count]; omega, Or.inl ?_⟩
      (ih (p + 1) (by omega))
    rw [h.cells, if_neg (by omega), if_neg (by omega), if_neg (by omega), if_pos ⟨rfl, hlt⟩,
      List.getD_eq_getElem _ _ hlt]

theorem starChain_path_backward {u : List Int} {nfa : NFA} (h : IsStarChain u nfa)
    (hlen : 2 ≤ u.length) :
    ∀ n, Path nfa 0 (rep n u) (u.length + 1) := by
  intro n
  induction n with
  | zero =>
    rw [rep_zero]
    refine Path.eps ⟨by rw [h.count]; omega, by rw [h.count]; omega, ?_⟩ (Path.nil _)
    rw [h.cells, if_pos ⟨rfl, rfl⟩]
  | succ n ih =>
    rw [rep_succ]
    have hback : Path nfa u.length (rep n u) (u.length + 1) := by
      refine Path.eps (q := 0) ⟨by rw [h.count]; omega, by rw [h.count]; omega, ?_⟩ ih
      rw [h.cells, if_neg (by omega), if_neg (by omega), if_pos ⟨rfl, rfl⟩]
    simpa using starChain_path_chain h hlen hback u.length 0 (by omega)

theorem starChain_hasRun {u : List Int} {nfa : NFA} (h : IsStarChain u nfa)
    (hu : ∀ x ∈ u, 1 ≤ x) (hlen : 2 ≤ u.length) {s : List Int} (hs : ∀ c ∈ s, 1 ≤ c) :
    nfa.HasRun s ↔ ∃ n, s = rep n u := by
  unfold NFA.HasRun
  have hlast : sizePred nfa.layout.getStateCount = u.length + 1 := by
    rw [h.count]; simp [sizePred]
  rw [hlast, h.entry]
  constructor
  · intro hp
    exact (starChain_path_forward h hu hlen hp rfl hs).2.1 rfl
  · rintro ⟨n, rfl⟩
    exact starChain_path_backward h hlen n

theorem parse_star_one {c : Int} (hc : IsLiteral c) :
    parse [c, chStar] = .error .undefinedBehaviour := by
  have h0 : (0 : Int) ≤ c := by have := hc.1; omega
  unfold parse
  have e : ([c, chStar] : List Int).length + 1 = 2 + 1 := rfl
  rw [e, @parseImpl_literal_step _ [c, chStar] _ _ 0 _ c (by simp) rfl hc rfl]
  rw [parseImpl_star (by simp) (by simp) rfl]
  simp only [onBack, List.nil_append, List.getLast?_singleton, star_sym h0, bind_ok, pure_eq_ok,
    List.dropLast_single]
  rw [parseImpl_end (by simp)]
  simp only [concatParts, List.foldlM_cons, List.foldlM_nil, concatenate_empty_star_sym]
  rfl

/-- C4 (fails on the code for `|u| = 1`): for a string `u` of at least two literal characters
`parse ("(" ++ u ++ ")*")` returns an automaton that accepts a string `s` of concrete characters
if and only if `s` is the concatenation of `n` copies of `u` for some `n`, and `simulate`
returns on every such `s`. For a single literal character `c` the collapsing branch of `star`
leaves one state with a row of two entries, and the concatenation of the parts at the end of
`parseImpl` copies this row into a new row of one entry: `parse "(c)*"` and `parse "c*"` write
past the end of a row. The pattern `"(ab)*"` is an instance of the first part. -/
theorem C4_star_of_one_character_overflows :
    (∀ u : List Int, 2 ≤ u.length → (∀ c ∈ u, IsLiteral c) →
      ∃ nfa, parse ([chLParen] ++ u ++ [chRParen, chStar]) = .ok nfa ∧
        ∀ s : List Int, (∀ c ∈ s, IsConcrete c) →
          (nfa.Accepts s ↔ ∃ n, s = rep n u) ∧ nfa.Terminates s) ∧
      (∀ c : Int, IsLiteral c →
        (∃ a, (symNFA c).star = .ok a ∧ ¬ a.layout.Fits ∧
          NFA.empty.concatenate a = .error .undefinedBehaviour) ∧
        parse [chLParen, c, chRParen, chStar] = .error .undefinedBehaviour ∧
        parse [c, chStar] = .error .undefinedBehaviour) ∧
      parse [chLParen, 97, 98, chRParen, chStar] =
        .ok ⟨⟨[[0, 97, 0, -1], [0, 0, 98, 0], [-1, 0, 0, -1], [0, 0, 0, 0]]⟩, 0, [97, 98]⟩ := by
  refine ⟨fun u hlen hu => ?_, fun c hc => ?_, rfl⟩
  · have hu1 : ∀ x ∈ u, (1 : Int) ≤ x := fun x hx => (hu x hx).1
    have hu0 : ∀ x ∈ u, (0 : Int) ≤ x := fun x hx => by have := hu1 x hx; omega
    have hne : u ≠ [] := by
      intro h; rw [h] at hlen; simp at hlen
    obtain ⟨ch, hch, hchain⟩ := concatParts_chain u hne hu0
    obtain ⟨st, r, hst, hr, hsc⟩ := isStarChain_of_chain hchain hlen
    refine ⟨r, by rw [parse_group_star u hu hch hst, hr], fun s hs => ?_⟩
    have hentry : r.entryState < r.layout.getStateCount := by
      rw [hsc.entry, hsc.count]; omega
    have hac := starChain_acyclic hsc hu1 hlen
    exact ⟨(accepts_iff_hasRun hsc.wf (hasInput_ne_nil hsc.inputs) hentry hac s).trans
        (starChain_hasRun hsc hu1 hlen (fun c hc => (hs c hc).1)),
      simulate_terminates hsc.wf hentry hac s⟩
  · have hc0 : (0 : Int) ≤ c := by have := hc.1; omega
    refine ⟨⟨_, star_sym hc0, ?_, concatenate_empty_star_sym c [c]⟩, ?_, parse_star_one hc⟩
    · intro h
      have := h [c, 0] (List.mem_singleton.mpr rfl)
      simp [MatrixLayout.getStateCount] at this
    · have hlit : ∀ x ∈ [c], IsLiteral x := fun x hx => by
        rw [List.mem_singleton.mp hx]; exact hc
      have h := @parse_group_star [c] hlit (symNFA c) _
        (by simp [concatParts, concatenate_empty_sym hc0]) (star_sym hc0)
      rw [concatenate_empty_star_sym] at h
      exact h


/-! ## `isUnified` and `unify` -/

theorem isUnified_sym {c : Int} (hc : 0 ≤ c) : (symNFA c).isUnified = .ok false := by
  have h1 : c ≠ Input.epsilon := by
    intro h; rw [h] at hc; exact absurd hc (by decide)
  simp [NFA.isUnified, isUnifiedLoop, symNFA, MatrixLayout.getStateCount,
    MatrixLayout.getTransition, List.range_succ, h1]

theorem range_three (m : Nat) :
    List.range (m + 3) = 0 :: 1 :: 2 :: List.range' 3 m := by
  rw [List.range_eq_range']
  have : m + 3 = (m + 2) + 1 := rfl
  rw [this, List.range'_succ]
  have : m + 2 = (m + 1) + 1 := rfl
  rw [this, List.range'_succ, List.range'_succ]

/-- An automaton whose entry state `4` has epsilon edges to the states `0` and `2` is in
unified form. -/
theorem isUnified_entry_four {nfa : NFA} (hwf : nfa.layout.WF)
    (hn : 5 ≤ nfa.layout.getStateCount) (he : nfa.entryState = 4)
    (h0 : cell nfa.layout 4 0 = -1) (h2 : cell nfa.layout 4 2 = -1) :
    nfa.isUnified = .ok true := by
  unfold NFA.isUnified
  obtain ⟨m, hm⟩ : ∃ m, nfa.layout.getStateCount = m + 3 := ⟨nfa.layout.getStateCount - 3, by omega⟩
  rw [hm, range_three, he]
  simp only [isUnifiedLoop, ne_eq, OfNat.zero_ne_ofNat, not_false_eq_true, if_true,
    getTransition_eq hwf (show 4 < nfa.layout.getStateCount by omega)
      (show 0 < nfa.layout.getStateCount by omega),
    getTransition_eq hwf (show 4 < nfa.layout.getStateCount by omega)
      (show 1 < nfa.layout.getStateCount by omega),
    getTransition_eq hwf (show 4 < nfa.layout.getStateCount by omega)
      (show 2 < nfa.layout.getStateCount by omega), bind_ok, h0, h2]
  simp

/-- The branch of `unify` for a receiver in unified form (and an argument that is not): two
epsilon edges, no new state. -/
theorem unify_self_unified {self other : NFA}
    (hn : 0 < self.layout.getStateCount) (hm : 0 < other.layout.getStateCount)
    (hentry : self.entryState < self.layout.getStateCount)
    (hoentry : other.entryState < other.layout.getStateCount)
    (ho : other.isUnified = .ok false)
    (hs : NFA.isUnified ⟨self.layout.appendStates other.layout, self.entryState,
      (self.insertNewInputs other).possibleInputs⟩ = .ok true)
    (hfit : other.layout.Fits) :
    ∃ r, self.unify other = .ok r ∧ r.layout.WF ∧
      r.layout.getStateCount = self.layout.getStateCount + other.layout.getStateCount ∧
      r.entryState = self.entryState ∧
      r.possibleInputs = (self.insertNewInputs other).possibleInputs ∧
      ∀ a b, cell r.layout a b =
        if a = self.entryState ∧ b = other.entryState + self.layout.getStateCount then -1
        else if a = self.layout.getStateCount - 1 ∧
          b = other.layout.getStateCount - 1 + self.layout.getStateCount then -1
        else cell (self.layout.appendStates other.layout) a b := by
  set n := self.layout.getStateCount with hn_def
  set m := other.layout.getStateCount with hm_def
  have heps : (0 : Int) ≤ Input.epsilon ∨ Input.epsilon = Input.epsilon ∨
      Input.epsilon = Input.any := Or.inr (Or.inl rfl)
  have hwf0 := appendStates_WF self.layout other.layout
  have hc0 : (self.layout.appendStates other.layout).getStateCount = n + m := by simp
  have hwf1 := setCell_WF hwf0 (n - 1) (m - 1 + n) Input.epsilon
  have hwf2 := setCell_WF hwf1 self.entryState (other.entryState + n) Input.epsilon
  refine ⟨{ self.insertNewInputs other with
      layout := setCell (setCell (self.layout.appendStates other.layout) (n - 1) (m - 1 + n)
        Input.epsilon) self.entryState (other.entryState + n) Input.epsilon },
    ?_, hwf2, by simp, rfl, rfl, fun a b => ?_⟩
  · unfold NFA.unify
    simp only [insertNewInputs_layout, insertNewInputs_entry]
    rw [if_neg (by omega), if_neg (by omega), addStatesOf_eq _ hfit, bind_ok, ho]
    simp only [bind_ok, Bool.false_eq_true, if_false]
    rw [hs]
    simp only [bind_ok, if_true]
    rw [← hn_def, ← hm_def, sizePred_pos hn, sizePred_pos hm,
      addTransition_eq hwf0 (by rw [hc0]; omega) (by rw [hc0]; omega) heps, bind_ok,
      addTransition_eq hwf1 (by simp only [setCell_count, addState_count, appendStates_count]; omega) (by simp only [setCell_count, addState_count, appendStates_count]; omega) heps, bind_ok]
    rfl
  · simp only []
    rw [setCell_cell_of_WF hwf1 _ (by simp only [setCell_count, addState_count, appendStates_count]; omega) (by simp only [setCell_count, addState_count, appendStates_count]; omega),
      setCell_cell_of_WF hwf0 _ (by rw [hc0]; omega) (by rw [hc0]; omega)]

/-- The branch of `unify` for two automata that are not in unified form: a new entry state
and a new last state, and four epsilon edges. -/
theorem unify_plain {self other : NFA}
    (hn : 0 < self.layout.getStateCount) (hm : 0 < other.layout.getStateCount)
    (hentry : self.entryState < self.layout.getStateCount)
    (hoentry : other.entryState < other.layout.getStateCount)
    (ho : other.isUnified = .ok false)
    (hs : NFA.isUnified ⟨self.layout.appendStates other.layout, self.entryState,
      (self.insertNewInputs other).possibleInputs⟩ = .ok false)
    (hfit : other.layout.Fits) :
    ∃ r, self.unify other = .ok r ∧ r.layout.WF ∧
      r.layout.getStateCount = self.layout.getStateCount + other.layout.getStateCount + 2 ∧
      r.entryState = self.layout.getStateCount + other.layout.getStateCount ∧
      r.possibleInputs = (self.insertNewInputs other).possibleInputs ∧
      ∀ a b, cell r.layout a b =
        if a = self.layout.getStateCount + other.layout.getStateCount ∧
          b = other.entryState + self.layout.getStateCount then -1
        else if a = self.layout.getStateCount - 1 ∧
          b = self.layout.getStateCount + other.layout.getStateCount + 1 then -1
        else if a = other.layout.getStateCount - 1 + self.layout.getStateCount ∧
          b = self.layout.getStateCount + other.layout.getStateCount + 1 then -1
        else if a = self.layout.getStateCount + other.layout.getStateCount ∧
          b = self.entryState then -1
        else cell (self.layout.appendStates other.layout) a b := by
  set n := self.layout.getStateCount with hn_def
  set m := other.layout.getStateCount with hm_def
  have heps : (0 : Int) ≤ Input.epsilon ∨ Input.epsilon = Input.epsilon ∨
      Input.epsilon = Input.any := Or.inr (Or.inl rfl)
  have hwf0 := appendStates_WF self.layout other.layout
  have hc0 : (self.layout.appendStates other.layout).getStateCount = n + m := by simp
  have hwf1 := addState_WF hwf0
  have hc1 : (self.layout.appendStates other.layout).addState.getStateCount = n + m + 1 := by
    simp
  have hwf2 := setCell_WF hwf1 (n + m) self.entryState Input.epsilon
  have hwf3 := addState_WF hwf2
  have hc3 : (setCell (self.layout.appendStates other.layout).addState (n + m) self.entryState
      Input.epsilon).addState.getStateCount = n + m + 2 := by simp
  have hwf4 := setCell_WF hwf3 (m - 1 + n) (n + m + 1) Input.epsilon
  have hwf5 := setCell_WF hwf4 (n - 1) (n + m + 1) Input.epsilon
  have hwf6 := setCell_WF hwf5 (n + m) (other.entryState + n) Input.epsilon
  refine ⟨{ self.insertNewInputs other with
      layout := setCell (setCell (setCell (setCell
        (self.layout.appendStates other.layout).addState (n + m) self.entryState
          Input.epsilon).addState (m - 1 + n) (n + m + 1) Input.epsilon) (n - 1) (n + m + 1)
            Input.epsilon) (n + m) (other.entryState + n) Input.epsilon,
      entryState := n + m },
    ?_, hwf6, by simp, rfl, rfl, fun a b => ?_⟩
  · unfold NFA.unify
    simp only [insertNewInputs_layout, insertNewInputs_entry]
    rw [if_neg (by omega), if_neg (by omega), addStatesOf_eq _ hfit, bind_ok, ho]
    simp only [bind_ok, Bool.false_eq_true, if_false]
    rw [hs]
    simp only [bind_ok, Bool.false_eq_true, if_false]
    have e1 : other.entryState + (n - 1) + 1 = other.entryState + n := by omega
    have e2 : n + m + 2 - 1 = n + m + 1 := by omega
    rw [← hn_def, ← hm_def, sizePred_pos hn, sizePred_pos hm, hc1, sizePred_pos (by omega),
      Nat.add_sub_cancel,
      addTransition_eq hwf1 (by rw [hc1]; omega) (by rw [hc1]; omega) heps, bind_ok,
      hc3, sizePred_pos (by omega), e2, e1,
      addTransition_eq hwf3 (by rw [hc3]; omega) (by rw [hc3]; omega) heps, bind_ok,
      addTransition_eq hwf4 (by simp only [setCell_count, addState_count, appendStates_count]; omega) (by simp only [setCell_count, addState_count, appendStates_count]; omega) heps, bind_ok,
      addTransition_eq hwf5 (by simp only [setCell_count, addState_count, appendStates_count]; omega) (by simp only [setCell_count, addState_count, appendStates_count]; omega) heps, bind_ok]
    rfl
  · simp only []
    rw [setCell_cell_of_WF hwf5 _ (by simp only [setCell_count, addState_count, appendStates_count]; omega) (by simp only [setCell_count, addState_count, appendStates_count]; omega),
      setCell_cell_of_WF hwf4 _ (by simp only [setCell_count, addState_count, appendStates_count]; omega) (by simp only [setCell_count, addState_count, appendStates_count]; omega),
      setCell_cell_of_WF hwf3 _ (by rw [hc3]; omega) (by rw [hc3]; omega), addState_cell,
      setCell_cell_of_WF hwf1 _ (by rw [hc1]; omega) (by rw [hc1]; omega), addState_cell]


/-! ## C5: the automaton of a character range -/

theorem rangeCell_succ_of_lt (x : Int) {k a b : Nat} (ha : a < 2 * k + 2)
    (h1 : ¬ (a = 4 ∧ b = 2 * k + 2)) (h2 : ¬ (a = 2 * k + 1 ∧ b = 2 * k + 3)) :
    rangeCell x (k + 1) a b = rangeCell x k a b := by
  have e3 : (a % 2 = 0 ∧ 6 ≤ a ∧ a < 2 * (k + 1) + 2 ∧ b = a + 1) ↔
      (a % 2 = 0 ∧ 6 ≤ a ∧ a < 2 * k + 2 ∧ b = a + 1) := by omega
  have e4 : (a = 4 ∧ b % 2 = 0 ∧ b ≠ 4 ∧ b < 2 * (k + 1) + 2) ↔
      (a = 4 ∧ b % 2 = 0 ∧ b ≠ 4 ∧ b < 2 * k + 2) := by omega
  have e6 : (a % 2 = 1 ∧ 5 ≤ a ∧ b = a + 2 ∧ b < 2 * (k + 1) + 2) ↔
      (a % 2 = 1 ∧ 5 ≤ a ∧ b = a + 2 ∧ b < 2 * k + 2) := by omega
  simp only [rangeCell, e3, e4, e6]

theorem rangeCell_eq_zero (x : Int) {k a b : Nat} (hk : 2 ≤ k)
    (h : 2 * k + 2 ≤ a ∨ 2 * k + 2 ≤ b) : rangeCell x k a b = 0 := by
  unfold rangeCell
  rw [if_neg (by omega), if_neg (by omega), if_neg (by omega), if_neg (by omega),
    if_neg (by omega), if_neg (by omega)]

theorem rangeCell_succ_of_ge (x : Int) {k a b : Nat} (hk : 2 ≤ k) (ha : 2 * k + 2 ≤ a) :
    rangeCell x (k + 1) a b = if a = 2 * k + 2 ∧ b = 2 * k + 3 then x + k else 0 := by
  unfold rangeCell
  rw [if_neg (by omega), if_neg (by omega)]
  by_cases h : a = 2 * k + 2 ∧ b = 2 * k + 3
  · rw [if_pos (by omega), if_pos h]
    have : ((a / 2 - 1 : Nat) : Int) = k := by omega
    rw [this]
  · rw [if_neg (by omega), if_neg (by omega), if_neg (by omega), if_neg (by omega), if_neg h]

theorem rangeCell_step (x : Int) (k : Nat) (hk : 2 ≤ k) (a b : Nat) :
    (if a = 4 ∧ b = 0 + (2 * k + 2) then (-1 : Int)
      else if a = 2 * k + 2 - 1 ∧ b = 2 - 1 + (2 * k + 2) then -1
      else if a < 2 * k + 2 then (if b < 2 * k + 2 + 2 then rangeCell x k a b else 0)
      else if 2 * k + 2 ≤ b ∧ b < 2 * k + 2 + 2 then
        (if a - (2 * k + 2) = 0 ∧ b - (2 * k + 2) = 1 then x + k else 0)
      else 0) = rangeCell x (k + 1) a b := by
  by_cases h1 : a = 4 ∧ b = 0 + (2 * k + 2)
  · rw [if_pos h1]
    unfold rangeCell
    rw [if_neg (by omega), if_neg (by omega), if_neg (by omega), if_pos (by omega)]
  · rw [if_neg h1]
    by_cases h2 : a = 2 * k + 2 - 1 ∧ b = 2 - 1 + (2 * k + 2)
    · rw [if_pos h2]
      unfold rangeCell
      rw [if_neg (by omega), if_neg (by omega), if_neg (by omega), if_neg (by omega),
        if_neg (by omega), if_pos (by omega)]
    · rw [if_neg h2]
      by_cases h3 : a < 2 * k + 2
      · rw [if_pos h3, rangeCell_succ_of_lt x h3 (by omega) (by omega)]
        by_cases h4 : b < 2 * k + 2 + 2
        · rw [if_pos h4]
        · rw [if_neg h4, rangeCell_eq_zero x hk (Or.inr (by omega))]
      · rw [if_neg h3, rangeCell_succ_of_ge x hk (by omega)]
        by_cases h5 : a = 2 * k + 2 ∧ b = 2 * k + 3
        · rw [if_pos (by omega), if_pos (by omega), if_pos h5]
        · rw [if_neg h5]
          by_cases h6 : 2 * k + 2 ≤ b ∧ b < 2 * k + 2 + 2
          · rw [if_pos h6, if_neg (by omega)]
          · rw [if_neg h6]

theorem rangeCell_base (x : Int) (a b : Nat) :
    (if a = 2 + 2 ∧ b = 0 + 2 then (-1 : Int)
      else if a = 2 - 1 ∧ b = 2 + 2 + 1 then -1
      else if a = 2 - 1 + 2 ∧ b = 2 + 2 + 1 then -1
      else if a = 2 + 2 ∧ b = 0 then -1
      else if a < 2 then (if b < 2 + 2 then (if a = 0 ∧ b = 1 then x else 0) else 0)
      else if 2 ≤ b ∧ b < 2 + 2 then (if a - 2 = 0 ∧ b - 2 = 1 then x + 1 else 0)
      else 0) = rangeCell x 2 a b := by
  by_cases hab : a < 6 ∧ b < 6
  · obtain ⟨ha, hb⟩ := hab
    interval_cases a <;> interval_cases b <;> simp [rangeCell]
  · rw [rangeCell_eq_zero x (le_refl 2) (by omega)]
    split_ifs <;> omega

theorem isRange_base {x : Int} (hx : 0 ≤ x) :
    ∃ r, (symNFA x).unify (symNFA (x + 1)) = .ok r ∧ IsRange x 2 r := by
  have hx1 : 0 ≤ x + 1 := by omega
  have hne : x ≠ Input.epsilon := by
    intro h; rw [h] at hx; exact absurd hx (by decide)
  have hs : NFA.isUnified ⟨(symNFA x).layout.appendStates (symNFA (x + 1)).layout,
      (symNFA x).entryState, ((symNFA x).insertNewInputs (symNFA (x + 1))).possibleInputs⟩ =
      .ok false := by
    simp [NFA.isUnified, isUnifiedLoop, symNFA, MatrixLayout.getStateCount,
      MatrixLayout.addStatesOf, MatrixLayout.appendStates, resizeRow, MatrixLayout.getTransition, List.range_succ, hne]
  obtain ⟨r, hr, hwf, hcount, hentry, hin, hcells⟩ := @unify_plain (symNFA x) _
    (by simp) (by simp) (by simp) (by simp) (isUnified_sym hx1) hs (symNFA_fits _)
  refine ⟨r, hr, hwf, unify_fits (symNFA_fits x) hr, by rw [hcount]; rfl, by rw [hentry]; rfl,
    ?_, fun i j => ?_⟩
  · obtain ⟨y, hy, hye⟩ := insertNewInputs_hasInput (b := symNFA (x + 1))
      (Or.inl (symNFA_hasInput hx))
    exact ⟨y, by rw [hin]; exact hy, hye⟩
  · rw [hcells, appendStates_cell, symNFA_cell, symNFA_cell]
    exact rangeCell_base x i j

theorem isRange_step {x : Int} {k : Nat} {self : NFA} (h : IsRange x k self) (hk : 2 ≤ k)
    (hc : 0 ≤ x + k) :
    ∃ r, self.unify (symNFA (x + k)) = .ok r ∧ IsRange x (k + 1) r := by
  have hl0 : ∀ a b, cell (self.layout.appendStates (symNFA (x + k)).layout) a b =
      if a < 2 * k + 2 then (if b < 2 * k + 2 + 2 then rangeCell x k a b else 0)
      else if 2 * k + 2 ≤ b ∧ b < 2 * k + 2 + 2 then
        (if a - (2 * k + 2) = 0 ∧ b - (2 * k + 2) = 1 then x + k else 0)
      else 0 := by
    intro a b
    rw [appendStates_cell, symNFA_cell, h.count, h.cells]
    rfl
  have hs : NFA.isUnified ⟨self.layout.appendStates (symNFA (x + k)).layout,
      self.entryState, (self.insertNewInputs (symNFA (x + k))).possibleInputs⟩ = .ok true := by
    apply isUnified_entry_four (appendStates_WF _ _)
    · show 5 ≤ (self.layout.appendStates (symNFA (x + k)).layout).getStateCount
      rw [appendStates_count, h.count]; omega
    · exact h.entry
    · show cell (self.layout.appendStates (symNFA (x + k)).layout) 4 0 = -1
      rw [hl0, if_pos (by omega), if_pos (by omega)]
      unfold rangeCell
      rw [if_neg (by omega), if_neg (by omega), if_neg (by omega), if_pos (by omega)]
    · show cell (self.layout.appendStates (symNFA (x + k)).layout) 4 2 = -1
      rw [hl0, if_pos (by omega), if_pos (by omega)]
      unfold rangeCell
      rw [if_neg (by omega), if_neg (by omega), if_neg (by omega), if_pos (by omega)]
  obtain ⟨r, hr, hwf, hcount, hentry, hin, hcells⟩ := @unify_self_unified self _
    (by rw [h.count]; omega) (by simp) (by rw [h.entry, h.count]; omega) (by simp)
    (isUnified_sym hc) hs (symNFA_fits _)
  refine ⟨r, hr, hwf, unify_fits h.fits hr, by rw [hcount, h.count]; simp; omega,
    by rw [hentry, h.entry], ?_,
    fun i j => ?_⟩
  · obtain ⟨y, hy, hye⟩ := insertNewInputs_hasInput (b := symNFA (x + k)) (Or.inl h.inputs)
    exact ⟨y, by rw [hin]; exact hy, hye⟩
  · rw [hcells, hl0, h.entry, h.count]
    exact rangeCell_step x k hk i j

theorem unify_empty_sym {c : Int} (hc : 0 ≤ c) : NFA.empty.unify (symNFA c) = .ok (symNFA c) := by
  have h1 : c ≠ Input.epsilon := by
    intro h; rw [h] at hc; exact absurd hc (by decide)
  simp [NFA.unify, NFA.concatenate, NFA.empty, NFA.insertNewInputs, symNFA,
    MatrixLayout.getStateCount, MatrixLayout.addStatesOf, MatrixLayout.appendStates, resizeRow, h1, setInsert]

theorem wrapChar_succ {c : Int} (h0 : 0 ≤ c) (h1 : c ≤ 126) : wrapChar (c + 1) = c + 1 := by
  unfold wrapChar
  omega

/-- The loop of `makeCharRange` from an automaton of `k ≥ 2` characters on. -/
theorem charRangeLoop_range {x y : Int} (hx : 0 ≤ x) (hy : y ≤ 126) :
    ∀ (d k fuel : Nat) (nfa : NFA), IsRange x k nfa → 2 ≤ k → x + k + d = y + 1 → d < fuel →
      ∃ r, charRangeLoop fuel (x + k) y nfa = .ok r ∧ IsRange x (k + d) r := by
  intro d
  induction d with
  | zero =>
    intro k fuel nfa h _ hd hf
    obtain ⟨f, rfl⟩ : ∃ f, fuel = f + 1 := ⟨fuel - 1, by omega⟩
    refine ⟨nfa, ?_, h⟩
    rw [charRangeLoop, if_pos (by omega)]
  | succ d ih =>
    intro k fuel nfa h hk hd hf
    obtain ⟨f, rfl⟩ : ∃ f, fuel = f + 1 := ⟨fuel - 1, by omega⟩
    obtain ⟨r1, hr1, hrange1⟩ := isRange_step h hk (by omega)
    have hw : wrapChar (x + k + 1) = x + (k + 1 : Nat) := by
      rw [wrapChar_succ (by omega) (by omega)]
      push_cast
      omega
    obtain ⟨r, hr, hrange⟩ := ih (k + 1) f r1 hrange1 (by omega) (by push_cast; omega)
      (by omega)
    refine ⟨r, ?_, by rw [show k + (d + 1) = k + 1 + d by omega]; exact hrange⟩
    rw [charRangeLoop, if_neg (by omega), ofInput_eq (by omega), bind_ok, hr1, bind_ok, hw, hr]


theorem parseImpl_lbracket {fuel : Nat} {span : List Int} {inP : Bool} {rc it : Nat}
    {st : ParseState} (hit : it < span.length) (hc : span.getD it 0 = chLBracket)
    (hesc : st.needEscaping = false) :
    parseImpl (fuel + 1) span inP rc it st =
      (makeCharRange (span.drop it) >>= fun a =>
        parseImpl fuel span inP rc (it + 4 + 1)
          { st with partialResultVector := st.partialResultVector ++ [a] }) := by
  rw [parseImpl]
  simp only [hit, if_true, hc, hesc, Bool.false_eq_true, if_false]
  rfl

theorem makeCharRange_shape {x y : Int} (hy93 : y ≠ chRBracket) (hxy : x ≤ y) :
    makeCharRange [chLBracket, x, chHyphen, y, chRBracket] =
      charRangeLoop 257 x y NFA.empty := by
  unfold makeCharRange
  simp [hy93, hxy]

theorem makeCharRange_single {x : Int} (hx : 0 ≤ x) (hx126 : x ≤ 126)
    (hx93 : x ≠ chRBracket) :
    makeCharRange [chLBracket, x, chHyphen, x, chRBracket] = .ok (symNFA x) := by
  rw [makeCharRange_shape hx93 (le_refl x), charRangeLoop, if_neg (by omega),
    ofInput_eq hx, bind_ok, unify_empty_sym hx, bind_ok, wrapChar_succ hx hx126,
    charRangeLoop, if_pos rfl]

theorem makeCharRange_range {x y : Int} (hx : 0 ≤ x) (hxy : x < y) (hy : y ≤ 126)
    (hy93 : y ≠ chRBracket) :
    ∃ r, makeCharRange [chLBracket, x, chHyphen, y, chRBracket] = .ok r ∧
      IsRange x ((y - x).toNat + 1) r := by
  obtain ⟨r2, hr2, hrange2⟩ := isRange_base hx
  obtain ⟨r, hr, hrange⟩ := charRangeLoop_range hx hy ((y - x).toNat - 1) 2 255 r2 hrange2
    (le_refl 2) (by omega) (by omega)
  refine ⟨r, ?_, by
    rw [show (y - x).toNat + 1 = 2 + ((y - x).toNat - 1) by omega]; exact hrange⟩
  rw [makeCharRange_shape hy93 (le_of_lt hxy), charRangeLoop, if_neg (by omega),
    ofInput_eq hx, bind_ok, unify_empty_sym hx, bind_ok, wrapChar_succ hx (by omega),
    charRangeLoop, if_neg (by omega), ofInput_eq (by omega), bind_ok, hr2, bind_ok,
    wrapChar_succ (by omega) (by omega)]
  have e : x + 1 + 1 = x + (2 : Nat) := by push_cast; omega
  rw [e, hr]

theorem parse_range {x y : Int} {a r : NFA}
    (ha : makeCharRange [chLBracket, x, chHyphen, y, chRBracket] = .ok a)
    (hr : NFA.empty.concatenate a = .ok r) :
    parse [chLBracket, x, chHyphen, y, chRBracket] = .ok r := by
  unfold parse
  have e : ([chLBracket, x, chHyphen, y, chRBracket] : List Int).length + 1 = 5 + 1 := rfl
  rw [e, @parseImpl_lbracket _ [chLBracket, x, chHyphen, y, chRBracket] _ _ 0 _
    (by simp) rfl rfl]
  simp only [List.drop_zero, ha, bind_ok]
  rw [parseImpl_end (by simp)]
  simp [concatParts, hr]

theorem rangeCell_eq_neg_one {x : Int} (hx : 0 ≤ x) {k p q : Nat}
    (h : rangeCell x k p q = -1) :
    (p = 4 ∧ q % 2 = 0 ∧ q ≠ 4 ∧ q < 2 * k + 2) ∨ ((p = 1 ∨ p = 3) ∧ q = 5) ∨
      (p % 2 = 1 ∧ 5 ≤ p ∧ q = p + 2 ∧ q < 2 * k + 2) := by
  unfold rangeCell at h
  by_cases c1 : p = 0 ∧ q = 1
  · rw [if_pos c1] at h; omega
  · rw [if_neg c1] at h
    by_cases c2 : p = 2 ∧ q = 3
    · rw [if_pos c2] at h; omega
    · rw [if_neg c2] at h
      by_cases c3 : p % 2 = 0 ∧ 6 ≤ p ∧ p < 2 * k + 2 ∧ q = p + 1
      · rw [if_pos c3] at h; omega
      · rw [if_neg c3] at h
        by_cases c4 : p = 4 ∧ q % 2 = 0 ∧ q ≠ 4 ∧ q < 2 * k + 2
        · exact Or.inl c4
        · rw [if_neg c4] at h
          by_cases c5 : (p = 1 ∨ p = 3) ∧ q = 5
          · exact Or.inr (Or.inl c5)
          · rw [if_neg c5] at h
            by_cases c6 : p % 2 = 1 ∧ 5 ≤ p ∧ q = p + 2 ∧ q < 2 * k + 2
            · exact Or.inr (Or.inr c6)
            · rw [if_neg c6] at h; omega

theorem rangeCell_ge {x : Int} (hx : 0 ≤ x) (k p q : Nat) : -1 ≤ rangeCell x k p q := by
  unfold rangeCell
  split_ifs <;> omega

theorem rangeCell_eq_letter {x : Int} (hx : 0 ≤ x) {k p q : Nat} (hk : 2 ≤ k) {c : Int}
    (hc : 1 ≤ c) (h : rangeCell x k p q = c ∨ rangeCell x k p q = -2) :
    p % 2 = 0 ∧ q = p + 1 ∧ x ≤ c ∧ c < x + k := by
  have hge := rangeCell_ge hx k p q
  have h' : rangeCell x k p q = c := by
    rcases h with h | h
    · exact h
    · omega
  clear h hge
  unfold rangeCell at h'
  by_cases c1 : p = 0 ∧ q = 1
  · rw [if_pos c1] at h'; omega
  · rw [if_neg c1] at h'
    by_cases c2 : p = 2 ∧ q = 3
    · rw [if_pos c2] at h'; omega
    · rw [if_neg c2] at h'
      by_cases c3 : p % 2 = 0 ∧ 6 ≤ p ∧ p < 2 * k + 2 ∧ q = p + 1
      · rw [if_pos c3] at h'
        have hidx : p / 2 - 1 < k := by omega
        have hidx' : ((p / 2 - 1 : Nat) : Int) < k := by exact_mod_cast hidx
        have hnn : (0 : Int) ≤ ((p / 2 - 1 : Nat) : Int) := Int.natCast_nonneg _
        exact ⟨c3.1, c3.2.2.2, by omega, by omega⟩
      · rw [if_neg c3] at h'
        by_cases c4 : p = 4 ∧ q % 2 = 0 ∧ q ≠ 4 ∧ q < 2 * k + 2
        · rw [if_pos c4] at h'; omega
        · rw [if_neg c4] at h'
          by_cases c5 : (p = 1 ∨ p = 3) ∧ q = 5
          · rw [if_pos c5] at h'; omega
          · rw [if_neg c5] at h'
            by_cases c6 : p % 2 = 1 ∧ 5 ≤ p ∧ q = p + 2 ∧ q < 2 * k + 2
            · rw [if_pos c6] at h'; omega
            · rw [if_neg c6] at h'; omega

theorem range_acyclic {x : Int} {k : Nat} {nfa : NFA} (h : IsRange x k nfa) (hx : 0 ≤ x) :
    EpsAcyclic nfa := by
  refine ⟨fun p => if p = 4 then 2 * k + 3 else if p % 2 = 1 then 2 * k + 2 - p else 0, ?_⟩
  rintro p q ⟨_, _, hc⟩
  rw [h.cells] at hc
  rcases rangeCell_eq_neg_one hx hc with h1 | h1 | h1
  · show (if q = 4 then 2 * k + 3 else if q % 2 = 1 then 2 * k + 2 - q else 0) <
      (if p = 4 then 2 * k + 3 else if p % 2 = 1 then 2 * k + 2 - p else 0)
    rw [if_neg (by omega), if_neg (by omega), if_pos (by omega)]
    omega
  · show (if q = 4 then 2 * k + 3 else if q % 2 = 1 then 2 * k + 2 - q else 0) <
      (if p = 4 then 2 * k + 3 else if p % 2 = 1 then 2 * k + 2 - p else 0)
    have hq5 : q < nfa.layout.getStateCount := by assumption
    rw [h.count] at hq5
    rw [if_neg (by omega), if_pos (by omega), if_neg (by omega), if_pos (by omega)]
    omega
  · show (if q = 4 then 2 * k + 3 else if q % 2 = 1 then 2 * k + 2 - q else 0) <
      (if p = 4 then 2 * k + 3 else if p % 2 = 1 then 2 * k + 2 - p else 0)
    rw [if_neg (by omega), if_pos (by omega), if_neg (by omega), if_pos (by omega)]
    omega

theorem range_path_forward {x : Int} {k : Nat} {nfa : NFA} (h : IsRange x k nfa)
    (hx : 0 ≤ x) (hk : 2 ≤ k) {p r : Nat} {s : List Int} (hpath : Path nfa p s r) :
    r = 2 * k + 1 → (∀ c ∈ s, 1 ≤ c) →
      (p % 2 = 1 → s = []) ∧ (p % 2 = 0 → ∃ c, s = [c] ∧ x ≤ c ∧ c < x + k) := by
  induction hpath with
  | nil p =>
    intro hr _
    subst hr
    exact ⟨fun _ => rfl, fun h0 => by omega⟩
  | @eps p q r s hst _ ih =>
    intro hr hs
    obtain ⟨_, _, hc⟩ := hst
    have ih1 := ih hr hs
    rw [h.cells] at hc
    rcases rangeCell_eq_neg_one hx hc with h1 | h1 | h1
    · exact ⟨fun h0 => by omega, fun _ => ih1.2 h1.2.1⟩
    · exact ⟨fun _ => ih1.1 (by omega), fun h0 => by omega⟩
    · exact ⟨fun _ => ih1.1 (by omega), fun h0 => by omega⟩
  | @sym p q r c s hst _ ih =>
    intro hr hs
    obtain ⟨_, _, hc⟩ := hst
    have hc1 : 1 ≤ c := hs c (List.mem_cons_self _ _)
    have ih1 := ih hr (fun y hy => hs y (List.mem_cons_of_mem _ hy))
    rw [h.cells] at hc
    obtain ⟨hp, hq, hlo, hhi⟩ := rangeCell_eq_letter hx hk hc1 hc
    refine ⟨fun h0 => by omega, fun _ => ⟨c, ?_, hlo, hhi⟩⟩
    rw [ih1.1 (by omega)]

theorem range_path_odd {x : Int} {k : Nat} {nfa : NFA} (h : IsRange x k nfa) (hk : 2 ≤ k) :
    ∀ (d p : Nat), p % 2 = 1 → p + d = 2 * k + 1 → Path nfa p [] (2 * k + 1) := by
  intro d
  induction d using Nat.strong_induction_on with
  | _ d ih =>
    intro p hp hd
    by_cases hlast : p = 2 * k + 1
    · rw [hlast]; exact Path.nil _
    · by_cases h13 : p = 1 ∨ p = 3
      · refine Path.eps (q := 5) ⟨by rw [h.count]; omega, by rw [h.count]; omega, ?_⟩
          (ih (2 * k + 1 - 5) (by omega) 5 (by omega) (by omega))
        rw [h.cells]
        unfold rangeCell
        rw [if_neg (by omega), if_neg (by omega), if_neg (by omega), if_neg (by omega),
          if_pos ⟨h13, rfl⟩]
      · refine Path.eps (q := p + 2) ⟨by rw [h.count]; omega, by rw [h.count]; omega, ?_⟩
          (ih (d - 2) (by omega) (p + 2) (by omega) (by omega))
        rw [h.cells]
        unfold rangeCell
        rw [if_neg (by omega), if_neg (by omega), if_neg (by omega), if_neg (by omega),
          if_neg (by omega), if_pos (by omega)]

theorem range_path_backward {x : Int} {k : Nat} {nfa : NFA} (h : IsRange x k nfa)
    (hk : 2 ≤ k) {c : Int} (hlo : x ≤ c) (hhi : c < x + k) :
    Path nfa 4 [c] (2 * k + 1) := by
  obtain ⟨m, hm⟩ : ∃ m : Nat, c = x + m := ⟨(c - x).toNat, by omega⟩
  have hmk : m < k := by omega
  -- the source state of the letter edge for `c`
  obtain ⟨src, hsrc, hne4, hcell, hlt⟩ : ∃ src : Nat, src % 2 = 0 ∧ src ≠ 4 ∧
      rangeCell x k src (src + 1) = c ∧ src < 2 * k + 2 := by
    by_cases h0 : m = 0
    · refine ⟨0, by omega, by omega, ?_, by omega⟩
      unfold rangeCell
      rw [if_pos ⟨rfl, rfl⟩, hm, h0]
      simp
    · by_cases h1 : m = 1
      · refine ⟨2, by omega, by omega, ?_, by omega⟩
        unfold rangeCell
        rw [if_neg (by omega), if_pos ⟨rfl, rfl⟩, hm, h1]
        simp
      · refine ⟨2 * m + 2, by omega, by omega, ?_, by omega⟩
        unfold rangeCell
        rw [if_neg (by omega), if_neg (by omega), if_pos (by omega), hm]
        have : ((2 * m + 2) / 2 - 1 : Nat) = m := by omega
        rw [this]
  refine Path.eps (q := src) ⟨by rw [h.count]; omega, by rw [h.count]; omega, ?_⟩
    (Path.sym (q := src + 1) ⟨by rw [h.count]; omega, by rw [h.count]; omega, Or.inl ?_⟩
      (range_path_odd h hk (2 * k + 1 - (src + 1)) (src + 1) (by omega) (by omega)))
  · rw [h.cells]
    unfold rangeCell
    rw [if_neg (by omega), if_neg (by omega), if_neg (by omega), if_pos (by omega)]
  · rw [h.cells]
    exact hcell

theorem range_hasRun {x : Int} {k : Nat} {nfa : NFA} (h : IsRange x k nfa) (hx : 0 ≤ x)
    (hk : 2 ≤ k) {s : List Int} (hs : ∀ c ∈ s, 1 ≤ c) :
    nfa.HasRun s ↔ ∃ c, s = [c] ∧ x ≤ c ∧ c < x + k := by
  unfold NFA.HasRun
  have hlast : sizePred nfa.layout.getStateCount = 2 * k + 1 := by
    rw [h.count]; simp [sizePred]
  rw [hlast, h.entry]
  constructor
  · intro hp
    exact (range_path_forward h hx hk hp rfl hs).2 (by decide)
  · rintro ⟨c, rfl, hlo, hhi⟩
    exact range_path_backward h hk hlo hhi

theorem isRange_concatenate_empty {x : Int} {k : Nat} {a : NFA} (h : IsRange x k a)
    (hk : 2 ≤ k) : ∃ r, NFA.empty.concatenate a = .ok r ∧ IsRange x k r := by
  obtain ⟨r, hr, hwf, hcount, hentry, hin, hcells⟩ := concatenate_empty a h.inputs h.fits
  refine ⟨r, hr, hwf, concatenate_fits hr, by rw [hcount, h.count], by rw [hentry, h.entry],
    hin, fun i j => ?_⟩
  rw [hcells, h.count, h.cells]
  by_cases hj : j < 2 * k + 2
  · rw [if_pos hj]
  · rw [if_neg hj, rangeCell_eq_zero x hk (Or.inr (by omega))]

/-- C5: for all characters `x ≤ y` with codes in `1..126` and `y ≠ ']'`, `parse "[x-y]"`
returns an automaton that accepts a string `s` of concrete characters if and only if `s` has
exactly one character `c` and `x ≤ c ≤ y`, and `simulate` returns on every such `s`. -/
theorem C5_bracket_range_recognises_interval (x y : Int) (hx : 1 ≤ x) (hxy : x ≤ y)
    (hy : y ≤ 126) (hy93 : y ≠ chRBracket) :
    ∃ nfa, parse [chLBracket, x, chHyphen, y, chRBracket] = .ok nfa ∧
      ∀ s : List Int, (∀ c ∈ s, IsConcrete c) →
        (nfa.Accepts s ↔ ∃ c, s = [c] ∧ x ≤ c ∧ c ≤ y) ∧ nfa.Terminates s := by
  have hx0 : 0 ≤ x := by omega
  rcases eq_or_lt_of_le hxy with heq | hlt
  · -- a single character: the automaton of `NFA(x)`
    subst heq
    have hchain : IsChain [x] (symNFA x) := isChain_single (by
      intro h; rw [h] at hx0; exact absurd hx0 (by decide))
    have hw0 : ∀ c ∈ [x], (0 : Int) ≤ c := by
      intro c hc; rw [List.mem_singleton] at hc; omega
    refine ⟨symNFA x, parse_range (makeCharRange_single hx0 hy hy93)
      (concatenate_empty_sym hx0), fun s hs => ?_⟩
    have hentry : (symNFA x).entryState < (symNFA x).layout.getStateCount := by
      show 0 < 2
      omega
    have hac := chain_acyclic hchain hw0
    refine ⟨(accepts_iff_hasRun hchain.wf (hasInput_ne_nil hchain.inputs) hentry hac s).trans
        ((chain_hasRun hchain hw0 (fun c hc => (hs c hc).1)).trans ?_),
      simulate_terminates hchain.wf hentry hac s⟩
    constructor
    · intro h; exact ⟨x, h, le_refl _, le_refl _⟩
    · rintro ⟨c, rfl, h1, h2⟩
      have : c = x := by omega
      rw [this]
  · -- at least two characters: the unified automaton
    obtain ⟨a, ha, hrange0⟩ := makeCharRange_range hx0 hlt hy hy93
    have hk : 2 ≤ (y - x).toNat + 1 := by omega
    obtain ⟨r, hr, hrange⟩ := isRange_concatenate_empty hrange0 hk
    refine ⟨r, parse_range ha hr, fun s hs => ?_⟩
    have hentry : r.entryState < r.layout.getStateCount := by
      rw [hrange.entry, hrange.count]; omega
    have hac := range_acyclic hrange hx0
    refine ⟨(accepts_iff_hasRun hrange.wf (hasInput_ne_nil hrange.inputs) hentry hac s).trans
        ((range_hasRun hrange hx0 hk (fun c hc => (hs c hc).1)).trans ?_),
      simulate_terminates hrange.wf hentry hac s⟩
    constructor
    · rintro ⟨c, hc, h1, h2⟩
      exact ⟨c, hc, h1, by push_cast at h2; omega⟩
    · rintro ⟨c, hc, h1, h2⟩
      exact ⟨c, hc, h1, by push_cast; omega⟩

/-- Witness for C5 at the pattern `"[a-c]"`. -/
theorem C5_bracket_range_recognises_interval_witness :
    ((1 : Int) ≤ 97 ∧ (97 : Int) ≤ 99 ∧ (99 : Int) ≤ 126 ∧ (99 : Int) ≠ chRBracket) ∧
      ∃ nfa, parse [chLBracket, 97, chHyphen, 99, chRBracket] = .ok nfa ∧
        ∀ s : List Int, (∀ c ∈ s, IsConcrete c) →
          (nfa.Accepts s ↔ ∃ c, s = [c] ∧ 97 ≤ c ∧ c ≤ 99) ∧ nfa.Terminates s :=
  ⟨⟨by decide, by decide, by decide, by decide⟩,
    C5_bracket_range_recognises_interval 97 99 (by decide) (by decide) (by decide)
      (by decide)⟩


/-! ## C11 to C13: the errors of the parser -/

/-- C11 (fails on the code): the bare pattern `")"` raises the extraneous-parenthesis error,
but the pattern `"(a|b))"`, whose last `')'` has no enclosing `'('`, is parsed without an
error: the case `'|'` steps over the `')'` at which its recursive call returned, so the group
is closed by the next `')'`. -/
theorem C11_unmatched_parenthesis_after_alternation_is_accepted :
    parse [chRParen] = .error .extraneousParenthesis ∧
      ∃ nfa, parse [chLParen, 97, chBar, 98, chRParen, chRParen] = .ok nfa :=
  ⟨rfl, ⟨⟨[[0, 98, 0], [0, 0, 97], [0, 0, 0]]⟩, 0, [97, 98]⟩, rfl⟩

theorem parse_bracket_error {w span : List Int} (hw : ∀ c ∈ w, IsLiteral c) (tl : List Int)
    (hspan : span = chLBracket :: tl) {e : Error} (he : makeCharRange span = .error e) :
    parse (w ++ span) = .error e := by
  unfold parse
  have h := parseImpl_literals w hw [] span (span.length + 1) false 0 ⟨NFA.empty, [], false⟩ rfl
  simp only [List.nil_append, List.length_nil, Nat.zero_add] at h
  have e1 : (w ++ span).length + 1 = span.length + 1 + w.length := by
    rw [List.length_append]; omega
  rw [e1, h, @parseImpl_lbracket _ (w ++ span) _ _ w.length _
    (by rw [List.length_append, hspan]; simp) (by rw [hspan]; exact getD_append_cons w _ tl) rfl]
  rw [List.drop_left, he]
  rfl

theorem takeWhile_body (t post : List Int) (hb : ∀ c ∈ t, c ≠ chRBracket)
    (hpost : post = [] ∨ ∃ r, post = chRBracket :: r) :
    List.takeWhile (fun c => decide (c ≠ chRBracket)) (t ++ post) = t := by
  induction t with
  | nil =>
    rcases hpost with rfl | ⟨r, rfl⟩
    · rfl
    · simp [List.takeWhile]
  | cons a t ih =>
    have ha : a ≠ chRBracket := hb a (List.mem_cons_self _ _)
    simp only [List.cons_append, List.takeWhile_cons, ha, ne_eq, not_false_eq_true,
      decide_True, if_true]
    rw [ih (fun c hc => hb c (List.mem_cons_of_mem _ hc))]

/-- An exception raised from an iteration on is raised by the iteration before it, or by the
iteration that made the recursive call. -/
theorem next_error {c c1 : ParseCall} (h : ParseCall.Next c c1) {e : Error}
    (he : c1.result = .error e) : c.result = .error e := by
  cases h with
  | @escaped fuel span inP rc it st a r hit hesc ha hr =>
    obtain ⟨res, parts, esc⟩ := st
    simp only at hesc hr
    subst hesc
    simp only [ParseCall.result] at he ⊢
    rw [parseImpl]
    simp only [hit, if_true, ha, hr, bind_ok]
    exact he
  | @dot fuel span inP rc it st a hit hesc hc ha =>
    obtain ⟨res, parts, esc⟩ := st
    simp only at hesc
    subst hesc
    simp only [ParseCall.result] at he ⊢
    rw [parseImpl]
    simp only [hit, if_true, Bool.false_eq_true, if_false, hc, ha, bind_ok]
    exact he
  | @star fuel span inP rc it st parts1 hit hesc hc hp =>
    obtain ⟨res, parts, esc⟩ := st
    simp only at hesc hp
    subst hesc
    simp only [ParseCall.result] at he ⊢
    rw [parseImpl_star hit hc rfl]
    simp only [hp, bind_ok]
    exact he
  | @plus fuel span inP rc it st parts1 hit hesc hc hp =>
    obtain ⟨res, parts, esc⟩ := st
    simp only at hesc hp
    subst hesc
    simp only [ParseCall.result] at he ⊢
    rw [parseImpl]
    simp only [hit, if_true, Bool.false_eq_true, if_false, hc, hp, bind_ok]
    exact he
  | @groupCall fuel span inP rc it st hit hesc hc =>
    simp only [ParseCall.result] at he ⊢
    rw [parseImpl_lparen hit hc hesc, he]
    rfl
  | @groupResume fuel span inP rc it st ir hit hesc hc hrec =>
    simp only [ParseCall.result] at he ⊢
    rw [parseImpl_lparen hit hc hesc, hrec, bind_ok]
    exact he
  | @barCall fuel span inP rc it st hit hesc hc =>
    simp only [ParseCall.result] at he ⊢
    rw [parseImpl]
    simp only [hit, if_true, hesc, Bool.false_eq_true, if_false, hc]
    show (parseImpl fuel (List.drop (it + 1) span) inP (rc + 1) 0 ⟨NFA.empty, [], false⟩ >>=
      _) = _
    rw [he]
    rfl
  | @barResume fuel span inP rc it st ir r hit hesc hc hrec hu hrc =>
    obtain ⟨res, parts, esc⟩ := st
    simp only at hesc hu
    subst hesc
    subst hrc
    simp only [ParseCall.result] at he ⊢
    rw [parseImpl]
    simp only [hit, if_true, Bool.false_eq_true, if_false, hc]
    show (parseImpl fuel (List.drop (it + 1) span) inP (0 + 1) 0 ⟨NFA.empty, [], false⟩ >>=
      _) = _
    rw [hrec, bind_ok]
    simp only [hu, bind_ok]
    exact he
  | @backslash fuel span inP rc it st hit hesc hc =>
    obtain ⟨res, parts, esc⟩ := st
    simp only at hesc
    subst hesc
    simp only [ParseCall.result] at he ⊢
    rw [parseImpl]
    simp only [hit, if_true, Bool.false_eq_true, if_false, hc]
    exact he
  | @bracket fuel span inP rc it st a hit hesc hc ha =>
    obtain ⟨res, parts, esc⟩ := st
    simp only at hesc
    subst hesc
    simp only [ParseCall.result] at he ⊢
    rw [parseImpl_lbracket hit hc rfl, ha, bind_ok]
    exact he
  | @literal fuel span inP rc it st a hit hesc h1 h2 h3 h4 h5 h6 h7 h8 ha =>
    obtain ⟨res, parts, esc⟩ := st
    simp only at hesc
    subst hesc
    simp only [ParseCall.result] at he ⊢
    rw [parseImpl]
    simp only [hit, if_true, Bool.false_eq_true, if_false, h1, h2, h3, h4, h5, h6, h7,
      h8, ha, bind_ok]
    exact he

/-- An exception raised from an iteration that `parse p` goes through is raised by
`parse p`. -/
theorem reaches_error {p : List Int} {c : ParseCall} (h : Reaches p c) {e : Error}
    (he : c.result = .error e) : parse p = .error e := by
  have hstart : (ParseCall.start p).result = .error e := by
    unfold Reaches at h
    induction h with
    | refl => exact he
    | tail _ hn ih => exact ih (next_error hn he)
  unfold parse
  unfold ParseCall.result ParseCall.start at hstart
  rw [hstart]
  rfl

/-- The fuel of the model never runs out: at every iteration that `parse p` goes through there
is more fuel left than characters of the span. -/
theorem reaches_fuel {p : List Int} {c : ParseCall} (h : Reaches p c) :
    1 ≤ c.fuel ∧ c.strSpan.length + 1 ≤ c.fuel + c.it := by
  unfold Reaches at h
  induction h with
  | refl => exact ⟨by simp [ParseCall.start], by simp [ParseCall.start]⟩
  | tail _ hn ih =>
    cases hn with
    | escaped hit _ _ _ => simp only at ih ⊢; omega
    | dot hit _ _ _ => simp only at ih ⊢; omega
    | star hit _ _ _ => simp only at ih ⊢; omega
    | plus hit _ _ _ => simp only at ih ⊢; omega
    | groupCall hit _ _ => simp only [List.length_drop] at ih ⊢; omega
    | groupResume hit _ _ _ => simp only at ih ⊢; omega
    | barCall hit _ _ => simp only [List.length_drop] at ih ⊢; omega
    | barResume hit _ _ _ _ _ => simp only at ih ⊢; omega
    | backslash hit _ _ => simp only at ih ⊢; omega
    | bracket hit _ _ _ => simp only at ih ⊢; omega
    | literal hit _ _ _ _ _ _ _ _ _ _ => simp only at ih ⊢; omega

/-- The message of the ill-formed-range error: for a span `[` `body` `post`, where `post` is
empty or starts with the first `']'` looked for from the second character of `body` on, and
`body` is not empty and not three characters long, `makeCharRange` throws, naming the text
`[` `body` `]`. -/
theorem makeCharRange_illFormed_text {body post : List Int} (hne : body ≠ [])
    (hb : ∀ x ∈ body.tail, x ≠ chRBracket)
    (hpost : post = [] ∨ ∃ rest, post = chRBracket :: rest) (hlen : body.length ≠ 3) :
    makeCharRange (chLBracket :: (body ++ post)) =
      .error (.badRangeIllFormed ([chLBracket] ++ body ++ [chRBracket])) := by
  obtain ⟨b, t, rfl⟩ := List.exists_cons_of_ne_nil hne
  simp only [List.tail_cons] at hb
  simp only [List.length_cons] at hlen
  unfold makeCharRange
  rw [if_neg (by simp)]
  have e : (chLBracket :: (b :: t ++ post)).drop 2 = t ++ post := by simp
  simp only []
  rw [e, takeWhile_body t post hb hpost, if_pos (by omega)]
  have e2 : 2 + t.length - 1 + 1 - 1 = (b :: t).length := by simp; omega
  have e3 : (chLBracket :: (b :: t ++ post)).drop 1 = (b :: t) ++ post := by simp
  rw [e2, e3, List.take_left]

/-- An unescaped `'['` with an ill-shaped body at an iteration of `parseImpl` that has fuel
left: the iteration throws the ill-formed-range error. -/
theorem result_bracket_illFormed {c : ParseCall} {body post : List Int} (hfuel : 1 ≤ c.fuel)
    (hesc : c.st.needEscaping = false)
    (hspan : c.strSpan.drop c.it = chLBracket :: (body ++ post))
    (hpost : post = [] ∨ ∃ rest, post = chRBracket :: rest)
    (hne : body ≠ []) (hb : ∀ x ∈ body.tail, x ≠ chRBracket) (hlen : body.length ≠ 3) :
    c.result = .error (.badRangeIllFormed ([chLBracket] ++ body ++ [chRBracket])) := by
  obtain ⟨fuel, span, inP, rc, it, st⟩ := c
  simp only at hfuel hesc hspan
  obtain ⟨f, rfl⟩ : ∃ f, fuel = f + 1 := ⟨fuel - 1, by omega⟩
  have hit : it < span.length := by
    by_contra hge
    rw [List.drop_eq_nil_of_le (by omega)] at hspan
    cases hspan
  have hc : span.getD it 0 = chLBracket := by
    have h1 : span.getD it 0 = (span.drop it).getD 0 0 := by
      simp [List.getD_eq_getElem?_getD]
    rw [h1, hspan]
    rfl
  simp only [ParseCall.result]
  rw [parseImpl_lbracket hit hc hesc, hspan, makeCharRange_illFormed_text hne hb hpost hlen]
  rfl

/-- C12 (counterexample): the bracket expression `"[a+c]"`, whose separator is not a hyphen,
and the bracket expression `"[a-c"`, whose closing `']'` is missing, are parsed without an
error; both give the automaton of `"[a-c]"`. An escaped `'['` is a literal character (`"\\[ab"`
is parsed), a `'['` that `parseImpl` never comes to raises nothing (`")[ab]"` fails with the
extraneous-parenthesis error), and for a `'['` that ends the pattern `makeCharRange` reads past
the end of the span. -/
theorem C12_separator_is_not_checked :
    (∃ nfa, parse [chLBracket, 97, chPlus, 99, chRBracket] = .ok nfa ∧
      parse [chLBracket, 97, chHyphen, 99] = .ok nfa ∧
      parse [chLBracket, 97, chHyphen, 99, chRBracket] = .ok nfa) ∧
      (∃ nfa, parse [chBackslash, chLBracket, 97, 98] = .ok nfa) ∧
      parse [chRParen, chLBracket, 97, 98, chRBracket] = .error .extraneousParenthesis ∧
      parse [chLBracket] = .error .undefinedBehaviour :=
  ⟨⟨⟨⟨[[0, 97, 0, 0, 0, 0, 0, 0], [0, 0, 0, 0, 0, -1, 0, 0], [0, 0, 0, 98, 0, 0, 0, 0],
    [0, 0, 0, 0, 0, -1, 0, 0], [-1, 0, -1, 0, 0, 0, -1, 0], [0, 0, 0, 0, 0, 0, 0, -1],
    [0, 0, 0, 0, 0, 0, 0, 99], [0, 0, 0, 0, 0, 0, 0, 0]]⟩, 4, [97, 98, 99]⟩, rfl, rfl, rfl⟩,
    ⟨⟨⟨[[0, 91, 0, 0], [0, 0, 97, 0], [0, 0, 0, 98], [0, 0, 0, 0]]⟩, 0, [91, 97, 98]⟩, rfl⟩,
    rfl, rfl⟩

/-- C12 (amended): whenever `parse p` comes to an unescaped `'['`, at an iteration of the
first call of `parseImpl` or of a recursive call and whatever was parsed before, whose body is
not empty and not three characters long, `parse p` fails with the ill-formed-range error that
names `[` `body` `]`. The body is what stands between the `'['` and the first `']'` looked for
from the second character of the body on, or the end of the span when there is none. -/
theorem C12_bracket_body_of_wrong_length_is_rejected (p : List Int) (c : ParseCall)
    (body post : List Int) (hreach : Reaches p c) (hesc : c.st.needEscaping = false)
    (hspan : c.strSpan.drop c.it = chLBracket :: (body ++ post))
    (hpost : post = [] ∨ ∃ rest, post = chRBracket :: rest)
    (hne : body ≠ []) (hb : ∀ x ∈ body.tail, x ≠ chRBracket) (hlen : body.length ≠ 3) :
    parse p = .error (.badRangeIllFormed ([chLBracket] ++ body ++ [chRBracket])) :=
  reaches_error hreach
    (result_bracket_illFormed (reaches_fuel hreach).1 hesc hspan hpost hne hb hlen)

theorem reaches_bracketCall :
    Reaches [97, chStar, chLParen, 98, chRParen, chDot, chBar, chLBracket, 120, 121]
      bracketCall := by
  have s1 : ParseCall.Next
      (ParseCall.start [97, chStar, chLParen, 98, chRParen, chDot, chBar, chLBracket, 120, 121])
      ⟨10, [97, chStar, chLParen, 98, chRParen, chDot, chBar, chLBracket, 120, 121], false, 0, 1,
        ⟨NFA.empty, [symNFA 97], false⟩⟩ :=
    @ParseCall.Next.literal 10
      [97, chStar, chLParen, 98, chRParen, chDot, chBar, chLBracket, 120, 121]
      false 0 0 ⟨NFA.empty, [], false⟩ (symNFA 97) (by decide) rfl (by decide) (by decide)
      (by decide) (by decide) (by decide) (by decide) (by decide) (by decide) rfl
  have s2 : ParseCall.Next
      ⟨10, [97, chStar, chLParen, 98, chRParen, chDot, chBar, chLBracket, 120, 121], false, 0, 1,
        ⟨NFA.empty, [symNFA 97], false⟩⟩
      ⟨9, [97, chStar, chLParen, 98, chRParen, chDot, chBar, chLBracket, 120, 121], false, 0, 2,
        ⟨NFA.empty, [⟨⟨[[97, 0]]⟩, 0, [97]⟩], false⟩⟩ :=
    @ParseCall.Next.star 9
      [97, chStar, chLParen, 98, chRParen, chDot, chBar, chLBracket, 120, 121]
      false 0 1 ⟨NFA.empty, [symNFA 97], false⟩ [⟨⟨[[97, 0]]⟩, 0, [97]⟩] (by decide) rfl rfl rfl
  have s3 : ParseCall.Next
      ⟨9, [97, chStar, chLParen, 98, chRParen, chDot, chBar, chLBracket, 120, 121], false, 0, 2,
        ⟨NFA.empty, [⟨⟨[[97, 0]]⟩, 0, [97]⟩], false⟩⟩
      ⟨8, [97, chStar, chLParen, 98, chRParen, chDot, chBar, chLBracket, 120, 121], false, 0, 5,
        ⟨NFA.empty, [⟨⟨[[97, 0]]⟩, 0, [97]⟩, symNFA 98], false⟩⟩ :=
    @ParseCall.Next.groupResume 8
      [97, chStar, chLParen, 98, chRParen, chDot, chBar, chLBracket, 120, 121]
      false 0 2 ⟨NFA.empty, [⟨⟨[[97, 0]]⟩, 0, [97]⟩], false⟩ (symNFA 98, 1) (by decide) rfl rfl
      rfl
  have s4 : ParseCall.Next
      ⟨8, [97, chStar, chLParen, 98, chRParen, chDot, chBar, chLBracket, 120, 121], false, 0, 5,
        ⟨NFA.empty, [⟨⟨[[97, 0]]⟩, 0, [97]⟩, symNFA 98], false⟩⟩
      ⟨7, [97, chStar, chLParen, 98, chRParen, chDot, chBar, chLBracket, 120, 121], false, 0, 6,
        ⟨NFA.empty, [⟨⟨[[97, 0]]⟩, 0, [97]⟩, symNFA 98, ⟨⟨[[0, -2], [0, 0]]⟩, 0, [-2]⟩],
          false⟩⟩ :=
    @ParseCall.Next.dot 7
      [97, chStar, chLParen, 98, chRParen, chDot, chBar, chLBracket, 120, 121]
      false 0 5 ⟨NFA.empty, [⟨⟨[[97, 0]]⟩, 0, [97]⟩, symNFA 98], false⟩
      ⟨⟨[[0, -2], [0, 0]]⟩, 0, [-2]⟩ (by decide) rfl rfl rfl
  have s5 : ParseCall.Next
      ⟨7, [97, chStar, chLParen, 98, chRParen, chDot, chBar, chLBracket, 120, 121], false, 0, 6,
        ⟨NFA.empty, [⟨⟨[[97, 0]]⟩, 0, [97]⟩, symNFA 98, ⟨⟨[[0, -2], [0, 0]]⟩, 0, [-2]⟩],
          false⟩⟩ bracketCall :=
    @ParseCall.Next.barCall 6
      [97, chStar, chLParen, 98, chRParen, chDot, chBar, chLBracket, 120, 121]
      false 0 6
      ⟨NFA.empty, [⟨⟨[[97, 0]]⟩, 0, [97]⟩, symNFA 98, ⟨⟨[[0, -2], [0, 0]]⟩, 0, [-2]⟩], false⟩
      (by decide) rfl rfl
  exact Relation.ReflTransGen.tail (Relation.ReflTransGen.tail (Relation.ReflTransGen.tail
    (Relation.ReflTransGen.tail (Relation.ReflTransGen.single s1) s2) s3) s4) s5

/-- Witness of C12 at the pattern `"a*(b).|[xy"`: the `'['` stands in the right-hand side of
an alternative, behind a starred character, a group and a `'.'`; its body `"xy"` has two
characters and the closing `']'` is missing. -/
theorem C12_bracket_body_of_wrong_length_is_rejected_witness :
    (Reaches [97, chStar, chLParen, 98, chRParen, chDot, chBar, chLBracket, 120, 121]
        bracketCall ∧
        bracketCall.st.needEscaping = false ∧
        bracketCall.strSpan.drop bracketCall.it = chLBracket :: ([120, 121] ++ []) ∧
        (([] : List Int) = [] ∨ ∃ rest, ([] : List Int) = chRBracket :: rest) ∧
        ([120, 121] : List Int) ≠ [] ∧ (∀ x ∈ ([120, 121] : List Int).tail, x ≠ chRBracket) ∧
        ([120, 121] : List Int).length ≠ 3) ∧
      parse [97, chStar, chLParen, 98, chRParen, chDot, chBar, chLBracket, 120, 121] =
        .error (.badRangeIllFormed ([chLBracket] ++ [120, 121] ++ [chRBracket])) :=
  ⟨⟨reaches_bracketCall, rfl, rfl, Or.inl rfl, by decide, by decide, by decide⟩,
    C12_bracket_body_of_wrong_length_is_rejected _ bracketCall [120, 121] []
      reaches_bracketCall rfl rfl (Or.inl rfl) (by decide) (by decide) (by decide)⟩

theorem parse_inverted {x y : Int} (hxy : y < x) (hy93 : y ≠ chRBracket) :
    parse [chLBracket, x, chHyphen, y, chRBracket] = .error (.badRangeInverted x y) := by
  have h : makeCharRange [chLBracket, x, chHyphen, y, chRBracket] =
      .error (.badRangeInverted x y) := by
    unfold makeCharRange
    simp [hy93, hxy]
  exact parse_bracket_error (w := []) (by simp) _ rfl h

/-- C13 (fails on the code): a bracket range whose start sorts after its end raises the
inverted-range error, and a range `x ≤ y ≤ 126` is parsed without an error; but for the end
`y = 127` the loop counter of `makeCharRange`, a `char`, never equals `*last + 1 = 128`
and wraps to `-128`, for which the constructor `NFA(Input)` aborts: `"[~-\x7f]"` fails. -/
theorem C13_range_ending_at_127_aborts :
    (∀ x y : Int, y < x → y ≠ chRBracket →
        parse [chLBracket, x, chHyphen, y, chRBracket] = .error (.badRangeInverted x y)) ∧
      (∀ x y : Int, 0 ≤ x → x ≤ y → y ≤ 126 → y ≠ chRBracket →
        ∃ nfa, parse [chLBracket, x, chHyphen, y, chRBracket] = .ok nfa) ∧
      parse [chLBracket, 126, chHyphen, 127, chRBracket] = .error .contractViolation := by
  refine ⟨fun x y hxy hy => parse_inverted hxy hy, fun x y hx hxy hy hy93 => ?_, rfl⟩
  rcases eq_or_lt_of_le hxy with heq | hlt
  · subst heq
    exact ⟨symNFA x, parse_range (makeCharRange_single hx hy hy93) (concatenate_empty_sym hx)⟩
  · obtain ⟨a, ha, hrange0⟩ := makeCharRange_range hx hlt hy hy93
    obtain ⟨r, hr, _⟩ := isRange_concatenate_empty hrange0 (by omega)
    exact ⟨r, parse_range ha hr⟩


/-! ## C14: the state added by `addState` -/

theorem addState_getTransition_out (m : MatrixLayout) {s : Nat} (hs : s ≤ m.getStateCount) :
    m.addState.getTransition m.getStateCount s = .ok 0 := by
  have hrow : m.addState.container.getD m.getStateCount [] =
      List.replicate (m.getStateCount + 1) 0 := by
    unfold MatrixLayout.addState MatrixLayout.getStateCount
    simp only []
    rw [getD_map_append_ge _ _ _ _ (le_refl _), Nat.sub_self]
    rfl
  unfold MatrixLayout.getTransition
  rw [addState_count, if_pos ⟨by omega, by omega⟩, hrow, List.length_replicate,
    if_pos (by omega), getD_replicate_zero]

theorem addState_getTransition_in {m : MatrixLayout} (ht : m.Tight) {s : Nat}
    (hs : s ≤ m.getStateCount) : m.addState.getTransition s m.getStateCount = .ok 0 := by
  rcases Nat.eq_or_lt_of_le hs with rfl | hlt
  · exact addState_getTransition_out m (le_refl _)
  · have hrow : m.addState.container.getD s [] = m.container.getD s [] ++ [0] := by
      unfold MatrixLayout.addState
      simp only []
      rw [getD_map_append_lt _ _ _ _ hlt]
    have hlen : (m.container.getD s []).length = m.getStateCount := by
      apply ht
      unfold MatrixLayout.getStateCount at hlt
      rw [List.getD_eq_getElem _ _ hlt]
      exact List.getElem_mem _
    unfold MatrixLayout.getTransition
    rw [addState_count, if_pos ⟨by omega, by omega⟩, hrow, List.length_append, hlen,
      if_pos (by simp), List.getD_append_right _ _ _ _ (by omega), hlen, Nat.sub_self]
    rfl

theorem addState_tight {m : MatrixLayout} (ht : m.Tight) : m.addState.Tight := by
  intro row hrow
  rw [addState_count]
  unfold MatrixLayout.addState at hrow
  simp only [List.mem_append, List.mem_map, List.mem_singleton] at hrow
  rcases hrow with ⟨r, hr, rfl⟩ | rfl
  · rw [List.length_append, ht r hr]; rfl
  · exact List.length_replicate _ _

theorem addTransition_tight {m m1 : MatrixLayout} (ht : m.Tight) {i j : Nat} {x : Int}
    (h : m.addTransition i j x = .ok m1) : m1.Tight := by
  unfold MatrixLayout.addTransition at h
  split_ifs at h with h1 h2
  cases h
  intro row hrow
  have hcount : (MatrixLayout.mk (m.container.set i ((m.container.getD i []).set j x))).getStateCount
      = m.getStateCount := by
    unfold MatrixLayout.getStateCount; simp
  rw [hcount]
  rcases List.mem_or_eq_of_mem_set hrow with hmem | rfl
  · exact ht row hmem
  · rw [List.length_set]
    apply ht
    have hi : i < m.container.length := h1.1
    rw [List.getD_eq_getElem _ _ hi]
    exact List.getElem_mem _

theorem run_tight : ∀ (ops : List LayoutOp) (m m1 : MatrixLayout), m.Tight →
    LayoutOp.removeLastState ∉ ops → MatrixLayout.run ops m = .ok m1 → m1.Tight := by
  intro ops
  induction ops with
  | nil =>
    intro m m1 ht _ h
    cases h
    exact ht
  | cons op ops ih =>
    intro m m1 ht hno h
    unfold MatrixLayout.run at h
    rw [List.foldlM_cons] at h
    have hno1 : LayoutOp.removeLastState ∉ ops := fun hc => hno (List.mem_cons_of_mem _ hc)
    cases op with
    | addState => exact ih _ _ (addState_tight ht) hno1 h
    | addTransition frm dst input =>
      cases hstep : m.addTransition frm dst input with
      | error e =>
        simp only [MatrixLayout.step, hstep] at h
        cases h
      | ok m2 =>
        simp only [MatrixLayout.step, hstep] at h
        exact ih _ _ (addTransition_tight ht hstep) hno1 h
    | removeLastState => exact absurd (List.mem_cons_self _ _) hno

theorem map_addState_getTransition_out (m : MapLayout) (s : Nat) :
    m.addState.getTransition m.getStateCount s = .ok 0 := by
  unfold MapLayout.getTransition MapLayout.addState MapLayout.getStateCount
  simp

theorem map_addState_getTransition_in {m : MapLayout} (hc : m.Closed) {s : Nat}
    (hs : s ≤ m.getStateCount) : m.addState.getTransition s m.getStateCount = .ok 0 := by
  rcases Nat.eq_or_lt_of_le hs with rfl | hlt
  · exact map_addState_getTransition_out m _
  · have hlt1 : s < m.internalMap.length := hlt
    have hrow : m.addState.internalMap.getD s [] = m.internalMap.getD s [] := by
      unfold MapLayout.addState
      simp only []
      rw [List.getD_append _ _ _ _ hlt1]
    have hfind : (m.internalMap.getD s []).find? (fun val => decide (val.2 = m.getStateCount))
        = Option.none := by
      rw [List.find?_eq_none]
      intro e he
      have := hc _ (by rw [List.getD_eq_getElem _ _ hlt1]; exact List.getElem_mem _) e he
      simp only [decide_eq_true_eq]
      omega
    unfold MapLayout.getTransition
    have hcount : m.addState.getStateCount = m.getStateCount + 1 := by
      unfold MapLayout.addState MapLayout.getStateCount; simp
    rw [hcount, if_pos (by omega), hrow, hfind]

theorem mem_multimapInsert (e x : Int × Nat) (l : List (Int × Nat)) :
    x ∈ multimapInsert e l ↔ x = e ∨ x ∈ l := by
  induction l with
  | nil => simp [multimapInsert]
  | cons y ys ih =>
    unfold multimapInsert
    split_ifs
    · simp
    · simp only [List.mem_cons, ih]
      tauto

theorem map_addState_closed {m : MapLayout} (hc : m.Closed) : m.addState.Closed := by
  intro map hmap e he
  have hcount : m.addState.getStateCount = m.getStateCount + 1 := by
    unfold MapLayout.addState MapLayout.getStateCount; simp
  rw [hcount]
  unfold MapLayout.addState at hmap
  simp only [List.mem_append, List.mem_singleton] at hmap
  rcases hmap with hmap | rfl
  · exact Nat.lt_succ_of_lt (hc map hmap e he)
  · cases he

theorem map_addTransition_closed {m m1 : MapLayout} (hc : m.Closed) {i j : Nat} {x : Int}
    (h : m.addTransition i j x = .ok m1) : m1.Closed := by
  unfold MapLayout.addTransition at h
  split_ifs at h with h1
  cases h
  intro map hmap e he
  have hcount : (MapLayout.mk (m.internalMap.set i
      (multimapInsert (x, j) (m.internalMap.getD i [])))).getStateCount = m.getStateCount := by
    unfold MapLayout.getStateCount; simp
  rw [hcount]
  rcases List.mem_or_eq_of_mem_set hmap with hmem | rfl
  · exact hc map hmem e he
  · rcases (mem_multimapInsert _ _ _).mp he with rfl | he1
    · exact h1.2.1
    · have hi : i < m.internalMap.length := h1.1
      exact hc _ (by rw [List.getD_eq_getElem _ _ hi]; exact List.getElem_mem _) e he1

theorem map_run_closed : ∀ (ops : List LayoutOp) (m m1 : MapLayout), m.Closed →
    LayoutOp.removeLastState ∉ ops → MapLayout.run ops m = .ok m1 → m1.Closed := by
  intro ops
  induction ops with
  | nil =>
    intro m m1 ht _ h
    cases h
    exact ht
  | cons op ops ih =>
    intro m m1 ht hno h
    unfold MapLayout.run at h
    rw [List.foldlM_cons] at h
    have hno1 : LayoutOp.removeLastState ∉ ops := fun hc => hno (List.mem_cons_of_mem _ hc)
    cases op with
    | addState => exact ih _ _ (map_addState_closed ht) hno1 h
    | addTransition frm dst input =>
      cases hstep : m.addTransition frm dst input with
      | error e =>
        simp only [MapLayout.step, hstep] at h
        cases h
      | ok m2 =>
        simp only [MapLayout.step, hstep] at h
        exact ih _ _ (map_addTransition_closed ht hstep) hno1 h
    | removeLastState => exact absurd (List.mem_cons_self _ _) hno

/-- C14 (counterexample): after `addState(); addState(); addTransition(0, 1, 'a');
removeLastState(); addState()` the state `1` added last still has the incoming transition
`0 -a-> 1`, in the dense and in the sparse store. -/
theorem C14_readded_state_keeps_incoming_transition :
    (∃ m, MatrixLayout.run [.addState, .addState, .addTransition 0 1 97, .removeLastState]
        ⟨[]⟩ = .ok m ∧ m.getStateCount = 1 ∧ m.addState.getTransition 0 1 = .ok 97) ∧
      ∃ m, MapLayout.run [.addState, .addState, .addTransition 0 1 97, .removeLastState]
        ⟨[]⟩ = .ok m ∧ m.getStateCount = 1 ∧ m.addState.getTransition 0 1 = .ok 97 :=
  ⟨⟨⟨[[0, 97]]⟩, rfl, rfl, rfl⟩, ⟨⟨[[(97, 1)]]⟩, rfl, rfl, rfl⟩⟩

/-- C14 (amended): for a store reached from the empty store by `addState`, `addTransition` and
`removeLastState` calls, the state `k` added by one more `addState()` has no outgoing
transition, and it has no incoming transition when no `removeLastState` was among the calls;
in the dense store (`m`) and in the sparse store (`sm`). -/
theorem C14_added_state_is_isolated (ops : List LayoutOp) (m : MatrixLayout) (sm : MapLayout)
    (hm : MatrixLayout.run ops ⟨[]⟩ = .ok m) (hsm : MapLayout.run ops ⟨[]⟩ = .ok sm) :
    (∀ s, s ≤ m.getStateCount → m.addState.getTransition m.getStateCount s = .ok Input.none) ∧
      (∀ s, s ≤ sm.getStateCount →
        sm.addState.getTransition sm.getStateCount s = .ok Input.none) ∧
      (LayoutOp.removeLastState ∉ ops →
        (∀ s, s ≤ m.getStateCount →
          m.addState.getTransition s m.getStateCount = .ok Input.none) ∧
        ∀ s, s ≤ sm.getStateCount →
          sm.addState.getTransition s sm.getStateCount = .ok Input.none) := by
  refine ⟨fun s hs => addState_getTransition_out m hs,
    fun s _ => map_addState_getTransition_out sm s, fun hno => ⟨fun s hs => ?_, fun s hs => ?_⟩⟩
  · exact addState_getTransition_in
      (run_tight ops ⟨[]⟩ m (fun row hrow => by cases hrow) hno hm) hs
  · exact map_addState_getTransition_in
      (map_run_closed ops ⟨[]⟩ sm (fun map hmap => by cases hmap) hno hsm) hs

/-- Witness of C14 at the calls `addState(); addState(); addTransition(0, 1, 'a')`. -/
theorem C14_added_state_is_isolated_witness :
    (MatrixLayout.run [.addState, .addState, .addTransition 0 1 97] ⟨[]⟩ =
        .ok ⟨[[0, 97], [0, 0]]⟩ ∧
      MapLayout.run [.addState, .addState, .addTransition 0 1 97] ⟨[]⟩ =
        .ok ⟨[[(97, 1)], []]⟩) ∧
    ((∀ s, s ≤ 2 → (MatrixLayout.mk [[0, 97], [0, 0]]).addState.getTransition 2 s =
        .ok Input.none) ∧
      (∀ s, s ≤ 2 → (MapLayout.mk [[(97, 1)], []]).addState.getTransition 2 s =
        .ok Input.none) ∧
      (LayoutOp.removeLastState ∉
          [LayoutOp.addState, LayoutOp.addState, LayoutOp.addTransition 0 1 97] →
        (∀ s, s ≤ 2 → (MatrixLayout.mk [[0, 97], [0, 0]]).addState.getTransition s 2 =
          .ok Input.none) ∧
        ∀ s, s ≤ 2 → (MapLayout.mk [[(97, 1)], []]).addState.getTransition s 2 =
          .ok Input.none)) :=
  ⟨⟨rfl, rfl⟩,
    C14_added_state_is_isolated [.addState, .addState, .addTransition 0 1 97]
      ⟨[[0, 97], [0, 0]]⟩ ⟨[[(97, 1)], []]⟩ rfl rfl⟩

/-! ## C15: `addStatesOf` -/

@[simp] theorem map_addStatesOf_count (m o : MapLayout) :
    (m.addStatesOf o).getStateCount = m.getStateCount + o.getStateCount := by
  unfold MapLayout.addStatesOf MapLayout.getStateCount
  simp

theorem map_addStatesOf_left (m o : MapLayout) {i : Nat} (hi : i < m.getStateCount) (j : Nat) :
    (m.addStatesOf o).getTransition i j = m.getTransition i j := by
  have hi1 : i < m.internalMap.length := hi
  have hrow : (m.addStatesOf o).internalMap.getD i [] = m.internalMap.getD i [] := by
    unfold MapLayout.addStatesOf
    simp only []
    rw [List.getD_append _ _ _ _ hi1]
  unfold MapLayout.getTransition
  rw [map_addStatesOf_count, if_pos (by omega), if_pos hi, hrow]

theorem find_shift (n j : Nat) (map : List (Int × Nat)) :
    (map.map (fun elem => (elem.1, elem.2 + n))).find? (fun val => decide (val.2 = n + j)) =
      (map.find? (fun val => decide (val.2 = j))).map (fun elem => (elem.1, elem.2 + n)) := by
  induction map with
  | nil => rfl
  | cons e es ih =>
    by_cases h : e.2 = j
    · have h1 : e.2 + n = n + j := by omega
      rw [List.map_cons, List.find?_cons_of_pos _ (by simpa using h1),
        List.find?_cons_of_pos _ (by simpa using h)]
      rfl
    · have h1 : ¬ e.2 + n = n + j := by omega
      rw [List.map_cons, List.find?_cons_of_neg _ (by simpa using h1),
        List.find?_cons_of_neg _ (by simpa using h)]
      exact ih

theorem map_addStatesOf_right (m o : MapLayout) {i : Nat} (hi : i < o.getStateCount)
    (j : Nat) :
    (m.addStatesOf o).getTransition (m.getStateCount + i) (m.getStateCount + j) =
      o.getTransition i j := by
  have hi1 : i < o.internalMap.length := hi
  have hrow : (m.addStatesOf o).internalMap.getD (m.getStateCount + i) [] =
      (o.internalMap.getD i []).map (fun elem => (elem.1, elem.2 + m.getStateCount)) := by
    unfold MapLayout.addStatesOf MapLayout.getStateCount
    simp only []
    rw [List.getD_append_right _ _ _ _ (by omega), Nat.add_sub_cancel_left,
      List.getD_eq_getElem _ _ (by rw [List.length_map]; exact hi1),
      List.getD_eq_getElem _ _ hi1, List.getElem_map]
  unfold MapLayout.getTransition
  rw [map_addStatesOf_count, if_pos (by omega), if_pos hi, hrow, find_shift]
  cases (o.internalMap.getD i []).find? (fun val => decide (val.2 = j)) <;> rfl

/-- C15 (fails on the code for the dense store): `MatrixLayout::addStatesOf` copies every row
of `B` whole into a new row of `n + m` entries, from column `n` on. For a dense `B` whose rows
have one entry per state the call returns, and the claim holds: the state count is `n + m`,
`getTransition(i, j)` is unchanged for `i, j < n`, `getTransition(n + i, n + j)` is
`B.getTransition(i, j)` for `i, j < m`, and `B` is unchanged. The same holds for every two
sparse stores. But a dense call returns only if no row of `B` has more entries than `B` has
states: for the store `B` that `addState(); addState(); removeLastState()` leaves (one state,
a row of two entries) the copy runs past the end of the new row, whatever `A` is. -/
theorem C15_addStatesOf_overflows_on_stale_row :
    (∀ A B : MatrixLayout, A.WF → B.Tight →
      ∃ A1, A.addStatesOfCall B = .ok (A1, B) ∧
        A1.getStateCount = A.getStateCount + B.getStateCount ∧
        (∀ i j, i < A.getStateCount → j < A.getStateCount →
          A1.getTransition i j = A.getTransition i j) ∧
        (∀ i j, i < B.getStateCount → j < B.getStateCount →
          A1.getTransition (A.getStateCount + i) (A.getStateCount + j) =
            B.getTransition i j)) ∧
      (∀ SA SB : MapLayout,
        (SA.addStatesOfCall SB).2 = SB ∧
        (SA.addStatesOfCall SB).1.getStateCount = SA.getStateCount + SB.getStateCount ∧
        (∀ i j, i < SA.getStateCount → j < SA.getStateCount →
          (SA.addStatesOfCall SB).1.getTransition i j = SA.getTransition i j) ∧
        (∀ i j, i < SB.getStateCount → j < SB.getStateCount →
          (SA.addStatesOfCall SB).1.getTransition (SA.getStateCount + i)
            (SA.getStateCount + j) = SB.getTransition i j)) ∧
      (∀ A B : MatrixLayout, (∃ r, A.addStatesOfCall B = .ok r) ↔ B.Fits) ∧
      ∃ B, MatrixLayout.run [.addState, .addState, .removeLastState] ⟨[]⟩ = .ok B ∧
        B.getStateCount = 1 ∧ B.WF ∧
        ∀ A : MatrixLayout, A.addStatesOfCall B = .error .undefinedBehaviour := by
  refine ⟨fun A B hA hB => ?_, fun SA SB => ?_, fun A B => ?_, ⟨[[0, 0]]⟩, rfl, rfl, ?_,
    fun A => ?_⟩
  · have hBw := wf_of_tight hB
    refine ⟨A.appendStates B, ?_, appendStates_count A B, fun i j hi hj => ?_,
      fun i j hi hj => ?_⟩
    · unfold MatrixLayout.addStatesOfCall
      rw [addStatesOf_eq A (fits_of_tight hB)]
      rfl
    · rw [getTransition_eq (appendStates_WF A B) (by rw [appendStates_count]; omega)
        (by rw [appendStates_count]; omega), getTransition_eq hA hi hj, appendStates_cell,
        if_pos hi, if_pos (by omega)]
    · rw [getTransition_eq (appendStates_WF A B) (by rw [appendStates_count]; omega)
        (by rw [appendStates_count]; omega), getTransition_eq hBw hi hj, appendStates_cell,
        if_neg (by omega), if_pos ⟨by omega, by omega⟩]
      simp
  · exact ⟨rfl, map_addStatesOf_count SA SB, fun i j hi _ => map_addStatesOf_left SA SB hi j,
      fun i j hi _ => map_addStatesOf_right SA SB hi j⟩
  · constructor
    · rintro ⟨r, hr⟩
      unfold MatrixLayout.addStatesOfCall at hr
      obtain ⟨a1, ha1, -⟩ := bind_eq_ok hr
      exact (addStatesOf_ok ha1).1
    · intro hf
      refine ⟨(A.appendStates B, B), ?_⟩
      unfold MatrixLayout.addStatesOfCall
      rw [addStatesOf_eq A hf]
      rfl
  · unfold MatrixLayout.WF
    decide
  · have hnf : ¬ (MatrixLayout.mk [[0, 0]]).Fits := by
      intro h
      have := h [0, 0] (List.mem_singleton.mpr rfl)
      simp [MatrixLayout.getStateCount] at this
    unfold MatrixLayout.addStatesOfCall
    rw [addStatesOf_overflow A hnf]
    rfl

/-! ## C16: the two `makeTransition` over a sparse store -/

theorem scan_fold {f : List Nat → Nat → Except Error (List Nat)} {P : Nat → Prop}
    [DecidablePred P] :
    ∀ (L : List Nat),
      (∀ s ∈ L, ∀ acc, f acc s = .ok (if P s ∧ s ∉ acc then acc ++ [s] else acc)) →
      ∀ acc, ∃ R, L.foldlM f acc = .ok R ∧ ∀ q, q ∈ R ↔ q ∈ acc ∨ (q ∈ L ∧ P q) := by
  intro L
  induction L with
  | nil => intro _ acc; exact ⟨acc, rfl, by simp⟩
  | cons a L ih =>
    intro hf acc
    rw [List.foldlM_cons, hf a (List.mem_cons_self _ _), bind_ok]
    obtain ⟨R, hR, hmem⟩ := ih (fun s hs => hf s (List.mem_cons_of_mem _ hs))
      (if P a ∧ a ∉ acc then acc ++ [a] else acc)
    refine ⟨R, hR, fun q => ?_⟩
    rw [hmem q]
    by_cases h1 : P a ∧ a ∉ acc
    · rw [if_pos h1]
      simp only [List.mem_append, List.mem_cons, List.not_mem_nil, or_false]
      constructor
      · rintro ((h | rfl) | ⟨h, h2⟩)
        · exact Or.inl h
        · exact Or.inr ⟨Or.inl rfl, h1.1⟩
        · exact Or.inr ⟨Or.inr h, h2⟩
      · rintro (h | ⟨rfl | h, h2⟩)
        · exact Or.inl (Or.inl h)
        · exact Or.inl (Or.inr rfl)
        · exact Or.inr ⟨h, h2⟩
    · rw [if_neg h1]
      simp only [List.mem_cons]
      constructor
      · rintro (h | ⟨h, h2⟩)
        · exact Or.inl h
        · exact Or.inr ⟨Or.inr h, h2⟩
      · rintro (h | ⟨rfl | h, h2⟩)
        · exact Or.inl h
        · left
          by_contra hq
          exact h1 ⟨h2, hq⟩
        · exact Or.inr ⟨h, h2⟩

theorem map_getTransition_eq (m : MapLayout) {i : Nat} (hi : i < m.getStateCount) (j : Nat) :
    m.getTransition i j = .ok (mapCell m i j) := by
  unfold MapLayout.getTransition mapCell
  rw [if_pos hi]
  cases (m.internalMap.getD i []).find? (fun val => decide (val.2 = j)) <;> rfl

theorem genericStep_eq (m : MapLayout) {state : Nat} (hs : state < m.getStateCount)
    (c : Int) (acc : List Nat) (s : Nat) :
    genericStep m c state acc s =
      .ok (if (mapCell m state s = c ∨ mapCell m state s = Input.any) ∧ s ∉ acc then acc ++ [s]
        else acc) := by
  simp only [genericStep, map_getTransition_eq m hs, bind_ok, pure_eq_ok]
  congr 1
  by_cases h3 : s ∈ acc
  · simp [h3]
  · by_cases h1 : mapCell m state s = c
    · simp [h1, h3]
    · have e1 : (if mapCell m state s = c ∧ s ∉ acc then acc ++ [s] else acc) = acc :=
        if_neg (fun h => h1 h.1)
      rw [e1]
      by_cases h2 : mapCell m state s = Input.any
      · rw [if_pos ⟨h2, h3⟩, if_pos ⟨Or.inr h2, h3⟩]
      · rw [if_neg (fun h => h2 h.1), if_neg]
        rintro ⟨h4 | h4, _⟩
        · exact h1 h4
        · exact h2 h4

theorem genericMakeTransition_fold (m : MapLayout) (c : Int) :
    ∀ (origin : List Nat), (∀ p ∈ origin, p < m.getStateCount) → ∀ (acc : List Nat),
      ∃ R, origin.foldlM (fun acc state =>
          (List.range m.getStateCount).foldlM (genericStep m c state) acc) acc = .ok R ∧
        ∀ q, q ∈ R ↔ q ∈ acc ∨ ∃ p ∈ origin, q < m.getStateCount ∧
          (mapCell m p q = c ∨ mapCell m p q = Input.any) := by
  intro origin
  induction origin with
  | nil => intro _ acc; exact ⟨acc, rfl, by simp⟩
  | cons a t ih =>
    intro hv acc
    have ha := hv a (List.mem_cons_self _ _)
    obtain ⟨R1, hR1, hm1⟩ := scan_fold
      (P := fun s => mapCell m a s = c ∨ mapCell m a s = Input.any)
      (List.range m.getStateCount) (fun s _ acc => genericStep_eq m ha c acc s) acc
    obtain ⟨R, hR, hm⟩ := ih (fun p hp => hv p (List.mem_cons_of_mem _ hp)) R1
    refine ⟨R, ?_, fun q => ?_⟩
    · rw [List.foldlM_cons, hR1, bind_ok, hR]
    · rw [hm q, hm1 q]
      simp only [List.mem_range, List.mem_cons, exists_eq_or_imp]
      constructor
      · rintro ((h | h) | h)
        · exact Or.inl h
        · exact Or.inr (Or.inl h)
        · exact Or.inr (Or.inr h)
      · rintro (h | h | h)
        · exact Or.inl (Or.inl h)
        · exact Or.inl (Or.inr h)
        · exact Or.inr h

theorem mem_pushRange (range : List (Int × Nat)) :
    ∀ (result : List Nat) (q : Nat),
      q ∈ pushRange result range ↔ q ∈ result ∨ ∃ e ∈ range, e.2 = q := by
  induction range with
  | nil => intro result q; simp [pushRange]
  | cons e es ih =>
    intro result q
    unfold pushRange at ih ⊢
    rw [List.foldl_cons, ih]
    by_cases h : e.2 ∈ result
    · rw [if_pos h]
      simp only [List.mem_cons, exists_eq_or_imp]
      constructor
      · rintro (h1 | h1)
        · exact Or.inl h1
        · exact Or.inr (Or.inr h1)
      · rintro (h1 | h1 | h1)
        · exact Or.inl h1
        · exact Or.inl (h1 ▸ h)
        · exact Or.inr h1
    · rw [if_neg h]
      simp only [List.mem_append, List.mem_cons, List.not_mem_nil, or_false, exists_eq_or_imp]
      constructor
      · rintro ((h1 | h1) | h1)
        · exact Or.inl h1
        · exact Or.inr (Or.inl h1.symm)
        · exact Or.inr (Or.inr h1)
      · rintro (h1 | h1 | h1)
        · exact Or.inl (Or.inl h1)
        · exact Or.inl (Or.inr h1.symm)
        · exact Or.inr h1

theorem mem_equalRange (map : List (Int × Nat)) (x : Int) (e : Int × Nat) :
    e ∈ equalRange map x ↔ e ∈ map ∧ e.1 = x := by
  unfold equalRange
  simp

theorem map_makeTransition_fold (m : MapLayout) (c : Int) :
    ∀ (origin : List Nat), (∀ p ∈ origin, p < m.getStateCount) → ∀ (acc : List Nat),
      ∃ R, origin.foldlM (fun result state =>
          if state < m.getStateCount then
            Except.ok (pushRange (pushRange result (equalRange (m.internalMap.getD state []) c))
              (equalRange (m.internalMap.getD state []) Input.any))
          else Except.error Error.undefinedBehaviour) acc = .ok R ∧
        ∀ q, q ∈ R ↔ q ∈ acc ∨ ∃ p ∈ origin, ∃ e ∈ m.internalMap.getD p [],
          e.2 = q ∧ (e.1 = c ∨ e.1 = Input.any) := by
  intro origin
  induction origin with
  | nil => intro _ acc; exact ⟨acc, rfl, by simp⟩
  | cons a t ih =>
    intro hv acc
    have ha := hv a (List.mem_cons_self _ _)
    obtain ⟨R, hR, hm⟩ := ih (fun p hp => hv p (List.mem_cons_of_mem _ hp))
      (pushRange (pushRange acc (equalRange (m.internalMap.getD a []) c))
        (equalRange (m.internalMap.getD a []) Input.any))
    refine ⟨R, ?_, fun q => ?_⟩
    · rw [List.foldlM_cons, if_pos ha, bind_ok, hR]
    · rw [hm q, mem_pushRange, mem_pushRange]
      simp only [mem_equalRange, List.mem_cons, exists_eq_or_imp]
      constructor
      · rintro (((h | ⟨e, ⟨he, h1⟩, h2⟩) | ⟨e, ⟨he, h1⟩, h2⟩) | h)
        · exact Or.inl h
        · exact Or.inr (Or.inl ⟨e, he, h2, Or.inl h1⟩)
        · exact Or.inr (Or.inl ⟨e, he, h2, Or.inr h1⟩)
        · exact Or.inr (Or.inr h)
      · rintro (h | ⟨e, he, h2, h1 | h1⟩ | h)
        · exact Or.inl (Or.inl (Or.inl h))
        · exact Or.inl (Or.inl (Or.inr ⟨e, ⟨he, h1⟩, h2⟩))
        · exact Or.inl (Or.inr ⟨e, ⟨he, h1⟩, h2⟩)
        · exact Or.inr h

theorem mapCell_eq_iff {m : MapLayout} (h1 : m.SingleLabel) {p : Nat}
    (hp : p < m.getStateCount) (q : Nat) {x : Int} (hx : x ≠ Input.none) :
    mapCell m p q = x ↔ (x, q) ∈ m.internalMap.getD p [] := by
  have hp1 : p < m.internalMap.length := hp
  have hmem : m.internalMap.getD p [] ∈ m.internalMap := by
    rw [List.getD_eq_getElem _ _ hp1]; exact List.getElem_mem _
  unfold mapCell
  constructor
  · intro h
    cases hf : (m.internalMap.getD p []).find? (fun val => decide (val.2 = q)) with
    | none => rw [hf] at h; exact absurd h.symm hx
    | some e =>
      rw [hf] at h
      have h2 := List.find?_some hf
      have h3 := List.mem_of_find?_eq_some hf
      simp only [decide_eq_true_eq] at h2
      simp only [] at h
      have : e = (x, q) := Prod.ext h h2
      rw [← this]; exact h3
  · intro h
    cases hf : (m.internalMap.getD p []).find? (fun val => decide (val.2 = q)) with
    | none =>
      rw [List.find?_eq_none] at hf
      exact absurd (by simp) (hf _ h)
    | some e =>
      have h2 := List.find?_some hf
      have h3 := List.mem_of_find?_eq_some hf
      simp only [decide_eq_true_eq] at h2
      have : e = (x, q) := List.inj_on_of_nodup_map (h1 _ hmem) h3 h h2
      rw [this]

/-- C16 (counterexample): in the sparse store with the two entries `0 -a-> 1` and `0 -b-> 1`
the native `makeTransition({0}, 'b')` returns `{1}` and the generic scan returns nothing; and
in a store of two states without entries the generic scan for the symbol `none` returns both
states, the native method none. -/
theorem C16_native_and_generic_scan_differ :
    (∃ m, MapLayout.run [.addState, .addState, .addTransition 0 1 97, .addTransition 0 1 98]
        ⟨[]⟩ = .ok m ∧ m.makeTransition [0] 98 = .ok [1] ∧
        m.genericMakeTransition [0] 98 = .ok []) ∧
      ∃ m, MapLayout.run [.addState, .addState] ⟨[]⟩ = .ok m ∧
        m.makeTransition [0] Input.none = .ok [] ∧
        m.genericMakeTransition [0] Input.none = .ok [0, 1] :=
  ⟨⟨⟨[[(97, 1), (98, 1)], []]⟩, rfl, rfl, rfl⟩, ⟨⟨[[], []]⟩, rfl, rfl, rfl⟩⟩

/-- C16 (amended): in a sparse store in which no ordered pair of states carries two entries
and every entry leads to a state of the store, for every list of valid origin states and every
symbol other than `none`, the native `MapLayout::makeTransition` and the generic scan both
return, and they return the same states. -/
theorem C16_native_makeTransition_agrees_on_single_labels (m : MapLayout)
    (origin : List Nat) (input : Int) (h1 : m.SingleLabel) (h2 : m.Closed)
    (hv : ∀ p ∈ origin, p < m.getStateCount) (hin : input ≠ Input.none) :
    ∃ R1 R2, m.makeTransition origin input = .ok R1 ∧
      m.genericMakeTransition origin input = .ok R2 ∧ ∀ q, q ∈ R1 ↔ q ∈ R2 := by
  obtain ⟨R1, hR1, hm1⟩ := map_makeTransition_fold m input origin hv []
  obtain ⟨R2, hR2, hm2⟩ := genericMakeTransition_fold m input origin hv []
  refine ⟨R1, R2, hR1, hR2, fun q => ?_⟩
  rw [hm1 q, hm2 q]
  simp only [List.not_mem_nil, false_or]
  have hany : Input.any ≠ Input.none := by decide
  constructor
  · rintro ⟨p, hp, e, he, rfl, h | h⟩
    · refine ⟨p, hp, ?_, Or.inl ((mapCell_eq_iff h1 (hv p hp) e.2 hin).mpr (by rw [← h]; exact he))⟩
      have hp1 : p < m.internalMap.length := hv p hp
      exact h2 _ (by rw [List.getD_eq_getElem _ _ hp1]; exact List.getElem_mem _) e he
    · refine ⟨p, hp, ?_, Or.inr ((mapCell_eq_iff h1 (hv p hp) e.2 hany).mpr (by rw [← h]; exact he))⟩
      have hp1 : p < m.internalMap.length := hv p hp
      exact h2 _ (by rw [List.getD_eq_getElem _ _ hp1]; exact List.getElem_mem _) e he
  · rintro ⟨p, hp, _, h | h⟩
    · exact ⟨p, hp, _, (mapCell_eq_iff h1 (hv p hp) q hin).mp h, rfl, Or.inl rfl⟩
    · exact ⟨p, hp, _, (mapCell_eq_iff h1 (hv p hp) q hany).mp h, rfl, Or.inr rfl⟩

/-- Witness of C16 at the store with the entries `0 -a-> 1` and `0 -b-> 0`. -/
theorem C16_native_makeTransition_agrees_on_single_labels_witness :
    ((MapLayout.mk [[(97, 1), (98, 0)], []]).SingleLabel ∧
        (MapLayout.mk [[(97, 1), (98, 0)], []]).Closed ∧
        (∀ p ∈ [0], p < (MapLayout.mk [[(97, 1), (98, 0)], []]).getStateCount) ∧
        (98 : Int) ≠ Input.none) ∧
      ∃ R1 R2, (MapLayout.mk [[(97, 1), (98, 0)], []]).makeTransition [0] 98 = .ok R1 ∧
        (MapLayout.mk [[(97, 1), (98, 0)], []]).genericMakeTransition [0] 98 = .ok R2 ∧
        ∀ q, q ∈ R1 ↔ q ∈ R2 :=
  ⟨⟨by unfold MapLayout.SingleLabel; decide, by unfold MapLayout.Closed; decide, by decide,
      by decide⟩,
    C16_native_makeTransition_agrees_on_single_labels ⟨[[(97, 1), (98, 0)], []]⟩ [0] 98
      (by unfold MapLayout.SingleLabel; decide) (by unfold MapLayout.Closed; decide)
      (by decide) (by decide)⟩


/-! ## C17 and C18: what `computeEpsilonClosure` returns, and when -/

theorem epsAcyclic_of_no_cycle {nfa : NFA}
    (h : ∀ p, ¬ Relation.TransGen (EpsStep nfa) p p) : EpsAcyclic nfa := by
  classical
  refine ⟨fun p => ((Finset.range nfa.layout.getStateCount).filter
    (fun q => Relation.TransGen (EpsStep nfa) p q)).card, fun p q hpq => ?_⟩
  apply Finset.card_lt_card
  rw [Finset.ssubset_iff_of_subset]
  · refine ⟨q, ?_, ?_⟩
    · rw [Finset.mem_filter, Finset.mem_range]
      exact ⟨hpq.2.1, Relation.TransGen.single hpq⟩
    · rw [Finset.mem_filter]
      exact fun hq => h q hq.2
  · intro x hx
    rw [Finset.mem_filter] at hx ⊢
    exact ⟨hx.1, Relation.TransGen.head hpq hx.2⟩

theorem closureLoop_diverges {nfa : NFA} (hwf : nfa.layout.WF) :
    ∀ (fuel : Nat) (stack cl : List Nat), (∀ s ∈ stack, s < nfa.layout.getStateCount) →
      (∃ q ∈ stack, Relation.TransGen (EpsStep nfa) q q) →
      closureLoop nfa fuel stack cl = .error .outOfFuel := by
  intro fuel
  induction fuel with
  | zero =>
    intro stack cl _ hq
    obtain ⟨q, hq, _⟩ := hq
    cases stack with
    | nil => cases hq
    | cons s rest => rfl
  | succ fuel ih =>
    intro stack cl hv hq
    obtain ⟨q, hq, hcyc⟩ := hq
    cases stack with
    | nil => cases hq
    | cons s rest =>
      have hs : s < nfa.layout.getStateCount := hv s (List.mem_cons_self _ _)
      rw [closureLoop_succ hwf hs]
      apply ih
      · intro x hx
        rw [List.mem_append, List.mem_reverse] at hx
        rcases hx with hx | hx
        · exact ((mem_epsSuccs hs).mp hx).2.1
        · exact hv x (List.mem_cons_of_mem _ hx)
      · rcases List.mem_cons.mp hq with rfl | hq1
        · obtain ⟨b, hb, hbq⟩ := Relation.TransGen.head'_iff.mp hcyc
          refine ⟨b, ?_, Relation.TransGen.tail' hbq hb⟩
          rw [List.mem_append, List.mem_reverse]
          exact Or.inl ((mem_epsSuccs hs).mpr hb)
        · exact ⟨q, by rw [List.mem_append]; exact Or.inr hq1, hcyc⟩

theorem toMatrix_count (m : MapLayout) : m.toMatrix.getStateCount = m.getStateCount := by
  simp [MapLayout.toMatrix, MatrixLayout.getStateCount]

theorem toMatrix_WF (m : MapLayout) : m.toMatrix.WF := by
  intro row hrow
  rw [toMatrix_count]
  simp only [MapLayout.toMatrix, List.mem_map] at hrow
  obtain ⟨i, -, rfl⟩ := hrow
  simp

theorem toMatrix_cell (m : MapLayout) {i j : Nat} (hi : i < m.getStateCount)
    (hj : j < m.getStateCount) : cell m.toMatrix i j = mapCell m i j := by
  simp [cell, MapLayout.toMatrix, List.getD_eq_getElem?_getD, hi, hj]

theorem mapClosureScan_eq (m : MapLayout) {state s : Nat} (hs : state < m.getStateCount)
    (h : s < m.getStateCount) (acc : List Nat × List Nat) :
    mapClosureScan m state acc s = closureScan m.toMatrix state acc s := by
  unfold mapClosureScan closureScan
  rw [map_getTransition_eq m hs, getTransition_eq (toMatrix_WF m) (by rw [toMatrix_count]; exact hs)
    (by rw [toMatrix_count]; exact h), toMatrix_cell m hs h]

theorem mapClosureScan_fold_eq (m : MapLayout) {state : Nat} (hs : state < m.getStateCount) :
    ∀ (L : List Nat), (∀ s ∈ L, s < m.getStateCount) → ∀ acc : List Nat × List Nat,
      L.foldlM (mapClosureScan m state) acc = L.foldlM (closureScan m.toMatrix state) acc := by
  intro L
  induction L with
  | nil => intro _ _; rfl
  | cons a L ih =>
    intro hL acc
    rw [List.foldlM_cons, List.foldlM_cons,
      mapClosureScan_eq m hs (hL a (List.mem_cons_self _ _))]
    cases closureScan m.toMatrix state acc a with
    | error e => rfl
    | ok r => exact ih (fun s h => hL s (List.mem_cons_of_mem _ h)) r

/-- Over valid states the closure loop on the sparse store runs as the closure loop on the
dense store of the reported labels. -/
theorem mapClosureLoop_eq (nfa : MapNFA) :
    ∀ (fuel : Nat) (stack cl : List Nat), (∀ p ∈ stack, p < nfa.layout.getStateCount) →
      mapClosureLoop nfa fuel stack cl = closureLoop nfa.toDense fuel stack cl := by
  intro fuel
  induction fuel with
  | zero =>
    intro stack cl _
    cases stack <;> rfl
  | succ f ih =>
    intro stack cl hv
    cases stack with
    | nil => rfl
    | cons s rest =>
      have hs : s < nfa.layout.getStateCount := hv s (List.mem_cons_self _ _)
      have hwf : nfa.toDense.layout.WF := toMatrix_WF _
      have hsd : s < nfa.toDense.layout.getStateCount := by
        show s < nfa.layout.toMatrix.getStateCount
        rw [toMatrix_count]; exact hs
      rw [closureLoop_succ hwf hsd, mapClosureLoop,
        mapClosureScan_fold_eq nfa.layout hs _ (fun x hx => List.mem_range.mp hx)]
      have hfold := closureScan_fold hwf hsd (List.range nfa.toDense.layout.getStateCount)
        (fun x hx => List.mem_range.mp hx) cl rest
      have hcount : nfa.toDense.layout.getStateCount = nfa.layout.getStateCount :=
        toMatrix_count _
      rw [hcount] at hfold
      show ((List.range nfa.layout.getStateCount).foldlM
        (closureScan nfa.toDense.layout s) (cl, rest) >>= _) = _
      rw [hfold, bind_ok]
      have e : epsSuccs nfa.toDense s = (List.range nfa.layout.getStateCount).filter
          (fun x => decide (cell nfa.toDense.layout s x = Input.epsilon)) := by
        unfold epsSuccs
        rw [hcount]
      rw [e]
      apply ih
      intro p hp
      rw [List.mem_append, List.mem_reverse, List.mem_filter, List.mem_range] at hp
      rcases hp with hp | hp
      · exact hp.1
      · exact hv p (List.mem_cons_of_mem _ hp)

theorem map_computeEpsilonClosure_eq (nfa : MapNFA) (fuel : Nat) {S : List Nat}
    (hv : ∀ p ∈ S, p < nfa.layout.getStateCount) :
    nfa.computeEpsilonClosure fuel S = nfa.toDense.computeEpsilonClosure fuel S := by
  unfold MapNFA.computeEpsilonClosure NFA.computeEpsilonClosure
  show (if nfa.possibleInputs.length = 0 then _ else _) =
    (if nfa.possibleInputs.length = 0 then _ else _)
  split
  · rfl
  · exact mapClosureLoop_eq nfa fuel _ _ (fun p hp => hv p (List.mem_reverse.mp hp))

theorem find_eps_iff (q : Nat) :
    ∀ (map : List (Int × Nat)), map.Pairwise (fun a b => a.1 ≤ b.1) →
      (∀ k, (Input.epsilon, q) ∈ map → (k, q) ∈ map → Input.epsilon ≤ k) →
      ((match map.find? (fun val => decide (val.2 = q)) with
        | some elem => elem.1
        | Option.none => Input.none) = Input.epsilon ↔ (Input.epsilon, q) ∈ map) := by
  intro map hsorted hfirst
  constructor
  · intro h
    cases hf : map.find? (fun val => decide (val.2 = q)) with
    | none => rw [hf] at h; exact absurd h (by decide)
    | some e =>
      rw [hf] at h
      have h2 := List.find?_some hf
      have h3 := List.mem_of_find?_eq_some hf
      simp only [decide_eq_true_eq] at h2
      simp only [] at h
      have : e = (Input.epsilon, q) := Prod.ext h h2
      rw [← this]; exact h3
  · intro h
    induction map with
    | nil => cases h
    | cons a t ih =>
      rw [List.find?_cons]
      by_cases ha : a.2 = q
      · simp only [ha, decide_True]
        have h1 : Input.epsilon ≤ a.1 :=
          hfirst a.1 h (by rw [← ha]; exact List.mem_cons_self _ _)
        rcases List.mem_cons.mp h with h0 | h0
        · rw [← h0]
        · have := (List.pairwise_cons.mp hsorted).1 _ h0
          exact le_antisymm this h1
      · simp only [ha, decide_False]
        rcases List.mem_cons.mp h with h0 | h0
        · exact absurd (by rw [← h0]) ha
        · exact ih (List.pairwise_cons.mp hsorted).2
            (fun k hk1 hk2 => hfirst k (List.mem_cons_of_mem _ hk1) (List.mem_cons_of_mem _ hk2))
            h0

/-- In a sorted multimap in which no entry for the destination `q` has a key below `epsilon`,
`getTransition` reports `epsilon` for `q` exactly if the multimap holds an epsilon entry for
`q`. -/
theorem mapCell_eps_iff {m : MapLayout} (hs : m.Sorted) (he : m.EpsFirst) {p : Nat}
    (hp : p < m.getStateCount) (q : Nat) :
    mapCell m p q = Input.epsilon ↔ (Input.epsilon, q) ∈ m.internalMap.getD p [] := by
  have hp1 : p < m.internalMap.length := hp
  have hmem : m.internalMap.getD p [] ∈ m.internalMap := by
    rw [List.getD_eq_getElem _ _ hp1]; exact List.getElem_mem _
  exact find_eps_iff q _ (hs _ hmem) (fun k h1 h2 => he _ hmem _ h1 _ h2 rfl rfl)

theorem epsStep_toDense {nfa : MapNFA} (hs : nfa.layout.Sorted) (he : nfa.layout.EpsFirst) :
    EpsStep nfa.toDense = MapEpsStep nfa := by
  funext p q
  apply propext
  unfold EpsStep MapEpsStep
  show p < nfa.layout.toMatrix.getStateCount ∧ q < nfa.layout.toMatrix.getStateCount ∧
    cell nfa.layout.toMatrix p q = Input.epsilon ↔ _
  rw [toMatrix_count]
  constructor
  · rintro ⟨hp, hq, h⟩
    rw [toMatrix_cell _ hp hq] at h
    exact ⟨hp, hq, (mapCell_eps_iff hs he hp q).mp h⟩
  · rintro ⟨hp, hq, h⟩
    rw [toMatrix_cell _ hp hq]
    exact ⟨hp, hq, (mapCell_eps_iff hs he hp q).mpr h⟩

theorem multimapInsert_sorted (e : Int × Nat) :
    ∀ (map : List (Int × Nat)), map.Pairwise (fun a b => a.1 ≤ b.1) →
      (multimapInsert e map).Pairwise (fun a b => a.1 ≤ b.1) := by
  intro map
  induction map with
  | nil => intro _; simp [multimapInsert]
  | cons x xs ih =>
    intro h
    unfold multimapInsert
    by_cases hlt : e.1 < x.1
    · rw [if_pos hlt]
      refine List.pairwise_cons.mpr ⟨fun y hy => ?_, h⟩
      rcases List.mem_cons.mp hy with rfl | hy1
      · omega
      · have := (List.pairwise_cons.mp h).1 y hy1
        omega
    · rw [if_neg hlt]
      refine List.pairwise_cons.mpr ⟨fun y hy => ?_, ih (List.pairwise_cons.mp h).2⟩
      have hmem : ∀ z ∈ multimapInsert e xs, z = e ∨ z ∈ xs := by
        intro z
        clear ih h hy
        induction xs with
        | nil => intro hz; simp [multimapInsert] at hz; exact Or.inl hz
        | cons w ws ihw =>
          intro hz
          unfold multimapInsert at hz
          split_ifs at hz
          · rcases List.mem_cons.mp hz with rfl | hz1
            · exact Or.inl rfl
            · exact Or.inr hz1
          · rcases List.mem_cons.mp hz with rfl | hz1
            · exact Or.inr (List.mem_cons_self _ _)
            · rcases ihw hz1 with h1 | h1
              · exact Or.inl h1
              · exact Or.inr (List.mem_cons_of_mem _ h1)
      rcases hmem y hy with rfl | hy1
      · omega
      · exact (List.pairwise_cons.mp h).1 y hy1

/-- Every store made by calls of `addState`, `addTransition` and `removeLastState` on the
empty store lists the entries of each multimap by ascending key. -/
theorem sorted_run : ∀ (ops : List LayoutOp) (m r : MapLayout), m.Sorted →
    MapLayout.run ops m = .ok r → r.Sorted := by
  intro ops
  induction ops with
  | nil =>
    intro m r hm h
    cases h
    exact hm
  | cons op ops ih =>
    intro m r hm h
    unfold MapLayout.run at h
    rw [List.foldlM_cons] at h
    obtain ⟨m1, h1, h⟩ := bind_eq_ok h
    refine ih m1 r ?_ h
    cases op with
    | addState =>
      cases h1
      intro map hmap
      simp only [MapLayout.addState, List.mem_append, List.mem_singleton] at hmap
      rcases hmap with hmap | rfl
      · exact hm map hmap
      · exact List.Pairwise.nil
    | addTransition frm dst input =>
      simp only [MapLayout.step, MapLayout.addTransition] at h1
      split_ifs at h1 with hc
      cases h1
      intro map hmap
      rcases List.mem_or_eq_of_mem_set hmap with h2 | h2
      · exact hm map h2
      · rw [h2]
        apply multimapInsert_sorted
        by_cases hf : frm < m.internalMap.length
        · rw [List.getD_eq_getElem _ _ hf]
          exact hm _ (List.getElem_mem _)
        · rw [List.getD_eq_default _ _ (by omega)]
          exact List.Pairwise.nil
    | removeLastState =>
      simp only [MapLayout.step, MapLayout.removeLastState] at h1
      split_ifs at h1
      cases h1
      intro map hmap
      exact hm map (List.mem_of_mem_dropLast hmap)

/-- The call `addStatesOf` keeps the multimaps sorted: the copied entries keep their keys. -/
theorem sorted_addStatesOf {m o : MapLayout} (hm : m.Sorted) (ho : o.Sorted) :
    (m.addStatesOf o).Sorted := by
  intro map hmap
  simp only [MapLayout.addStatesOf, List.mem_append, List.mem_map] at hmap
  rcases hmap with hmap | ⟨map0, hmap0, rfl⟩
  · exact hm map hmap
  · exact List.Pairwise.map _ (fun _ _ h => h) (ho map0 hmap0)

/-- C17 (counterexample): on the sparse store an ordered pair of states can carry an `any`
entry and an `epsilon` entry; `getTransition` reports the first entry in key order, `any`, and
`computeEpsilonClosure` does not follow the epsilon entry. For `NFA<MapLayout>('a')` with a
third state and the entries `0 -any-> 2` and `0 -epsilon-> 2` the closure of `[0]` is `[0]`,
though the state `2` is reached from `0` by one stored epsilon entry. -/
theorem C17_sparse_closure_misses_epsilon_entry :
    ∃ a l, MapNFA.ofInput 97 = .ok a ∧
      MapLayout.run [.addState, .addTransition 0 2 Input.any,
        .addTransition 0 2 Input.epsilon] a.layout = .ok l ∧
      l.Sorted ∧ ¬ l.EpsFirst ∧ (∀ p, ¬ Relation.TransGen (MapEpsStep ⟨l, 0, [97]⟩) p p) ∧
      MapEpsStep ⟨l, 0, [97]⟩ 0 2 ∧ l.getTransition 0 2 = .ok Input.any ∧
      MapNFA.computeEpsilonClosure ⟨l, 0, [97]⟩ 1 [0] = .ok [0] ∧
      ∀ fuel R, MapNFA.computeEpsilonClosure ⟨l, 0, [97]⟩ fuel [0] = .ok R → 2 ∉ R := by
  refine ⟨⟨⟨[[(97, 1)], []]⟩, 0, [97]⟩, ⟨[[(-2, 2), (-1, 2), (97, 1)], [], []]⟩, rfl, rfl, ?_,
    ?_, ?_, ⟨by decide, by decide, by decide⟩, rfl, rfl, fun fuel R h => ?_⟩
  · unfold MapLayout.Sorted
    decide
  · unfold MapLayout.EpsFirst
    decide
  · intro p hcyc
    have hstep : ∀ a b, MapEpsStep ⟨⟨[[(-2, 2), (-1, 2), (97, 1)], [], []]⟩, 0, [97]⟩ a b →
        a = 0 ∧ b = 2 := by
      rintro a b ⟨ha, hb, hab⟩
      have ha3 : a < 3 := ha
      interval_cases a
      · simp at hab
        rcases hab with hab | ⟨h97, -⟩
        · exact ⟨rfl, hab⟩
        · exact absurd h97 (by decide)
      · simp at hab
      · simp at hab
    have hgen : ∀ a b, Relation.TransGen
        (MapEpsStep ⟨⟨[[(-2, 2), (-1, 2), (97, 1)], [], []]⟩, 0, [97]⟩) a b → a = 0 ∧ b = 2 := by
      intro a b hab
      induction hab with
      | single h => exact hstep _ _ h
      | tail _ h ih =>
        have := hstep _ _ h
        omega
    have := hgen p p hcyc
    omega
  · cases fuel with
    | zero => cases h
    | succ f =>
      have : MapNFA.computeEpsilonClosure ⟨⟨[[(-2, 2), (-1, 2), (97, 1)], [], []]⟩, 0, [97]⟩
          (f + 1) [0] = .ok [0] := by
        cases f <;> rfl
      rw [this] at h
      cases h
      decide

/-- C17 (amended): for an automaton over the dense store, and for an automaton over the
sparse store whose multimaps are sorted by key and in which no ordered pair of states that
carries an `epsilon` entry carries an `any` entry (an entry with a smaller key) as well: if the
alphabet is not empty, there is no cycle of epsilon edges and `S` is a list of valid states,
then `computeEpsilonClosure(S)` returns, and whatever it returns holds exactly the states
reachable from a state of `S` by zero or more epsilon edges: it contains `S`, it is closed
under epsilon edges, and it contains nothing else. -/
theorem C17_epsilon_closure_is_reachable_set (nfa : NFA) (S : List Nat) (mnfa : MapNFA)
    (MS : List Nat) :
    (nfa.layout.WF → nfa.possibleInputs ≠ [] →
      (∀ p, ¬ Relation.TransGen (EpsStep nfa) p p) →
      (∀ p ∈ S, p < nfa.layout.getStateCount) →
      (∃ fuel R, nfa.computeEpsilonClosure fuel S = .ok R) ∧
        ∀ fuel R, nfa.computeEpsilonClosure fuel S = .ok R →
          (∀ q, q ∈ R ↔ ∃ p ∈ S, Relation.ReflTransGen (EpsStep nfa) p q) ∧
          (∀ p ∈ S, p ∈ R) ∧ ∀ p ∈ R, ∀ q, EpsStep nfa p q → q ∈ R) ∧
      (mnfa.layout.Sorted → mnfa.layout.EpsFirst → mnfa.possibleInputs ≠ [] →
        (∀ p, ¬ Relation.TransGen (MapEpsStep mnfa) p p) →
        (∀ p ∈ MS, p < mnfa.layout.getStateCount) →
        (∃ fuel R, mnfa.computeEpsilonClosure fuel MS = .ok R) ∧
          ∀ fuel R, mnfa.computeEpsilonClosure fuel MS = .ok R →
            (∀ q, q ∈ R ↔ ∃ p ∈ MS, Relation.ReflTransGen (MapEpsStep mnfa) p q) ∧
            (∀ p ∈ MS, p ∈ R) ∧ ∀ p ∈ R, ∀ q, MapEpsStep mnfa p q → q ∈ R) := by
  have dense : ∀ (n : NFA) (T : List Nat), n.layout.WF → n.possibleInputs ≠ [] →
      (∀ p, ¬ Relation.TransGen (EpsStep n) p p) →
      (∀ p ∈ T, p < n.layout.getStateCount) →
      (∃ fuel R, n.computeEpsilonClosure fuel T = .ok R) ∧
        ∀ fuel R, n.computeEpsilonClosure fuel T = .ok R →
          (∀ q, q ∈ R ↔ ∃ p ∈ T, Relation.ReflTransGen (EpsStep n) p q) ∧
          (∀ p ∈ T, p ∈ R) ∧ ∀ p ∈ R, ∀ q, EpsStep n p q → q ∈ R := by
    intro n T hwf hin hnc hv
    refine ⟨computeEpsilonClosure_terminates hwf (epsAcyclic_of_no_cycle hnc) hv,
      fun fuel R hR => ?_⟩
    have hmem := computeEpsilonClosure_mem hwf hin hv hR
    refine ⟨hmem, fun p hp => (hmem p).mpr ⟨p, hp, Relation.ReflTransGen.refl⟩,
      fun p hp q hpq => ?_⟩
    obtain ⟨p0, hp0, hreach⟩ := (hmem p).mp hp
    exact (hmem q).mpr ⟨p0, hp0, Relation.ReflTransGen.tail hreach hpq⟩
  refine ⟨dense nfa S, fun hs he hin hnc hv => ?_⟩
  have hstep := epsStep_toDense hs he
  have hv1 : ∀ p ∈ MS, p < mnfa.toDense.layout.getStateCount := by
    intro p hp
    show p < mnfa.layout.toMatrix.getStateCount
    rw [toMatrix_count]; exact hv p hp
  have h := dense mnfa.toDense MS (toMatrix_WF _) hin (by rw [hstep]; exact hnc) hv1
  rw [hstep] at h
  simp only [← map_computeEpsilonClosure_eq mnfa _ hv] at h
  exact h

/-- Witness of C17 at the automaton of `"a+"`, over the dense store and over the sparse
store, and the list of its state `1`. -/
theorem C17_epsilon_closure_is_reachable_set_witness :
    (plusNFA 97).computeEpsilonClosure 3 [1] = .ok [1, 0, 2] ∧
      MapNFA.computeEpsilonClosure ⟨⟨[[(97, 1)], [(-1, 0), (-1, 2)], []]⟩, 0, [97]⟩ 3 [1] =
        .ok [1, 0, 2] ∧
      ((∃ fuel R, (plusNFA 97).computeEpsilonClosure fuel [1] = .ok R) ∧
        ∀ fuel R, (plusNFA 97).computeEpsilonClosure fuel [1] = .ok R →
          (∀ q, q ∈ R ↔ ∃ p ∈ [1], Relation.ReflTransGen (EpsStep (plusNFA 97)) p q) ∧
          (∀ p ∈ [1], p ∈ R) ∧ ∀ p ∈ R, ∀ q, EpsStep (plusNFA 97) p q → q ∈ R) ∧
      ((∃ fuel R, MapNFA.computeEpsilonClosure
            ⟨⟨[[(97, 1)], [(-1, 0), (-1, 2)], []]⟩, 0, [97]⟩ fuel [1] = .ok R) ∧
        ∀ fuel R, MapNFA.computeEpsilonClosure
            ⟨⟨[[(97, 1)], [(-1, 0), (-1, 2)], []]⟩, 0, [97]⟩ fuel [1] = .ok R →
          (∀ q, q ∈ R ↔ ∃ p ∈ [1], Relation.ReflTransGen
            (MapEpsStep ⟨⟨[[(97, 1)], [(-1, 0), (-1, 2)], []]⟩, 0, [97]⟩) p q) ∧
          (∀ p ∈ [1], p ∈ R) ∧ ∀ p ∈ R, ∀ q,
            MapEpsStep ⟨⟨[[(97, 1)], [(-1, 0), (-1, 2)], []]⟩, 0, [97]⟩ p q → q ∈ R) := by
  have hnc : ∀ p, ¬ Relation.TransGen (EpsStep (plusNFA 97)) p p := by
    obtain ⟨rank, hrank⟩ := plusNFA_acyclic 97 (by decide)
    have hlt : ∀ p q, Relation.TransGen (EpsStep (plusNFA 97)) p q → rank q < rank p := by
      intro p q h
      induction h with
      | single h => exact hrank _ _ h
      | tail _ h ih => exact lt_trans (hrank _ _ h) ih
    exact fun p h => lt_irrefl _ (hlt p p h)
  have hstep : ∀ a b, MapEpsStep ⟨⟨[[(97, 1)], [(-1, 0), (-1, 2)], []]⟩, 0, [97]⟩ a b →
      a = 1 ∧ b ≠ 1 := by
    rintro a b ⟨ha, hb, hab⟩
    have ha3 : a < 3 := ha
    interval_cases a
    · simp at hab
      exact absurd hab.1 (by decide)
    · simp at hab
      exact ⟨rfl, by omega⟩
    · simp at hab
  have hmnc : ∀ p, ¬ Relation.TransGen
      (MapEpsStep ⟨⟨[[(97, 1)], [(-1, 0), (-1, 2)], []]⟩, 0, [97]⟩) p p := by
    intro p hcyc
    obtain ⟨b, hpb, hbp⟩ := Relation.TransGen.head'_iff.mp hcyc
    have h1 := hstep _ _ hpb
    rcases Relation.ReflTransGen.cases_head hbp with heq | ⟨c, hbc, -⟩
    · omega
    · have h2 := hstep _ _ hbc
      omega
  have key := C17_epsilon_closure_is_reachable_set (plusNFA 97) [1]
    ⟨⟨[[(97, 1)], [(-1, 0), (-1, 2)], []]⟩, 0, [97]⟩ [1]
  exact ⟨rfl, rfl, key.1 (plusNFA_WF 97) (by decide) hnc (by decide),
    key.2 (by unfold MapLayout.Sorted; decide) (by unfold MapLayout.EpsFirst; decide)
      (by decide) hmnc (by decide)⟩

/-- C18 (fails on the code): `NFA('a').star().star()` has an epsilon self-loop on its entry
state, and `computeEpsilonClosure` of the entry state never returns on it: the work list
is never empty, whatever the fuel. The same holds for `simulate` on every string. -/
theorem C18_epsilon_closure_diverges_on_double_star :
    ∃ a1 a2, NFA.ofInput 97 >>= NFA.star = .ok a1 ∧ a1.star = .ok a2 ∧
      EpsStep a2 a2.entryState a2.entryState ∧
      (∀ fuel, a2.computeEpsilonClosure fuel [a2.entryState] = .error .outOfFuel) ∧
      ∀ fuel s, a2.simulate fuel s = .error .outOfFuel := by
  have hwf : (NFA.mk ⟨[[-1, -1, 0], [0, 0]]⟩ 0 [97]).layout.WF := by
    unfold MatrixLayout.WF; decide
  have hstep : EpsStep (NFA.mk ⟨[[-1, -1, 0], [0, 0]]⟩ 0 [97]) 0 0 :=
    ⟨by decide, by decide, rfl⟩
  have hdiv : ∀ fuel, (NFA.mk ⟨[[-1, -1, 0], [0, 0]]⟩ 0 [97]).computeEpsilonClosure fuel [0] =
      .error .outOfFuel := by
    intro fuel
    unfold NFA.computeEpsilonClosure
    rw [if_neg (by decide)]
    exact closureLoop_diverges hwf fuel _ _ (by decide) ⟨0, by simp, Relation.TransGen.single hstep⟩
  refine ⟨⟨⟨[[97, 0]]⟩, 0, [97]⟩, ⟨⟨[[-1, -1, 0], [0, 0]]⟩, 0, [97]⟩, rfl, rfl, hstep, hdiv,
    fun fuel s => ?_⟩
  unfold NFA.simulate
  rw [hdiv fuel]
  rfl

/-! ## C8: `star` against `plus` -/

/-- C8 (fails on the code): `star` takes every automaton of two states whose entry state has
no self-loop for a single character. For the automaton `0 -a-> 1`, `1 -b-> 1` (that of `ab*`,
made here by `addTransition(1, 1, 'b')` on `NFA('a')`) `star` keeps the edge `0 -> 1` as a
self-loop on `a` and drops the state `1`: the result does not accept `"ab"`, which the result
of `plus` accepts. Through `parse` the patterns `"(ab*)*"` and `"(ab*)+"` return no automaton
at all: the concatenation of `a` with the one-state automaton of `b*` copies a row of two
entries into a row that has room for one (the same holds for `NFA('a')` concatenated with
`NFA('b').star()`). And for the automaton of `NFA('a').star()`, made by the builder without
such a write, `star` returns an automaton on which `simulate` never returns, so that it does
not accept the empty string. -/
theorem C8_star_rejects_string_accepted_by_plus :
    ((symNFA 97).layout.addTransition 1 1 98 = .ok ⟨[[0, 97], [0, 98]]⟩ ∧
      NFA.isSimpleCharacter ⟨⟨[[0, 97], [0, 98]]⟩, 0, [97]⟩ = .ok true ∧
      ∃ ns np, NFA.star ⟨⟨[[0, 97], [0, 98]]⟩, 0, [97]⟩ = .ok ns ∧
        NFA.plus ⟨⟨[[0, 97], [0, 98]]⟩, 0, [97]⟩ = .ok np ∧
        np.Accepts [97, 98] ∧ ¬ ns.Accepts [97, 98]) ∧
      (parse [chLParen, 97, 98, chStar, chRParen, chStar] = .error .undefinedBehaviour ∧
        parse [chLParen, 97, 98, chStar, chRParen, chPlus] = .error .undefinedBehaviour ∧
        ∃ b, (symNFA 98).star = .ok b ∧
          (symNFA 97).concatenate b = .error .undefinedBehaviour) ∧
      ∃ a1 a2, (symNFA 97).star = .ok a1 ∧ a1.star = .ok a2 ∧
        ∀ fuel, a2.simulate fuel [] = .error .outOfFuel := by
  refine ⟨⟨rfl, rfl, ⟨⟨[[97, 0]]⟩, 0, [97]⟩,
      ⟨⟨[[0, 97, 0], [-1, 98, -1], [0, 0, 0]]⟩, 0, [97]⟩, rfl, rfl, ⟨3, rfl⟩, ?_⟩,
    ⟨rfl, rfl, ⟨⟨[[98, 0]]⟩, 0, [98]⟩, rfl, rfl⟩,
    ⟨⟨[[97, 0]]⟩, 0, [97]⟩, ⟨⟨[[-1, -1, 0], [0, 0]]⟩, 0, [97]⟩, rfl, rfl, fun fuel => ?_⟩
  · refine not_accepts_of_rejects ?_ (by decide) 3 rfl
    unfold MatrixLayout.WF
    decide
  · have hwf : (NFA.mk ⟨[[-1, -1, 0], [0, 0]]⟩ 0 [97]).layout.WF := by
      unfold MatrixLayout.WF; decide
    have hstep : EpsStep (NFA.mk ⟨[[-1, -1, 0], [0, 0]]⟩ 0 [97]) 0 0 :=
      ⟨by decide, by decide, rfl⟩
    unfold NFA.simulate NFA.computeEpsilonClosure
    rw [if_neg (by decide),
      closureLoop_diverges hwf fuel _ _ (by decide)
        ⟨0, by simp, Relation.TransGen.single hstep⟩]
    rfl

/-! ## C19: the last state has no outgoing transition -/

theorem setCell_cell_other (m : MatrixLayout) {i a : Nat} (j b : Nat) (x : Int)
    (hne : a ≠ i) : cell (setCell m i j x) a b = cell m a b := by
  have hrow : (m.container.set i ((m.container.getD i []).set j x)).getD a [] =
      m.container.getD a [] := by
    simp only [List.getD_eq_getElem?_getD, List.getElem?_set_ne (Ne.symm hne)]
  unfold cell setCell
  simp only []
  rw [hrow]

theorem cell_row_ge (m : MatrixLayout) {i : Nat} (hi : m.getStateCount ≤ i) (j : Nat) :
    cell m i j = 0 := by
  unfold cell
  rw [List.getD_eq_default _ _ hi]
  rfl

theorem sizePred_of_pos {n : Nat} (h : 0 < n) : sizePred n = n - 1 := by
  unfold sizePred
  rw [if_neg (by omega)]

theorem lastInv_ofInput {c : Int} {a : NFA} (h : NFA.ofInput c = .ok a) : LastInv a := by
  unfold NFA.ofInput at h
  obtain ⟨l1, h1, h⟩ := bind_eq_ok h
  cases h
  obtain ⟨rfl, -, -⟩ := addTransition_ok h1
  have hwf : (MatrixLayout.mk []).addState.addState.WF :=
    addState_WF (addState_WF (fun row hrow => by cases hrow))
  refine ⟨setCell_WF hwf _ _ _, by rw [setCell_count]; decide, by
    show 0 < (setCell _ _ _ _).getStateCount
    rw [setCell_count]; decide, fun t ht hne => ?_⟩
  rw [setCell_count] at ht hne ⊢
  have e : (MatrixLayout.mk []).addState.addState.getStateCount = 2 := rfl
  rw [e] at ht hne ⊢
  rw [setCell_cell_other _ _ _ _ (by decide)]
  have ht0 : t = 0 := by omega
  subst ht0
  rfl

theorem lastInv_plus {a r : NFA} (ha : LastInv a) (h : a.plus = .ok r) : LastInv r := by
  unfold NFA.plus at h
  obtain ⟨l2, h2, h⟩ := bind_eq_ok h
  obtain ⟨l3, h3, h⟩ := bind_eq_ok h
  cases h
  obtain ⟨rfl, -, -⟩ := addTransition_ok h2
  obtain ⟨rfl, -, -⟩ := addTransition_ok h3
  have hp := ha.pos
  have he := ha.entry
  refine ⟨setCell_WF (setCell_WF (addState_WF ha.wf) _ _ _) _ _ _, by simp, by
    simp only [setCell_count, addState_count]; omega, fun t ht hne => ?_⟩
  simp only [setCell_count, addState_count] at ht hne ⊢
  rw [sizePred_of_pos hp, Nat.add_sub_cancel,
    setCell_cell_other _ _ _ _ (by omega), setCell_cell_other _ _ _ _ (by omega),
    addState_cell, cell_row_ge _ (le_refl _)]

theorem isSimpleCharacter_count {a : NFA} (h : a.isSimpleCharacter = .ok true) :
    a.layout.getStateCount = 2 := by
  unfold NFA.isSimpleCharacter at h
  split_ifs at h with hc
  · exact hc
  · injection h with h
    cases h

theorem lastInv_star {a r : NFA} (ha : LastInv a) (h : a.star = .ok r) : LastInv r := by
  have hp := ha.pos
  have he := ha.entry
  unfold NFA.star at h
  obtain ⟨b, hb, h⟩ := bind_eq_ok h
  cases b with
  | true =>
    simp only [if_true] at h
    obtain ⟨t0, -, h⟩ := bind_eq_ok h
    obtain ⟨l1, h1, h⟩ := bind_eq_ok h
    obtain ⟨l2, h2, h⟩ := bind_eq_ok h
    obtain ⟨l3, h3, h⟩ := bind_eq_ok h
    cases h
    obtain ⟨rfl, -, -⟩ := addTransition_ok h1
    have := removeLastState_ok h2
    subst this
    obtain ⟨rfl, he1, -⟩ := addTransition_ok h3
    have hc := isSimpleCharacter_count hb
    simp only [popState_count, setCell_count] at he1
    refine ⟨setCell_WF (popState_WF (setCell_WF ha.wf _ _ _)) _ _ _, by simp; omega, by
      simp only [setCell_count, popState_count]; exact he1, fun t ht hne => ?_⟩
    simp only [setCell_count, popState_count] at ht hne
    omega
  | false =>
    simp only [Bool.false_eq_true, if_false] at h
    obtain ⟨l1, h1, h⟩ := bind_eq_ok h
    obtain ⟨l3, h3, h⟩ := bind_eq_ok h
    obtain ⟨l4, h4, h⟩ := bind_eq_ok h
    cases h
    obtain ⟨rfl, -, -⟩ := addTransition_ok h1
    obtain ⟨rfl, -, -⟩ := addTransition_ok h3
    obtain ⟨rfl, -, -⟩ := addTransition_ok h4
    refine ⟨setCell_WF (setCell_WF (addState_WF (setCell_WF ha.wf _ _ _)) _ _ _) _ _ _,
      by simp, by simp only [setCell_count, addState_count]; omega, fun t ht hne => ?_⟩
    simp only [setCell_count, addState_count] at ht hne ⊢
    rw [sizePred_of_pos hp, Nat.add_sub_cancel,
      setCell_cell_other _ _ _ _ (by omega), setCell_cell_other _ _ _ _ (by omega),
      addState_cell, cell_row_ge _ (by rw [setCell_count])]

theorem appendStates_last (A : MatrixLayout) {B : MatrixLayout} (hm : 0 < B.getStateCount)
    (hB : ∀ t, t < B.getStateCount → t ≠ B.getStateCount - 1 →
      cell B (B.getStateCount - 1) t = 0) (t : Nat)
    (hne : t ≠ A.getStateCount + B.getStateCount - 1) :
    cell (A.appendStates B) (A.getStateCount + B.getStateCount - 1) t = 0 := by
  rw [appendStates_cell, if_neg (by omega)]
  by_cases h : A.getStateCount ≤ t ∧ t < A.getStateCount + B.getStateCount
  · rw [if_pos h]
    have e : A.getStateCount + B.getStateCount - 1 - A.getStateCount = B.getStateCount - 1 := by
      omega
    rw [e]
    exact hB _ (by omega) (by omega)
  · rw [if_neg h]

theorem concatRedirect_ok {oe os ol s : Nat} {l l1 : MatrixLayout}
    (h : concatRedirect oe os ol l s = .ok l1) (hwf : l.WF) :
    l1.WF ∧ l1.getStateCount = l.getStateCount ∧
      ∀ a b, a ≠ s → cell l1 a b = cell l a b := by
  unfold concatRedirect at h
  obtain ⟨t0, -, h⟩ := bind_eq_ok h
  split_ifs at h with h0
  · obtain ⟨l2, h2, h⟩ := bind_eq_ok h
    obtain ⟨rfl, -, -⟩ := addTransition_ok h2
    obtain ⟨rfl, -, -⟩ := addTransition_ok h
    refine ⟨setCell_WF (setCell_WF hwf _ _ _) _ _ _, by simp, fun a b hne => ?_⟩
    rw [setCell_cell_other _ _ _ _ hne, setCell_cell_other _ _ _ _ hne]
  · cases h
    exact ⟨hwf, rfl, fun _ _ _ => rfl⟩

theorem concatRedirect_fold_ok {oe os ol : Nat} :
    ∀ (L : List Nat) (l l1 : MatrixLayout), L.foldlM (concatRedirect oe os ol) l = .ok l1 →
      l.WF → l1.WF ∧ l1.getStateCount = l.getStateCount ∧
        ∀ a b, a ∉ L → cell l1 a b = cell l a b := by
  intro L
  induction L with
  | nil =>
    intro l l1 h hwf
    cases h
    exact ⟨hwf, rfl, fun _ _ _ => rfl⟩
  | cons s L ih =>
    intro l l1 h hwf
    rw [List.foldlM_cons] at h
    obtain ⟨l2, h2, h⟩ := bind_eq_ok h
    obtain ⟨hwf2, hc2, hcell2⟩ := concatRedirect_ok h2 hwf
    obtain ⟨hwf1, hc1, hcell1⟩ := ih l2 l1 h hwf2
    refine ⟨hwf1, by rw [hc1, hc2], fun a b ha => ?_⟩
    rw [hcell1 a b (fun hmem => ha (List.mem_cons_of_mem _ hmem)),
      hcell2 a b (fun heq => ha (heq ▸ List.mem_cons_self _ _))]

theorem lastInv_insertNewInputs {a : NFA} (ha : LastInv a) (b : NFA) :
    LastInv (a.insertNewInputs b) :=
  ⟨ha.wf, ha.pos, ha.entry, ha.last⟩

theorem lastInv_concatenate {a b r : NFA} (ha : LastInv a) (hb : LastInv b)
    (h : a.concatenate b = .ok r) : LastInv r := by
  have hp := ha.pos
  have he := ha.entry
  have hm := hb.pos
  unfold NFA.concatenate at h
  simp only [insertNewInputs_layout, insertNewInputs_entry, pure_eq_ok] at h
  split_ifs at h with h1 h2
  · -- one state
    obtain ⟨l0, hl0, h⟩ := bind_eq_ok h
    obtain ⟨-, rfl⟩ := addStatesOf_ok hl0
    obtain ⟨l, hl, h⟩ := bind_eq_ok h
    cases h
    obtain ⟨rfl, -, -⟩ := addTransition_ok hl
    refine ⟨setCell_WF (appendStates_WF _ _) _ _ _, by simp; omega, by
      simp only [setCell_count, appendStates_count]; exact Nat.lt_of_lt_of_le he (by omega),
      fun t ht hne => ?_⟩
    simp only [setCell_count, appendStates_count] at ht hne ⊢
    rw [setCell_cell_other _ _ _ _ (by omega)]
    exact appendStates_last _ hm hb.last t hne
  · obtain ⟨t0, -, h⟩ := bind_eq_ok h
    split_ifs at h with h3
    · -- the last state has a self-loop
      obtain ⟨l0, hl0, h⟩ := bind_eq_ok h
      obtain ⟨-, rfl⟩ := addStatesOf_ok hl0
      obtain ⟨l, hl, h⟩ := bind_eq_ok h
      cases h
      obtain ⟨rfl, -, -⟩ := addTransition_ok hl
      refine ⟨setCell_WF (appendStates_WF _ _) _ _ _, by simp; omega, by
        simp only [setCell_count, appendStates_count]; exact Nat.lt_of_lt_of_le he (by omega),
        fun t ht hne => ?_⟩
      simp only [setCell_count, appendStates_count] at ht hne ⊢
      rw [setCell_cell_other _ _ _ _ (by omega)]
      exact appendStates_last _ hm hb.last t hne
    · -- the last state is merged with the entry state of `other`
      obtain ⟨l0, hl0, h⟩ := bind_eq_ok h
      obtain ⟨l1, hl1, h⟩ := bind_eq_ok h
      obtain ⟨l, hl, h⟩ := bind_eq_ok h
      cases h
      have := removeLastState_ok hl0
      subst this
      obtain ⟨-, rfl⟩ := addStatesOf_ok hl1
      obtain ⟨hwf, hc, hcell⟩ := concatRedirect_fold_ok _ _ _ hl (appendStates_WF _ _)
      simp only [appendStates_count, popState_count] at hc
      refine ⟨hwf, by rw [hc]; omega, by
        show a.entryState < l.getStateCount
        rw [hc]; omega, fun t ht hne => ?_⟩
      rw [hc] at ht hne ⊢
      rw [hcell _ _ (by rw [List.mem_range]; omega)]
      have hl := appendStates_last (popState a.layout) hm hb.last t
        (by rw [popState_count]; exact hne)
      rw [popState_count] at hl
      exact hl
  · omega

theorem isUnifiedLoop_true {l : MatrixLayout} {entry : Nat} :
    ∀ (L : List Nat) (k : Nat), isUnifiedLoop l entry L k = .ok true →
      ∃ s ∈ L, s ≠ entry ∧ l.getTransition entry s = .ok Input.epsilon := by
  intro L
  induction L with
  | nil =>
    intro k h
    unfold isUnifiedLoop at h
    injection h with h
    cases h
  | cons s L ih =>
    intro k h
    unfold isUnifiedLoop at h
    by_cases h1 : s ≠ entry
    · rw [if_pos h1] at h
      obtain ⟨t, ht, h⟩ := bind_eq_ok h
      by_cases h2 : t = Input.epsilon
      · exact ⟨s, List.mem_cons_self _ _, h1, by rw [ht, h2]⟩
      · rw [if_neg h2] at h
        obtain ⟨s1, hs1, hx⟩ := ih _ h
        exact ⟨s1, List.mem_cons_of_mem _ hs1, hx⟩
    · rw [if_neg h1] at h
      obtain ⟨s1, hs1, hx⟩ := ih _ h
      exact ⟨s1, List.mem_cons_of_mem _ hs1, hx⟩

theorem entry_ne_last_of_unified {b : NFA} (hb : LastInv b) (h : b.isUnified = .ok true) :
    b.entryState ≠ b.layout.getStateCount - 1 := by
  unfold NFA.isUnified at h
  obtain ⟨s, hs, hne, ht⟩ := isUnifiedLoop_true _ _ h
  rw [List.mem_range] at hs
  rw [getTransition_eq hb.wf hb.entry hs] at ht
  injection ht with ht
  intro heq
  rw [heq, hb.last s hs (by omega)] at ht
  exact absurd ht (by decide)

theorem lastInv_unify {a b r : NFA} (ha : LastInv a) (hb : LastInv b)
    (h : a.unify b = .ok r) : LastInv r := by
  have hp := ha.pos
  have he := ha.entry
  have hm := hb.pos
  have heb := hb.entry
  unfold NFA.unify at h
  simp only [insertNewInputs_layout, insertNewInputs_entry, pure_eq_ok] at h
  rw [if_neg (by omega), if_neg (by omega)] at h
  obtain ⟨l0, hl0, h⟩ := bind_eq_ok h
  obtain ⟨-, rfl⟩ := addStatesOf_ok hl0
  obtain ⟨u1, hu1, h⟩ := bind_eq_ok h
  cases u1 with
  | true =>
    simp only [if_true] at h
    obtain ⟨l1, h1, h⟩ := bind_eq_ok h
    obtain ⟨l2, h2, h⟩ := bind_eq_ok h
    cases h
    obtain ⟨rfl, -, -⟩ := addTransition_ok h1
    obtain ⟨rfl, -, -⟩ := addTransition_ok h2
    have hne := entry_ne_last_of_unified hb hu1
    refine ⟨setCell_WF (setCell_WF (appendStates_WF _ _) _ _ _) _ _ _, by simp; omega, by
      simp only [setCell_count, appendStates_count]; omega, fun t ht hne1 => ?_⟩
    simp only [setCell_count, appendStates_count] at ht hne1 ⊢
    rw [setCell_cell_other _ _ _ _ (by omega),
      setCell_cell_other _ _ _ _ (by rw [sizePred_of_pos hp]; omega)]
    exact appendStates_last _ hm hb.last t hne1
  | false =>
    simp only [Bool.false_eq_true, if_false] at h
    obtain ⟨u2, -, h⟩ := bind_eq_ok h
    cases u2 with
    | true =>
      simp only [if_true] at h
      obtain ⟨l1, h1, h⟩ := bind_eq_ok h
      obtain ⟨l2, h2, h⟩ := bind_eq_ok h
      cases h
      obtain ⟨rfl, -, -⟩ := addTransition_ok h1
      obtain ⟨rfl, -, -⟩ := addTransition_ok h2
      refine ⟨setCell_WF (setCell_WF (appendStates_WF _ _) _ _ _) _ _ _, by simp; omega, by
        simp only [setCell_count, appendStates_count]; exact Nat.lt_of_lt_of_le he (by omega),
        fun t ht hne1 => ?_⟩
      simp only [setCell_count, appendStates_count] at ht hne1 ⊢
      rw [setCell_cell_other _ _ _ _ (by omega),
        setCell_cell_other _ _ _ _ (by rw [sizePred_of_pos hp]; omega)]
      exact appendStates_last _ hm hb.last t hne1
    | false =>
      simp only [Bool.false_eq_true, if_false] at h
      obtain ⟨l2, h2, h⟩ := bind_eq_ok h
      obtain ⟨l4, h4, h⟩ := bind_eq_ok h
      obtain ⟨l5, h5, h⟩ := bind_eq_ok h
      obtain ⟨l6, h6, h⟩ := bind_eq_ok h
      cases h
      obtain ⟨rfl, -, -⟩ := addTransition_ok h2
      obtain ⟨rfl, -, -⟩ := addTransition_ok h4
      obtain ⟨rfl, -, -⟩ := addTransition_ok h5
      obtain ⟨rfl, -, -⟩ := addTransition_ok h6
      refine ⟨setCell_WF (setCell_WF (setCell_WF (addState_WF (setCell_WF (addState_WF
        (appendStates_WF _ _)) _ _ _)) _ _ _) _ _ _) _ _ _, by simp, by
        simp only [setCell_count, addState_count, appendStates_count, sizePred]
        rw [if_neg (by omega)]; omega, fun t ht hne1 => ?_⟩
      simp only [setCell_count, addState_count, appendStates_count] at ht hne1 ⊢
      have e1 : sizePred (a.layout.getStateCount + b.layout.getStateCount + 1) =
          a.layout.getStateCount + b.layout.getStateCount := sizePred_of_pos (by omega)
      rw [e1, sizePred_of_pos hp, sizePred_of_pos hm, Nat.add_sub_cancel,
        setCell_cell_other _ _ _ _ (by omega), setCell_cell_other _ _ _ _ (by omega),
        setCell_cell_other _ _ _ _ (by omega), addState_cell,
        setCell_cell_other _ _ _ _ (by omega), addState_cell,
        cell_row_ge _ (by rw [appendStates_count]; omega)]

theorem lastInv_of_built {nfa : NFA} (h : Built nfa) : LastInv nfa := by
  induction h with
  | ofInput h => exact lastInv_ofInput h
  | concatenate _ _ h iha ihb => exact lastInv_concatenate iha ihb h
  | unify _ _ h iha ihb => exact lastInv_unify iha ihb h
  | star _ h ih => exact lastInv_star ih h
  | plus _ h ih => exact lastInv_plus ih h

/-- C19: in every automaton obtained from the single-symbol automata `NFA(c)` by `concatenate`,
`unify`, `star` and `plus`, the last state `L = getStateCount() - 1` has no transition to
another state: `getTransition(L, t)` is `none` for every state `t ≠ L`. -/
theorem C19_last_state_has_no_outgoing_transition (nfa : NFA) (h : Built nfa) (t : Nat)
    (ht : t < nfa.layout.getStateCount) (hne : t ≠ nfa.layout.getStateCount - 1) :
    nfa.layout.getTransition (nfa.layout.getStateCount - 1) t = .ok Input.none := by
  have hinv := lastInv_of_built h
  have hp := hinv.pos
  rw [getTransition_eq hinv.wf (by omega) ht, hinv.last t ht hne]

/-- Witness of C19 at the automaton `NFA('a').concatenate(NFA('b'))` followed by `star()` and
its state `1`. -/
theorem C19_last_state_has_no_outgoing_transition_witness :
    (Built ⟨⟨[[0, 97, 0, -1], [0, 0, 98, 0], [-1, 0, 0, -1], [0, 0, 0, 0]]⟩, 0, [97, 98]⟩ ∧
        1 < 4 ∧ 1 ≠ 4 - 1) ∧
      (MatrixLayout.mk [[0, 97, 0, -1], [0, 0, 98, 0], [-1, 0, 0, -1],
        [0, 0, 0, 0]]).getTransition 3 1 = .ok Input.none := by
  have hb : Built ⟨⟨[[0, 97, 0, -1], [0, 0, 98, 0], [-1, 0, 0, -1], [0, 0, 0, 0]]⟩, 0,
      [97, 98]⟩ :=
    Built.star (a := ⟨⟨[[0, 97, 0], [0, 0, 98], [0, 0, 0]]⟩, 0, [97, 98]⟩)
      (Built.concatenate (a := symNFA 97) (b := symNFA 98)
        (Built.ofInput (c := 97) rfl) (Built.ofInput (c := 98) rfl) rfl) rfl
  exact ⟨⟨hb, by decide, by decide⟩,
    C19_last_state_has_no_outgoing_transition _ hb 1 (by decide) (by decide)⟩

/-! ## C20: the alphabet -/

theorem addTransition_ok_input {m r : MatrixLayout} {i j : Nat} {x : Int}
    (h : m.addTransition i j x = .ok r) : 0 ≤ x ∨ x = Input.epsilon ∨ x = Input.any := by
  unfold MatrixLayout.addTransition at h
  split_ifs at h with h1 h2
  exact h1.2.2

theorem valid_empty : NFA.empty.AlphabetValid := fun x hx => by cases hx

theorem valid_ofInput {c : Int} {a : NFA} (h : NFA.ofInput c = .ok a) : a.AlphabetValid := by
  unfold NFA.ofInput at h
  obtain ⟨l1, h1, h⟩ := bind_eq_ok h
  cases h
  have hc := addTransition_ok_input h1
  intro x hx
  simp only [] at hx
  by_cases hne : c ≠ Input.epsilon
  · rw [if_pos hne, mem_setInsert] at hx
    rcases hx with rfl | hx
    · rcases hc with hc | hc | hc
      · exact Or.inl hc
      · exact absurd hc hne
      · exact Or.inr hc
    · cases hx
  · rw [if_neg hne] at hx
    cases hx

theorem valid_insertNewInputs {a b : NFA} (ha : a.AlphabetValid) (hb : b.AlphabetValid) :
    (a.insertNewInputs b).AlphabetValid := by
  intro x hx
  rcases (mem_insertNewInputs a b x).mp hx with h | h
  · exact ha x h
  · exact hb x h.1

theorem concatenate_inputs {a b r : NFA} (h : a.concatenate b = .ok r) :
    r.possibleInputs = (a.insertNewInputs b).possibleInputs := by
  unfold NFA.concatenate at h
  simp only [insertNewInputs_layout, insertNewInputs_entry, pure_eq_ok] at h
  by_cases h1 : a.layout.getStateCount = 1
  · rw [if_pos h1] at h
    obtain ⟨l0, -, h⟩ := bind_eq_ok h
    obtain ⟨l, -, h⟩ := bind_eq_ok h
    cases h; rfl
  · rw [if_neg h1] at h
    by_cases h2 : a.layout.getStateCount > 1
    · rw [if_pos h2] at h
      obtain ⟨t0, -, h⟩ := bind_eq_ok h
      by_cases h3 : t0 ≠ Input.none
      · rw [if_pos h3] at h
        obtain ⟨l0, -, h⟩ := bind_eq_ok h
        obtain ⟨l, -, h⟩ := bind_eq_ok h
        cases h; rfl
      · rw [if_neg h3] at h
        obtain ⟨l0, -, h⟩ := bind_eq_ok h
        obtain ⟨l1, -, h⟩ := bind_eq_ok h
        obtain ⟨l, -, h⟩ := bind_eq_ok h
        cases h; rfl
    · rw [if_neg h2] at h
      obtain ⟨l1, -, h⟩ := bind_eq_ok h
      obtain ⟨l, -, h⟩ := bind_eq_ok h
      cases h; rfl

theorem valid_concatenate {a b r : NFA} (ha : a.AlphabetValid) (hb : b.AlphabetValid)
    (h : a.concatenate b = .ok r) : r.AlphabetValid := by
  intro x hx
  rw [concatenate_inputs h] at hx
  exact valid_insertNewInputs ha hb x hx

theorem valid_unify {a b r : NFA} (ha : a.AlphabetValid) (hb : b.AlphabetValid)
    (h : a.unify b = .ok r) : r.AlphabetValid := by
  have hab := valid_insertNewInputs ha hb
  unfold NFA.unify at h
  simp only [insertNewInputs_layout, insertNewInputs_entry, pure_eq_ok] at h
  split_ifs at h with h1 h2
  · cases h; exact hab
  · exact valid_concatenate hab hb h
  · obtain ⟨l0, -, h⟩ := bind_eq_ok h
    obtain ⟨u1, -, h⟩ := bind_eq_ok h
    cases u1 with
    | true =>
      simp only [if_true] at h
      obtain ⟨l1, -, h⟩ := bind_eq_ok h
      obtain ⟨l2, -, h⟩ := bind_eq_ok h
      cases h; exact hab
    | false =>
      simp only [Bool.false_eq_true, if_false] at h
      obtain ⟨u2, -, h⟩ := bind_eq_ok h
      cases u2 with
      | true =>
        simp only [if_true] at h
        obtain ⟨l1, -, h⟩ := bind_eq_ok h
        obtain ⟨l2, -, h⟩ := bind_eq_ok h
        cases h; exact hab
      | false =>
        simp only [Bool.false_eq_true, if_false] at h
        obtain ⟨l2, -, h⟩ := bind_eq_ok h
        obtain ⟨l4, -, h⟩ := bind_eq_ok h
        obtain ⟨l5, -, h⟩ := bind_eq_ok h
        obtain ⟨l6, -, h⟩ := bind_eq_ok h
        cases h; exact hab

theorem valid_star {a r : NFA} (ha : a.AlphabetValid) (h : a.star = .ok r) :
    r.AlphabetValid := by
  unfold NFA.star at h
  obtain ⟨b, -, h⟩ := bind_eq_ok h
  cases b with
  | true =>
    simp only [if_true] at h
    obtain ⟨t0, -, h⟩ := bind_eq_ok h
    obtain ⟨l1, -, h⟩ := bind_eq_ok h
    obtain ⟨l2, -, h⟩ := bind_eq_ok h
    obtain ⟨l3, -, h⟩ := bind_eq_ok h
    cases h; exact ha
  | false =>
    simp only [Bool.false_eq_true, if_false] at h
    obtain ⟨l1, -, h⟩ := bind_eq_ok h
    obtain ⟨l3, -, h⟩ := bind_eq_ok h
    obtain ⟨l4, -, h⟩ := bind_eq_ok h
    cases h; exact ha

theorem valid_plus {a r : NFA} (ha : a.AlphabetValid) (h : a.plus = .ok r) :
    r.AlphabetValid := by
  unfold NFA.plus at h
  obtain ⟨l2, -, h⟩ := bind_eq_ok h
  obtain ⟨l3, -, h⟩ := bind_eq_ok h
  cases h; exact ha

theorem valid_concatParts : ∀ (parts : List NFA) (r0 r : NFA), r0.AlphabetValid →
    (∀ p ∈ parts, p.AlphabetValid) → concatParts r0 parts = .ok r → r.AlphabetValid := by
  intro parts
  induction parts with
  | nil =>
    intro r0 r h0 _ h
    cases h
    exact h0
  | cons p parts ih =>
    intro r0 r h0 hp h
    unfold concatParts at h
    rw [List.foldlM_cons] at h
    obtain ⟨r1, h1, h⟩ := bind_eq_ok h
    exact ih r1 r (valid_concatenate h0 (hp p (List.mem_cons_self _ _)) h1)
      (fun q hq => hp q (List.mem_cons_of_mem _ hq)) h

theorem valid_onBack {op : NFA → Except Error NFA}
    (hop : ∀ a r, a.AlphabetValid → op a = .ok r → r.AlphabetValid) {parts parts1 : List NFA}
    (hp : ∀ p ∈ parts, p.AlphabetValid) (h : onBack op parts = .ok parts1) :
    ∀ p ∈ parts1, p.AlphabetValid := by
  unfold onBack at h
  cases hl : parts.getLast? with
  | none => rw [hl] at h; cases h
  | some b =>
    rw [hl] at h
    obtain ⟨b1, hb1, h⟩ := bind_eq_ok h
    cases h
    intro p hmem
    rw [List.mem_append, List.mem_singleton] at hmem
    rcases hmem with hmem | rfl
    · exact hp p (List.mem_of_mem_dropLast hmem)
    · exact hop b p (hp b (List.mem_of_getLast?_eq_some hl)) hb1

theorem valid_charRangeLoop : ∀ (fuel : Nat) (current last : Int) (r0 r : NFA),
    r0.AlphabetValid → charRangeLoop fuel current last r0 = .ok r → r.AlphabetValid := by
  intro fuel
  induction fuel with
  | zero =>
    intro current last r0 r _ h
    cases h
  | succ fuel ih =>
    intro current last r0 r h0 h
    unfold charRangeLoop at h
    split_ifs at h with h1
    · cases h; exact h0
    · obtain ⟨a, ha, h⟩ := bind_eq_ok h
      obtain ⟨r1, hr1, h⟩ := bind_eq_ok h
      exact ih _ _ r1 r (valid_unify h0 (valid_ofInput ha) hr1) h

theorem valid_makeCharRange {span : List Int} {a : NFA} (h : makeCharRange span = .ok a) :
    a.AlphabetValid := by
  unfold makeCharRange at h
  simp only [] at h
  split_ifs at h with h1 h2 h3
  exact valid_charRangeLoop _ _ _ _ _ valid_empty h

theorem valid_snoc {parts : List NFA} {a : NFA} (hp : ∀ p ∈ parts, p.AlphabetValid)
    (ha : a.AlphabetValid) : ∀ p ∈ parts ++ [a], p.AlphabetValid := by
  intro p hmem
  rw [List.mem_append, List.mem_singleton] at hmem
  rcases hmem with hmem | rfl
  · exact hp p hmem
  · exact ha

theorem valid_parseImpl : ∀ (fuel : Nat) (span : List Int) (inP : Bool) (rc it : Nat)
    (st : ParseState) (r : NFA × Nat), st.resultNFA.AlphabetValid →
    (∀ p ∈ st.partialResultVector, p.AlphabetValid) →
    parseImpl fuel span inP rc it st = .ok r → r.1.AlphabetValid := by
  intro fuel
  induction fuel with
  | zero =>
    intro span inP rc it st r _ _ h
    unfold parseImpl at h
    cases h
  | succ fuel ih =>
    intro span inP rc it st r h0 hp h
    rw [parseImpl] at h
    simp only [] at h
    by_cases hit : it < span.length
    · rw [if_pos hit] at h
      by_cases hesc : st.needEscaping = true
      · rw [if_pos hesc] at h
        obtain ⟨a, ha, h⟩ := bind_eq_ok h
        obtain ⟨r1, hr1, h⟩ := bind_eq_ok h
        refine ih _ _ _ _ _ _ ?_ ?_ h
        · exact (valid_concatenate h0 (valid_ofInput ha) hr1)
        · exact hp
      · rw [if_neg hesc] at h
        by_cases c1 : span.getD it 0 = chDot
        · rw [if_pos c1] at h
          obtain ⟨a, ha, h⟩ := bind_eq_ok h
          refine ih _ _ _ _ _ _ ?_ ?_ h
          · exact h0
          · exact (valid_snoc hp (valid_ofInput ha))
        · rw [if_neg c1] at h
          by_cases c2 : span.getD it 0 = chStar
          · rw [if_pos c2] at h
            obtain ⟨parts, hparts, h⟩ := bind_eq_ok h
            refine ih _ _ _ _ _ _ ?_ ?_ h
            · exact h0
            · exact (valid_onBack (fun _ _ => valid_star) hp hparts)
          · rw [if_neg c2] at h
            by_cases c3 : span.getD it 0 = chPlus
            · rw [if_pos c3] at h
              obtain ⟨parts, hparts, h⟩ := bind_eq_ok h
              refine ih _ _ _ _ _ _ ?_ ?_ h
              · exact h0
              · exact (valid_onBack (fun _ _ => valid_plus) hp hparts)
            · rw [if_neg c3] at h
              by_cases c4 : span.getD it 0 = chLParen
              · rw [if_pos c4] at h
                obtain ⟨ir, hir, h⟩ := bind_eq_ok h
                have hv := ih _ _ _ _ _ _ valid_empty (fun p hmem => by cases hmem) hir
                refine ih _ _ _ _ _ _ ?_ ?_ h
                · exact h0
                · exact (valid_snoc hp hv)
              · rw [if_neg c4] at h
                by_cases c5 : span.getD it 0 = chRParen
                · rw [if_pos c5] at h
                  by_cases c5a : inP = true
                  · rw [if_pos c5a] at h
                    obtain ⟨r1, hr1, h⟩ := bind_eq_ok h
                    cases h
                    exact valid_concatParts _ _ _ h0 hp hr1
                  · rw [if_neg c5a] at h
                    cases h
                · rw [if_neg c5] at h
                  by_cases c6 : span.getD it 0 = chBar
                  · rw [if_pos c6] at h
                    obtain ⟨ir, hir, h⟩ := bind_eq_ok h
                    have hv := ih _ _ _ _ _ _ valid_empty (fun p hmem => by cases hmem) hir
                    obtain ⟨r1, hr1, h⟩ := bind_eq_ok h
                    have hv1 := valid_unify h0 hv hr1
                    by_cases c6a : rc ≠ 0
                    · rw [if_pos c6a] at h
                      cases h
                      exact hv1
                    · rw [if_neg c6a] at h
                      refine ih _ _ _ _ _ _ ?_ ?_ h
                      · exact hv1
                      · exact hp
                  · rw [if_neg c6] at h
                    by_cases c7 : span.getD it 0 = chBackslash
                    · rw [if_pos c7] at h
                      refine ih _ _ _ _ _ _ ?_ ?_ h
                      · exact h0
                      · exact hp
                    · rw [if_neg c7] at h
                      by_cases c8 : span.getD it 0 = chLBracket
                      · rw [if_pos c8] at h
                        obtain ⟨a, ha, h⟩ := bind_eq_ok h
                        refine ih _ _ _ _ _ _ ?_ ?_ h
                        · exact h0
                        · exact (valid_snoc hp (valid_makeCharRange ha))
                      · rw [if_neg c8] at h
                        obtain ⟨a, ha, h⟩ := bind_eq_ok h
                        refine ih _ _ _ _ _ _ ?_ ?_ h
                        · exact h0
                        · exact (valid_snoc hp (valid_ofInput ha))
    · rw [if_neg hit] at h
      obtain ⟨r1, hr1, h⟩ := bind_eq_ok h
      cases h
      exact valid_concatParts _ _ _ h0 hp hr1

theorem valid_parse {p : List Int} {a : NFA} (h : parse p = .ok a) : a.AlphabetValid := by
  unfold parse at h
  obtain ⟨r, hr, h⟩ := bind_eq_ok h
  cases h
  exact valid_parseImpl _ _ _ _ _ _ _ valid_empty (fun q hq => by cases hq) hr

theorem valid_of_produced {nfa : NFA} (h : Produced nfa) : nfa.AlphabetValid := by
  induction h with
  | ofInput h => exact valid_ofInput h
  | parse h => exact valid_parse h
  | concatenate _ _ h iha ihb => exact valid_concatenate iha ihb h
  | unify _ _ h iha ihb => exact valid_unify iha ihb h
  | star _ h ih => exact valid_star ih h
  | plus _ h ih => exact valid_plus ih h

/-- C20 (counterexample): the alphabet of `NFA(any)`, and of the automaton that `parse`
returns for `"."`, contains the sentinel `any`; the alphabet of `NFA(none)` contains `none`. -/
theorem C20_alphabet_contains_any :
    (∃ a, NFA.ofInput Input.any = .ok a ∧ Input.any ∈ a.possibleInputs) ∧
      (∃ a, parse [chDot] = .ok a ∧ Input.any ∈ a.possibleInputs) ∧
      ∃ a, NFA.ofInput Input.none = .ok a ∧ Input.none ∈ a.possibleInputs :=
  ⟨⟨⟨⟨[[0, -2], [0, 0]]⟩, 0, [-2]⟩, rfl, by decide⟩,
    ⟨⟨⟨[[0, -2], [0, 0]]⟩, 0, [-2]⟩, rfl, by decide⟩,
    ⟨⟨⟨[[0, 0], [0, 0]]⟩, 0, [0]⟩, rfl, by decide⟩⟩

/-- C20 (amended): the alphabet of every automaton produced by the single-symbol constructor,
by `parse`, or from such automata by `concatenate`, `unify`, `star` and `plus` never contains
`epsilon`: each of its elements is a character code `≥ 0` or the wildcard `any`. -/
theorem C20_alphabet_never_contains_epsilon (nfa : NFA) (h : Produced nfa) (x : Int)
    (hx : x ∈ nfa.possibleInputs) : x ≠ Input.epsilon ∧ (0 ≤ x ∨ x = Input.any) := by
  have hv := valid_of_produced h x hx
  refine ⟨fun heq => ?_, hv⟩
  rw [heq] at hv
  rcases hv with hv | hv
  · exact absurd hv (by decide)
  · exact absurd hv (by decide)

/-- Witness of C20 at the automaton that `parse` returns for `".a"` and its element `any`. -/
theorem C20_alphabet_never_contains_epsilon_witness :
    (Produced ⟨⟨[[0, -2, 0], [0, 0, 97], [0, 0, 0]]⟩, 0, [-2, 97]⟩ ∧
        (-2 : Int) ∈ ([-2, 97] : List Int)) ∧
      ((-2 : Int) ≠ Input.epsilon ∧ ((0 : Int) ≤ -2 ∨ (-2 : Int) = Input.any)) :=
  ⟨⟨Produced.parse (p := [chDot, 97]) rfl, by decide⟩,
    C20_alphabet_never_contains_epsilon ⟨⟨[[0, -2, 0], [0, 0, 97], [0, 0, 0]]⟩, 0, [-2, 97]⟩
      (Produced.parse (p := [chDot, 97]) rfl) (-2) (by decide)⟩


/-! ## The loop of `DFA::buildFrom` -/

theorem buildLoop_eq (nfa : NFA) (cf : Nat) :
    ∀ (fuel : Nat) (st : BuildState),
      buildLoop nfa cf fuel st = (buildLoopState nfa cf fuel st >>= fun s => pure s.dfa) := by
  intro fuel
  induction fuel with
  | zero =>
    intro st
    unfold buildLoop buildLoopState
    cases st.dfaStates <;> rfl
  | succ fuel ih =>
    intro st
    unfold buildLoop buildLoopState
    cases hs : st.dfaStates with
    | nil => rfl
    | cons d rest =>
      simp only []
      unfold buildBody
      cases hm : st.mappedDfaStates.get? d with
      | none => rfl
      | some mapped =>
        simp only [bind_ok, pure_eq_ok]
        generalize List.foldlM (buildStep nfa cf d) _ nfa.possibleInputs = x
        cases x with
        | error e => rfl
        | ok st2 =>
          simp only [bind_ok]
          exact ih st2

theorem ofNFA_eq (nfa : NFA) (fuel : Nat) :
    DFA.ofNFA nfa fuel = (buildTable nfa fuel >>= fun s => pure s.dfa) := by
  unfold DFA.ofNFA DFA.buildFrom buildTable
  cases nfa.computeEpsilonClosure fuel [nfa.entryState] with
  | error e => rfl
  | ok c =>
    simp only [bind_ok]
    exact buildLoop_eq nfa fuel fuel _

theorem indexOf_eq_length_iff (a : List Nat) (l : List (List Nat)) :
    l.indexOf a = l.length ↔ a ∉ l := by
  unfold List.indexOf
  rw [List.findIdx_eq_length]
  constructor
  · intro h hmem
    have := h a hmem
    simp at this
  · intro h x hx
    simp only [beq_eq_false_iff_ne, ne_eq]
    rintro rfl
    exact h hx

theorem indexOf_lt_length_of_mem {a : List Nat} {l : List (List Nat)} (h : a ∈ l) :
    l.indexOf a < l.length := by
  have h1 : l.indexOf a ≤ l.length := by
    unfold List.indexOf
    exact List.findIdx_le_length _
  have h2 : l.indexOf a ≠ l.length := fun heq => (indexOf_eq_length_iff a l).mp heq h
  omega
theorem sizePred_succ (n : Nat) : sizePred (n + 1) = n := by
  unfold sizePred
  rw [if_neg (by omega), Nat.add_sub_cancel]

theorem buildStep_eq {nfa : NFA} {cf d : Nat} {st : BuildState} {x : Int}
    {origin seeds newState : List Nat} (hget : st.mappedDfaStates.get? d = some origin)
    (hmk : nfa.layout.makeTransition origin x = .ok seeds)
    (hcl : nfa.computeEpsilonClosure cf seeds = .ok newState) :
    buildStep nfa cf d st x =
      if newState = [] then .ok st
      else if newState ∈ st.mappedDfaStates then
        st.dfa.layout.addTransition d (st.mappedDfaStates.indexOf newState) x >>= fun l2 =>
          pure { st with dfa := { st.dfa with layout := l2 } }
      else
        st.dfa.layout.addState.addTransition d st.dfa.layout.getStateCount x >>= fun l2 =>
          pure ⟨{ st.dfa with layout := l2 }, st.mappedDfaStates ++ [newState],
            st.dfa.layout.getStateCount :: st.dfaStates⟩ := by
  unfold buildStep
  simp only [hget, hmk, hcl, bind_ok, pure_eq_ok, addState_count, sizePred_succ]
  by_cases h1 : newState = []
  · subst h1
    rfl
  · rw [if_neg h1]
    have he : newState.isEmpty = false := by
      cases newState with
      | nil => exact absurd rfl h1
      | cons a t => rfl
    simp only [he, Bool.not_false, if_true]
    by_cases h2 : newState ∈ st.mappedDfaStates
    · rw [if_pos h2, if_neg (fun h => ((indexOf_eq_length_iff _ _).mp h) h2)]
    · rw [if_neg h2, if_pos ((indexOf_eq_length_iff _ _).mpr h2)]

theorem buildStep_ok {nfa : NFA} {cf d : Nat} {st st1 : BuildState} {x : Int}
    (h : buildStep nfa cf d st x = .ok st1) :
    ∃ origin seeds newState, st.mappedDfaStates.get? d = some origin ∧
      nfa.layout.makeTransition origin x = .ok seeds ∧
      nfa.computeEpsilonClosure cf seeds = .ok newState ∧
      ((newState = [] ∧ st1 = st) ∨
        (newState ≠ [] ∧ newState ∈ st.mappedDfaStates ∧ ∃ l2,
          st.dfa.layout.addTransition d (st.mappedDfaStates.indexOf newState) x = .ok l2 ∧
          st1 = { st with dfa := { st.dfa with layout := l2 } }) ∨
        (newState ≠ [] ∧ newState ∉ st.mappedDfaStates ∧ ∃ l2,
          st.dfa.layout.addState.addTransition d st.dfa.layout.getStateCount x = .ok l2 ∧
          st1 = ⟨{ st.dfa with layout := l2 }, st.mappedDfaStates ++ [newState],
            st.dfa.layout.getStateCount :: st.dfaStates⟩)) := by
  have h0 := h
  unfold buildStep at h0
  cases hget : st.mappedDfaStates.get? d with
  | none =>
    rw [hget] at h0
    cases h0
  | some origin =>
    rw [hget] at h0
    simp only [bind_ok, pure_eq_ok] at h0
    obtain ⟨seeds, hmk, h0⟩ := bind_eq_ok h0
    obtain ⟨newState, hcl, -⟩ := bind_eq_ok h0
    refine ⟨origin, seeds, newState, rfl, hmk, hcl, ?_⟩
    rw [buildStep_eq hget hmk hcl] at h
    by_cases h1 : newState = []
    · rw [if_pos h1] at h
      cases h
      exact Or.inl ⟨h1, rfl⟩
    · rw [if_neg h1] at h
      by_cases h2 : newState ∈ st.mappedDfaStates
      · rw [if_pos h2] at h
        obtain ⟨l2, hl2, h⟩ := bind_eq_ok h
        cases h
        exact Or.inr (Or.inl ⟨h1, h2, l2, hl2, rfl⟩)
      · rw [if_neg h2] at h
        obtain ⟨l2, hl2, h⟩ := bind_eq_ok h
        cases h
        exact Or.inr (Or.inr ⟨h1, h2, l2, hl2, rfl⟩)

theorem buildBody_ok {nfa : NFA} {cf d : Nat} {rest : List Nat} {st st2 : BuildState}
    (h : buildBody nfa cf d rest st = .ok st2) :
    ∃ mapped, st.mappedDfaStates.get? d = some mapped ∧
      nfa.possibleInputs.foldlM (buildStep nfa cf d)
        ⟨⟨st.dfa.layout, st.dfa.entryState,
          if sizePred nfa.layout.getStateCount ∈ mapped then st.dfa.finalStates ++ [d]
          else st.dfa.finalStates⟩, st.mappedDfaStates, rest⟩ = .ok st2 := by
  unfold buildBody at h
  cases hget : st.mappedDfaStates.get? d with
  | none =>
    rw [hget] at h
    cases h
  | some mapped =>
    rw [hget] at h
    exact ⟨mapped, rfl, h⟩

theorem foldl_buildStep_inv {nfa : NFA} {cf d : Nat} {inputs : List Int}
    (Q : List Int → BuildState → Prop)
    (hstep : ∀ pre x suf st st1, pre ++ x :: suf = inputs → Q pre st →
      buildStep nfa cf d st x = .ok st1 → Q (pre ++ [x]) st1) :
    ∀ (suf pre : List Int) (st st1 : BuildState), pre ++ suf = inputs → Q pre st →
      suf.foldlM (buildStep nfa cf d) st = .ok st1 → Q inputs st1 := by
  intro suf
  induction suf with
  | nil =>
    intro pre st st1 hpre hq h
    cases h
    rw [List.append_nil] at hpre
    rw [← hpre]
    exact hq
  | cons x suf ih =>
    intro pre st st1 hpre hq h
    rw [List.foldlM_cons] at h
    obtain ⟨st2, h2, h⟩ := bind_eq_ok h
    exact ih (pre ++ [x]) st2 st1 (by rw [List.append_assoc]; exact hpre)
      (hstep pre x suf st st2 hpre hq h2) h

theorem buildLoopState_inv {nfa : NFA} {cf : Nat} (P : BuildState → Prop)
    (hbody : ∀ st d rest st2, P st → st.dfaStates = d :: rest →
      buildBody nfa cf d rest st = .ok st2 → P st2) :
    ∀ (fuel : Nat) (st st1 : BuildState), P st → buildLoopState nfa cf fuel st = .ok st1 →
      P st1 := by
  intro fuel
  induction fuel with
  | zero =>
    intro st st1 hp h
    unfold buildLoopState at h
    cases hs : st.dfaStates with
    | nil =>
      rw [hs] at h
      cases h
      exact hp
    | cons d rest =>
      rw [hs] at h
      cases h
  | succ fuel ih =>
    intro st st1 hp h
    unfold buildLoopState at h
    cases hs : st.dfaStates with
    | nil =>
      rw [hs] at h
      cases h
      exact hp
    | cons d rest =>
      rw [hs] at h
      obtain ⟨st2, h2, h⟩ := bind_eq_ok h
      exact ih st2 st1 (hbody st d rest st2 hp hs h2) h

theorem buildTable_inv {nfa : NFA} (P : BuildState → Prop)
    (hinit : ∀ c, P ⟨⟨DFA.empty.layout.addState, 0, []⟩, [c], [0]⟩)
    (hbody : ∀ cf st d rest st2, P st → st.dfaStates = d :: rest →
      buildBody nfa cf d rest st = .ok st2 → P st2) {fuel : Nat} {st : BuildState}
    (h : buildTable nfa fuel = .ok st) : P st := by
  unfold buildTable at h
  obtain ⟨c, -, h⟩ := bind_eq_ok h
  exact buildLoopState_inv P (hbody fuel) fuel _ st (hinit c) h

/-! ## C23: the table of the DFA states -/

theorem table_nodup_step {nfa : NFA} {cf d : Nat} {st st1 : BuildState} {x : Int}
    (hn : st.mappedDfaStates.Nodup) (h : buildStep nfa cf d st x = .ok st1) :
    st1.mappedDfaStates.Nodup := by
  obtain ⟨origin, seeds, newState, -, -, -, hcase⟩ := buildStep_ok h
  rcases hcase with ⟨-, rfl⟩ | ⟨-, -, l2, -, rfl⟩ | ⟨-, hnot, l2, -, rfl⟩
  · exact hn
  · exact hn
  · show (st.mappedDfaStates ++ [newState]).Nodup
    rw [List.nodup_append]
    refine ⟨hn, List.nodup_singleton _, ?_⟩
    intro a ha hb
    rw [List.mem_singleton] at hb
    exact hnot (hb ▸ ha)

theorem table_nodup {nfa : NFA} {fuel : Nat} {st : BuildState}
    (h : buildTable nfa fuel = .ok st) : st.mappedDfaStates.Nodup := by
  refine buildTable_inv (fun st => st.mappedDfaStates.Nodup) (fun c => List.nodup_singleton c)
    (fun cf st d rest st2 hp _ hb => ?_) h
  obtain ⟨mapped, -, hfold⟩ := buildBody_ok hb
  refine foldl_buildStep_inv (fun _ st => st.mappedDfaStates.Nodup)
    (fun pre x suf st st1 _ hq hs => table_nodup_step hq hs) nfa.possibleInputs [] _ st2 rfl ?_
    hfold
  exact hp

/-- C23 (counterexample): for the pattern `"a+a+"` the table of `DFA::buildFrom` holds the
lists `[1, 3, 2, 4, 0, 2]` and `[3, 1, 0, 2, 2, 4]` for the DFA states `2` and `3`: two
distinct DFA states whose NFA-state lists have the same members. -/
theorem C23_two_states_for_one_set :
    ∃ nfa st, parse [97, chPlus, 97, chPlus] = .ok nfa ∧ buildTable nfa 6 = .ok st ∧
      DFA.ofNFA nfa 6 = .ok st.dfa ∧
      st.mappedDfaStates = [[0], [1, 0, 2], [1, 3, 2, 4, 0, 2], [3, 1, 0, 2, 2, 4]] ∧
      ∀ p, p ∈ [1, 3, 2, 4, 0, 2] ↔ p ∈ [3, 1, 0, 2, 2, 4] := by
  refine ⟨⟨⟨[[0, 97, 0, 0, 0], [-1, 0, -1, 0, 0], [0, 0, 0, 97, 0], [0, 0, -1, 0, -1],
      [0, 0, 0, 0, 0]]⟩, 0, [97]⟩,
    ⟨⟨⟨[[0, 97, 0, 0], [0, 0, 97, 0], [0, 0, 0, 97], [0, 0, 97, 0]]⟩, 0, [2, 3]⟩,
      [[0], [1, 0, 2], [1, 3, 2, 4, 0, 2], [3, 1, 0, 2, 2, 4]], []⟩, rfl, rfl, rfl, rfl, ?_⟩
  intro p
  simp only [List.mem_cons, List.mem_singleton, List.not_mem_nil, or_false]
  omega

theorem table_count_step {nfa : NFA} {cf d : Nat} {st st1 : BuildState} {x : Int}
    (hn : st.dfa.layout.getStateCount = st.mappedDfaStates.length)
    (h : buildStep nfa cf d st x = .ok st1) :
    st1.dfa.layout.getStateCount = st1.mappedDfaStates.length := by
  obtain ⟨origin, seeds, newState, -, -, -, hcase⟩ := buildStep_ok h
  rcases hcase with ⟨-, rfl⟩ | ⟨-, -, l2, hl2, rfl⟩ | ⟨-, -, l2, hl2, rfl⟩
  · exact hn
  · obtain ⟨rfl, -, -⟩ := addTransition_ok hl2
    show (setCell _ _ _ _).getStateCount = _
    rw [setCell_count]; exact hn
  · obtain ⟨rfl, -, -⟩ := addTransition_ok hl2
    show (setCell _ _ _ _).getStateCount = (st.mappedDfaStates ++ [newState]).length
    rw [setCell_count, addState_count, hn, List.length_append]
    rfl

theorem table_count {nfa : NFA} {fuel : Nat} {st : BuildState}
    (h : buildTable nfa fuel = .ok st) :
    st.dfa.layout.getStateCount = st.mappedDfaStates.length := by
  refine buildTable_inv (fun st => st.dfa.layout.getStateCount = st.mappedDfaStates.length)
    (fun c => rfl) (fun cf st d rest st2 hp _ hb => ?_) h
  obtain ⟨mapped, -, hfold⟩ := buildBody_ok hb
  refine foldl_buildStep_inv
    (fun _ st => st.dfa.layout.getStateCount = st.mappedDfaStates.length)
    (fun pre x suf st st1 _ hq hs => table_count_step hq hs) nfa.possibleInputs [] _ st2 rfl ?_
    hfold
  exact hp

/-- C23 (amended): `DFA::buildFrom` never creates two DFA states with the same NFA-state list:
at the return of `buildFrom` the table `mappedDfaStates` holds one list per DFA state, and
its lists are pairwise different as lists (members, order and multiplicity). -/
theorem C23_table_lists_are_pairwise_different (nfa : NFA) (fuel : Nat) (st : BuildState)
    (h : buildTable nfa fuel = .ok st) :
    DFA.ofNFA nfa fuel = .ok st.dfa ∧
      st.dfa.layout.getStateCount = st.mappedDfaStates.length ∧ st.mappedDfaStates.Nodup := by
  refine ⟨?_, table_count h, table_nodup h⟩
  rw [ofNFA_eq, h]
  rfl

/-- Witness of C23 at the automaton of `"a+"`. -/
theorem C23_table_lists_are_pairwise_different_witness :
    buildTable (plusNFA 97) 3 =
        .ok ⟨⟨⟨[[0, 97], [0, 97]]⟩, 0, [1]⟩, [[0], [1, 0, 2]], []⟩ ∧
      (DFA.ofNFA (plusNFA 97) 3 = .ok ⟨⟨[[0, 97], [0, 97]]⟩, 0, [1]⟩ ∧
        (MatrixLayout.mk [[0, 97], [0, 97]]).getStateCount =
          ([[0], [1, 0, 2]] : List (List Nat)).length ∧
        ([[0], [1, 0, 2]] : List (List Nat)).Nodup) :=
  ⟨rfl, C23_table_lists_are_pairwise_different (plusNFA 97) 3 _ rfl⟩

/-! ## C21: the DFA is deterministic -/

theorem rowDet_setCell {l : MatrixLayout} (hwf : l.WF) {d j : Nat} {x : Int} {pre : List Int}
    (hd : d < l.getStateCount) (hj : j < l.getStateCount) (hdet : ∀ r, RowDet l r)
    (hlab : ∀ t, cell l d t ≠ 0 → cell l d t ∈ pre) (hx : x ∉ pre) :
    (∀ r, RowDet (setCell l d j x) r) ∧
      ∀ t, cell (setCell l d j x) d t ≠ 0 → cell (setCell l d j x) d t ∈ pre ++ [x] := by
  have hlen : j < (l.container.getD d []).length :=
    Nat.lt_of_lt_of_le hj (WF.row_length hwf hd)
  have hcell : ∀ a b, cell (setCell l d j x) a b = if a = d ∧ b = j then x else cell l a b :=
    setCell_cell l x hd hlen
  constructor
  · intro r t1 t2 h0 heq
    by_cases hr : r = d
    · subst hr
      rw [hcell] at h0 heq
      rw [hcell] at heq
      by_cases h1 : t1 = j
      · by_cases h2 : t2 = j
        · rw [h1, h2]
        · rw [if_pos ⟨rfl, h1⟩, if_neg (fun h => h2 h.2)] at heq
          rw [if_pos ⟨rfl, h1⟩] at h0
          exact absurd (hlab t2 (by rw [← heq]; exact h0)) (by rw [← heq]; exact hx)
      · rw [if_neg (fun h => h1 h.2)] at h0 heq
        by_cases h2 : t2 = j
        · rw [if_pos ⟨rfl, h2⟩] at heq
          exact absurd (hlab t1 h0) (by rw [heq]; exact hx)
        · rw [if_neg (fun h => h2 h.2)] at heq
          exact hdet r t1 t2 h0 heq
    · rw [hcell, if_neg (fun h => hr h.1)] at h0 heq
      rw [hcell, if_neg (fun h => hr h.1)] at heq
      exact hdet r t1 t2 h0 heq
  · intro t h0
    rw [hcell] at h0 ⊢
    by_cases h1 : t = j
    · rw [if_pos ⟨rfl, h1⟩]
      exact List.mem_append_right _ (List.mem_singleton.mpr rfl)
    · rw [if_neg (fun h => h1 h.2)] at h0 ⊢
      exact List.mem_append_left _ (hlab t h0)

theorem rowDet_addState {l : MatrixLayout} (hdet : ∀ r, RowDet l r) :
    ∀ r, RowDet l.addState r := by
  intro r t1 t2 h0 heq
  rw [addState_cell] at h0 heq
  rw [addState_cell] at heq
  exact hdet r t1 t2 h0 heq

theorem stepInv_step {nfa : NFA} {cf d : Nat} {pre : List Int} {x : Int}
    {st st1 : BuildState} (hinv : StepInv d pre st) (hx : x ∉ pre)
    (h : buildStep nfa cf d st x = .ok st1) : StepInv d (pre ++ [x]) st1 := by
  obtain ⟨origin, seeds, newState, -, -, -, hcase⟩ := buildStep_ok h
  have hwf := hinv.loop.wf
  rcases hcase with ⟨-, rfl⟩ | ⟨-, -, l2, hl2, rfl⟩ | ⟨-, -, l2, hl2, rfl⟩
  · exact ⟨hinv.loop, hinv.cur, hinv.curNot, fun t ht => List.mem_append_left _ (hinv.labels t ht)⟩
  · -- a state of the table
    obtain ⟨rfl, hd, hj⟩ := addTransition_ok hl2
    obtain ⟨hdet, hlab⟩ := rowDet_setCell hwf hd hj hinv.loop.det hinv.labels hx
    refine ⟨⟨setCell_WF hwf _ _ _, hdet, fun s hs => ?_, hinv.loop.stackNodup, fun s hs t => ?_⟩,
      ?_, hinv.curNot, hlab⟩
    · show s < (setCell _ _ _ _).getStateCount
      rw [setCell_count]; exact hinv.loop.stackLt s hs
    · show cell (setCell _ _ _ _) s t = 0
      rw [setCell_cell_other _ _ _ _ (fun heq => hinv.curNot (by rw [← heq]; exact hs))]
      exact hinv.loop.stackZero s hs t
    · show d < (setCell _ _ _ _).getStateCount
      rw [setCell_count]; exact hd
  · -- a new state
    obtain ⟨rfl, hd, hj⟩ := addTransition_ok hl2
    have hcur := hinv.cur
    have hlab0 : ∀ t, cell st.dfa.layout.addState d t ≠ 0 →
        cell st.dfa.layout.addState d t ∈ pre := by
      intro t ht
      rw [addState_cell] at ht ⊢
      exact hinv.labels t ht
    obtain ⟨hdet, hlab⟩ := rowDet_setCell (addState_WF hwf) hd hj
      (rowDet_addState hinv.loop.det) hlab0 hx
    refine ⟨⟨setCell_WF (addState_WF hwf) _ _ _, hdet, fun s hs => ?_, ?_, fun s hs t => ?_⟩,
      ?_, ?_, hlab⟩
    · show s < (setCell _ _ _ _).getStateCount
      rw [setCell_count, addState_count]
      rcases List.mem_cons.mp hs with rfl | hs1
      · omega
      · exact Nat.lt_succ_of_lt (hinv.loop.stackLt s hs1)
    · show (st.dfa.layout.getStateCount :: st.dfaStates).Nodup
      rw [List.nodup_cons]
      exact ⟨fun hmem => Nat.lt_irrefl _ (hinv.loop.stackLt _ hmem), hinv.loop.stackNodup⟩
    · show cell (setCell _ _ _ _) s t = 0
      rcases List.mem_cons.mp hs with rfl | hs1
      · rw [setCell_cell_other _ _ _ _ (by omega), addState_cell, cell_row_ge _ (le_refl _)]
      · rw [setCell_cell_other _ _ _ _ (fun heq => hinv.curNot (by rw [← heq]; exact hs1)),
          addState_cell]
        exact hinv.loop.stackZero s hs1 t
    · show d < (setCell _ _ _ _).getStateCount
      rw [setCell_count]; exact hd
    · show d ∉ st.dfa.layout.getStateCount :: st.dfaStates
      rw [List.mem_cons]
      rintro (heq | hmem)
      · omega
      · exact hinv.curNot hmem

theorem loopInv_body {nfa : NFA} (hnd : nfa.possibleInputs.Nodup) {cf d : Nat}
    {rest : List Nat} {st st2 : BuildState} (hinv : LoopInv st)
    (hs : st.dfaStates = d :: rest) (h : buildBody nfa cf d rest st = .ok st2) :
    LoopInv st2 := by
  obtain ⟨mapped, -, hfold⟩ := buildBody_ok h
  have hd : d ∈ st.dfaStates := by rw [hs]; exact List.mem_cons_self _ _
  have hnodup := hinv.stackNodup
  rw [hs, List.nodup_cons] at hnodup
  have hrest : ∀ s ∈ rest, s ∈ st.dfaStates := fun s hmem => by
    rw [hs]; exact List.mem_cons_of_mem _ hmem
  refine (foldl_buildStep_inv (StepInv d) (fun pre x suf st st1 hpre hq hstep => ?_)
    nfa.possibleInputs [] _ st2 rfl ?_ hfold).loop
  · refine stepInv_step hq (fun hmem => ?_) hstep
    rw [List.nil_append] at hpre
    rw [← hpre] at hnd
    exact (List.nodup_append.mp hnd).2.2 hmem (List.mem_cons_self _ _)
  · exact ⟨⟨hinv.wf, hinv.det, fun s hmem => hinv.stackLt s (hrest s hmem), hnodup.2,
      fun s hmem t => hinv.stackZero s (hrest s hmem) t⟩, hinv.stackLt d hd, hnodup.1,
      fun t ht => absurd (hinv.stackZero d hd t) ht⟩

theorem getTransition_ok_cell {m : MatrixLayout} {i j : Nat} {c : Int}
    (h : m.getTransition i j = .ok c) : cell m i j = c := by
  unfold MatrixLayout.getTransition at h
  split_ifs at h with h1 h2
  injection h

/-- C21: for an automaton whose alphabet holds no symbol twice (it is a `std::set`), the DFA
that `DFA::buildFrom` returns has, for every state `d` and every symbol `c` other than `none`,
at most one state `t` with `getTransition(d, t) == c`. -/
theorem C21_dfa_is_deterministic (nfa : NFA) (fuel : Nat) (dfa : DFA)
    (hnd : nfa.possibleInputs.Nodup) (h : DFA.ofNFA nfa fuel = .ok dfa) (d t1 t2 : Nat)
    (c : Int) (hc : c ≠ Input.none) (h1 : dfa.layout.getTransition d t1 = .ok c)
    (h2 : dfa.layout.getTransition d t2 = .ok c) : t1 = t2 := by
  rw [ofNFA_eq] at h
  obtain ⟨st, hst, h⟩ := bind_eq_ok h
  cases h
  have hinv : LoopInv st := by
    refine buildTable_inv LoopInv (fun c => ?_)
      (fun cf st d rest st2 hp hs hb => loopInv_body hnd hp hs hb) hst
    have hzero : ∀ r t, cell (DFA.empty.layout.addState) r t = 0 := by
      intro r t
      rw [addState_cell]
      exact cell_row_ge _ (Nat.zero_le _) t
    refine ⟨addState_WF (fun row hrow => by cases hrow), fun r t1 t2 h0 _ => ?_, fun s hs => ?_,
      List.nodup_singleton _, fun s _ t => hzero s t⟩
    · exact absurd (hzero r t1) h0
    · rw [List.mem_singleton] at hs
      subst hs
      show 0 < DFA.empty.layout.addState.getStateCount
      rw [addState_count]; omega
  have e1 := getTransition_ok_cell h1
  have e2 := getTransition_ok_cell h2
  exact hinv.det d t1 t2 (by rw [e1]; exact hc) (by rw [e1, e2])

/-- Witness of C21 at the automaton of `"a+a+"` and the state `2` of its DFA. -/
theorem C21_dfa_is_deterministic_witness :
    (([97] : List Int).Nodup ∧
        DFA.ofNFA ⟨⟨[[0, 97, 0, 0, 0], [-1, 0, -1, 0, 0], [0, 0, 0, 97, 0], [0, 0, -1, 0, -1],
          [0, 0, 0, 0, 0]]⟩, 0, [97]⟩ 6 =
          .ok ⟨⟨[[0, 97, 0, 0], [0, 0, 97, 0], [0, 0, 0, 97], [0, 0, 97, 0]]⟩, 0, [2, 3]⟩ ∧
        (97 : Int) ≠ Input.none ∧
        (MatrixLayout.mk [[0, 97, 0, 0], [0, 0, 97, 0], [0, 0, 0, 97],
          [0, 0, 97, 0]]).getTransition 2 3 = .ok 97) ∧
      3 = 3 :=
  ⟨⟨by decide, rfl, by decide, rfl⟩,
    C21_dfa_is_deterministic
      ⟨⟨[[0, 97, 0, 0, 0], [-1, 0, -1, 0, 0], [0, 0, 0, 97, 0], [0, 0, -1, 0, -1],
        [0, 0, 0, 0, 0]]⟩, 0, [97]⟩ 6
      ⟨⟨[[0, 97, 0, 0], [0, 0, 97, 0], [0, 0, 0, 97], [0, 0, 97, 0]]⟩, 0, [2, 3]⟩
      (by decide) (by rfl) 2 3 3 97 (by decide) (by rfl) (by rfl)⟩

/-! ## C22: a transition that `buildFrom` computes and the DFA does not keep -/

/-- C22 (fails on the code): for the pattern `"a.b"` the DFA state `1` stands for the list
`[1]`, and the three symbols `any`, `'a'` and `'b'` of the alphabet all lead from this list to
the list `[2]` of the DFA state `2`. `buildFrom` writes the three labels one after the other
into the same entry of the dense store, so that only `'b'` is kept:
`DFA::makeTransition(1, 'a')` finds nothing, and the DFA rejects `"aab"`, which the NFA
accepts. The same happens for the automaton of `"(ab*)+"` (states `0 -a-> 1`, `1 -b-> 1`,
epsilon edges `1 -> 0` and `1 -> 2`; made here from the automaton of `"ab"` by four calls of
`addTransition`), where `'a'` and `'b'` both lead from the list `[1, 0, 2]` to itself and the
DFA rejects `"aa"`. -/
theorem C22_second_symbol_overwrites_first :
    (∃ nfa st, parse [97, chDot, 98] = .ok nfa ∧
      buildTable nfa 5 = .ok st ∧ DFA.ofNFA nfa 5 = .ok st.dfa ∧
      97 ∈ nfa.possibleInputs ∧ 98 ∈ nfa.possibleInputs ∧
      st.mappedDfaStates.get? 1 = some [1] ∧ st.mappedDfaStates.get? 2 = some [2] ∧
      (nfa.layout.makeTransition [1] 97 >>= nfa.computeEpsilonClosure 5) = .ok [2] ∧
      (nfa.layout.makeTransition [1] 98 >>= nfa.computeEpsilonClosure 5) = .ok [2] ∧
      st.dfa.makeTransition 1 98 = .ok (some 2) ∧
      st.dfa.makeTransition 1 97 = .ok Option.none ∧
      nfa.simulate 5 [97, 97, 98] = .ok true ∧ st.dfa.simulate [97, 97, 98] = .ok false) ∧
      ∃ ab l st, parse [97, 98] = .ok ab ∧
        MatrixLayout.run [.addTransition 1 2 Input.none, .addTransition 1 1 98,
          .addTransition 1 0 Input.epsilon, .addTransition 1 2 Input.epsilon] ab.layout =
          .ok l ∧
        buildTable ⟨l, ab.entryState, ab.possibleInputs⟩ 3 = .ok st ∧
        DFA.ofNFA ⟨l, ab.entryState, ab.possibleInputs⟩ 3 = .ok st.dfa ∧
        97 ∈ ab.possibleInputs ∧ 98 ∈ ab.possibleInputs ∧
        st.mappedDfaStates.get? 1 = some [1, 0, 2] ∧
        (l.makeTransition [1, 0, 2] 97 >>=
          NFA.computeEpsilonClosure ⟨l, ab.entryState, ab.possibleInputs⟩ 3) = .ok [1, 0, 2] ∧
        (l.makeTransition [1, 0, 2] 98 >>=
          NFA.computeEpsilonClosure ⟨l, ab.entryState, ab.possibleInputs⟩ 3) = .ok [1, 0, 2] ∧
        st.dfa.makeTransition 1 98 = .ok (some 1) ∧
        st.dfa.makeTransition 1 97 = .ok Option.none ∧
        NFA.simulate ⟨l, ab.entryState, ab.possibleInputs⟩ 3 [97, 97] = .ok true ∧
        st.dfa.simulate [97, 97] = .ok false :=
  ⟨⟨⟨⟨[[0, 97, 0, 0], [0, 0, -2, 0], [0, 0, 0, 98], [0, 0, 0, 0]]⟩, 0, [-2, 97, 98]⟩,
      ⟨⟨⟨[[0, 97, 0, 0], [0, 0, 98, 0], [0, 0, 0, 98], [0, 0, 0, 0]]⟩, 0, [3]⟩,
        [[0], [1], [2], [3]], []⟩,
      rfl, rfl, rfl, by decide, by decide, rfl, rfl, rfl, rfl, rfl, rfl, rfl, rfl⟩,
    ⟨⟨[[0, 97, 0], [0, 0, 98], [0, 0, 0]]⟩, 0, [97, 98]⟩,
    ⟨[[0, 97, 0], [-1, 98, -1], [0, 0, 0]]⟩,
    ⟨⟨⟨[[0, 97], [0, 98]]⟩, 0, [1]⟩, [[0], [1, 0, 2]], []⟩,
    rfl, rfl, rfl, rfl, by decide, by decide, rfl, rfl, rfl, rfl, rfl, rfl, rfl⟩

/-! ## C24: `DFA::buildFrom` terminates -/

theorem makeTransitionStep_fold_nodup {l : MatrixLayout} (hwf : l.WF) {state : Nat}
    (hs : state < l.getStateCount) (c : Int) :
    ∀ (L : List Nat), (∀ s ∈ L, s < l.getStateCount) → ∀ (acc R : List Nat), acc.Nodup →
      L.foldlM (makeTransitionStep l c state) acc = .ok R → R.Nodup := by
  intro L
  induction L with
  | nil =>
    intro _ acc R hacc h
    cases h
    exact hacc
  | cons a L ih =>
    intro hL acc R hacc h
    have ha : a < l.getStateCount := hL a (List.mem_cons_self _ _)
    rw [List.foldlM_cons, makeTransitionStep_eq hwf hs ha, bind_ok] at h
    refine ih (fun s hmem => hL s (List.mem_cons_of_mem _ hmem)) _ R ?_ h
    by_cases h1 : (cell l state a = c ∨ cell l state a = Input.any) ∧ a ∉ acc
    · rw [if_pos h1, List.nodup_append]
      refine ⟨hacc, List.nodup_singleton _, fun x hx hx1 => ?_⟩
      rw [List.mem_singleton] at hx1
      exact h1.2 (hx1 ▸ hx)
    · rw [if_neg h1]
      exact hacc

theorem makeTransition_nodup {l : MatrixLayout} (hwf : l.WF) (c : Int) :
    ∀ (origin : List Nat), (∀ p ∈ origin, p < l.getStateCount) → ∀ (acc R : List Nat),
      acc.Nodup →
      origin.foldlM (fun acc state =>
        (List.range l.getStateCount).foldlM (makeTransitionStep l c state) acc) acc = .ok R →
      R.Nodup := by
  intro origin
  induction origin with
  | nil =>
    intro _ acc R hacc h
    cases h
    exact hacc
  | cons a t ih =>
    intro hv acc R hacc h
    rw [List.foldlM_cons] at h
    obtain ⟨R1, h1, h⟩ := bind_eq_ok h
    exact ih (fun p hp => hv p (List.mem_cons_of_mem _ hp)) R1 R
      (makeTransitionStep_fold_nodup hwf (hv a (List.mem_cons_self _ _)) c _
        (fun s hmem => List.mem_range.mp hmem) acc R1 hacc h1) h

theorem closure_unique {nfa : NFA} (hwf : nfa.layout.WF) {s R1 R2 : List Nat} {f1 f2 : Nat}
    (hv : ∀ p ∈ s, p < nfa.layout.getStateCount)
    (h1 : nfa.computeEpsilonClosure f1 s = .ok R1)
    (h2 : nfa.computeEpsilonClosure f2 s = .ok R2) : R1 = R2 := by
  have e1 := computeEpsilonClosure_mono hwf hv h1 (le_max_left f1 f2)
  have e2 := computeEpsilonClosure_mono hwf hv h2 (le_max_right f1 f2)
  rw [e1] at e2
  injection e2

theorem closure_eventually {nfa : NFA} (hwf : nfa.layout.WF) (hac : EpsAcyclic nfa)
    {s : List Nat} (hv : ∀ p ∈ s, p < nfa.layout.getStateCount) :
    ∃ f0 R, (∀ f, f0 ≤ f → nfa.computeEpsilonClosure f s = .ok R) ∧
      ∀ p ∈ R, p < nfa.layout.getStateCount := by
  obtain ⟨f0, R, h⟩ := computeEpsilonClosure_terminates hwf hac hv
  exact ⟨f0, R, fun f hf => computeEpsilonClosure_mono hwf hv h hf,
    computeEpsilonClosure_lt hwf hv h⟩

theorem buildStep_progress {nfa : NFA} (hwf : nfa.layout.WF) (hac : EpsAcyclic nfa)
    {st : BuildState} (hinv : TermInv nfa st) {d : Nat} (hd : d < st.dfa.layout.getStateCount)
    {x : Int} (hx : 0 ≤ x ∨ x = Input.epsilon ∨ x = Input.any) :
    ∃ f0 st1, (∀ cf, f0 ≤ cf → buildStep nfa cf d st x = .ok st1) ∧ TermInv nfa st1 ∧
      d < st1.dfa.layout.getStateCount ∧
      ∃ k, st1.mappedDfaStates.length = st.mappedDfaStates.length + k ∧
        st1.dfaStates.length = st.dfaStates.length + k := by
  have hdl : d < st.mappedDfaStates.length := by rw [← hinv.count]; exact hd
  have hget : st.mappedDfaStates.get? d = some (st.mappedDfaStates.get ⟨d, hdl⟩) :=
    List.get?_eq_get hdl
  have hov : ∀ p ∈ st.mappedDfaStates.get ⟨d, hdl⟩, p < nfa.layout.getStateCount :=
    hinv.valid _ (List.get_mem _ _ _)
  obtain ⟨seeds, hmk, hmem⟩ := makeTransition_spec hwf x hov
  have hsv : ∀ p ∈ seeds, p < nfa.layout.getStateCount := by
    intro p hp
    obtain ⟨_, _, hlt, _⟩ := (hmem p).mp hp
    exact hlt
  have hsn : seeds.Nodup := by
    have h := hmk
    unfold MatrixLayout.makeTransition at h
    exact makeTransition_nodup hwf x _ hov [] seeds List.nodup_nil h
  obtain ⟨f0, R, hcl, hRv⟩ := closure_eventually hwf hac hsv
  by_cases h1 : R = []
  · refine ⟨f0, st, fun cf hcf => ?_, hinv, hd, 0, rfl, rfl⟩
    rw [buildStep_eq hget hmk (hcl cf hcf), if_pos h1]
  · by_cases h2 : R ∈ st.mappedDfaStates
    · have hidx : st.mappedDfaStates.indexOf R < st.dfa.layout.getStateCount := by
        rw [hinv.count]; exact indexOf_lt_length_of_mem h2
      refine ⟨f0, BuildState.mk
        (DFA.mk (setCell st.dfa.layout d (st.mappedDfaStates.indexOf R) x)
          st.dfa.entryState st.dfa.finalStates) st.mappedDfaStates st.dfaStates,
        fun cf hcf => ?_,
        ⟨setCell_WF hinv.wf _ _ _, ?_, fun s hs => ?_, hinv.valid, hinv.nodup, hinv.seeds⟩, ?_,
        0, rfl, rfl⟩
      · rw [buildStep_eq hget hmk (hcl cf hcf), if_neg h1, if_pos h2,
          addTransition_eq hinv.wf hd hidx hx]
        rfl
      · show (setCell _ _ _ _).getStateCount = _
        rw [setCell_count]; exact hinv.count
      · show s < (setCell _ _ _ _).getStateCount
        rw [setCell_count]; exact hinv.stackLt s hs
      · show d < (setCell _ _ _ _).getStateCount
        rw [setCell_count]; exact hd
    · refine ⟨f0, BuildState.mk
          (DFA.mk (setCell st.dfa.layout.addState d st.dfa.layout.getStateCount x)
            st.dfa.entryState st.dfa.finalStates)
          (st.mappedDfaStates ++ [R]) (st.dfa.layout.getStateCount :: st.dfaStates),
        fun cf hcf => ?_,
        ⟨setCell_WF (addState_WF hinv.wf) _ _ _, ?_, fun s hs => ?_, fun R1 hR1 => ?_, ?_,
          fun R1 hR1 => ?_⟩, ?_, 1, ?_, ?_⟩
      · rw [buildStep_eq hget hmk (hcl cf hcf), if_neg h1, if_neg h2,
          addTransition_eq (addState_WF hinv.wf) (by rw [addState_count]; omega)
            (by rw [addState_count]; omega) hx]
        rfl
      · show (setCell _ _ _ _).getStateCount = (st.mappedDfaStates ++ [R]).length
        rw [setCell_count, addState_count, hinv.count, List.length_append]
        rfl
      · show s < (setCell _ _ _ _).getStateCount
        rw [setCell_count, addState_count]
        rcases List.mem_cons.mp hs with rfl | hs1
        · omega
        · exact Nat.lt_succ_of_lt (hinv.stackLt s hs1)
      · rcases List.mem_append.mp hR1 with hmem1 | hmem1
        · exact hinv.valid R1 hmem1
        · rw [List.mem_singleton] at hmem1
          rw [hmem1]; exact hRv
      · show (st.mappedDfaStates ++ [R]).Nodup
        rw [List.nodup_append]
        refine ⟨hinv.nodup, List.nodup_singleton _, fun a ha hb => ?_⟩
        rw [List.mem_singleton] at hb
        exact h2 (hb ▸ ha)
      · rcases List.mem_append.mp hR1 with hmem1 | hmem1
        · exact hinv.seeds R1 hmem1
        · rw [List.mem_singleton] at hmem1
          rw [hmem1]
          exact ⟨seeds, hsn, hsv, f0, hcl f0 (le_refl _)⟩
      · show d < (setCell _ _ _ _).getStateCount
        rw [setCell_count, addState_count]; omega
      · show (st.mappedDfaStates ++ [R]).length = _
        rw [List.length_append]; rfl
      · rfl

theorem foldl_buildStep_progress {nfa : NFA} (hwf : nfa.layout.WF) (hac : EpsAcyclic nfa)
    {d : Nat} :
    ∀ (xs : List Int), (∀ x ∈ xs, 0 ≤ x ∨ x = Input.epsilon ∨ x = Input.any) →
      ∀ (st : BuildState), TermInv nfa st → d < st.dfa.layout.getStateCount →
      ∃ f0 st1, (∀ cf, f0 ≤ cf → xs.foldlM (buildStep nfa cf d) st = .ok st1) ∧
        TermInv nfa st1 ∧
        ∃ k, st1.mappedDfaStates.length = st.mappedDfaStates.length + k ∧
          st1.dfaStates.length = st.dfaStates.length + k := by
  intro xs
  induction xs with
  | nil =>
    intro _ st hinv _
    exact ⟨0, st, fun _ _ => rfl, hinv, 0, rfl, rfl⟩
  | cons x xs ih =>
    intro hxs st hinv hd
    obtain ⟨f1, st1, h1, hinv1, hd1, k1, hm1, hs1⟩ :=
      buildStep_progress hwf hac hinv hd (hxs x (List.mem_cons_self _ _))
    obtain ⟨f2, st2, h2, hinv2, k2, hm2, hs2⟩ :=
      ih (fun y hy => hxs y (List.mem_cons_of_mem _ hy)) st1 hinv1 hd1
    refine ⟨max f1 f2, st2, fun cf hcf => ?_, hinv2, k1 + k2, by omega, by omega⟩
    rw [List.foldlM_cons, h1 cf (le_trans (le_max_left _ _) hcf), bind_ok,
      h2 cf (le_trans (le_max_right _ _) hcf)]

theorem table_length_le {nfa : NFA} (hwf : nfa.layout.WF) {st : BuildState}
    (hinv : TermInv nfa st) :
    st.mappedDfaStates.length ≤ dupFreeCount nfa.layout.getStateCount := by
  classical
  have key : ∀ R : { R // R ∈ st.mappedDfaStates },
      ∃ l : { l : List (Fin nfa.layout.getStateCount) // l.Nodup },
        ∃ f, nfa.computeEpsilonClosure f (l.1.map Fin.val) = .ok R.1 := by
    rintro ⟨R, hR⟩
    obtain ⟨s, hsn, hsv, f, hf⟩ := hinv.seeds R hR
    refine ⟨⟨s.pmap (fun p hp => ⟨p, hp⟩) hsv, hsn.pmap (fun a _ b _ h => by
      simpa using congrArg Fin.val h)⟩, f, ?_⟩
    have e : (s.pmap (fun p hp => (⟨p, hp⟩ : Fin nfa.layout.getStateCount)) hsv).map Fin.val
        = s := by
      rw [List.map_pmap]
      simp
    simp only []
    rw [e]
    exact hf
  choose g hg using key
  have hnd : (st.mappedDfaStates.attach.map g).Nodup := by
    refine List.Nodup.map_on (fun R1 _ R2 _ heq => ?_) (List.nodup_attach.mpr hinv.nodup)
    obtain ⟨f1, h1⟩ := hg R1
    obtain ⟨f2, h2⟩ := hg R2
    rw [heq] at h1
    have hv : ∀ p ∈ (g R2).1.map Fin.val, p < nfa.layout.getStateCount := by
      intro p hp
      obtain ⟨q, _, rfl⟩ := List.mem_map.mp hp
      exact q.isLt
    exact Subtype.ext (closure_unique hwf hv h1 h2)
  have hlen := hnd.length_le_card
  rw [List.length_map, List.length_attach] at hlen
  exact hlen

theorem buildLoopState_nil {nfa : NFA} {cf fuel : Nat} {st : BuildState}
    (hs : st.dfaStates = []) : buildLoopState nfa cf fuel st = .ok st := by
  unfold buildLoopState
  rw [hs]

theorem buildLoopState_cons {nfa : NFA} {cf fuel d : Nat} {rest : List Nat} {st : BuildState}
    (hs : st.dfaStates = d :: rest) :
    buildLoopState nfa cf (fuel + 1) st =
      (buildBody nfa cf d rest st >>= buildLoopState nfa cf fuel) := by
  rw [buildLoopState]
  rw [hs]

theorem buildBody_progress {nfa : NFA} (hwf : nfa.layout.WF) (hac : EpsAcyclic nfa)
    (hval : ∀ x ∈ nfa.possibleInputs, 0 ≤ x ∨ x = Input.epsilon ∨ x = Input.any)
    {st : BuildState} (hinv : TermInv nfa st) {d : Nat} {rest : List Nat}
    (hs : st.dfaStates = d :: rest) :
    ∃ f0 st2, (∀ cf, f0 ≤ cf → buildBody nfa cf d rest st = .ok st2) ∧ TermInv nfa st2 ∧
      ∃ k, st2.mappedDfaStates.length = st.mappedDfaStates.length + k ∧
        st2.dfaStates.length = rest.length + k := by
  have hd : d < st.dfa.layout.getStateCount :=
    hinv.stackLt d (by rw [hs]; exact List.mem_cons_self _ _)
  have hdl : d < st.mappedDfaStates.length := by rw [← hinv.count]; exact hd
  have hget : st.mappedDfaStates.get? d = some (st.mappedDfaStates.get ⟨d, hdl⟩) :=
    List.get?_eq_get hdl
  have hinv1 : TermInv nfa (BuildState.mk (DFA.mk st.dfa.layout st.dfa.entryState
      (if sizePred nfa.layout.getStateCount ∈ st.mappedDfaStates.get ⟨d, hdl⟩ then
        st.dfa.finalStates ++ [d] else st.dfa.finalStates)) st.mappedDfaStates rest) :=
    ⟨hinv.wf, hinv.count, fun s hmem => hinv.stackLt s (by
      rw [hs]; exact List.mem_cons_of_mem _ hmem), hinv.valid, hinv.nodup, hinv.seeds⟩
  obtain ⟨f0, st2, h2, hinv2, k, hm, hk⟩ :=
    foldl_buildStep_progress hwf hac nfa.possibleInputs hval _ hinv1 hd
  refine ⟨f0, st2, fun cf hcf => ?_, hinv2, k, hm, hk⟩
  unfold buildBody
  rw [hget]
  exact h2 cf hcf

theorem buildLoopState_terminates {nfa : NFA} (hwf : nfa.layout.WF) (hac : EpsAcyclic nfa)
    (hval : ∀ x ∈ nfa.possibleInputs, 0 ≤ x ∨ x = Input.epsilon ∨ x = Input.any) :
    ∀ (M : Nat) (st : BuildState), TermInv nfa st →
      2 * (dupFreeCount nfa.layout.getStateCount - st.mappedDfaStates.length) +
        st.dfaStates.length ≤ M →
      ∃ f0 st1, (∀ cf lf, f0 ≤ cf → f0 ≤ lf → buildLoopState nfa cf lf st = .ok st1) ∧
        TermInv nfa st1 := by
  intro M
  induction M with
  | zero =>
    intro st hinv hM
    have hs : st.dfaStates = [] := List.eq_nil_of_length_eq_zero (by omega)
    exact ⟨0, st, fun _ _ _ _ => buildLoopState_nil hs, hinv⟩
  | succ M ih =>
    intro st hinv hM
    cases hs : st.dfaStates with
    | nil => exact ⟨0, st, fun _ _ _ _ => buildLoopState_nil hs, hinv⟩
    | cons d rest =>
      obtain ⟨f1, st2, h2, hinv2, k, hm, hk⟩ := buildBody_progress hwf hac hval hinv hs
      have hle := table_length_le hwf hinv2
      rw [hs, List.length_cons] at hM
      obtain ⟨f2, st1, h1, hinv1⟩ := ih st2 hinv2 (by omega)
      refine ⟨max f1 f2 + 1, st1, fun cf lf hcf hlf => ?_, hinv1⟩
      obtain ⟨lf1, rfl⟩ : ∃ lf1, lf = lf1 + 1 := ⟨lf - 1, by omega⟩
      rw [buildLoopState_cons hs, h2 cf (by omega), bind_ok]
      exact h1 cf lf1 (by omega) (by omega)

theorem buildLoopState_exit {nfa : NFA} {cf : Nat} :
    ∀ (fuel : Nat) (st st1 : BuildState), buildLoopState nfa cf fuel st = .ok st1 →
      st1.dfaStates = [] := by
  intro fuel
  induction fuel with
  | zero =>
    intro st st1 h
    unfold buildLoopState at h
    cases hs : st.dfaStates with
    | nil =>
      rw [hs] at h
      cases h
      exact hs
    | cons d rest =>
      rw [hs] at h
      cases h
  | succ fuel ih =>
    intro st st1 h
    cases hs : st.dfaStates with
    | nil =>
      rw [buildLoopState_nil hs] at h
      cases h
      exact hs
    | cons d rest =>
      rw [buildLoopState_cons hs] at h
      obtain ⟨st2, -, h⟩ := bind_eq_ok h
      exact ih st2 st1 h

theorem initial_closure {nfa : NFA} (hwf : nfa.layout.WF) (hac : EpsAcyclic nfa)
    (hentry : nfa.possibleInputs ≠ [] → nfa.entryState < nfa.layout.getStateCount) :
    ∃ f0 c, (∀ f, f0 ≤ f → nfa.computeEpsilonClosure f [nfa.entryState] = .ok c) ∧
      (∀ p ∈ c, p < nfa.layout.getStateCount) ∧
      ∃ s : List Nat, s.Nodup ∧ (∀ p ∈ s, p < nfa.layout.getStateCount) ∧
        ∃ f, nfa.computeEpsilonClosure f s = .ok c := by
  by_cases hin : nfa.possibleInputs = []
  · have hall : ∀ (f : Nat) (s : List Nat), nfa.computeEpsilonClosure f s = .ok [] := by
      intro f s
      unfold NFA.computeEpsilonClosure
      rw [if_pos (by rw [hin]; rfl)]
    exact ⟨0, [], fun f _ => hall f _, (fun p hp => by cases hp), [], List.nodup_nil,
      (fun p hp => by cases hp), 0, hall 0 []⟩
  · have hv : ∀ p ∈ [nfa.entryState], p < nfa.layout.getStateCount := by
      intro p hp
      rw [List.mem_singleton] at hp
      rw [hp]; exact hentry hin
    obtain ⟨f0, c, hc, hcv⟩ := closure_eventually hwf hac hv
    exact ⟨f0, c, hc, hcv, [nfa.entryState], List.nodup_singleton _, hv, f0, hc f0 (le_refl _)⟩

/-- C24 (fails on the code for the sparse store): for an automaton over the dense store
without a cycle of epsilon edges (well-formed store, entry state valid, alphabet of symbols
that `addTransition` accepts), `DFA::buildFrom` returns, with every fuel from some fuel on; at
its return the work list is empty, the DFA has one state per list of the table, the lists are
pairwise different, each is the epsilon closure of a duplicate-free sequence of NFA states, and
so the number of DFA states is at most the number of duplicate-free sequences over the NFA's
states. Over the sparse store `NFA<MapLayout>('a').star()` has one state and no epsilon entry,
but `star` has left the entry `0 -a-> 1` to the state it removed: `makeTransition([0], 'a')`
returns `[1, 0]`, `computeEpsilonClosure` reads `internalMap_[1]` outside the vector, and
`buildFrom` returns no DFA. -/
theorem C24_buildFrom_sparse_star_out_of_bounds :
    (∀ nfa : NFA, nfa.layout.WF →
      (nfa.possibleInputs ≠ [] → nfa.entryState < nfa.layout.getStateCount) →
      (∀ x ∈ nfa.possibleInputs, 0 ≤ x ∨ x = Input.epsilon ∨ x = Input.any) →
      (∀ p, ¬ Relation.TransGen (EpsStep nfa) p p) →
      ∃ fuel st, (∀ f, fuel ≤ f → buildTable nfa f = .ok st ∧ DFA.ofNFA nfa f = .ok st.dfa) ∧
        st.dfaStates = [] ∧
        st.dfa.layout.getStateCount = st.mappedDfaStates.length ∧
        st.mappedDfaStates.Nodup ∧
        (∀ R ∈ st.mappedDfaStates, ∃ s : List Nat, s.Nodup ∧
          (∀ p ∈ s, p < nfa.layout.getStateCount) ∧
          ∃ f, nfa.computeEpsilonClosure f s = .ok R) ∧
        st.dfa.layout.getStateCount ≤ dupFreeCount nfa.layout.getStateCount) ∧
      ∃ a n, MapNFA.ofInput 97 = .ok a ∧ a.star = .ok n ∧
        n.layout.getStateCount = 1 ∧ n.entryState = 0 ∧ n.possibleInputs = [97] ∧
        (∀ map ∈ n.layout.internalMap, ∀ e ∈ map, e.1 ≠ Input.epsilon) ∧
        (∀ fuel, n.computeEpsilonClosure (fuel + 1) [n.entryState] = .ok [0]) ∧
        n.layout.makeTransition [0] 97 = .ok [1, 0] ∧
        (∀ fuel, n.computeEpsilonClosure (fuel + 2) [1, 0] = .error .undefinedBehaviour) ∧
        (∀ fuel, DFA.ofMapNFA n (fuel + 2) = .error .undefinedBehaviour) ∧
        ∀ fuel dfa, DFA.ofMapNFA n fuel ≠ .ok dfa := by
  refine ⟨fun nfa hwf hentry hval hnc => ?_,
    ⟨⟨[[(97, 1)], []]⟩, 0, [97]⟩, ⟨⟨[[(0, 1), (97, 1), (97, 0)]]⟩, 0, [97]⟩, rfl, rfl, rfl, rfl,
    rfl, by decide, fun fuel => by cases fuel <;> rfl, rfl, fun fuel => by cases fuel <;> rfl,
    fun fuel => by cases fuel <;> rfl, fun fuel dfa h => ?_⟩
  · have hac := epsAcyclic_of_no_cycle hnc
    obtain ⟨f1, c, hc, hcv, s, hsn, hsv, hclos⟩ := initial_closure hwf hac hentry
    have hinit : TermInv nfa ⟨⟨DFA.empty.layout.addState, 0, []⟩, [c], [0]⟩ := by
      refine ⟨addState_WF (fun row hrow => by cases hrow), rfl, fun s hs => ?_,
        fun R hR => ?_, List.nodup_singleton _, fun R hR => ?_⟩
      · rw [List.mem_singleton] at hs
        rw [hs]
        show 0 < DFA.empty.layout.addState.getStateCount
        rw [addState_count]; omega
      · rw [List.mem_singleton] at hR
        rw [hR]; exact hcv
      · rw [List.mem_singleton] at hR
        rw [hR]; exact ⟨s, hsn, hsv, hclos⟩
    obtain ⟨f2, st, hloop, hinv⟩ := buildLoopState_terminates hwf hac hval _ _ hinit (le_refl _)
    have htable : ∀ f, max f1 f2 ≤ f → buildTable nfa f = .ok st := by
      intro f hf
      unfold buildTable
      rw [hc f (le_trans (le_max_left _ _) hf), bind_ok]
      exact hloop f f (le_trans (le_max_right _ _) hf) (le_trans (le_max_right _ _) hf)
    refine ⟨max f1 f2, st, fun f hf => ⟨htable f hf, ?_⟩,
      buildLoopState_exit _ _ _ (hloop f2 f2 (le_refl _) (le_refl _)), hinv.count, hinv.nodup,
      hinv.seeds, ?_⟩
    · rw [ofNFA_eq, htable f hf]
      rfl
    · rw [hinv.count]
      exact table_length_le hwf hinv
  · match fuel, h with
    | 0, h => cases h
    | 1, h => cases h
    | f + 2, h =>
      have : DFA.ofMapNFA ⟨⟨[[(0, 1), (97, 1), (97, 0)]]⟩, 0, [97]⟩ (f + 2) =
          .error .undefinedBehaviour := by cases f <;> rfl
      rw [this] at h
      cases h

/-- The dense part of C24 at the automaton of `"a+"`. -/
theorem C24_buildFrom_sparse_star_out_of_bounds_witness :
    DFA.ofNFA (plusNFA 97) 3 = .ok ⟨⟨[[0, 97], [0, 97]]⟩, 0, [1]⟩ ∧
      ∃ fuel st, (∀ f, fuel ≤ f → buildTable (plusNFA 97) f = .ok st ∧
          DFA.ofNFA (plusNFA 97) f = .ok st.dfa) ∧
        st.dfaStates = [] ∧
        st.dfa.layout.getStateCount = st.mappedDfaStates.length ∧
        st.mappedDfaStates.Nodup ∧
        (∀ R ∈ st.mappedDfaStates, ∃ s : List Nat, s.Nodup ∧
          (∀ p ∈ s, p < (plusNFA 97).layout.getStateCount) ∧
          ∃ f, (plusNFA 97).computeEpsilonClosure f s = .ok R) ∧
        st.dfa.layout.getStateCount ≤ dupFreeCount (plusNFA 97).layout.getStateCount := by
  have hnc : ∀ p, ¬ Relation.TransGen (EpsStep (plusNFA 97)) p p := by
    obtain ⟨rank, hrank⟩ := plusNFA_acyclic 97 (by decide)
    have hlt : ∀ p q, Relation.TransGen (EpsStep (plusNFA 97)) p q → rank q < rank p := by
      intro p q h
      induction h with
      | single h => exact hrank _ _ h
      | tail _ h ih => exact lt_trans (hrank _ _ h) ih
    exact fun p h => lt_irrefl _ (hlt p p h)
  exact ⟨rfl, C24_buildFrom_sparse_star_out_of_bounds.1 (plusNFA 97) (plusNFA_WF 97)
    (fun _ => by decide) (by decide) hnc⟩

end RegEx
